import Mathlib

/-! # Survex network primitives (`netbits.c`) and `diffpos.c`: a shallow embedding

The matrix algebra on displacement vectors and covariance matrices, and the
station/leg graph operations, are transcribed from `src/src/netbits.c`, the
comparison of two `.pos` files from `src/src/diffpos.c`.

* Reals are modelled exactly in the algebra and the graph: every definition
  there is generic in a linearly ordered field `K` (so it runs on `ℚ` and the
  theorems hold for `ℝ` as well).
* The two inverters are modelled a second time, and `diffpos.c` (whose
  variables are declared `double`) only, in the arithmetic of `double`: IEEE
  754 binary64, each operation rounded to the nearest value, ties to even,
  with no fused or wider intermediate result. The type is `Double`; the
  definitions of `netbits.c` in this arithmetic end in `_f64`.
* The compile-time switches `NO_COVARIANCES` and `DEBUG_INVALID` are taken to
  be undefined (`netbits.c` defines the second only under `#if 0`). The
  `check_*` routines then only print, and that only for a NaN; they are left
  out.
* An output parameter becomes the value returned; a fatal `BUG(...)` or a
  failed `ASSERT` becomes `none`, as does following a pointer to no object.
* Heap objects live in one store per type, a pointer is an index into the
  store, and `osnew` appends a record with no member assigned yet.
* A recursion whose depth the source does not bound (`sprint_prefix_`,
  `fprint_prefix`, `replace_pfx_`) takes a bound on its depth and is `none`
  beyond it; the theorems say which depth is enough.
* The macros and types of `cavern.h` (not among the sources) are modelled from
  the spec, each marked so.
-/

namespace Survex

/-! ## Matrix algebra -/

section Algebra

variable {K : Type} [LinearOrderedField K]

/-- `delta`: a displacement, `real[3]`. -/
abbrev delta (K : Type) := Fin 3 → K

/-- `var`: a dense 3x3 matrix, `real[3][3]`. -/
abbrev var (K : Type) := Fin 3 → Fin 3 → K

/-- `svar`: a packed symmetric 3x3 matrix, `real[6]`. -/
abbrev svar (K : Type) := Fin 6 → K

/-- `#define THRESHOLD (REAL_EPSILON * 1000)`; `REAL_EPSILON` comes from a
header that is not part of the sources, so it is a parameter here. -/
def THRESHOLD (REAL_EPSILON : K) : K := REAL_EPSILON * 1000

/-- The index computed by `SN(V,A,B)`: `(A)==(B)?(A):2+(A)+(B)`. -/
def SNindex (a b : Fin 3) : Fin 6 :=
  ⟨if a = b then a.val else 2 + a.val + b.val, by
    have ha := a.isLt
    have hb := b.isLt
    split
    · omega
    · rename_i h
      have h2 : a.val ≠ b.val := fun e => h (Fin.ext e)
      omega⟩

/-- `#define SN(V,A,B) ((*(V))[(A)==(B)?(A):2+(A)+(B)])`. -/
def SN (v : svar K) (a b : Fin 3) : K := v (SNindex a b)

/-- The dense matrix a packed matrix stands for, read through `SN`. -/
def expand (v : svar K) : var K := fun i j => SN v i j

/-- The 3x3 identity, `(real)(i==j)`. -/
def identity : var K := fun i j => if i = j then 1 else 0

/-- `mulvv`: `r = ab`, the `k` loop accumulating into `tot` from 0. -/
def mulvv (a b : var K) : var K := fun i j =>
  (List.finRange 3).foldl (fun tot k => tot + a i k * b k j) 0

/-- `mulss`: `r = ab` for packed `a`, `b`, giving a dense `r`. -/
def mulss (a b : svar K) : var K := fun i j =>
  (List.finRange 3).foldl (fun tot k => tot + SN a i k * SN b k j) 0

/-- `mulvd`: `r = ab`, `a` dense, `b` a vector. -/
def mulvd (a : var K) (b : delta K) : delta K := fun i =>
  (List.finRange 3).foldl (fun tot k => tot + a i k * b k) 0

/-- `mulsd`: `r = vb`, `v` packed, `b` a vector. -/
def mulsd (v : svar K) (b : delta K) : delta K := fun i =>
  (List.finRange 3).foldl (fun tot j => tot + SN v i j * b j) 0

/-- `muldc`: `r = ca`. -/
def muldc (a : delta K) (c : K) : delta K := fun i => a i * c

/-- `mulvc`: `r = ca`. -/
def mulvc (a : var K) (c : K) : var K := fun i j => a i j * c

/-- `mulsc`: `r = ca`. -/
def mulsc (a : svar K) (c : K) : svar K := fun i => a i * c

/-- `adddd`: `r = a + b` on vectors. -/
def adddd (a b : delta K) : delta K := fun i => a i + b i

/-- `subdd`: `r = a - b` on vectors. -/
def subdd (a b : delta K) : delta K := fun i => a i - b i

/-- `addvv`: `r = a + b` on dense matrices. -/
def addvv (a b : var K) : var K := fun i j => a i j + b i j

/-- `addss`: `r = a + b` on packed matrices. -/
def addss (a b : svar K) : svar K := fun i => a i + b i

/-- `subvv`: `r = a - b` on dense matrices. -/
def subvv (a b : var K) : var K := fun i j => a i j - b i j

/-- `subss`: `r = a - b` on packed matrices. -/
def subss (a b : svar K) : svar K := fun i => a i - b i

/-- The determinant loop of `invert_var`:
`det += V(i,0) * (V((i+1)%3,1) * V((i+2)%3,2) - V((i+1)%3,2) * V((i+2)%3,1))`. -/
def det_var (v : var K) : K :=
  (List.finRange 3).foldl
    (fun det i => det + v i 0 * (v (i + 1) 1 * v (i + 2) 2 - v (i + 1) 2 * v (i + 2) 1)) 0

/-- The check loop of both inverters: `d += fabs(p[i][j] - (real)(i==j))`. -/
def identity_error (p : var K) : K :=
  (List.finRange 3).foldl
    (fun d i => (List.finRange 3).foldl (fun d j => d + |p i j - identity i j|) d) 0

/-- The entries `invert_var` writes, `det` being `1 / det` already:
`det * (B(i+1,j+1)*B(i+2,j+2) - B(i+2,j+1)*B(i+1,j+2))` with
`B(I,J) = (*v)[(J)%3][(I)%3]`. -/
def invert_var_entries (det : K) (v : var K) : var K := fun i j =>
  det * (v (j + 1) (i + 1) * v (j + 2) (i + 2) - v (j + 1) (i + 2) * v (j + 2) (i + 1))

/-- `invert_var(inv, v)`: the result is the return value and the contents of
`inv` afterwards; `none` is the fatal `BUG("matrix didn't invert")`.
`inv` and `v` are distinct objects (`ASSERT(inv != v)`). -/
def invert_var (REAL_EPSILON : K) (inv v : var K) : Option (Int × var K) :=
  let det := det_var v
  if |det| < THRESHOLD REAL_EPSILON then some (0, inv)
  else
    let det := 1 / det
    let inv := invert_var_entries det v
    let p := mulvv v inv
    let d := identity_error p
    if d > THRESHOLD REAL_EPSILON then none else some (1, inv)

/-- The determinant `invert_svar` computes from the six packed terms. -/
def det_svar (v : svar K) : K :=
  let a := v 0
  let b := v 1
  let c := v 2
  let d := v 3
  let e := v 4
  let f := v 5
  let bcff := b * c - f * f
  let efcd := e * f - c * d
  let dfbe := d * f - b * e
  a * bcff + d * efcd + e * dfbe

/-- The six entries `invert_svar` writes, `det` being `1 / det` already. -/
def invert_svar_entries (det : K) (v : svar K) : svar K :=
  let a := v 0
  let b := v 1
  let c := v 2
  let d := v 3
  let e := v 4
  let f := v 5
  let bcff := b * c - f * f
  let efcd := e * f - c * d
  let dfbe := d * f - b * e
  ![det * bcff, det * (c * a - e * e), det * (a * b - d * d),
    det * efcd, det * dfbe, det * (e * d - a * f)]

/-- `invert_svar(inv, v)`: the result is the return value and the contents of
`inv` afterwards; `none` is the fatal `BUG("matrix didn't invert")`.
`inv` and `v` are distinct objects. -/
def invert_svar (REAL_EPSILON : K) (inv v : svar K) : Option (Int × svar K) :=
  let det := det_svar v
  if |det| < THRESHOLD REAL_EPSILON then some (0, inv)
  else
    let det := 1 / det
    let inv := invert_svar_entries det v
    let p := mulss v inv
    let D := identity_error p
    if D > THRESHOLD REAL_EPSILON then none else some (1, inv)

/-- The loop of `fZeros` from index list `is` on:
`if ((*v)[i] != 0.0) return fFalse;` and `fTrue` after the last index. -/
def fZerosFrom (v : svar K) : List (Fin 6) → Bool
  | [] => true
  | i :: is => if v i ≠ 0 then false else fZerosFrom v is

/-- `fZeros(v)`: the loop run over `i = 0 .. 5`. -/
def fZeros (v : svar K) : Bool := fZerosFrom v (List.finRange 6)

/-- The (i,j) cofactor of a dense matrix: the signed determinant of the 2x2
matrix left after deleting row `i` and column `j`. -/
def cofactor (v : var K) (i j : Fin 3) : K :=
  (-1) ^ (i.val + j.val) * Matrix.det ((Matrix.of v).submatrix i.succAbove j.succAbove)

/-- A non-symmetric dense matrix with determinant 25, used as a concrete input. -/
def exampleDense : var ℚ := ![![2, 1, 0], ![0, 3, 1], ![1, 0, 4]]

end Algebra

/-! ## Station and leg graph -/

/-- A `node *`: the index of a station in the state's node store; a null
pointer is `none` where a pointer is optional. -/
abbrev NodePtr := Nat

/-- A `linkfor *` (or a `linkrev *` cast to it). -/
abbrev LegPtr := Nat

/-- A `prefix *`. -/
abbrev PfxPtr := Nat

/-- A `pos *`. -/
abbrev PosPtr := Nat

/-- Modelled from the spec: the flag bits a leg's `reverse` byte carries beside
the slot index (`FLAG_DATAHERE`, `FLAG_FAKE`; their bit values are in
`cavern.h`, which is not among the sources). The spec's leg model has a
`data_here` flag and a `fake` flag. -/
structure LegFlags where
  datahere : Bool
  fake : Bool
deriving DecidableEq, Repr

/-- Modelled from the spec: `FLAG_DATAHERE`, "this direction stores the
authoritative measurement". -/
def FLAG_DATAHERE : LegFlags := ⟨true, false⟩

/-- Modelled from the spec: `FLAG_FAKE`, "synthetic leg". -/
def FLAG_FAKE : LegFlags := ⟨false, true⟩

/-- The flag argument `0`: no flag set. -/
def LegFlags.zero : LegFlags := ⟨false, false⟩

/-- Bitwise or of two flag sets (`|`). -/
def LegFlags.lor (a b : LegFlags) : LegFlags := ⟨a.datahere || b.datahere, a.fake || b.fake⟩

/-- Modelled from the spec: the `reverse` member of a leg, "a reverse slot index
field that also encodes two flags": `dirn` is the index (0..2) of the matching
slot at `to`. -/
structure RevByte where
  dirn : Fin 3
  flags : LegFlags
deriving DecidableEq, Repr

/-- A leg record, `linkfor` or `linkrev`; `to_` is the member `l.to`. The
members `d` and `v` are `none` on a `linkrev` (which has no such members) and
on a `linkfor` that has not been given them yet. The default value is what
`osnew` hands out: nothing assigned yet. -/
structure linkfor (K : Type) where
  to_ : Option NodePtr := none
  reverse : RevByte := ⟨0, LegFlags.zero⟩
  flags : Nat := 0
  d : Option (delta K) := none
  v : Option (svar K) := none

/-- A station, `node`: its name, three leg slots and the list links. The
default value is what `osnew` hands out: nothing assigned yet. -/
structure node where
  name : Option PfxPtr := none
  leg : Fin 3 → Option LegPtr := fun _ => none
  next : Option NodePtr := none
  prev : Option NodePtr := none

/-- A survey name: parent, own identifier, position, station and shape.
Modelled from the spec: the member `fixed`, the "fixed/not-fixed flag" that
`pfx_fixed` reads and `unfix` clears (both are macros of `cavern.h`). -/
structure Prefix where
  up : Option PfxPtr := none
  ident : String := ""
  pos : Option PosPtr := none
  stn : Option NodePtr := none
  shape : Int := 0
  fixed : Bool := false

/-- A position, `pos`: the coordinates `p[3]`. The default value is what
`osnew` hands out. -/
structure pos (K : Type) [Zero K] where
  p : Fin 3 → K := fun _ => 0

/-- Severity of a reported message. -/
inductive Severity where
  | error
  | warning
deriving DecidableEq, Repr

/-- Modelled from the spec: a message sent to the reporting channel by
`compile_error` or `compile_warning` (both defined outside the sources): the
numeric code and the text arguments. -/
structure Msg where
  severity : Severity
  code : Nat
  args : List String
deriving DecidableEq, Repr

/-- The program state `netbits.c` works on: the heap objects (a pointer is an
index into the store of its type, `osnew` appends to the store, a freed
position is `none`), and the globals `stnlist`, `stn_iter`, `cLegs`, `cStns`,
`pcs->flags` and the messages reported so far. -/
structure State (K : Type) [Zero K] where
  nodes : List node := []
  legs : List (linkfor K) := []
  pfxs : List Prefix := []
  poss : List (Option (pos K)) := []
  stnlist : Option NodePtr := none
  stn_iter : Option NodePtr := none
  cLegs : Int := 0
  cStns : Int := 0
  pcs_flags : Nat := 0
  msgs : List Msg := []

section Graph

variable {K : Type} [LinearOrderedField K]

/-- Dereference a station pointer. -/
def State.getNode (s : State K) (p : NodePtr) : Option node := s.nodes[p]?

/-- Dereference a leg pointer. -/
def State.getLeg (s : State K) (p : LegPtr) : Option (linkfor K) := s.legs[p]?

/-- Dereference a name pointer. -/
def State.getPfx (s : State K) (p : PfxPtr) : Option Prefix := s.pfxs[p]?

/-- Assign through a station pointer; fails on a pointer to no station. -/
def State.modNode (s : State K) (p : NodePtr) (f : node → node) : Option (State K) :=
  match s.nodes[p]? with
  | some n => some { s with nodes := s.nodes.set p (f n) }
  | none => none

/-- Assign through a leg pointer; fails on a pointer to no leg. -/
def State.modLeg (s : State K) (p : LegPtr) (f : linkfor K → linkfor K) : Option (State K) :=
  match s.legs[p]? with
  | some l => some { s with legs := s.legs.set p (f l) }
  | none => none

/-- Assign through a name pointer; fails on a pointer to no name. -/
def State.modPfx (s : State K) (p : PfxPtr) (f : Prefix → Prefix) : Option (State K) :=
  match s.pfxs[p]? with
  | some x => some { s with pfxs := s.pfxs.set p (f x) }
  | none => none

/-- `osnew(node)`. -/
def State.newNode (s : State K) : NodePtr × State K :=
  (s.nodes.length, { s with nodes := s.nodes ++ [{}] })

/-- `osnew(linkfor)` and `osnew(linkrev)`. -/
def State.newLeg (s : State K) : LegPtr × State K :=
  (s.legs.length, { s with legs := s.legs ++ [{}] })

/-- `osnew(pos)`. -/
def State.newPos (s : State K) : PosPtr × State K :=
  (s.poss.length, { s with poss := s.poss ++ [some {}] })

/-- Modelled from the spec: `compile_error(code, ...)`, which reports a user
error on the reporting channel and returns. -/
def compile_error (s : State K) (code : Nat) (args : List String) : State K :=
  { s with msgs := s.msgs ++ [⟨Severity.error, code, args⟩] }

/-- Modelled from the spec: `compile_warning(code, ...)`. -/
def compile_warning (s : State K) (code : Nat) (args : List String) : State K :=
  { s with msgs := s.msgs ++ [⟨Severity.warning, code, args⟩] }

/-- Modelled from the spec: the macro `reverse_leg(L)`, the "pointer hop to the
paired record at `leg.to` using `reverse_index`". -/
def reverse_leg (s : State K) (leg : LegPtr) : Option LegPtr := do
  let l ← s.getLeg leg
  let to_ ← l.to_
  let n ← s.getNode to_
  n.leg l.reverse.dirn

/-- Modelled from the spec: the macro `data_here(L)`. -/
def data_here (l : linkfor K) : Bool := l.reverse.flags.datahere

/-- Modelled from the spec: the macro `unfix(stn)`, which marks the station
"unfixed". -/
def unfix (s : State K) (stn : NodePtr) : Option (State K) := do
  let n ← s.getNode stn
  let name ← n.name
  s.modPfx name (fun x => { x with fixed := false })

/-- Modelled from the spec: the macro `pfx_fixed(name)`. -/
def pfx_fixed (s : State K) (name : PfxPtr) : Option Bool := do
  let x ← s.getPfx name
  pure x.fixed

/-- `add_stn_to_list(list, stn)`: insert at the head of a doubly linked list.
`list` is the head on entry; the result holds the head afterwards. -/
def add_stn_to_list (s : State K) (list : Option NodePtr) (stn : NodePtr) :
    Option (State K × Option NodePtr) :=
  if s.stn_iter = some stn then none
  else do
    let s ← s.modNode stn (fun n => { n with next := list })
    let s ← s.modNode stn (fun n => { n with prev := none })
    let s ← (match list with
      | some head => s.modNode head (fun n => { n with prev := some stn })
      | none => some s)
    pure (s, some stn)

/-- `StnFromPfx(name)`: the station of a name, created on first use. -/
def StnFromPfx (s : State K) (name : PfxPtr) : Option (State K × NodePtr) := do
  let x ← s.getPfx name
  match x.stn with
  | some stn => pure (s, stn)
  | none =>
    let (stn, s) := s.newNode
    let s ← s.modNode stn (fun n => { n with name := some name })
    let s ← (match x.pos with
      | none => do
        let (p, s) := s.newPos
        let s ← s.modPfx name (fun y => { y with pos := some p })
        unfix s stn
      | some _ => some s)
    let s ← s.modNode stn (fun n => { n with leg := fun _ => none })
    let (s, head) ← add_stn_to_list s s.stnlist stn
    let s := { s with stnlist := head }
    let s ← s.modPfx name (fun y => { y with stn := some stn })
    pure ({ s with cStns := s.cStns + 1 }, stn)

/-- First part of the node split of `freeleg`: the three `osnew` calls,
`add_stn_to_list(&stnlist, stn)` and `stn->name = oldstn->name`. The result
holds the new station and the two new leg records. -/
def freeleg_new (s : State K) (oldstn : NodePtr) :
    Option (State K × NodePtr × LegPtr × LegPtr) := do
  let (stn, s) := s.newNode
  let (leg, s) := s.newLeg
  let (leg2, s) := s.newLeg
  let (s, head) ← add_stn_to_list s s.stnlist stn
  let s := { s with stnlist := head }
  let old ← s.getNode oldstn
  let s ← s.modNode stn (fun n => { n with name := old.name })
  pure (s, stn, leg, leg2)

/-- Second part of the node split: the members of the two new leg records. -/
def freeleg_fake (s : State K) (oldstn stn : NodePtr) (leg leg2 : LegPtr) :
    Option (State K) := do
  let s ← s.modLeg leg (fun l => { l with to_ := some stn, d := some (fun _ => 0) })
  let s ← s.modLeg leg (fun l => { l with v := some (fun _ => 0) })
  let s ← s.modLeg leg (fun l =>
    { l with reverse := ⟨1, FLAG_DATAHERE.lor FLAG_FAKE⟩, flags := s.pcs_flags })
  s.modLeg leg2 (fun l => { l with to_ := some oldstn, reverse := ⟨0, LegFlags.zero⟩ })

/-- Third part of the node split: the slot assignments, from
`stn->leg[0] = oldstn->leg[0]` to `stn->leg[2] = NULL`. -/
def freeleg_move (s : State K) (oldstn stn : NodePtr) (leg leg2 : LegPtr) :
    Option (State K) := do
  let old ← s.getNode oldstn
  let s ← s.modNode stn (fun n => { n with leg := Function.update n.leg 0 (old.leg 0) })
  let new ← s.getNode stn
  let leg0 ← new.leg 0
  let r ← reverse_leg s leg0
  let s ← s.modLeg r (fun l => { l with to_ := some stn })
  let s ← s.modNode stn (fun n => { n with leg := Function.update n.leg 1 (some leg2) })
  let s ← s.modNode oldstn (fun n => { n with leg := Function.update n.leg 0 (some leg) })
  s.modNode stn (fun n => { n with leg := Function.update n.leg 2 none })

/-- The node split of `freeleg`, entered when all three slots of `oldstn` are
in use. -/
def freeleg_split (s : State K) (oldstn : NodePtr) : Option (State K × NodePtr × Fin 3) := do
  let (s, stn, leg, leg2) ← freeleg_new s oldstn
  let s ← freeleg_fake s oldstn stn leg leg2
  let s ← freeleg_move s oldstn stn leg leg2
  pure (s, stn, 2)

/-- `freeleg(stnptr)`: the result holds the state, the station `*stnptr` points
at afterwards and the index of a free slot of it. -/
def freeleg (s : State K) (stnptr : NodePtr) : Option (State K × NodePtr × Fin 3) := do
  let stn ← s.getNode stnptr
  if stn.leg 0 = none then pure (s, stnptr, 0)
  else if stn.leg 1 = none then pure (s, stnptr, 1)
  else if stn.leg 2 = none then pure (s, stnptr, 2)
  else freeleg_split s stnptr

/-- The shape update of `addleg_`:
`shape = name->shape + 1; if (shape < 1) shape = 1 - shape;`. -/
def bump_shape (shape : Int) : Int :=
  let shape := shape + 1
  if shape < 1 then 1 - shape else shape

/-- The member assignments of `addleg_` on its two new leg records, from
`leg->l.to = to` to `leg->l.flags = pcs->flags`. -/
def addleg_fill (s : State K) (fr to_ : NodePtr) (leg leg2 : LegPtr) (i j : Fin 3)
    (dx dy dz vx vy vz cyz czx cxy : K) (leg_flags : LegFlags) : Option (State K) := do
  let s ← s.modLeg leg (fun l => { l with to_ := some to_ })
  let s ← s.modLeg leg2 (fun l => { l with to_ := some fr })
  let s ← s.modLeg leg (fun l => { l with d := some ![dx, dy, dz] })
  let s ← s.modLeg leg (fun l => { l with v := some ![vx, vy, vz, cxy, czx, cyz] })
  let s ← s.modLeg leg2 (fun l => { l with reverse := ⟨i, LegFlags.zero⟩ })
  s.modLeg leg (fun l =>
    { l with reverse := ⟨j, FLAG_DATAHERE.lor leg_flags⟩, flags := s.pcs_flags })

/-- The end of `addleg_`: `fr->leg[i] = leg; to->leg[j] = leg2;` and the two
shape updates. -/
def addleg_install (s : State K) (fr to_ : NodePtr) (leg leg2 : LegPtr) (i j : Fin 3) :
    Option (State K) := do
  let s ← s.modNode fr (fun n => { n with leg := Function.update n.leg i (some leg) })
  let s ← s.modNode to_ (fun n => { n with leg := Function.update n.leg j (some leg2) })
  let frn ← s.getNode fr
  let frname ← frn.name
  let s ← s.modPfx frname (fun x => { x with shape := bump_shape x.shape })
  let ton ← s.getNode to_
  let toname ← ton.name
  s.modPfx toname (fun x => { x with shape := bump_shape x.shape })

/-- `addleg_(fr, to, dx, dy, dz, vx, vy, vz, cyz, czx, cxy, leg_flags)`;
`none` when `ASSERT(fr->name != to->name)` fails or a pointer is bad. -/
def addleg_ (s : State K) (fr to_ : NodePtr) (dx dy dz vx vy vz cyz czx cxy : K)
    (leg_flags : LegFlags) : Option (State K) := do
  let frn ← s.getNode fr
  let ton ← s.getNode to_
  if frn.name = ton.name then none
  else do
    let (leg, s) := s.newLeg
    let (leg2, s) := s.newLeg
    let (s, fr, i) ← freeleg s fr
    let (s, to_, j) ← freeleg s to_
    let s ← addleg_fill s fr to_ leg leg2 i j dx dy dz vx vy vz cyz czx cxy leg_flags
    addleg_install s fr to_ leg leg2 i j

/-- The recursion of `sprint_prefix_` with a bound on its depth: the result is
the buffer after the call and the length returned. -/
def sprint_prefix_ (s : State K) : Nat → PfxPtr → String → Option (String × Nat)
  | 0, _, _ => none
  | fuel + 1, ptr, buffer => do
    let x ← s.getPfx ptr
    match x.up with
    | none => pure (buffer, 1)
    | some up => do
      let (buffer, len) ← sprint_prefix_ s fuel up buffer
      let len := len + x.ident.utf8ByteSize
      let u ← s.getPfx up
      let len := if u.up ≠ none then len + 1 else len
      let buffer := if u.up ≠ none then buffer ++ "." else buffer
      pure (buffer ++ x.ident, len)

/-- The name of a station rendered into the (emptied) buffer. A chain of
parents that is free of cycles is no longer than the number of names, which is
the depth allowed here; the capacity of the buffer is not modelled. -/
def sprint_prefix (s : State K) (ptr : PfxPtr) : Option String := do
  let (buffer, _) ← sprint_prefix_ s s.pfxs.length ptr ""
  pure buffer

/-- The two `StnFromPfx` calls of `addlegbyname`, in the order `fToFirst`
selects; the result holds the stations `fr` and `to`. -/
def addlegbyname_stations (s : State K) (fr_name to_name : PfxPtr) (fToFirst : Bool) :
    Option (State K × NodePtr × NodePtr) :=
  if fToFirst then do
    let (s, to_) ← StnFromPfx s to_name
    let (s, fr) ← StnFromPfx s fr_name
    pure (s, fr, to_)
  else do
    let (s, fr) ← StnFromPfx s fr_name
    let (s, to_) ← StnFromPfx s to_name
    pure (s, fr, to_)

/-- `addlegbyname(fr_name, to_name, fToFirst, dx, dy, dz, vx, vy, vz, cyz, czx, cxy)`. -/
def addlegbyname (s : State K) (fr_name to_name : PfxPtr) (fToFirst : Bool)
    (dx dy dz vx vy vz cyz czx cxy : K) : Option (State K) :=
  if to_name = fr_name then do
    let str ← sprint_prefix s to_name
    pure (compile_error s 50 [str])
  else do
    let (s, fr, to_) ← addlegbyname_stations s fr_name to_name fToFirst
    let s := { s with cLegs := s.cLegs + 1 }
    addleg_ s fr to_ dx dy dz vx vy vz cyz czx cxy LegFlags.zero

/-- The leg in slot `i` of station `q` is one half of a matched pair: its
record `L` names a station `T` whose slot `L.reverse.dirn` holds a record `R`
that points back at `q` and at slot `i`, and exactly one of the two records has
DATA_HERE set. -/
def PairAt (s : State K) (q : NodePtr) (i : Fin 3) (lp : LegPtr) : Prop :=
  ∃ (L : linkfor K) (T : NodePtr) (Tn : node) (r : LegPtr) (R : linkfor K),
    s.legs[lp]? = some L ∧ L.to_ = some T ∧ s.nodes[T]? = some Tn ∧
    Tn.leg L.reverse.dirn = some r ∧ s.legs[r]? = some R ∧
    R.to_ = some q ∧ R.reverse.dirn = i ∧ data_here L ≠ data_here R

/-- Well-formed graphs: the list head and the cursor point at stations, every
station has a name that has a station recorded, a name's station carries that
name, and every occupied leg slot holds one half of a matched pair. -/
structure WF (s : State K) : Prop where
  head : ∀ h, s.stnlist = some h → h < s.nodes.length
  iter : ∀ x, s.stn_iter = some x → x < s.nodes.length
  name : ∀ (q : NodePtr) (nd : node), s.nodes[q]? = some nd →
    ∃ (p : PfxPtr) (px : Prefix) (m : NodePtr),
      nd.name = some p ∧ s.pfxs[p]? = some px ∧ px.stn = some m
  stn : ∀ (p : PfxPtr) (px : Prefix) (m : NodePtr), s.pfxs[p]? = some px → px.stn = some m →
    ∃ nd : node, s.nodes[m]? = some nd ∧ nd.name = some p
  pair : ∀ (q : NodePtr) (nd : node) (i : Fin 3) (lp : LegPtr),
    s.nodes[q]? = some nd → nd.leg i = some lp → PairAt s q i lp

/-- A graph with no station yet: a root name and five names `P`, `Q1`, ..,
`Q4` below it. -/
def exampleStar : State ℚ :=
  { pfxs := [{ }, { up := some 0, ident := "P" }, { up := some 0, ident := "Q1" },
      { up := some 0, ident := "Q2" }, { up := some 0, ident := "Q3" },
      { up := some 0, ident := "Q4" }] }

/-- The graph `exampleStar` becomes by three legs from `P`, to `Q1`, `Q2` and
`Q3`: station 0 (of `P`) has all three slots in use. -/
def exampleFull : State ℚ :=
  { nodes := [
      { name := some 1, leg := ![some 0, some 2, some 4], next := none, prev := some 1 },
      { name := some 2, leg := ![some 1, none, none], next := some 0, prev := some 2 },
      { name := some 3, leg := ![some 3, none, none], next := some 1, prev := some 3 },
      { name := some 4, leg := ![some 5, none, none], next := some 2, prev := none }],
    legs := [
      { to_ := some 1, reverse := ⟨0, FLAG_DATAHERE⟩, d := some ![1, 0, 0],
        v := some ![1, 1, 1, 0, 0, 0] },
      { to_ := some 0, reverse := ⟨0, LegFlags.zero⟩ },
      { to_ := some 2, reverse := ⟨0, FLAG_DATAHERE⟩, d := some ![0, 1, 0],
        v := some ![1, 1, 1, 0, 0, 0] },
      { to_ := some 0, reverse := ⟨1, LegFlags.zero⟩ },
      { to_ := some 3, reverse := ⟨0, FLAG_DATAHERE⟩, d := some ![0, 0, 1],
        v := some ![1, 1, 1, 0, 0, 0] },
      { to_ := some 0, reverse := ⟨2, LegFlags.zero⟩ }],
    pfxs := [{ }, { up := some 0, ident := "P", pos := some 0, stn := some 0, shape := 3 },
      { up := some 0, ident := "Q1", pos := some 1, stn := some 1, shape := 1 },
      { up := some 0, ident := "Q2", pos := some 2, stn := some 2, shape := 1 },
      { up := some 0, ident := "Q3", pos := some 3, stn := some 3, shape := 1 },
      { up := some 0, ident := "Q4" }],
    poss := [some { }, some { }, some { }, some { }],
    stnlist := some 3, cLegs := 3, cStns := 4 }

/-- The nine reals of one `addlegbyname` call, in argument order
`dx dy dz vx vy vz cyz czx cxy`: a leg of length 1 along x with unit variances. -/
def exampleLeg : Fin 9 → ℚ := ![1, 0, 0, 1, 1, 1, 0, 0, 0]

end Graph

/-! ## Station list removal, leg copies, name output and equates -/

section Equate

variable {K : Type} [LinearOrderedField K]

/-- Dereference a position pointer; a freed position is no object. -/
def State.getPos (s : State K) (p : PosPtr) : Option (pos K) :=
  match s.poss[p]? with
  | some (some x) => some x
  | _ => none

/-- `osfree(p)` on a position: the object is gone; a null pointer is left alone. -/
def osfree (s : State K) (p : Option PosPtr) : State K :=
  match p with
  | some q => { s with poss := s.poss.set q none }
  | none => s

/-- The unlinking part of `remove_stn_from_list`, after the cursor has been
adjusted. `list` is the head on entry; the result holds the head afterwards. -/
def remove_stn_unlink (s : State K) (list : Option NodePtr) (stn : NodePtr) :
    Option (State K × Option NodePtr) := do
  let n ← s.getNode stn
  match n.prev with
  | none =>
    match n.next with
    | some head => do
      let s ← s.modNode head (fun m => { m with prev := none })
      pure (s, some head)
    | none => pure (s, none)
  | some prev => do
    let s ← s.modNode prev (fun m => { m with next := n.next })
    let n ← s.getNode stn
    match n.next with
    | some nx => do
      let s ← s.modNode nx (fun m => { m with prev := n.prev })
      pure (s, list)
    | none => pure (s, list)

/-- `remove_stn_from_list(list, stn)`: unlink from a doubly linked list, after
`if (stn_iter == stn) stn_iter = stn_iter->next;`. -/
def remove_stn_from_list (s : State K) (list : Option NodePtr) (stn : NodePtr) :
    Option (State K × Option NodePtr) := do
  let s ← (if s.stn_iter = some stn then do
      let it ← s.getNode stn
      pure { s with stn_iter := it.next }
    else some s)
  remove_stn_unlink s list stn

/-- The displacement part of `copy_link`: the three components are copied from
`leg` when it holds the data, and negated from its reverse otherwise. The
result also holds the leg the covariance is then read from. -/
def copy_link_d (s : State K) (legOut leg : LegPtr) : Option (State K × LegPtr) := do
  let l ← s.getLeg leg
  if data_here l then do
    let d ← l.d
    let s ← s.modLeg legOut (fun o => { o with d := some (fun i => d i) })
    pure (s, leg)
  else do
    let leg ← reverse_leg s leg
    let l ← s.getLeg leg
    if data_here l then do
      let d ← l.d
      let s ← s.modLeg legOut (fun o => { o with d := some (fun i => -d i) })
      pure (s, leg)
    else none

/-- `copy_link(leg)`: a new forward leg with the data of `leg`, or the reversed
data of its reverse; `none` when `ASSERT(data_here(leg))` fails. -/
def copy_link (s : State K) (leg : LegPtr) : Option (State K × LegPtr) := do
  let (legOut, s) := s.newLeg
  let (s, leg) ← copy_link_d s legOut leg
  let l ← s.getLeg leg
  let v ← l.v
  let s ← s.modLeg legOut (fun o => { o with v := some (fun i => v i) })
  pure (s, legOut)

/-- The displacement part of `addto_link`: `adddd` with the data of `leg2`, or
`subdd` with the data of its reverse. The result also holds the leg the
covariance is then read from. -/
def addto_link_d (s : State K) (leg leg2 : LegPtr) : Option (State K × LegPtr) := do
  let l2 ← s.getLeg leg2
  if data_here l2 then do
    let l ← s.getLeg leg
    let a ← l.d
    let b ← l2.d
    let s ← s.modLeg leg (fun o => { o with d := some (adddd a b) })
    pure (s, leg2)
  else do
    let leg2 ← reverse_leg s leg2
    let l2 ← s.getLeg leg2
    if data_here l2 then do
      let l ← s.getLeg leg
      let a ← l.d
      let b ← l2.d
      let s ← s.modLeg leg (fun o => { o with d := some (subdd a b) })
      pure (s, leg2)
    else none

/-- `addto_link(leg, leg2)`: adds to `leg` the data of `leg2`, or the reversed
data of its reverse. -/
def addto_link (s : State K) (leg leg2 : LegPtr) : Option (State K × LegPtr) := do
  let (s, leg2) ← addto_link_d s leg leg2
  let l ← s.getLeg leg
  let l2 ← s.getLeg leg2
  let a ← l.v
  let b ← l2.v
  let s ← s.modLeg leg (fun o => { o with v := some (addss a b) })
  pure (s, leg)

/-- `fprint_prefix(fh, ptr)` with a bound on the depth of its recursion; the
stream `fh` is the string of the characters written to it so far. -/
def fprint_prefix (s : State K) : Nat → String → PfxPtr → Option String
  | 0, _, _ => none
  | fuel + 1, fh, ptr => do
    let x ← s.getPfx ptr
    match x.up with
    | none => pure fh
    | some up => do
      let fh ← fprint_prefix s fuel fh up
      let u ← s.getPfx up
      let fh := if u.up ≠ none then fh.push '.' else fh
      pure (fh ++ x.ident)

/-- The test `replace_pfx_` makes on a leg:
`fZeros(data_here(leg) ? &leg->v : &reverse_leg(leg)->v)`. -/
def equated_leg (s : State K) (leg : LegPtr) : Option Bool := do
  let l ← s.getLeg leg
  if data_here l then do
    let v ← l.v
    pure (fZeros v)
  else do
    let r ← reverse_leg s leg
    let R ← s.getLeg r
    let v ← R.v
    pure (fZeros v)

/-- The loop of `replace_pfx_` over the slots `ds` of `stn`; `self` is the
recursive call. An empty slot ends the loop, a leg back to `from_` is passed
over. -/
def replace_pfx_legs (self : State K → NodePtr → Option NodePtr → Option (State K))
    (stn : NodePtr) (from_ : Option NodePtr) : List (Fin 3) → State K → Option (State K)
  | [], s => some s
  | d :: ds, s => do
    let nd ← s.getNode stn
    match nd.leg d with
    | none => some s
    | some leg => do
      let l ← s.getLeg leg
      if l.to_ = from_ then replace_pfx_legs self stn from_ ds s
      else do
        let z ← equated_leg s leg
        if z then do
          let to_ ← l.to_
          let s ← self s to_ (some stn)
          replace_pfx_legs self stn from_ ds s
        else replace_pfx_legs self stn from_ ds s

/-- `replace_pfx_(stn, from, pos_replace, pos_with)` with a bound on the depth
of its recursion. -/
def replace_pfx_ (pos_replace pos_with : Option PosPtr) :
    Nat → State K → NodePtr → Option NodePtr → Option (State K)
  | 0, _, _, _ => none
  | fuel + 1, s, stn, from_ => do
    let nd ← s.getNode stn
    let name ← nd.name
    let s ← s.modPfx name (fun x => { x with pos := pos_with })
    replace_pfx_legs (replace_pfx_ pos_replace pos_with fuel) stn from_ [0, 1, 2] s

/-- `replace_pfx(pfx_replace, pfx_with)`; `none` when
`ASSERT(pos_replace != pfx_with->pos)` fails. -/
def replace_pfx (fuel : Nat) (s : State K) (pfx_replace pfx_with : PfxPtr) :
    Option (State K) := do
  let r ← s.getPfx pfx_replace
  let w ← s.getPfx pfx_with
  let pos_replace := r.pos
  if pos_replace = w.pos then none
  else do
    let stn ← r.stn
    let s ← replace_pfx_ pos_replace w.pos fuel s stn none
    pure (osfree s pos_replace)

/-- The loop of `process_equate` over `d = 2, 1, 0`: whether
`name1->pos->p[d] != name2->pos->p[d]` for some `d`. -/
def fixed_differ (s : State K) (name1 name2 : PfxPtr) : Option Bool := do
  let x1 ← s.getPfx name1
  let x2 ← s.getPfx name2
  let p1 ← x1.pos
  let p2 ← x2.pos
  let P1 ← s.getPos p1
  let P2 ← s.getPos p2
  pure ([2, 1, 0].any (fun d => decide (P1.p d ≠ P2.p d)))

/-- The branch of `process_equate` for a fixed `name1`. The flag of the result
is set when the function returns from inside the branch (error 52). -/
def equate_fixed (fuel : Nat) (s : State K) (name1 name2 : PfxPtr) :
    Option (State K × Bool) := do
  let f2 ← pfx_fixed s name2
  if f2 then do
    let str ← sprint_prefix s name1
    let differ ← fixed_differ s name1 name2
    let str2 ← sprint_prefix s name2
    if differ then pure (compile_error s 52 [str, str2], true)
    else do
      let s := compile_warning s 53 [str, str2]
      let s ← replace_pfx fuel s name2 name1
      pure (s, false)
  else do
    let s ← replace_pfx fuel s name2 name1
    pure (s, false)

/-- The body of `if (name1->pos != name2->pos)` in `process_equate`. -/
def equate_merge (fuel : Nat) (s : State K) (name1 name2 : PfxPtr) : Option (State K) := do
  let (s, stn1) ← StnFromPfx s name1
  let (s, stn2) ← StnFromPfx s name2
  let f1 ← pfx_fixed s name1
  let (s, returned) ← (if f1 then equate_fixed fuel s name1 name2
    else do
      let s ← replace_pfx fuel s name1 name2
      pure (s, false))
  if returned then pure s
  else
    let s := { s with cLegs := s.cLegs + 1 }
    addleg_ s stn1 stn2 0 0 0 0 0 0 0 0 0 FLAG_FAKE

/-- `process_equate(name1, name2)`; `fuel` bounds the depth of the recursion of
`replace_pfx_`. -/
def process_equate (fuel : Nat) (s : State K) (name1 name2 : PfxPtr) : Option (State K) :=
  if name1 = name2 then do
    let str ← sprint_prefix s name1
    pure (compile_warning s 13 [str])
  else do
    let x1 ← s.getPfx name1
    let x2 ← s.getPfx name2
    if x1.pos ≠ x2.pos then equate_merge fuel s name1 name2
    else pure s

/-- The forward traversal of a station list: starting at `head` and following
`next`, the stations met are those of `l`, in order, and the `next` of the
last one is `tl`. -/
def ListSeg (s : State K) : Option NodePtr → List NodePtr → Option NodePtr → Prop
  | head, [], tl => head = tl
  | head, x :: xs, tl =>
    head = some x ∧ ∃ nd : node, s.nodes[x]? = some nd ∧ ListSeg s nd.next xs tl

/-- A well-formed doubly linked station list with head `head` and forward
traversal `l`: the traversal ends in a null `next`, the head has no `prev`,
and `x->next->prev == x` for every element `x`. -/
structure WFList (s : State K) (head : Option NodePtr) (l : List NodePtr) : Prop where
  trav : ListSeg s head l none
  head_prev : ∀ (h : NodePtr) (nd : node), head = some h → s.nodes[h]? = some nd →
    nd.prev = none
  back : ∀ (x y : NodePtr) (nd ny : node), x ∈ l → s.nodes[x]? = some nd →
    nd.next = some y → s.nodes[y]? = some ny → ny.prev = some x

/-- The chain of parents of a name: `UpChain s p us` says that `us` lists the
names above `p`, nearest first, and that the last of them (`p` itself when
there is none) is a root, a name without a parent. -/
def UpChain (s : State K) : PfxPtr → List PfxPtr → Prop
  | p, [] => ∃ x : Prefix, s.pfxs[p]? = some x ∧ x.up = none
  | p, u :: us => (∃ x : Prefix, s.pfxs[p]? = some x ∧ x.up = some u) ∧ UpChain s u us

/-- The identifier of a name (empty for a pointer to no name). -/
def identOf (s : State K) (p : PfxPtr) : String :=
  match s.pfxs[p]? with
  | some x => x.ident
  | none => ""

/-- The identifiers of `p1, .., pn` in that order, where `p :: us` is the chain
`pn, .., p1, p0` from a name up to the root `p0`. -/
def chainIdents (s : State K) (p : PfxPtr) (us : List PfxPtr) : List String :=
  ((p :: us).reverse.tail).map (identOf s)

/-- Station `x` has a leg to station `t` that `replace_pfx_` follows: a leg
in one of its slots whose covariance (stored on the DATA_HERE direction) is
all zeros. -/
def EquateLeg (s : State K) (x t : NodePtr) : Prop :=
  ∃ (nd : node) (d : Fin 3) (leg : LegPtr) (l : linkfor K),
    s.nodes[x]? = some nd ∧ nd.leg d = some leg ∧ s.legs[leg]? = some l ∧
    l.to_ = some t ∧ equated_leg s leg = some true

/-- The zero-covariance legs that can be reached from `root` form a tree of
height `h root`: every such leg of `root` leads to a station of smaller
height, and a station entered from above has, apart from the legs back to the
station it was entered from, only such legs to stations of smaller height. -/
structure EquateTree (s : State K) (h : NodePtr → Nat) (root : NodePtr) : Prop where
  top : ∀ t : NodePtr, EquateLeg s root t → h t < h root
  down : ∀ x t u : NodePtr, EquateLeg s x t → h t < h x → EquateLeg s t u → u ≠ x →
    h u < h t

/-- Every leg record with DATA_HERE set stores a covariance. -/
def DataStored (s : State K) : Prop :=
  ∀ (leg : LegPtr) (l : linkfor K), s.legs[leg]? = some l → data_here l = true →
    ∃ v : svar K, l.v = some v

/-- The state `s'` differs from `s` at most in the position pointers of
names, and a pointer that differs is `pos_with`. -/
structure PosStep (s s' : State K) (pos_with : Option PosPtr) : Prop where
  nodes : s'.nodes = s.nodes
  legs : s'.legs = s.legs
  poss : s'.poss = s.poss
  stnlist : s'.stnlist = s.stnlist
  stn_iter : s'.stn_iter = s.stn_iter
  cLegs : s'.cLegs = s.cLegs
  cStns : s'.cStns = s.cStns
  pcs_flags : s'.pcs_flags = s.pcs_flags
  msgs : s'.msgs = s.msgs
  len : s'.pfxs.length = s.pfxs.length
  pfx : ∀ (p : PfxPtr) (px : Prefix), s.pfxs[p]? = some px →
    ∃ q : Option PosPtr, s'.pfxs[p]? = some { px with pos := q } ∧
      (q = px.pos ∨ q = pos_with)

/-- `addfakeleg(fr, to, dx, dy, dz, vx, vy, vz, cyz, czx, cxy)`. -/
def addfakeleg (s : State K) (fr to_ : NodePtr) (dx dy dz vx vy vz cyz czx cxy : K) :
    Option (State K) :=
  addleg_ s fr to_ dx dy dz vx vy vz cyz czx cxy FLAG_FAKE

/-- The graph of the legs A→B `(1,0,0)` and B→C `(0,1,0)`, both with variances
`(1,1,1)` and covariances `(0,0,0)`, between three names below the survey name
`cave`: stations 0, 1, 2 carry the names `cave.A`, `cave.B`, `cave.C`. -/
def exampleChain : State ℚ :=
  { nodes := [
      { name := some 2, leg := ![some 0, none, none], next := none, prev := some 1 },
      { name := some 3, leg := ![some 1, some 2, none], next := some 0, prev := some 2 },
      { name := some 4, leg := ![some 3, none, none], next := some 1, prev := none }],
    legs := [
      { to_ := some 1, reverse := ⟨0, FLAG_DATAHERE⟩, d := some ![1, 0, 0],
        v := some ![1, 1, 1, 0, 0, 0] },
      { to_ := some 0, reverse := ⟨0, LegFlags.zero⟩ },
      { to_ := some 2, reverse := ⟨0, FLAG_DATAHERE⟩, d := some ![0, 1, 0],
        v := some ![1, 1, 1, 0, 0, 0] },
      { to_ := some 1, reverse := ⟨1, LegFlags.zero⟩ }],
    pfxs := [{ }, { up := some 0, ident := "cave" },
      { up := some 1, ident := "A", pos := some 0, stn := some 0, shape := 1 },
      { up := some 1, ident := "B", pos := some 1, stn := some 1, shape := 2 },
      { up := some 1, ident := "C", pos := some 2, stn := some 2, shape := 1 }],
    poss := [some { }, some { }, some { }],
    stnlist := some 2, cLegs := 2, cStns := 3 }

/-- Names without stations: `F1`, `F2`, `F3` are fixed, at `(0,0,0)`,
`(1,0,0)` and `(0,0,0)`; `U1` and `U2` are not fixed and have a position
each; `N1` and `N2` have no position yet. -/
def exampleNames : State ℚ :=
  { pfxs := [{ }, { up := some 0, ident := "F1", pos := some 0, fixed := true },
      { up := some 0, ident := "F2", pos := some 1, fixed := true },
      { up := some 0, ident := "F3", pos := some 2, fixed := true },
      { up := some 0, ident := "U1", pos := some 3 },
      { up := some 0, ident := "U2", pos := some 4 },
      { up := some 0, ident := "N1" }, { up := some 0, ident := "N2" }],
    poss := [some { }, some { p := ![1, 0, 0] }, some { }, some { }, some { }] }

/-- The graph `exampleNames` becomes by `process_equate(U1, U2)`: stations 0
and 1 carry the names `U1` and `U2`, are joined by a FAKE leg with zero
covariance, and both names point at position 4; position 3 is freed. -/
def exampleEquated : State ℚ :=
  { nodes := [
      { name := some 4, leg := ![some 0, none, none], next := none, prev := some 1 },
      { name := some 5, leg := ![some 1, none, none], next := some 0, prev := none }],
    legs := [
      { to_ := some 1, reverse := ⟨0, FLAG_DATAHERE.lor FLAG_FAKE⟩, d := some ![0, 0, 0],
        v := some ![0, 0, 0, 0, 0, 0] },
      { to_ := some 0, reverse := ⟨0, LegFlags.zero⟩ }],
    pfxs := [{ }, { up := some 0, ident := "F1", pos := some 0, fixed := true },
      { up := some 0, ident := "F2", pos := some 1, fixed := true },
      { up := some 0, ident := "F3", pos := some 2, fixed := true },
      { up := some 0, ident := "U1", pos := some 4, stn := some 0, shape := 1 },
      { up := some 0, ident := "U2", pos := some 4, stn := some 1, shape := 1 },
      { up := some 0, ident := "N1" }, { up := some 0, ident := "N2" }],
    poss := [some { }, some { p := ![1, 0, 0] }, some { }, none, some { }],
    stnlist := some 1, cLegs := 1, cStns := 2 }

end Equate

/-! ## The packed product `smulvs` -/

section Packed

variable {K : Type} [LinearOrderedField K]

/-- The body of the `j` loop of `smulvs` for one `i` and `j`: the `k` loop
accumulating into `tot`, then the store into `SN(r,i,j)` when `i <= j` and the
comparison with `SN(r,j,i)` otherwise. `none` is the fatal
`BUG("smulvs didn't produce a sym mx\n")`. -/
def smulvs_body (REAL_EPSILON : K) (a : var K) (b : svar K) (i j : Fin 3) (r : svar K) :
    Option (svar K) :=
  let tot := (List.finRange 3).foldl (fun tot k => tot + a i k * SN b k j) 0
  if i ≤ j then some (Function.update r (SNindex i j) tot)
  else if |SN r j i - tot| > THRESHOLD REAL_EPSILON then none
  else some r

/-- `smulvs(r, a, b)`: `r` is the content of the output matrix on entry, the
result its content on return. `r` and `b` are distinct objects
(`ASSERT(r != b)`). -/
def smulvs (REAL_EPSILON : K) (r : svar K) (a : var K) (b : svar K) : Option (svar K) :=
  let r : svar K :=
    Function.update (Function.update (Function.update r 5 (-999)) 4 (-999)) 3 (-999)
  (List.finRange 3).foldlM (fun r i =>
    (List.finRange 3).foldlM (fun r j => smulvs_body REAL_EPSILON a b i j r) r) r

/-- The packed matrix that holds the upper triangle of a dense one:
`(P[0][0], P[1][1], P[2][2], P[0][1], P[0][2], P[1][2])`. -/
def packUpper (p : var K) : svar K := ![p 0 0, p 1 1, p 2 2, p 0 1, p 0 2, p 1 2]

end Packed

/-! ## The graphs the operations build -/

section Built

variable {K : Type} [LinearOrderedField K]

/-- Slot packing: no station has an empty leg slot below an occupied one. -/
def Packed (s : State K) : Prop :=
  ∀ (q : NodePtr) (nd : node) (i j : Fin 3), s.nodes[q]? = some nd → i < j →
    nd.leg i = none → nd.leg j = none

/-- The empty graph: names only (forming a tree: every name has a chain of
parents that ends at a root), none of them with a station or a position, and
no station, leg record or position object; without a position no name is
fixed. -/
structure EmptyGraph (s : State K) : Prop where
  nodes : s.nodes = []
  legs : s.legs = []
  poss : s.poss = []
  stnlist : s.stnlist = none
  stn_iter : s.stn_iter = none
  names : ∀ (p : PfxPtr) (px : Prefix), s.pfxs[p]? = some px →
    px.stn = none ∧ px.pos = none ∧ px.fixed = false ∧ ∃ us : List PfxPtr, UpChain s p us

/-- The states reached from the empty graph by `StnFromPfx`, `addlegbyname`,
`addfakeleg`, `freeleg` and `process_equate`, each call being one that
returns (a failed `ASSERT`, such as that of `addleg_` on two stations of one
name, is no return). -/
inductive Built : State K → Prop where
  | empty (s : State K) : EmptyGraph s → Built s
  | stn (s s' : State K) (name : PfxPtr) (stn : NodePtr) :
      Built s → StnFromPfx s name = some (s', stn) → Built s'
  | leg (s s' : State K) (fr_name to_name : PfxPtr) (fToFirst : Bool)
      (dx dy dz vx vy vz cyz czx cxy : K) :
      Built s →
      addlegbyname s fr_name to_name fToFirst dx dy dz vx vy vz cyz czx cxy = some s' →
      Built s'
  | fake (s s' : State K) (fr to_ : NodePtr) (dx dy dz vx vy vz cyz czx cxy : K) :
      Built s → addfakeleg s fr to_ dx dy dz vx vy vz cyz czx cxy = some s' → Built s'
  | free (s s' : State K) (stn stn' : NodePtr) (i : Fin 3) :
      Built s → freeleg s stn = some (s', stn', i) → Built s'
  | equate (s s' : State K) (fuel : Nat) (name1 name2 : PfxPtr) :
      Built s → process_equate fuel s name1 name2 = some s' → Built s'

/-- The states reached from the empty graph by `StnFromPfx`, `addlegbyname`
with a covariance that is not all zeros, and `process_equate`, each call being
one that returns. No name of such a state is fixed, and `process_equate` gives
a name without a station one before it does anything else. -/
inductive Surveyed : State K → Prop where
  | empty (s : State K) : EmptyGraph s → Surveyed s
  | stn (s s' : State K) (name : PfxPtr) (stn : NodePtr) :
      Surveyed s → StnFromPfx s name = some (s', stn) → Surveyed s'
  | leg (s s' : State K) (fr_name to_name : PfxPtr) (fToFirst : Bool)
      (dx dy dz vx vy vz cyz czx cxy : K) :
      Surveyed s → fZeros ![vx, vy, vz, cxy, czx, cyz] = false →
      addlegbyname s fr_name to_name fToFirst dx dy dz vx vy vz cyz czx cxy = some s' →
      Surveyed s'
  | equate (s s' : State K) (fuel : Nat) (name1 name2 : PfxPtr) :
      Surveyed s → process_equate fuel s name1 name2 = some s' → Surveyed s'

/-- The name of a station (null when the station is no object). -/
def nameOf (s : State K) (x : NodePtr) : Option PfxPtr :=
  (s.nodes[x]?).bind (fun nd => nd.name)

/-- The position pointer of a name (null when the name is no object). -/
def namePos (s : State K) (p : PfxPtr) : Option PosPtr :=
  (s.pfxs[p]?).bind (fun px => px.pos)

/-- The position pointer of the name of a station, `stn->name->pos`. -/
def posOf (s : State K) (x : NodePtr) : Option PosPtr :=
  (nameOf s x).bind (namePos s)

/-- Station `x` holds, in slot `d`, a leg to station `y` with reverse index
`e`, on which the test of `replace_pfx_` gives `z`. -/
def SlotLeg (s : State K) (x : NodePtr) (d : Fin 3) (y : NodePtr) (e : Fin 3) (z : Bool) :
    Prop :=
  ∃ (nd : node) (leg : LegPtr) (l : linkfor K),
    s.nodes[x]? = some nd ∧ nd.leg d = some leg ∧ s.legs[leg]? = some l ∧
    l.to_ = some y ∧ l.reverse.dirn = e ∧ equated_leg s leg = some z

/-- Where the leg in slot `d` of station `x` is after the split of station
`old` into `old` and `new`: the leg in slot 0 of `old` moves to `new`. -/
def moved_to (old new x : NodePtr) (d : Fin 3) : NodePtr :=
  if x = old ∧ d = 0 then new else x

/-- Two states with the same stations by name, the same position pointers and
the same legs in the same slots. -/
structure SameSlots (s s' : State K) : Prop where
  name : ∀ x : NodePtr, nameOf s' x = nameOf s x
  pos : ∀ p : PfxPtr, namePos s' p = namePos s p
  slots : ∀ (x : NodePtr) (d : Fin 3) (y : NodePtr) (e : Fin 3) (z : Bool),
    SlotLeg s' x d y e z ↔ SlotLeg s x d y e z

/-- The state `s'` is `s` after the split of the full station `old` into `old`
and the new station `new`, which carries the same name: slot 0 of `old` and
slot 1 of `new` hold a new zero-covariance pair, the leg of slot 0 of `old` is
in slot 0 of `new`, and all else is as it was. -/
structure SplitSlots (s s' : State K) (old new : NodePtr) : Prop where
  fresh : nameOf s new = none
  isold : nameOf s old ≠ none
  name_new : nameOf s' new = nameOf s old
  name_old : ∀ x : NodePtr, x ≠ new → nameOf s' x = nameOf s x
  pos : ∀ p : PfxPtr, namePos s' p = namePos s p
  link : SlotLeg s' old 0 new 1 true
  back : SlotLeg s' new 1 old 0 true
  fwd : ∀ (x : NodePtr) (d : Fin 3) (y : NodePtr) (e : Fin 3) (z : Bool), SlotLeg s x d y e z →
    SlotLeg s' (moved_to old new x d) d (moved_to old new y e) e z
  bwd : ∀ (x1 : NodePtr) (d : Fin 3) (y1 : NodePtr) (e : Fin 3) (z : Bool),
    SlotLeg s' x1 d y1 e z →
    (x1 = old ∧ d = 0 ∧ y1 = new ∧ e = 1 ∧ z = true) ∨
    (x1 = new ∧ d = 1 ∧ y1 = old ∧ e = 0 ∧ z = true) ∨
    ∃ x y : NodePtr, SlotLeg s x d y e z ∧ x1 = moved_to old new x d ∧
      y1 = moved_to old new y e

/-- What `freeleg(&stn)` does to the slots: nothing, or the split of `stn`,
after which `*stnptr` is the new station. -/
def FreeSlots (s s' : State K) (stn stn' : NodePtr) : Prop :=
  (SameSlots s s' ∧ stn' = stn) ∨ SplitSlots s s' stn stn'

/-- The state `s'` is `s` with one new matched pair of legs, in the free slot
`i` of `fr` and the free slot `j` of `to_`, on which the test of `replace_pfx_`
gives `z`. -/
structure InstallSlots (s s' : State K) (fr to_ : NodePtr) (i j : Fin 3) (z : Bool) :
    Prop where
  name : ∀ x : NodePtr, nameOf s' x = nameOf s x
  pos : ∀ p : PfxPtr, namePos s' p = namePos s p
  ne : fr ≠ to_
  free_fr : ∀ (y : NodePtr) (e : Fin 3) (z' : Bool), ¬ SlotLeg s fr i y e z'
  free_to : ∀ (y : NodePtr) (e : Fin 3) (z' : Bool), ¬ SlotLeg s to_ j y e z'
  link : SlotLeg s' fr i to_ j z
  back : SlotLeg s' to_ j fr i z
  fwd : ∀ (x : NodePtr) (d : Fin 3) (y : NodePtr) (e : Fin 3) (z' : Bool),
    SlotLeg s x d y e z' → SlotLeg s' x d y e z'
  bwd : ∀ (x : NodePtr) (d : Fin 3) (y : NodePtr) (e : Fin 3) (z' : Bool),
    SlotLeg s' x d y e z' →
    SlotLeg s x d y e z' ∨ (x = fr ∧ d = i ∧ y = to_ ∧ e = j ∧ z' = z) ∨
      (x = to_ ∧ d = j ∧ y = fr ∧ e = i ∧ z' = z)

/-- The zero-covariance legs of `s'` are those of `s` up to splits of stations
and, where `X` allows it for the two names, new legs: a zero-covariance leg of
`s` is a path of such legs in `s'`, a station of `s` keeps its name, a station
of `s'` is joined by such legs to a station of `s` with the same name, and a zero-covariance leg of `s'` joins
two stations of one name, or of two names allowed by `X`, or with the names of
the two ends of such a leg of `s`. Position pointers are the same. -/
structure Grows (X : Option PfxPtr → Option PfxPtr → Prop) (s s' : State K) : Prop where
  pos : ∀ p : PfxPtr, namePos s' p = namePos s p
  lift : ∀ a b : NodePtr, EquateLeg s a b → Relation.ReflTransGen (EquateLeg s') a b
  keep : ∀ x : NodePtr, nameOf s x ≠ none → nameOf s' x = nameOf s x
  twin : ∀ x : NodePtr, nameOf s' x ≠ none →
    ∃ x0 : NodePtr, nameOf s x0 = nameOf s' x ∧ Relation.ReflTransGen (EquateLeg s') x0 x
  sound : ∀ x y : NodePtr, EquateLeg s' x y →
    nameOf s' x = nameOf s' y ∨ X (nameOf s' x) (nameOf s' y) ∨
    ∃ x0 y0 : NodePtr, EquateLeg s x0 y0 ∧ nameOf s x0 = nameOf s' x ∧
      nameOf s y0 = nameOf s' y

/-- The names of a graph of never-fixed stations: no name is fixed, a name has
a position exactly when it has a station, every position pointed at is an
object that has not been freed, and the names form a tree. -/
structure Named (s : State K) : Prop where
  unfixed : ∀ (p : PfxPtr) (px : Prefix), s.pfxs[p]? = some px → px.fixed = false
  alive : ∀ (p : PfxPtr) (px : Prefix) (q : PosPtr), s.pfxs[p]? = some px →
    px.pos = some q → ∃ P : pos K, s.poss[q]? = some (some P)
  stn_pos : ∀ (p : PfxPtr) (px : Prefix), s.pfxs[p]? = some px →
    (px.stn = none ↔ px.pos = none)
  names : ∀ (p : PfxPtr) (px : Prefix), s.pfxs[p]? = some px →
    ∃ us : List PfxPtr, UpChain s p us

/-- On a graph of stations that were never fixed: the graph is well-formed and
packed, its DATA_HERE records store a covariance, no name is fixed, a name has
a position exactly when it has a station, every position pointed at is an
object that has not been freed, the names form a tree, two stations joined by
a zero-covariance leg have names with the same position pointer, and two
stations whose names have the same position pointer are joined by a path of
zero-covariance legs. -/
structure Tidy (s : State K) : Prop where
  wf : WF s
  packed : Packed s
  data : DataStored s
  unfixed : ∀ (p : PfxPtr) (px : Prefix), s.pfxs[p]? = some px → px.fixed = false
  alive : ∀ (p : PfxPtr) (px : Prefix) (q : PosPtr), s.pfxs[p]? = some px →
    px.pos = some q → ∃ P : pos K, s.poss[q]? = some (some P)
  stn_pos : ∀ (p : PfxPtr) (px : Prefix), s.pfxs[p]? = some px →
    (px.stn = none ↔ px.pos = none)
  names : ∀ (p : PfxPtr) (px : Prefix), s.pfxs[p]? = some px →
    ∃ us : List PfxPtr, UpChain s p us
  same : ∀ x y : NodePtr, EquateLeg s x y → posOf s x = posOf s y
  conn : ∀ x y : NodePtr, nameOf s x ≠ none → nameOf s y ≠ none → posOf s x = posOf s y →
    Relation.ReflTransGen (EquateLeg s) x y

/-- The relation `E` without the edge between `a` and `b`. -/
def Cut (E : NodePtr → NodePtr → Prop) (a b : NodePtr) (u v : NodePtr) : Prop :=
  E u v ∧ ¬ (u = a ∧ v = b) ∧ ¬ (u = b ∧ v = a)

/-- The edges `replace_pfx_(stn, from, ..)` may walk along: all of them when
`from` is null, and all but the edge between `stn` and `from` otherwise. -/
def Away (E : NodePtr → NodePtr → Prop) (stn : NodePtr) (from_ : Option NodePtr) :
    NodePtr → NodePtr → Prop :=
  match from_ with
  | none => E
  | some g => Cut E stn g

/-- No cycle: no edge of `E` joins two stations that are joined without it. -/
def Bridges (E : NodePtr → NodePtr → Prop) : Prop :=
  ∀ a b : NodePtr, E a b → ¬ Relation.ReflTransGen (Cut E a b) a b

/-- No two slots of a station hold zero-covariance legs to the same station. -/
def NoPar (s : State K) : Prop :=
  ∀ (x : NodePtr) (d d' : Fin 3) (y : NodePtr) (e e' : Fin 3),
    SlotLeg s x d y e true → SlotLeg s x d' y e' true → d = d'

/-- The zero-covariance legs form a forest: they form no cycle, and no two of
them join the same two stations. -/
structure Forest (s : State K) : Prop where
  bridges : Bridges (EquateLeg s)
  nopar : NoPar s

/-- The graph `exampleStar` becomes by the leg from `P` to `Q1` with
displacement `(1,0,0)`, variances `(1,1,1)` and covariances `(0,0,0)`. -/
def exampleSurvey1 : State ℚ :=
  (addlegbyname exampleStar 1 2 false 1 0 0 1 1 1 0 0 0).getD exampleStar

/-- The graph `exampleSurvey1` becomes by `process_equate(P, Q2)`. -/
def exampleSurvey2 : State ℚ := (process_equate 5 exampleSurvey1 1 3).getD exampleStar

/-- The graph `exampleSurvey2` becomes by `process_equate(Q3, Q2)`. -/
def exampleSurvey3 : State ℚ := (process_equate 6 exampleSurvey2 4 3).getD exampleStar

/-- The graph `exampleSurvey1` becomes by `replace_pfx(P, Q1)`. -/
def exampleReplaced : State ℚ := (replace_pfx 3 exampleSurvey1 1 2).getD exampleStar

/-- The graph `exampleStar` becomes by the leg from `P` to `Q1` with
displacement `(1,0,0)` and a covariance that is all zeros. -/
def exampleLoop1 : State ℚ :=
  (addlegbyname exampleStar 1 2 false 1 0 0 0 0 0 0 0 0).getD exampleStar

/-- The graph `exampleLoop1` becomes by the leg from `Q1` to `Q2` with
displacement `(0,1,0)` and a covariance that is all zeros. -/
def exampleLoop2 : State ℚ :=
  (addlegbyname exampleLoop1 2 3 false 0 1 0 0 0 0 0 0 0).getD exampleStar

/-- The graph `exampleLoop2` becomes by the leg from `Q2` to `P` with
displacement `(-1,-1,0)` and a covariance that is all zeros: a triangle of
three legs with zero covariance. -/
def exampleLoop : State ℚ :=
  (addlegbyname exampleLoop2 3 1 false (-1) (-1) 0 0 0 0 0 0 0).getD exampleStar

end Built

/-! ## The arithmetic of `double`

The inverters of `netbits.c` and the comparison of `diffpos.c` are also run in
the arithmetic of the machine: IEEE 754 binary64, every operation rounded to
the nearest value, a tie going to the even significand. -/

/-- A value of the C type `double` (IEEE 754 binary64): not a number, an
infinity with its sign (`neg` for the negative one), or a finite number with
its sign and its magnitude `mag`, a rational that is not negative; the two
zeros are two values. The values of the type are NaN, the infinities and the
finite numbers whose magnitude `Double.rnd` leaves as it is. -/
inductive Double where
  | nan
  | inf (neg : Bool)
  | fin (neg : Bool) (mag : ℚ)
deriving DecidableEq

namespace Double

/-- The number of binary digits of `n`, counted in at most `fuel` steps; `n`
steps are enough for `n`. -/
def bits : Nat → Nat → Nat
  | 0, _ => 0
  | fuel + 1, n => if n = 0 then 0 else bits fuel (n / 2) + 1

/-- The `double` of sign `neg` whose magnitude is nearest to the rational
`m >= 0` (round to nearest, ties to even): with `2^e <= m < 2^(e+1)` (for
`m = n/d` it is one of the two exponents next to the difference of the digit
counts of `n` and `d`) the spacing of the doubles around `m` is `2^u`,
`u = max(e, -1022) - 52` (53 significant bits, subnormal below `2^-1022`);
`m` is `k + r/D` spacings, and `k` goes up when the rest is above a half, or is
a half and `k` is odd. A result of `2^1024` or more is an infinity. -/
def rnd (neg : Bool) (m : ℚ) : Double :=
  let n : Nat := m.num.natAbs
  let d : Nat := m.den
  if n = 0 then fin neg 0
  else
    let e0 : Int := (bits n n : Int) - (bits d d : Int)
    let e : Int := if n * 2 ^ (-e0).toNat < d * 2 ^ e0.toNat then e0 - 1 else e0
    let u : Int := max e (-1022) - 52
    let N : Nat := n * 2 ^ (-u).toNat
    let D : Nat := d * 2 ^ u.toNat
    let k : Nat := N / D
    let r : Nat := N % D
    let k : Nat :=
      if 2 * r < D then k else if D < 2 * r then k + 1 else if k % 2 = 0 then k else k + 1
    if 2 ^ 1024 * 2 ^ (-u).toNat ≤ k * 2 ^ u.toNat then inf neg
    else fin neg (mkRat ((k * 2 ^ u.toNat : Nat) : Int) (2 ^ (-u).toNat))

/-- The number a finite `double` of sign `neg` and magnitude `mag` stands
for. -/
def val (neg : Bool) (mag : ℚ) : ℚ := if neg then -mag else mag

/-- The `double` nearest to the rational `q`: what a decimal constant or a
decimal read by `sscanf` becomes. -/
def ofRat (q : ℚ) : Double := rnd (decide (q < 0)) |q|

/-- The sum `a + b` of two doubles. A sum that is exactly zero is the negative
zero only when both terms are negative. -/
def add : Double → Double → Double
  | fin s a, fin t b =>
    let v : ℚ := val s a + val t b
    if v = 0 then fin (s && t) 0 else rnd (decide (v < 0)) |v|
  | fin _ _, inf t => inf t
  | inf s, fin _ _ => inf s
  | inf s, inf t => if s = t then inf s else nan
  | nan, _ => nan
  | _, nan => nan

/-- The difference `a - b` of two doubles. A difference that is exactly zero
is the negative zero only when `a` is negative and `b` is not. -/
def sub : Double → Double → Double
  | fin s a, fin t b =>
    let v : ℚ := val s a - val t b
    if v = 0 then fin (s && !t) 0 else rnd (decide (v < 0)) |v|
  | fin _ _, inf t => inf (!t)
  | inf s, fin _ _ => inf s
  | inf s, inf t => if s = t then nan else inf s
  | nan, _ => nan
  | _, nan => nan

/-- The product `a * b` of two doubles; its sign is negative when one of the
two signs is. -/
def mul : Double → Double → Double
  | fin s a, fin t b => rnd (xor s t) (a * b)
  | fin s a, inf t => if a = 0 then nan else inf (xor s t)
  | inf s, fin t b => if b = 0 then nan else inf (xor s t)
  | inf s, inf t => inf (xor s t)
  | nan, _ => nan
  | _, nan => nan

/-- The quotient `a / b` of two doubles; its sign is negative when one of the
two signs is. -/
def div : Double → Double → Double
  | fin s a, fin t b =>
    if b = 0 then (if a = 0 then nan else inf (xor s t)) else rnd (xor s t) (a / b)
  | fin s _, inf t => fin (xor s t) 0
  | inf s, fin t _ => inf (xor s t)
  | inf _, inf _ => nan
  | nan, _ => nan
  | _, nan => nan

/-- The magnitude `fabs(a)`. -/
def fabs : Double → Double
  | nan => nan
  | inf _ => inf false
  | fin _ a => fin false a

/-- The comparison `a < b`, false when either side is NaN. -/
def lt : Double → Double → Bool
  | fin s a, fin t b => decide (val s a < val t b)
  | fin _ _, inf t => !t
  | inf s, fin _ _ => s
  | inf s, inf t => s && !t
  | nan, _ => false
  | _, nan => false

/-- The comparison `a <= b`, false when either side is NaN. -/
def le : Double → Double → Bool
  | fin s a, fin t b => decide (val s a ≤ val t b)
  | fin _ _, inf t => !t
  | inf s, fin _ _ => s
  | inf s, inf t => s || !t
  | nan, _ => false
  | _, nan => false

/-- The comparison `a > b`, false when either side is NaN. -/
def gt (a b : Double) : Bool := lt b a

instance : Add Double := ⟨add⟩

instance : Sub Double := ⟨sub⟩

instance : Mul Double := ⟨mul⟩

instance : Div Double := ⟨div⟩

end Double

/-! ## The inverters in `double` arithmetic -/

/-- `REAL_EPSILON` for `real` = `double`: `DBL_EPSILON`, which is `2^-52`. The
header that defines both is not among the sources; the spec has the real type
a 64-bit floating type and the constant its smallest relative precision. -/
def DBL_EPSILON : Double := Double.fin false (1 / 2 ^ 52)

/-- `#define THRESHOLD (REAL_EPSILON * 1000)` in `double` arithmetic. -/
def THRESHOLD_f64 (REAL_EPSILON : Double) : Double := REAL_EPSILON * Double.fin false 1000

/-- The 3x3 identity in `double`, `(real)(i==j)`. -/
def identity_f64 : var Double := fun i j =>
  if i = j then Double.fin false 1 else Double.fin false 0

/-- `mulvv` in `double` arithmetic: `tot = 0;` then `tot += (*a)[i][k] * (*b)[k][j]`
for `k = 0, 1, 2`. -/
def mulvv_f64 (a b : var Double) : var Double := fun i j =>
  (List.finRange 3).foldl (fun tot k => tot + a i k * b k j) (Double.fin false 0)

/-- `mulss` in `double` arithmetic: `tot = 0;` then `tot += SN(a,i,k) * SN(b,k,j)`
for `k = 0, 1, 2`. -/
def mulss_f64 (a b : svar Double) : var Double := fun i j =>
  (List.finRange 3).foldl (fun tot k => tot + SN a i k * SN b k j) (Double.fin false 0)

/-- The determinant loop of `invert_var` in `double` arithmetic, from `det = 0`:
`det += V(i,0) * (V((i+1)%3,1) * V((i+2)%3,2) - V((i+1)%3,2) * V((i+2)%3,1))`. -/
def det_var_f64 (v : var Double) : Double :=
  (List.finRange 3).foldl
    (fun det i => det + v i 0 * (v (i + 1) 1 * v (i + 2) 2 - v (i + 1) 2 * v (i + 2) 1))
    (Double.fin false 0)

/-- The check loop of both inverters in `double` arithmetic, from `d = 0`:
`d += fabs(p[i][j] - (real)(i==j))`. -/
def identity_error_f64 (p : var Double) : Double :=
  (List.finRange 3).foldl
    (fun d i => (List.finRange 3).foldl
      (fun d j => d + Double.fabs (p i j - identity_f64 i j)) d) (Double.fin false 0)

/-- The entries `invert_var` writes, in `double` arithmetic, `det` being
`1 / det` already: `det * (B(i+1,j+1)*B(i+2,j+2) - B(i+2,j+1)*B(i+1,j+2))` with
`B(I,J) = (*v)[(J)%3][(I)%3]`. -/
def invert_var_entries_f64 (det : Double) (v : var Double) : var Double := fun i j =>
  det * (v (j + 1) (i + 1) * v (j + 2) (i + 2) - v (j + 1) (i + 2) * v (j + 2) (i + 1))

/-- `invert_var(inv, v)` in `double` arithmetic: the result is the return value
and the contents of `inv` afterwards; `none` is the fatal
`BUG("matrix didn't invert")`. The `check_var` calls only print. -/
def invert_var_f64 (REAL_EPSILON : Double) (inv v : var Double) : Option (Int × var Double) :=
  let det := det_var_f64 v
  if Double.lt (Double.fabs det) (THRESHOLD_f64 REAL_EPSILON) then some (0, inv)
  else
    let det := Double.fin false 1 / det
    let inv := invert_var_entries_f64 det v
    let p := mulvv_f64 v inv
    let d := identity_error_f64 p
    if Double.gt d (THRESHOLD_f64 REAL_EPSILON) then none else some (1, inv)

/-- The determinant `invert_svar` computes from the six packed terms, in
`double` arithmetic. -/
def det_svar_f64 (v : svar Double) : Double :=
  let a := v 0
  let b := v 1
  let c := v 2
  let d := v 3
  let e := v 4
  let f := v 5
  let bcff := b * c - f * f
  let efcd := e * f - c * d
  let dfbe := d * f - b * e
  a * bcff + d * efcd + e * dfbe

/-- The six entries `invert_svar` writes, in `double` arithmetic, `det` being
`1 / det` already. -/
def invert_svar_entries_f64 (det : Double) (v : svar Double) : svar Double :=
  let a := v 0
  let b := v 1
  let c := v 2
  let d := v 3
  let e := v 4
  let f := v 5
  let bcff := b * c - f * f
  let efcd := e * f - c * d
  let dfbe := d * f - b * e
  ![det * bcff, det * (c * a - e * e), det * (a * b - d * d),
    det * efcd, det * dfbe, det * (e * d - a * f)]

/-- `invert_svar(inv, v)` in `double` arithmetic: the result is the return
value and the contents of `inv` afterwards; `none` is the fatal
`BUG("matrix didn't invert")`. The `check_svar` calls only print. -/
def invert_svar_f64 (REAL_EPSILON : Double) (inv v : svar Double) :
    Option (Int × svar Double) :=
  let det := det_svar_f64 v
  if Double.lt (Double.fabs det) (THRESHOLD_f64 REAL_EPSILON) then some (0, inv)
  else
    let det := Double.fin false 1 / det
    let inv := invert_svar_entries_f64 det v
    let p := mulss_f64 v inv
    let D := identity_error_f64 p
    if Double.gt D (THRESHOLD_f64 REAL_EPSILON) then none else some (1, inv)

/-- The test of `invert_var` for a singular matrix, `fabs(det) < THRESHOLD`, in
`double` arithmetic. -/
def singular_var_f64 (REAL_EPSILON : Double) (v : var Double) : Bool :=
  Double.lt (Double.fabs (det_var_f64 v)) (THRESHOLD_f64 REAL_EPSILON)

/-- The test of `invert_svar` for a singular matrix, `fabs(det) < THRESHOLD`, in
`double` arithmetic. -/
def singular_svar_f64 (REAL_EPSILON : Double) (v : svar Double) : Bool :=
  Double.lt (Double.fabs (det_svar_f64 v)) (THRESHOLD_f64 REAL_EPSILON)

/-- What `invert_var` writes to `inv` once the matrix has passed for regular:
the entries for `det = 1 / det`. -/
def written_var_f64 (v : var Double) : var Double :=
  invert_var_entries_f64 (Double.fin false 1 / det_var_f64 v) v

/-- What `invert_svar` writes to `inv` once the matrix has passed for regular:
the entries for `det = 1 / det`. -/
def written_svar_f64 (v : svar Double) : svar Double :=
  invert_svar_entries_f64 (Double.fin false 1 / det_svar_f64 v) v

/-- The test that ends `invert_var` in `BUG("matrix didn't invert")`:
`d > THRESHOLD` for the sum `d` of the check loop over `v` times what was
written. -/
def unchecked_var_f64 (REAL_EPSILON : Double) (v : var Double) : Bool :=
  Double.gt (identity_error_f64 (mulvv_f64 v (written_var_f64 v))) (THRESHOLD_f64 REAL_EPSILON)

/-- The test that ends `invert_svar` in `BUG("matrix didn't invert")`:
`D > THRESHOLD` for the sum `D` of the check loop over `v` times what was
written. -/
def unchecked_svar_f64 (REAL_EPSILON : Double) (v : svar Double) : Bool :=
  Double.gt (identity_error_f64 (mulss_f64 v (written_svar_f64 v))) (THRESHOLD_f64 REAL_EPSILON)

/-- A packed matrix of rationals as one of doubles, each entry the nearest
double. -/
def svar_f64 (v : svar ℚ) : svar Double := fun i => Double.ofRat (v i)

/-- A dense matrix of rationals as one of doubles, each entry the nearest
double. -/
def var_f64 (v : var ℚ) : var Double := fun i j => Double.ofRat (v i j)

/-- A packed symmetric matrix of small integers with determinant 3, used as a
concrete input. -/
def exampleIll : svar ℚ := ![17, 13, 13, -13, -4, -3]

/-- A packed symmetric matrix with determinant -1 whose entries `2^27 - 1`,
`2^27 + 1` and `2^27` are doubles, used as a concrete input. -/
def exampleTie : svar ℚ := ![1, 134217727, 134217729, 0, 0, 134217728]

/-! ## The comparison of two `.pos` files (`diffpos.c`) -/

/-- A line of a `.pos` file that `read_line` accepts: what
`sscanf(buf, "(%lf,%lf,%lf )%s", px, py, pz, id)` stores. -/
structure PosLine where
  x : Double
  y : Double
  z : Double
  id : String

/-- `typedef enum { Eof, Haveline, Needline } state;` of `diffpos.c`. -/
inductive state where
  | Eof
  | Haveline
  | Needline
deriving DecidableEq, Repr

/-- `#define EPSILON 0.00001`: the `double` nearest to it. -/
def EPSILON : Double := Double.ofRat (1 / 100000)

/-- `#define DFLT_MAX_THRESHOLD 0.01`, the default threshold of `main`: the
`double` nearest to it. -/
def DFLT_MAX_THRESHOLD : Double := Double.ofRat (1 / 100)

/-- `read_line(fh, px, py, pz, id)`: the stream is the list of its lines still
to be read, each one parsed (`some`) or not of the form of a position (`none`,
"Ignoring line"). The result is the line read (`none` for the return value 0,
at the end of the file) and the stream afterwards. -/
def read_line : List (Option PosLine) → Option PosLine × List (Option PosLine)
  | [] => (none, [])
  | some l :: fh => (some l, fh)
  | none :: fh => read_line fh

/-- The variables of `diff_pos`: the two streams, the two states, the two lines
held (`x1, y1, z1, id1` and `x2, y2, z2, id2`) and `result`. -/
structure DiffVars where
  fh1 : List (Option PosLine)
  fh2 : List (Option PosLine)
  pos1 : state
  pos2 : state
  line1 : PosLine
  line2 : PosLine
  result : Int

/-- The first `if` of the loop body of `diff_pos`:
`if (pos1 == Needline) { pos1 = Haveline; if (!read_line(fh1, ..)) pos1 = Eof; }`. -/
def need1 (v : DiffVars) : DiffVars :=
  if v.pos1 = state.Needline then
    match read_line v.fh1 with
    | (some l, fh) => { v with pos1 := state.Haveline, line1 := l, fh1 := fh }
    | (none, fh) => { v with pos1 := state.Eof, fh1 := fh }
  else v

/-- The second `if` of the loop body of `diff_pos`, for the second file. -/
def need2 (v : DiffVars) : DiffVars :=
  if v.pos2 = state.Needline then
    match read_line v.fh2 with
    | (some l, fh) => { v with pos2 := state.Haveline, line2 := l, fh2 := fh }
    | (none, fh) => { v with pos2 := state.Eof, fh2 := fh }
  else v

/-- The test `fabs(x1 - x2) - threshold > EPSILON || fabs(y1 - y2) - threshold >
EPSILON || fabs(z1 - z2) - threshold > EPSILON`, in `double` arithmetic. -/
def moved (threshold : Double) (a b : PosLine) : Bool :=
  Double.gt (Double.fabs (a.x - b.x) - threshold) EPSILON ||
    Double.gt (Double.fabs (a.y - b.y) - threshold) EPSILON ||
    Double.gt (Double.fabs (a.z - b.z) - threshold) EPSILON

/-- The branch of the loop body of `diff_pos` taken when both files have a
line: `strcmp(id1, id2)` is 0 for equal names and negative when `id1` comes
first. -/
def compare_lines (threshold : Double) (v : DiffVars) : DiffVars :=
  if v.line1.id = v.line2.id then
    let v := if moved threshold v.line1 v.line2 then { v with result := 1 } else v
    { v with pos1 := state.Needline, pos2 := state.Needline }
  else
    let v := { v with result := 1 }
    if v.line1.id < v.line2.id then { v with pos1 := state.Needline }
    else { v with pos2 := state.Needline }

/-- The `while (1)` loop of `diff_pos`, with a bound on the number of passes;
the result is the value returned after the `break`. -/
def diff_pos_loop (threshold : Double) : Nat → DiffVars → Option Int
  | 0, _ => none
  | fuel + 1, v =>
    let v := need2 (need1 v)
    if v.pos1 = state.Eof then
      if v.pos2 = state.Eof then some v.result
      else diff_pos_loop threshold fuel { v with result := 1, pos2 := state.Needline }
    else if v.pos2 = state.Eof then
      diff_pos_loop threshold fuel { v with result := 1, pos1 := state.Needline }
    else diff_pos_loop threshold fuel (compare_lines threshold v)

/-- `diff_pos(fh1, fh2, threshold)`. Every pass but the last takes a line from
one of the files, so one pass more than there are lines is allowed. The line
variables are not initialised in the source; they are not read before a line
has been stored in them. -/
def diff_pos (fh1 fh2 : List (Option PosLine)) (threshold : Double) : Option Int :=
  diff_pos_loop threshold (fh1.length + fh2.length + 1)
    { fh1 := fh1, fh2 := fh2, pos1 := state.Needline, pos2 := state.Needline,
      line1 := ⟨Double.fin false 0, Double.fin false 0, Double.fin false 0, ""⟩,
      line2 := ⟨Double.fin false 0, Double.fin false 0, Double.fin false 0, ""⟩, result := 0 }

/-- A bound on the number of passes of the loop of `diff_pos` that take a
line: the lines not yet read and the lines held. -/
def passes (v : DiffVars) : Nat :=
  v.fh1.length + v.fh2.length + (if v.pos1 = state.Haveline then 1 else 0) +
    (if v.pos2 = state.Haveline then 1 else 0)

/-- The lines of a file that `read_line` hands out, in order. -/
def parsed (fh : List (Option PosLine)) : List PosLine := fh.filterMap id

/-- Two sequences of position lines agree within `threshold`: they have the
same length, and at every index the names are equal and each of the three
coordinate differences `d` has `|d| - threshold <= EPSILON`. -/
def Agree (threshold : Double) (l1 l2 : List PosLine) : Prop :=
  l1.length = l2.length ∧
    ∀ (i : Nat) (a b : PosLine), l1[i]? = some a → l2[i]? = some b →
      a.id = b.id ∧ Double.le (Double.fabs (a.x - b.x) - threshold) EPSILON = true ∧
        Double.le (Double.fabs (a.y - b.y) - threshold) EPSILON = true ∧
        Double.le (Double.fabs (a.z - b.z) - threshold) EPSILON = true

/-- No line of two sequences of position lines has moved: they have the same
length, and at every index the names are equal and for none of the three
coordinate differences `d` the comparison `|d| - threshold > EPSILON` holds. -/
def Unmoved (threshold : Double) (l1 l2 : List PosLine) : Prop :=
  l1.length = l2.length ∧
    ∀ (i : Nat) (a b : PosLine), l1[i]? = some a → l2[i]? = some b →
      a.id = b.id ∧ Double.gt (Double.fabs (a.x - b.x) - threshold) EPSILON = false ∧
        Double.gt (Double.fabs (a.y - b.y) - threshold) EPSILON = false ∧
        Double.gt (Double.fabs (a.z - b.z) - threshold) EPSILON = false

/-- No comparison of two sequences of position lines meets a NaN: at no index
is one of the three values `|d| - threshold` one. -/
def Numbers (threshold : Double) (l1 l2 : List PosLine) : Prop :=
  ∀ (i : Nat) (a b : PosLine), l1[i]? = some a → l2[i]? = some b →
    Double.fabs (a.x - b.x) - threshold ≠ Double.nan ∧
      Double.fabs (a.y - b.y) - threshold ≠ Double.nan ∧
      Double.fabs (a.z - b.z) - threshold ≠ Double.nan

/-- A file of one line, whose first coordinate is not a number. -/
def exampleNaN : List (Option PosLine) :=
  [some ⟨Double.nan, Double.fin false 0, Double.fin false 0, "a"⟩]

/-- A file of one line for the same name, at `(5, 0, 0)`. -/
def exampleFive : List (Option PosLine) :=
  [some ⟨Double.fin false 5, Double.fin false 0, Double.fin false 0, "a"⟩]

/-! ## Facts about the algebra and the graph operations -/

section Facts

variable {K : Type} [LinearOrderedField K]

/-! ### Matrix algebra: determinants, inverses, elementwise operations -/

omit [LinearOrderedField K] in
theorem foldl_finRange_three (f : K → Fin 3 → K) (z : K) :
    (List.finRange 3).foldl f z = f (f (f z 0) 1) 2 := by
  rfl

theorem det_var_eq (v : var K) : det_var v = Matrix.det (Matrix.of v) := by
  simp only [det_var, foldl_finRange_three, Matrix.det_fin_three, Matrix.of_apply]
  have h1 : (1 : Fin 3) + 1 = 2 := by decide
  have h2 : (1 : Fin 3) + 2 = 0 := by decide
  have h3 : (2 : Fin 3) + 1 = 0 := by decide
  have h4 : (2 : Fin 3) + 2 = 1 := by decide
  simp only [zero_add, h1, h2, h3, h4]
  ring

theorem det_svar_eq (v : svar K) : det_svar v = Matrix.det (Matrix.of (expand v)) := by
  simp only [det_svar, Matrix.det_fin_three, Matrix.of_apply, expand, SN]
  have e00 : SNindex 0 0 = 0 := by decide
  have e01 : SNindex 0 1 = 3 := by decide
  have e02 : SNindex 0 2 = 4 := by decide
  have e10 : SNindex 1 0 = 3 := by decide
  have e11 : SNindex 1 1 = 1 := by decide
  have e12 : SNindex 1 2 = 5 := by decide
  have e20 : SNindex 2 0 = 4 := by decide
  have e21 : SNindex 2 1 = 5 := by decide
  have e22 : SNindex 2 2 = 2 := by decide
  simp only [e00, e01, e02, e10, e11, e12, e20, e21, e22]
  ring

theorem SNindex_vals :
    SNindex 0 0 = 0 ∧ SNindex 0 1 = 3 ∧ SNindex 0 2 = 4 ∧ SNindex 1 0 = 3 ∧ SNindex 1 1 = 1 ∧
    SNindex 1 2 = 5 ∧ SNindex 2 0 = 4 ∧ SNindex 2 1 = 5 ∧ SNindex 2 2 = 2 := by
  decide

theorem fin3_add_vals :
    (1 : Fin 3) + 1 = 2 ∧ (1 : Fin 3) + 2 = 0 ∧ (2 : Fin 3) + 1 = 0 ∧ (2 : Fin 3) + 2 = 1 := by
  decide

theorem identity_error_identity : identity_error (identity : var K) = 0 := by
  simp [identity_error, foldl_finRange_three]

theorem THRESHOLD_pos {eps : K} (h : 0 < eps) : 0 < THRESHOLD eps := by
  unfold THRESHOLD; positivity

theorem invert_svar_entries_vals (det : K) (v : svar K) :
    invert_svar_entries det v 0 = det * (v 1 * v 2 - v 5 * v 5) ∧
    invert_svar_entries det v 1 = det * (v 2 * v 0 - v 4 * v 4) ∧
    invert_svar_entries det v 2 = det * (v 0 * v 1 - v 3 * v 3) ∧
    invert_svar_entries det v 3 = det * (v 4 * v 5 - v 2 * v 3) ∧
    invert_svar_entries det v 4 = det * (v 3 * v 5 - v 1 * v 4) ∧
    invert_svar_entries det v 5 = det * (v 4 * v 3 - v 0 * v 5) :=
  ⟨rfl, rfl, rfl, rfl, rfl, rfl⟩

theorem det_svar_unfold (v : svar K) :
    det_svar v = v 0 * (v 1 * v 2 - v 5 * v 5) + v 3 * (v 4 * v 5 - v 2 * v 3)
      + v 4 * (v 3 * v 5 - v 1 * v 4) := rfl

theorem mulss_entries_right (v : svar K) (h : det_svar v ≠ 0) :
    mulss v (invert_svar_entries (1 / det_svar v) v) = identity := by
  obtain ⟨e00, e01, e02, e10, e11, e12, e20, e21, e22⟩ := SNindex_vals
  obtain ⟨i0, i1, i2, i3, i4, i5⟩ := invert_svar_entries_vals (1 / det_svar v) v
  funext i j
  fin_cases i <;> fin_cases j <;>
    simp only [mulss, foldl_finRange_three, SN, identity, e00, e01, e02, e10, e11,
      e12, e20, e21, e22, i0, i1, i2, i3, i4, i5, Fin.zero_eta, Fin.mk_one, Fin.reduceFinMk,
      Fin.reduceEq, if_true, if_false] <;>
    field_simp <;> (try rw [det_svar_unfold]) <;> ring

theorem mulss_entries_left (v : svar K) (h : det_svar v ≠ 0) :
    mulss (invert_svar_entries (1 / det_svar v) v) v = identity := by
  obtain ⟨e00, e01, e02, e10, e11, e12, e20, e21, e22⟩ := SNindex_vals
  obtain ⟨i0, i1, i2, i3, i4, i5⟩ := invert_svar_entries_vals (1 / det_svar v) v
  funext i j
  fin_cases i <;> fin_cases j <;>
    simp only [mulss, foldl_finRange_three, SN, identity, e00, e01, e02, e10, e11,
      e12, e20, e21, e22, i0, i1, i2, i3, i4, i5, Fin.zero_eta, Fin.mk_one, Fin.reduceFinMk,
      Fin.reduceEq, if_true, if_false] <;>
    field_simp <;> (try rw [det_svar_unfold]) <;> ring

theorem det_var_unfold (v : var K) :
    det_var v = v 0 0 * (v 1 1 * v 2 2 - v 1 2 * v 2 1) + v 1 0 * (v 2 1 * v 0 2 - v 2 2 * v 0 1)
      + v 2 0 * (v 0 1 * v 1 2 - v 0 2 * v 1 1) := by
  obtain ⟨h1, h2, h3, h4⟩ := fin3_add_vals
  simp only [det_var, foldl_finRange_three, zero_add, h1, h2, h3, h4]

theorem mulvv_entries_right (v : var K) (h : det_var v ≠ 0) :
    mulvv v (invert_var_entries (1 / det_var v) v) = identity := by
  obtain ⟨h1, h2, h3, h4⟩ := fin3_add_vals
  funext i j
  fin_cases i <;> fin_cases j <;>
    simp only [mulvv, foldl_finRange_three, identity, invert_var_entries, Fin.zero_eta,
      Fin.mk_one, Fin.reduceFinMk, Fin.reduceEq, if_true, if_false, zero_add, h1, h2, h3, h4] <;>
    field_simp <;> (try rw [det_var_unfold]) <;> ring

theorem mulvv_entries_left (v : var K) (h : det_var v ≠ 0) :
    mulvv (invert_var_entries (1 / det_var v) v) v = identity := by
  obtain ⟨h1, h2, h3, h4⟩ := fin3_add_vals
  funext i j
  fin_cases i <;> fin_cases j <;>
    simp only [mulvv, foldl_finRange_three, identity, invert_var_entries, Fin.zero_eta,
      Fin.mk_one, Fin.reduceFinMk, Fin.reduceEq, if_true, if_false, zero_add, h1, h2, h3, h4] <;>
    field_simp <;> (try rw [det_var_unfold]) <;> ring

theorem invert_var_entries_cofactor (det : K) (v : var K) (i j : Fin 3) :
    invert_var_entries det v i j = det * cofactor v j i := by
  obtain ⟨h1, h2, h3, h4⟩ := fin3_add_vals
  unfold invert_var_entries
  congr 1
  fin_cases i <;> fin_cases j <;>
    simp [cofactor, Matrix.det_fin_two, Fin.succAbove, h1, h2, h3, h4] <;>
    ring

theorem cofactor_col_zero (v : var K) :
    cofactor v 0 0 = v 1 1 * v 2 2 - v 1 2 * v 2 1 ∧
    cofactor v 1 0 = v 2 1 * v 0 2 - v 2 2 * v 0 1 ∧
    cofactor v 2 0 = v 0 1 * v 1 2 - v 0 2 * v 1 1 := by
  refine ⟨?_, ?_, ?_⟩ <;>
    (simp [cofactor, Matrix.det_fin_two, Fin.succAbove]; try ring)

theorem det_var_cofactor (v : var K) :
    det_var v = ∑ i : Fin 3, v i 0 * cofactor v i 0 := by
  obtain ⟨c0, c1, c2⟩ := cofactor_col_zero v
  rw [det_var_unfold, Fin.sum_univ_three, c0, c1, c2]

theorem fZerosFrom_iff (v : svar K) (l : List (Fin 6)) :
    fZerosFrom v l = true ↔ ∀ i ∈ l, v i = 0 := by
  induction l with
  | nil => simp [fZerosFrom]
  | cons i is ih =>
    by_cases h : v i = 0
    · simp [fZerosFrom, h, ih]
    · simp [fZerosFrom, h]

/-- C1: for a packed symmetric matrix whose determinant is at least THRESHOLD in
absolute value, `invert_svar` returns 1, the fatal "matrix didn't invert" check
does not fire, and the product of the matrix with what was written (on either
side, as `mulss` computes it) is exactly the identity. -/
theorem invert_svar_inverse (eps : K) (heps : 0 < eps) (inv v : svar K)
    (hdet : THRESHOLD eps ≤ |Matrix.det (Matrix.of (expand v))|) :
    ∃ inv', invert_svar eps inv v = some (1, inv') ∧
      mulss v inv' = identity ∧ mulss inv' v = identity ∧
      identity_error (mulss v inv') = 0 := by
  have hT := THRESHOLD_pos heps
  rw [← det_svar_eq] at hdet
  have hne : det_svar v ≠ 0 := by
    intro h0
    rw [h0, abs_zero] at hdet
    exact absurd hdet (not_le.mpr hT)
  have hr := mulss_entries_right v hne
  refine ⟨invert_svar_entries (1 / det_svar v) v, ?_, hr, mulss_entries_left v hne, ?_⟩
  · simp only [invert_svar, hr, identity_error_identity]
    rw [if_neg (not_lt.mpr hdet), if_neg (not_lt.mpr hT.le)]
  · rw [hr, identity_error_identity]

theorem invert_svar_inverse_witness :
    ∃ inv', invert_svar (1 / 1000 : ℚ) 0 ![2, 3, 4, 1, 0, 1] = some (1, inv') ∧
      mulss ![2, 3, 4, 1, 0, 1] inv' = identity ∧ mulss inv' ![2, 3, 4, 1, 0, 1] = identity ∧
      identity_error (mulss ![2, 3, 4, 1, 0, 1] inv') = 0 :=
  invert_svar_inverse (1 / 1000) (by norm_num) 0 ![2, 3, 4, 1, 0, 1] (by
    have e5 : (![2, 3, 4, 1, 0, 1] : svar ℚ) 5 = 1 := rfl
    rw [← det_svar_eq]
    norm_num [det_svar, THRESHOLD, e5])

/-- With reals modelled exactly, both inverters return 0, leaving the output
matrix as it was, exactly when the determinant of the input is below
THRESHOLD = REAL_EPSILON * 1000 in absolute value; on every other input they
return 1. -/
theorem invert_singular_iff (eps : K) (heps : 0 < eps) (dinv dv : var K) (sinv sv : svar K) :
    THRESHOLD eps = eps * 1000 ∧
    (invert_var eps dinv dv = some (0, dinv) ↔
      |Matrix.det (Matrix.of dv)| < THRESHOLD eps) ∧
    (¬ |Matrix.det (Matrix.of dv)| < THRESHOLD eps →
      ∃ inv', invert_var eps dinv dv = some (1, inv')) ∧
    (invert_svar eps sinv sv = some (0, sinv) ↔
      |Matrix.det (Matrix.of (expand sv))| < THRESHOLD eps) ∧
    (¬ |Matrix.det (Matrix.of (expand sv))| < THRESHOLD eps →
      ∃ inv', invert_svar eps sinv sv = some (1, inv')) := by
  have hT := THRESHOLD_pos heps
  rw [← det_var_eq, ← det_svar_eq]
  have dense : ¬ |det_var dv| < THRESHOLD eps →
      invert_var eps dinv dv = some (1, invert_var_entries (1 / det_var dv) dv) := by
    intro h
    have hne : det_var dv ≠ 0 := by
      intro h0
      rw [h0, abs_zero] at h
      exact h hT
    simp only [invert_var, mulvv_entries_right dv hne, identity_error_identity]
    rw [if_neg h, if_neg (not_lt.mpr hT.le)]
  have packed : ¬ |det_svar sv| < THRESHOLD eps →
      invert_svar eps sinv sv = some (1, invert_svar_entries (1 / det_svar sv) sv) := by
    intro h
    have hne : det_svar sv ≠ 0 := by
      intro h0
      rw [h0, abs_zero] at h
      exact h hT
    simp only [invert_svar, mulss_entries_right sv hne, identity_error_identity]
    rw [if_neg h, if_neg (not_lt.mpr hT.le)]
  refine ⟨rfl, ⟨?_, ?_⟩, fun h => ⟨_, dense h⟩, ⟨?_, ?_⟩, fun h => ⟨_, packed h⟩⟩
  · intro h
    by_contra hn
    rw [dense hn] at h
    simp at h
  · intro h
    simp only [invert_var]
    rw [if_pos h]
  · intro h
    by_contra hn
    rw [packed hn] at h
    simp at h
  · intro h
    simp only [invert_svar]
    rw [if_pos h]

/-- C3: for a dense matrix (symmetric or not) whose determinant is at least
THRESHOLD in absolute value, `invert_var` returns 1 and writes the true
inverse: its determinant is the cofactor expansion along column 0 (and is the
determinant of the matrix), entry (i,j) of the output is cofactor(j,i)/det, and
`mulvv` gives the identity for the product on either side. -/
theorem invert_var_inverse (eps : K) (heps : 0 < eps) (inv v : var K)
    (hdet : THRESHOLD eps ≤ |Matrix.det (Matrix.of v)|) :
    ∃ inv', invert_var eps inv v = some (1, inv') ∧
      det_var v = ∑ i : Fin 3, v i 0 * cofactor v i 0 ∧
      det_var v = Matrix.det (Matrix.of v) ∧
      (∀ i j, inv' i j = cofactor v j i / det_var v) ∧
      mulvv v inv' = identity ∧ mulvv inv' v = identity := by
  have hT := THRESHOLD_pos heps
  rw [← det_var_eq] at hdet
  have hne : det_var v ≠ 0 := by
    intro h0
    rw [h0, abs_zero] at hdet
    exact absurd hdet (not_le.mpr hT)
  have hr := mulvv_entries_right v hne
  refine ⟨invert_var_entries (1 / det_var v) v, ?_, det_var_cofactor v, det_var_eq v, ?_, hr,
    mulvv_entries_left v hne⟩
  · simp only [invert_var, hr, identity_error_identity]
    rw [if_neg (not_lt.mpr hdet), if_neg (not_lt.mpr hT.le)]
  · intro i j
    rw [invert_var_entries_cofactor, one_div, div_eq_inv_mul]

theorem invert_var_inverse_witness :
    ∃ inv', invert_var (1 / 1000 : ℚ) 0 exampleDense = some (1, inv') ∧
      det_var exampleDense = ∑ i : Fin 3, exampleDense i 0 * cofactor exampleDense i 0 ∧
      det_var exampleDense = Matrix.det (Matrix.of exampleDense) ∧
      (∀ i j, inv' i j = cofactor exampleDense j i / det_var exampleDense) ∧
      mulvv exampleDense inv' = identity ∧ mulvv inv' exampleDense = identity :=
  invert_var_inverse (1 / 1000) (by norm_num) 0 exampleDense (by
    rw [← det_var_eq, det_var_unfold]
    norm_num [exampleDense, THRESHOLD])

/-- C4: subtracting `b` from `add(a, b)` gives back `a` in every component, for
vectors (`adddd`, `subdd`), dense matrices (`addvv`, `subvv`) and packed
matrices (`addss`, `subss`). -/
theorem sub_add_cancel_all (a b : delta K) (va vb : var K) (sa sb : svar K) :
    (∀ i, subdd (adddd a b) b i = a i) ∧
    (∀ i j, subvv (addvv va vb) vb i j = va i j) ∧
    (∀ i, subss (addss sa sb) sb i = sa i) := by
  refine ⟨fun i => ?_, fun i j => ?_, fun i => ?_⟩
  · simp [subdd, adddd]
  · simp [subvv, addvv]
  · simp [subss, addss]

/-- C5: `fZeros(v)` is true if and only if all six packed components of `v`
are equal to 0. -/
theorem fZeros_iff (v : svar K) : fZeros v = true ↔ ∀ i : Fin 6, v i = 0 := by
  unfold fZeros
  rw [fZerosFrom_iff]
  constructor
  · intro h i
    exact h i (List.mem_finRange i)
  · intro h i _
    exact h i

/-! ### The inverters in `double` arithmetic -/

/-- What `invert_var` does in `double` arithmetic, by the two tests it makes. -/
theorem invert_var_f64_cases (E : Double) (inv v : var Double) :
    (singular_var_f64 E v = true → invert_var_f64 E inv v = some (0, inv)) ∧
    (singular_var_f64 E v = false → unchecked_var_f64 E v = true →
      invert_var_f64 E inv v = none) ∧
    (singular_var_f64 E v = false → unchecked_var_f64 E v = false →
      invert_var_f64 E inv v = some (1, written_var_f64 v)) := by
  refine ⟨?_, ?_, ?_⟩
  · intro h
    unfold singular_var_f64 at h
    simp only [invert_var_f64, h, if_true]
  · intro h h2
    unfold singular_var_f64 at h
    unfold unchecked_var_f64 written_var_f64 at h2
    simp only [invert_var_f64, h, h2, if_true, Bool.false_eq_true, if_false]
  · intro h h2
    unfold singular_var_f64 at h
    unfold unchecked_var_f64 written_var_f64 at h2
    simp only [invert_var_f64, h, h2, Bool.false_eq_true, if_false, written_var_f64]

/-- What `invert_svar` does in `double` arithmetic, by the two tests it makes. -/
theorem invert_svar_f64_cases (E : Double) (inv v : svar Double) :
    (singular_svar_f64 E v = true → invert_svar_f64 E inv v = some (0, inv)) ∧
    (singular_svar_f64 E v = false → unchecked_svar_f64 E v = true →
      invert_svar_f64 E inv v = none) ∧
    (singular_svar_f64 E v = false → unchecked_svar_f64 E v = false →
      invert_svar_f64 E inv v = some (1, written_svar_f64 v)) := by
  refine ⟨?_, ?_, ?_⟩
  · intro h
    unfold singular_svar_f64 at h
    simp only [invert_svar_f64, h, if_true]
  · intro h h2
    unfold singular_svar_f64 at h
    unfold unchecked_svar_f64 written_svar_f64 at h2
    simp only [invert_svar_f64, h, h2, if_true, Bool.false_eq_true, if_false]
  · intro h h2
    unfold singular_svar_f64 at h
    unfold unchecked_svar_f64 written_svar_f64 at h2
    simp only [invert_svar_f64, h, h2, Bool.false_eq_true, if_false, written_svar_f64]

/-- In `double` arithmetic `invert_var` returns 0 exactly when the determinant
it has computed is below THRESHOLD in magnitude. -/
theorem invert_var_f64_zero (E : Double) (inv v : var Double) :
    (invert_var_f64 E inv v).map Prod.fst = some 0 ↔ singular_var_f64 E v = true := by
  obtain ⟨h1, h2, h3⟩ := invert_var_f64_cases E inv v
  cases hs : singular_var_f64 E v
  · cases hu : unchecked_var_f64 E v
    · rw [h3 hs hu]
      simp
    · rw [h2 hs hu]
      simp
  · rw [h1 hs]
    simp

/-- In `double` arithmetic `invert_svar` returns 0 exactly when the determinant
it has computed is below THRESHOLD in magnitude. -/
theorem invert_svar_f64_zero (E : Double) (inv v : svar Double) :
    (invert_svar_f64 E inv v).map Prod.fst = some 0 ↔ singular_svar_f64 E v = true := by
  obtain ⟨h1, h2, h3⟩ := invert_svar_f64_cases E inv v
  cases hs : singular_svar_f64 E v
  · cases hu : unchecked_svar_f64 E v
    · rw [h3 hs hu]
      simp
    · rw [h2 hs hu]
      simp
  · rw [h1 hs]
    simp

/-- C2 (amended): in `double` arithmetic both inverters return 0, leaving the
output matrix as it was, exactly when the determinant they have computed is
below THRESHOLD = REAL_EPSILON * 1000 in magnitude (`fabs(det) < THRESHOLD`);
on every other input they write the entries for `1 / det` and return 1, unless
the sum of the check loop over the product of the input and what was written
is above THRESHOLD, in which case they stop in `BUG("matrix didn't invert")`.
With reals modelled exactly (and REAL_EPSILON positive) the determinant computed
is the determinant of the input, and on every input that does not return 0 they
return 1. -/
theorem invert_zero_iff_computed (eps : K) (heps : 0 < eps) (dinv dv : var K)
    (sinv sv : svar K) (E : Double) (inv v : var Double) (pinv pv : svar Double) :
    THRESHOLD_f64 E = E * Double.fin false 1000 ∧
    ((invert_var_f64 E inv v).map Prod.fst = some 0 ↔ singular_var_f64 E v = true) ∧
    (singular_var_f64 E v = true → invert_var_f64 E inv v = some (0, inv)) ∧
    (singular_var_f64 E v = false → unchecked_var_f64 E v = true →
      invert_var_f64 E inv v = none) ∧
    (singular_var_f64 E v = false → unchecked_var_f64 E v = false →
      invert_var_f64 E inv v = some (1, written_var_f64 v)) ∧
    ((invert_svar_f64 E pinv pv).map Prod.fst = some 0 ↔ singular_svar_f64 E pv = true) ∧
    (singular_svar_f64 E pv = true → invert_svar_f64 E pinv pv = some (0, pinv)) ∧
    (singular_svar_f64 E pv = false → unchecked_svar_f64 E pv = true →
      invert_svar_f64 E pinv pv = none) ∧
    (singular_svar_f64 E pv = false → unchecked_svar_f64 E pv = false →
      invert_svar_f64 E pinv pv = some (1, written_svar_f64 pv)) ∧
    THRESHOLD eps = eps * 1000 ∧
    (invert_var eps dinv dv = some (0, dinv) ↔
      |Matrix.det (Matrix.of dv)| < THRESHOLD eps) ∧
    (¬ |Matrix.det (Matrix.of dv)| < THRESHOLD eps →
      ∃ inv', invert_var eps dinv dv = some (1, inv')) ∧
    (invert_svar eps sinv sv = some (0, sinv) ↔
      |Matrix.det (Matrix.of (expand sv))| < THRESHOLD eps) ∧
    (¬ |Matrix.det (Matrix.of (expand sv))| < THRESHOLD eps →
      ∃ inv', invert_svar eps sinv sv = some (1, inv')) := by
  obtain ⟨d1, d2, d3⟩ := invert_var_f64_cases E inv v
  obtain ⟨p1, p2, p3⟩ := invert_svar_f64_cases E pinv pv
  exact ⟨rfl, invert_var_f64_zero E inv v, d1, d2, d3, invert_svar_f64_zero E pinv pv, p1, p2, p3,
    invert_singular_iff eps heps dinv dv sinv sv⟩

/-- The entries of the two example matrices are doubles: the nearest double is
the entry itself. -/
theorem example_entries_doubles :
    (∀ i, svar_f64 exampleIll i = Double.fin (decide (exampleIll i < 0)) |exampleIll i|) ∧
    (∀ i, svar_f64 exampleTie i = Double.fin (decide (exampleTie i < 0)) |exampleTie i|) := by
  decide!

/-- The determinants of the two example matrices, 3 and -1, are not below
THRESHOLD for `REAL_EPSILON = 2^-52`. -/
theorem example_determinants :
    Matrix.det (Matrix.of (expand exampleIll)) = 3 ∧
    Matrix.det (Matrix.of (expand exampleTie)) = -1 ∧
    ¬ |Matrix.det (Matrix.of (expand exampleIll))| < THRESHOLD (1 / 2 ^ 52 : ℚ) ∧
    ¬ |Matrix.det (Matrix.of (expand exampleTie))| < THRESHOLD (1 / 2 ^ 52 : ℚ) := by
  rw [← det_svar_eq, ← det_svar_eq]
  decide!

/-- C2, refuted as stated, in `double` arithmetic with
`REAL_EPSILON = DBL_EPSILON`: the packed matrix `(17, 13, 13, -13, -4, -3)` of
doubles has determinant 3, which is not below THRESHOLD, yet neither inverter
returns 1 on it: both stop in `BUG("matrix didn't invert")`; and the packed
matrix `(1, 2^27 - 1, 2^27 + 1, 0, 0, 2^27)` of doubles has determinant -1,
which is not below THRESHOLD, yet both inverters return 0 on it, the output
left as it was. -/
theorem invert_double_not_by_determinant :
    (∀ i, svar_f64 exampleIll i = Double.fin (decide (exampleIll i < 0)) |exampleIll i|) ∧
    Matrix.det (Matrix.of (expand exampleIll)) = 3 ∧
    ¬ |Matrix.det (Matrix.of (expand exampleIll))| < THRESHOLD (1 / 2 ^ 52 : ℚ) ∧
    invert_svar_f64 DBL_EPSILON (svar_f64 0) (svar_f64 exampleIll) = none ∧
    invert_var_f64 DBL_EPSILON (var_f64 0) (var_f64 (expand exampleIll)) = none ∧
    (∀ i, svar_f64 exampleTie i = Double.fin (decide (exampleTie i < 0)) |exampleTie i|) ∧
    Matrix.det (Matrix.of (expand exampleTie)) = -1 ∧
    ¬ |Matrix.det (Matrix.of (expand exampleTie))| < THRESHOLD (1 / 2 ^ 52 : ℚ) ∧
    invert_svar_f64 DBL_EPSILON (svar_f64 0) (svar_f64 exampleTie) = some (0, svar_f64 0) ∧
    invert_var_f64 DBL_EPSILON (var_f64 0) (var_f64 (expand exampleTie)) = some (0, var_f64 0) := by
  obtain ⟨r1, r2⟩ := example_entries_doubles
  obtain ⟨v1, v2, d1, d2⟩ := example_determinants
  refine ⟨r1, v1, d1, ?_, ?_, r2, v2, d2, ?_, ?_⟩
  · exact (invert_svar_f64_cases _ _ _).2.1 (by decide!) (by decide!)
  · exact (invert_var_f64_cases _ _ _).2.1 (by decide!) (by decide!)
  · exact (invert_svar_f64_cases _ _ _).1 (by decide!)
  · exact (invert_var_f64_cases _ _ _).1 (by decide!)

theorem invert_zero_iff_computed_witness :
    THRESHOLD_f64 DBL_EPSILON = DBL_EPSILON * Double.fin false 1000 ∧
    ((invert_var_f64 DBL_EPSILON (var_f64 0) (var_f64 exampleDense)).map Prod.fst = some 0 ↔
      singular_var_f64 DBL_EPSILON (var_f64 exampleDense) = true) ∧
    (singular_var_f64 DBL_EPSILON (var_f64 exampleDense) = true →
      invert_var_f64 DBL_EPSILON (var_f64 0) (var_f64 exampleDense) = some (0, var_f64 0)) ∧
    (singular_var_f64 DBL_EPSILON (var_f64 exampleDense) = false →
      unchecked_var_f64 DBL_EPSILON (var_f64 exampleDense) = true →
      invert_var_f64 DBL_EPSILON (var_f64 0) (var_f64 exampleDense) = none) ∧
    (singular_var_f64 DBL_EPSILON (var_f64 exampleDense) = false →
      unchecked_var_f64 DBL_EPSILON (var_f64 exampleDense) = false →
      invert_var_f64 DBL_EPSILON (var_f64 0) (var_f64 exampleDense) =
        some (1, written_var_f64 (var_f64 exampleDense))) ∧
    ((invert_svar_f64 DBL_EPSILON (svar_f64 0) (svar_f64 exampleIll)).map Prod.fst = some 0 ↔
      singular_svar_f64 DBL_EPSILON (svar_f64 exampleIll) = true) ∧
    (singular_svar_f64 DBL_EPSILON (svar_f64 exampleIll) = true →
      invert_svar_f64 DBL_EPSILON (svar_f64 0) (svar_f64 exampleIll) = some (0, svar_f64 0)) ∧
    (singular_svar_f64 DBL_EPSILON (svar_f64 exampleIll) = false →
      unchecked_svar_f64 DBL_EPSILON (svar_f64 exampleIll) = true →
      invert_svar_f64 DBL_EPSILON (svar_f64 0) (svar_f64 exampleIll) = none) ∧
    (singular_svar_f64 DBL_EPSILON (svar_f64 exampleIll) = false →
      unchecked_svar_f64 DBL_EPSILON (svar_f64 exampleIll) = false →
      invert_svar_f64 DBL_EPSILON (svar_f64 0) (svar_f64 exampleIll) =
        some (1, written_svar_f64 (svar_f64 exampleIll))) ∧
    THRESHOLD (1 / 1000 : ℚ) = 1 / 1000 * 1000 ∧
    (invert_var (1 / 1000 : ℚ) 0 0 = some (0, 0) ↔
      |Matrix.det (Matrix.of (0 : var ℚ))| < THRESHOLD (1 / 1000 : ℚ)) ∧
    (¬ |Matrix.det (Matrix.of (0 : var ℚ))| < THRESHOLD (1 / 1000 : ℚ) →
      ∃ inv', invert_var (1 / 1000 : ℚ) 0 0 = some (1, inv')) ∧
    (invert_svar (1 / 1000 : ℚ) 0 0 = some (0, 0) ↔
      |Matrix.det (Matrix.of (expand (0 : svar ℚ)))| < THRESHOLD (1 / 1000 : ℚ)) ∧
    (¬ |Matrix.det (Matrix.of (expand (0 : svar ℚ)))| < THRESHOLD (1 / 1000 : ℚ) →
      ∃ inv', invert_svar (1 / 1000 : ℚ) 0 0 = some (1, inv')) :=
  invert_zero_iff_computed (1 / 1000) (by norm_num) 0 0 0 0 DBL_EPSILON (var_f64 0)
    (var_f64 exampleDense) (svar_f64 0) (svar_f64 exampleIll)

/-- In `double` arithmetic `invert_var` returns 1 on the dense example matrix,
and `invert_svar` on the packed matrix `(2, 3, 4, 1, 0, 1)`. -/
theorem invert_f64_regular :
    invert_var_f64 DBL_EPSILON (var_f64 0) (var_f64 exampleDense) =
      some (1, written_var_f64 (var_f64 exampleDense)) ∧
    invert_svar_f64 DBL_EPSILON (svar_f64 0) (svar_f64 ![2, 3, 4, 1, 0, 1]) =
      some (1, written_svar_f64 (svar_f64 ![2, 3, 4, 1, 0, 1])) :=
  ⟨(invert_var_f64_cases _ _ _).2.2 (by decide!) (by decide!),
    (invert_svar_f64_cases _ _ _).2.2 (by decide!) (by decide!)⟩

/-! ### The node split of `freeleg`, stage by stage -/

theorem lt_of_getElem? {α : Type} {l : List α} {i : Nat} {a : α} (h : l[i]? = some a) :
    i < l.length := by
  rcases List.getElem?_eq_some.mp h with ⟨h, _⟩
  exact h

theorem getElem_of_getElem? {α : Type} {l : List α} {i : Nat} {a : α} (h : l[i]? = some a)
    (hlt : i < l.length) : l[i] = a := by
  rw [List.getElem?_eq_getElem hlt] at h
  exact Option.some.inj h

theorem getElem?_append_two {α : Type} (l : List α) (a b : α) :
    (l ++ [a, b])[l.length]? = some a ∧ (l ++ [a, b])[l.length + 1]? = some b := by
  constructor
  · rw [List.getElem?_append_right (Nat.le_refl _)]; simp
  · rw [List.getElem?_append_right (Nat.le_succ _)]; simp

theorem freeleg_new_eq (s : State K) (old : NodePtr) (n : node)
    (hn : s.nodes[old]? = some n)
    (hiter : s.stn_iter ≠ some s.nodes.length)
    (hhead : ∀ h, s.stnlist = some h → h < s.nodes.length) :
    ∃ s1, freeleg_new s old = some (s1, s.nodes.length, s.legs.length, s.legs.length + 1) ∧
      s1.nodes.length = s.nodes.length + 1 ∧
      s1.nodes[s.nodes.length]? = some ({ name := n.name, next := s.stnlist } : node) ∧
      (∀ m (nd : node), s.nodes[m]? = some nd → s1.nodes[m]? =
        some { nd with prev := if s.stnlist = some m then some s.nodes.length else nd.prev }) ∧
      s1.legs = s.legs ++ [({} : linkfor K), ({} : linkfor K)] ∧ s1.pfxs = s.pfxs ∧
      s1.poss = s.poss ∧
      s1.stnlist = some s.nodes.length ∧ s1.stn_iter = s.stn_iter ∧ s1.cLegs = s.cLegs ∧
      s1.cStns = s.cStns ∧ s1.pcs_flags = s.pcs_flags ∧ s1.msgs = s.msgs := by
  have hold : old < s.nodes.length := lt_of_getElem? hn
  cases hl : s.stnlist with
  | none =>
    simp [freeleg_new, add_stn_to_list, State.newNode, State.newLeg, State.modNode,
      State.getNode, hiter, hl, List.getElem?_set, List.getElem?_append, hold, hn]
    intro m nd hm
    simp [lt_of_getElem? hm, hm]
  | some h =>
    have hh := hhead h hl
    have hh2 : h ≠ s.nodes.length := Nat.ne_of_lt hh
    obtain ⟨hd, hhd⟩ : ∃ hd, s.nodes[h]? = some hd := ⟨s.nodes[h], List.getElem?_eq_getElem hh⟩
    have hn' : s.nodes[old] = n := by
      rw [List.getElem?_eq_getElem hold] at hn
      exact Option.some.inj hn
    have hhd' : s.nodes[h] = hd := by
      rw [List.getElem?_eq_getElem hh] at hhd
      exact Option.some.inj hhd
    simp [freeleg_new, add_stn_to_list, State.newNode, State.newLeg, State.modNode,
      State.getNode, hiter, hl, List.getElem?_set, List.getElem?_append, hold, hn, hh, hhd,
      hh2, Ne.symm hh2, List.getElem_set, hn']
    constructor
    · split
      · rename_i e
        subst e
        rw [← hn', hhd']
      · rfl
    · intro m nd hm
      have hm1 := lt_of_getElem? hm
      simp only [hm1, if_true]
      split
      · rename_i e
        subst e
        rw [hhd] at hm
        cases hm
        rfl
      · simp [hm]

theorem freeleg_fake_eq (s : State K) (old stn : NodePtr) (a b : LegPtr) (A B : linkfor K)
    (ha : s.legs[a]? = some A) (hb : s.legs[b]? = some B) (hab : a ≠ b) :
    freeleg_fake s old stn a b = some
      { s with
        legs := List.set (List.set s.legs a
            { A with to_ := some stn, d := some (fun _ => 0), v := some (fun _ => 0),
                     reverse := ⟨1, FLAG_DATAHERE.lor FLAG_FAKE⟩, flags := s.pcs_flags })
          b { B with to_ := some old, reverse := ⟨0, LegFlags.zero⟩ } } := by
  have hla := lt_of_getElem? ha
  have hlb := lt_of_getElem? hb
  simp [freeleg_fake, State.modLeg, ha, hb, hab, Ne.symm hab, List.getElem?_set, hla, hlb,
    getElem_of_getElem? ha (lt_of_getElem? ha), getElem_of_getElem? hb (lt_of_getElem? hb)]

theorem freeleg_move_eq (s : State K) (old stn : NodePtr) (a b : LegPtr) (n m Tn : node)
    (l0 r : LegPtr) (L0 R : linkfor K) (T : NodePtr)
    (hn : s.nodes[old]? = some n) (hm : s.nodes[stn]? = some m) (hne : stn ≠ old)
    (h0 : n.leg 0 = some l0) (hL0 : s.legs[l0]? = some L0) (hT : L0.to_ = some T)
    (hTn : s.nodes[T]? = some Tn) (hTs : T ≠ stn) (hr : Tn.leg L0.reverse.dirn = some r)
    (hR : s.legs[r]? = some R) :
    ∃ s', freeleg_move s old stn a b = some s' ∧
      s'.nodes.length = s.nodes.length ∧
      s'.nodes[stn]? = some { m with
        leg := Function.update (Function.update (Function.update m.leg 0 (some l0)) 1 (some b))
          2 none } ∧
      s'.nodes[old]? = some { n with leg := Function.update n.leg 0 (some a) } ∧
      (∀ q, q ≠ stn → q ≠ old → s'.nodes[q]? = s.nodes[q]?) ∧
      s' = { s with nodes := s'.nodes, legs := s.legs.set r { R with to_ := some stn } } := by
  have hlo := lt_of_getElem? hn
  have hls := lt_of_getElem? hm
  have hlT := lt_of_getElem? hTn
  have hlr := lt_of_getElem? hR
  simp [freeleg_move, State.modNode, State.modLeg, State.getNode, State.getLeg, reverse_leg,
    hn, hm, hne, Ne.symm hne, h0, hL0, hT, hTn, hTs, Ne.symm hTs, hr, hR, List.getElem?_set,
    hlo, hls, hlT, hlr, getElem_of_getElem? hn (lt_of_getElem? hn)]
  intro q h1 h2
  simp [Ne.symm h1, Ne.symm h2]

theorem freeleg_split_spec (s : State K) (old : NodePtr) (n Tn : node)
    (l0 r : LegPtr) (L0 R : linkfor K) (T : NodePtr)
    (hn : s.nodes[old]? = some n) (h0 : n.leg 0 = some l0)
    (hL0 : s.legs[l0]? = some L0) (hT : L0.to_ = some T)
    (hTn : s.nodes[T]? = some Tn) (hr : Tn.leg L0.reverse.dirn = some r)
    (hR : s.legs[r]? = some R)
    (hiter : s.stn_iter ≠ some s.nodes.length)
    (hhead : ∀ h, s.stnlist = some h → h < s.nodes.length) :
    ∃ s', freeleg_split s old = some (s', s.nodes.length, 2) ∧
      s'.nodes.length = s.nodes.length + 1 ∧
      s'.legs.length = s.legs.length + 2 ∧
      s'.nodes[s.nodes.length]? = some
        { name := n.name,
          leg := Function.update (Function.update (Function.update (fun _ => none) 0 (some l0))
            1 (some (s.legs.length + 1))) 2 none,
          next := s.stnlist, prev := none } ∧
      (∀ q (nd : node), s.nodes[q]? = some nd → s'.nodes[q]? = some
        { nd with
          leg := if q = old then Function.update nd.leg 0 (some s.legs.length) else nd.leg,
          prev := if s.stnlist = some q then some s.nodes.length else nd.prev }) ∧
      s'.legs[s.legs.length]? = some
        { to_ := some s.nodes.length, reverse := ⟨1, FLAG_DATAHERE.lor FLAG_FAKE⟩,
          flags := s.pcs_flags, d := some (fun _ => 0), v := some (fun _ => 0) } ∧
      s'.legs[s.legs.length + 1]? = some
        { to_ := some old, reverse := ⟨0, LegFlags.zero⟩ } ∧
      (∀ l (L : linkfor K), s.legs[l]? = some L → s'.legs[l]? = some
        (if l = r then { L with to_ := some s.nodes.length } else L)) ∧
      s'.pfxs = s.pfxs ∧ s'.poss = s.poss ∧ s'.stnlist = some s.nodes.length ∧
      s'.stn_iter = s.stn_iter ∧ s'.cLegs = s.cLegs ∧ s'.cStns = s.cStns ∧
      s'.pcs_flags = s.pcs_flags ∧ s'.msgs = s.msgs := by
  obtain ⟨s1, e1, n1len, n1new, n1old, l1, p1, q1, sl1, it1, c1, cs1, pf1, m1⟩ :=
    freeleg_new_eq s old n hn hiter hhead
  have hlo := lt_of_getElem? hn
  have hlT := lt_of_getElem? hTn
  have hll0 := lt_of_getElem? hL0
  have hlr := lt_of_getElem? hR
  have ha : s1.legs[s.legs.length]? = some ({} : linkfor K) := by
    rw [l1]; exact (getElem?_append_two _ _ _).1
  have hb : s1.legs[s.legs.length + 1]? = some ({} : linkfor K) := by
    rw [l1]; exact (getElem?_append_two _ _ _).2
  have e2 := freeleg_fake_eq s1 old s.nodes.length s.legs.length (s.legs.length + 1) _ _ ha hb
    (Nat.ne_of_lt (Nat.lt_succ_self _))
  have old1 := n1old old n hn
  have T1 := n1old T Tn hTn
  generalize hlegs2 : List.set (List.set s1.legs s.legs.length
          ({ to_ := some s.nodes.length, d := some (fun _ => 0), v := some (fun _ => 0),
              reverse := ⟨1, FLAG_DATAHERE.lor FLAG_FAKE⟩, flags := s1.pcs_flags } : linkfor K))
        (s.legs.length + 1)
        ({ to_ := some old, reverse := ⟨0, LegFlags.zero⟩ } : linkfor K) = legs2 at e2
  have legs_old : ∀ (l : Nat) (L : linkfor K), s.legs[l]? = some L → legs2[l]? = some L := by
    intro l L hl
    have hll := lt_of_getElem? hl
    rw [← hlegs2, List.getElem?_set_ne (by omega), List.getElem?_set_ne (by omega), l1,
      List.getElem?_append_left hll, hl]
  obtain ⟨s3, e3, n3len, n3new, n3old, n3oth, s3eq⟩ := freeleg_move_eq
    { s1 with legs := legs2 } old s.nodes.length s.legs.length (s.legs.length + 1) _ _ _ l0 r
    L0 R T old1 n1new (Nat.ne_of_gt hlo) h0 (legs_old l0 L0 hL0) hT T1 (Nat.ne_of_lt hlT) hr
    (legs_old r R hR)
  have hlegs3 : s3.legs = legs2.set r { R with to_ := some s.nodes.length } :=
    congrArg State.legs s3eq
  have hlen2 : legs2.length = s.legs.length + 2 := by
    rw [← hlegs2, List.length_set, List.length_set, l1, List.length_append]
    rfl
  refine ⟨s3, ?_, ?_, ?_, ?_, ?_, ?_, ?_, ?_, ?_⟩
  · simp [freeleg_split, e1, e2, e3]
  · rw [n3len]; exact n1len
  · rw [hlegs3, List.length_set, hlen2]
  · exact n3new
  · intro q nd hq
    have hlq := lt_of_getElem? hq
    by_cases hqo : q = old
    · subst hqo
      rw [hn] at hq
      cases hq
      simp only [if_true]
      exact n3old
    · rw [n3oth q (Nat.ne_of_lt hlq) hqo]
      simp only [hqo, if_false]
      exact n1old q nd hq
  · rw [hlegs3, List.getElem?_set_ne (Nat.ne_of_lt hlr), ← hlegs2,
      List.getElem?_set_ne (Nat.ne_of_gt (Nat.lt_succ_self _)), List.getElem?_set_self, pf1]
    rw [l1, List.length_append]
    exact Nat.lt_add_of_pos_right (by simp)
  · rw [hlegs3, List.getElem?_set_ne (Nat.ne_of_lt (Nat.lt_succ_of_lt hlr)), ← hlegs2,
      List.getElem?_set_self]
    rw [List.length_set, l1, List.length_append]
    exact Nat.add_lt_add_left (by simp) _
  · intro l L hl
    have hll := lt_of_getElem? hl
    rw [hlegs3]
    by_cases hlr' : l = r
    · subst hlr'
      rw [hR] at hl
      cases hl
      rw [List.getElem?_set_self (by rw [hlen2]; exact Nat.lt_add_right 2 hll), if_pos rfl]
    · rw [List.getElem?_set_ne (Ne.symm hlr'), if_neg hlr']
      exact legs_old l L hl
  · have e := s3eq
    refine ⟨?_, ?_, ?_, ?_, ?_, ?_, ?_, ?_⟩
    · rw [congrArg State.pfxs e]; exact p1
    · rw [congrArg State.poss e]; exact q1
    · rw [congrArg State.stnlist e]; exact sl1
    · rw [congrArg State.stn_iter e]; exact it1
    · rw [congrArg State.cLegs e]; exact c1
    · rw [congrArg State.cStns e]; exact cs1
    · rw [congrArg State.pcs_flags e]; exact pf1
    · rw [congrArg State.msgs e]; exact m1

theorem pair_unique {s : State K} (hw : WF s) {q1 q2 : NodePtr} {nd1 nd2 : node} {i1 i2 : Fin 3}
    {lp : LegPtr} (h1 : s.nodes[q1]? = some nd1) (h1' : nd1.leg i1 = some lp)
    (h2 : s.nodes[q2]? = some nd2) (h2' : nd2.leg i2 = some lp) : q1 = q2 ∧ i1 = i2 := by
  obtain ⟨L, T, Tn, r, R, hL, hT, hTn, hr, hR, hRt, hRd, _⟩ := hw.pair q1 nd1 i1 lp h1 h1'
  obtain ⟨L', T', Tn', r', R', hL', hT', hTn', hr', hR', hRt', hRd', _⟩ :=
    hw.pair q2 nd2 i2 lp h2 h2'
  rw [hL] at hL'
  cases hL'
  rw [hT] at hT'
  cases hT'
  rw [hTn] at hTn'
  cases hTn'
  rw [hr] at hr'
  cases hr'
  rw [hR] at hR'
  cases hR'
  rw [hRt] at hRt'
  cases hRt'
  exact ⟨rfl, hRd.symm.trans hRd'⟩

theorem exists_of_lt {α : Type} {l : List α} {i : Nat} (h : i < l.length) :
    ∃ a, l[i]? = some a := ⟨l[i], List.getElem?_eq_getElem h⟩

/-! ### Matched pairs across a node split -/

/-- The matched pairs survive a node split. -/
theorem split_pair (s s' : State K) (hw : WF s) (old : NodePtr) (n Tn : node)
    (l0 r : LegPtr) (L0 R : linkfor K) (T : NodePtr)
    (hn : s.nodes[old]? = some n) (h0 : n.leg 0 = some l0)
    (hL0 : s.legs[l0]? = some L0) (hT : L0.to_ = some T)
    (hTn : s.nodes[T]? = some Tn) (hr : Tn.leg L0.reverse.dirn = some r)
    (hR : s.legs[r]? = some R) (hRt : R.to_ = some old) (hRd : R.reverse.dirn = 0)
    (hdh : data_here L0 ≠ data_here R)
    (nlen : s'.nodes.length = s.nodes.length + 1)
    (hN : s'.nodes[s.nodes.length]? = some
        { name := n.name,
          leg := Function.update (Function.update (Function.update (fun _ => none) 0 (some l0))
            1 (some (s.legs.length + 1))) 2 none,
          next := s.stnlist, prev := none })
    (hq : ∀ q (nd : node), s.nodes[q]? = some nd → s'.nodes[q]? = some
        { nd with
          leg := if q = old then Function.update nd.leg 0 (some s.legs.length) else nd.leg,
          prev := if s.stnlist = some q then some s.nodes.length else nd.prev })
    (hLg : s'.legs[s.legs.length]? = some
        { to_ := some s.nodes.length, reverse := ⟨1, FLAG_DATAHERE.lor FLAG_FAKE⟩,
          flags := s.pcs_flags, d := some (fun _ => 0), v := some (fun _ => 0) })
    (hLg1 : s'.legs[s.legs.length + 1]? = some
        { to_ := some old, reverse := ⟨0, LegFlags.zero⟩ })
    (hl : ∀ l (L : linkfor K), s.legs[l]? = some L → s'.legs[l]? = some
        (if l = r then { L with to_ := some s.nodes.length } else L)) :
    ∀ (q : NodePtr) (nd : node) (i : Fin 3) (lp : LegPtr),
      s'.nodes[q]? = some nd → nd.leg i = some lp → PairAt s' q i lp := by
  have hlo := lt_of_getElem? hn
  have hl0r : l0 ≠ r := by
    intro e
    subst e
    rw [hL0] at hR
    cases hR
    exact hdh rfl
  -- the slot of `T` that holds `r` is not slot 0 of `old`
  have hTd : ¬ (T = old ∧ L0.reverse.dirn = 0) := by
    rintro ⟨e1, e2⟩
    subst e1
    rw [hn] at hTn
    cases hTn
    rw [e2, h0] at hr
    cases hr
    exact hl0r rfl
  have hTn' := hq T Tn hTn
  have hr' : (if T = old then Function.update Tn.leg 0 (some s.legs.length) else Tn.leg)
      L0.reverse.dirn = some r := by
    by_cases e : T = old
    · rw [if_pos e, Function.update_noteq (fun e2 => hTd ⟨e, e2⟩)]
      exact hr
    · rw [if_neg e]
      exact hr
  have hold' := hq old n hn
  intro q nd i lp hnd hi
  have hqlt : q < s.nodes.length + 1 := nlen ▸ lt_of_getElem? hnd
  rcases Nat.lt_succ_iff_lt_or_eq.mp hqlt with hlt | heq
  · -- a station that was there before
    obtain ⟨nd0, hnd0⟩ := exists_of_lt hlt
    rw [hq q nd0 hnd0] at hnd
    cases hnd
    by_cases hslot : q = old ∧ i = 0
    · -- slot 0 of `old`: the new leg
      obtain ⟨e1, e2⟩ := hslot
      subst e1 e2
      simp only [if_true, Function.update_same] at hi
      cases hi
      refine ⟨_, _, _, _, _, hLg, rfl, hN, ?_, hLg1, rfl, rfl, ?_⟩
      · simp
      · simp [data_here, FLAG_DATAHERE, FLAG_FAKE, LegFlags.lor, LegFlags.zero]
    · -- a slot that keeps its leg
      have hi0 : nd0.leg i = some lp := by
        by_cases e : q = old
        · have hi' : i ≠ 0 := fun e2 => hslot ⟨e, e2⟩
          simpa [e, Function.update_noteq hi'] using hi
        · simpa [e] using hi
      obtain ⟨L, T', Tn', r', R', hL, hT', hTn0, hr0, hR', hRt', hRd', hdh'⟩ :=
        hw.pair q nd0 i lp hnd0 hi0
      by_cases hlpr : lp = r
      · -- the moved leg's partner
        subst hlpr
        obtain ⟨e1, e2⟩ := pair_unique hw hnd0 hi0 hTn hr
        subst e1
        rw [hR] at hL
        cases hL
        refine ⟨{ R with to_ := some s.nodes.length }, s.nodes.length, _, l0, L0,
          (hl lp R hR).trans (by rw [if_pos rfl]), rfl, hN, ?_,
          (hl l0 L0 hL0).trans (by rw [if_neg hl0r]), hT, e2.symm, fun e => hdh e.symm⟩
        show Function.update _ _ _ R.reverse.dirn = _
        rw [hRd]
        simp
      · have hTd' : ¬ (T' = old ∧ L.reverse.dirn = 0) := by
          rintro ⟨e1, e2⟩
          subst e1
          rw [hn] at hTn0
          cases hTn0
          rw [e2, h0] at hr0
          cases hr0
          rw [hL0] at hR'
          cases hR'
          rw [hT] at hRt'
          cases hRt'
          rw [hnd0] at hTn
          cases hTn
          rw [hRd', hi0] at hr
          cases hr
          exact hlpr rfl
        have hr'r : r' ≠ r := by
          intro e
          subst e
          rw [hR] at hR'
          cases hR'
          rw [hRt] at hRt'
          cases hRt'
          exact hslot ⟨rfl, hRd'.symm.trans hRd⟩
        refine ⟨L, T', _, r', R', (hl lp L hL).trans (by rw [if_neg hlpr]), hT',
          hq T' Tn' hTn0, ?_, (hl r' R' hR').trans (by rw [if_neg hr'r]), hRt', hRd', hdh'⟩
        by_cases e : T' = old
        · simp only [e, if_true]
          rw [Function.update_noteq (fun e2 => hTd' ⟨e, e2⟩)]
          exact hr0
        · simp only [e, if_false]
          exact hr0
  · -- the new station
    subst heq
    rw [hN] at hnd
    cases hnd
    have h3 : i = 0 ∨ i = 1 ∨ i = 2 := by
      fin_cases i <;> simp
    rcases h3 with e | e | e
    · subst e
      simp at hi
      subst hi
      exact ⟨L0, T, _, r, { R with to_ := some s.nodes.length },
        (hl _ L0 hL0).trans (by rw [if_neg hl0r]), hT, hTn', hr',
        (hl r R hR).trans (by rw [if_pos rfl]), rfl, hRd, hdh⟩
    · subst e
      simp at hi
      subst hi
      refine ⟨_, _, _, _, _, hLg1, rfl, hold', ?_, hLg, rfl, rfl, ?_⟩
      · simp
      · simp [data_here, FLAG_DATAHERE, FLAG_FAKE, LegFlags.lor, LegFlags.zero]
    · subst e
      simp at hi

/-! ### `freeleg` on well-formed graphs -/

theorem freeleg_free (s : State K) (stn : NodePtr) (n : node) (hn : s.nodes[stn]? = some n)
    (hfree : ∃ k, n.leg k = none) :
    ∃ i, freeleg s stn = some (s, stn, i) ∧ n.leg i = none ∧ ∀ k, k < i → n.leg k ≠ none := by
  by_cases h0 : n.leg 0 = none
  · refine ⟨0, by simp [freeleg, State.getNode, hn, h0], h0, ?_⟩
    intro k hk
    exact absurd hk (by simp)
  by_cases h1 : n.leg 1 = none
  · refine ⟨1, by simp [freeleg, State.getNode, hn, h0, h1], h1, ?_⟩
    intro k hk
    have : k = 0 := by
      fin_cases k <;> simp_all
    subst this
    exact h0
  by_cases h2 : n.leg 2 = none
  · refine ⟨2, by simp [freeleg, State.getNode, hn, h0, h1, h2], h2, ?_⟩
    intro k hk
    have : k = 0 ∨ k = 1 := by
      fin_cases k <;> simp_all
    rcases this with e | e <;> subst e <;> assumption
  · exfalso
    obtain ⟨k, hk⟩ := hfree
    have : k = 0 ∨ k = 1 ∨ k = 2 := by
      fin_cases k <;> simp
    rcases this with e | e | e <;> subst e <;> contradiction

theorem freeleg_full (s : State K) (stn : NodePtr) (n : node) (hn : s.nodes[stn]? = some n)
    (hfull : ∀ k, n.leg k ≠ none) : freeleg s stn = freeleg_split s stn := by
  simp [freeleg, State.getNode, hn, hfull]

theorem freeleg_wf (s : State K) (hw : WF s) (stn : NodePtr) (n : node)
    (hn : s.nodes[stn]? = some n) :
    ∃ s' stn' i n', freeleg s stn = some (s', stn', i) ∧ WF s' ∧
      s'.nodes[stn']? = some n' ∧ n'.leg i = none ∧ n'.name = n.name ∧
      (∀ (q : NodePtr) (nd : node), s.nodes[q]? = some nd →
        ∃ nd' : node, s'.nodes[q]? = some nd' ∧ nd'.name = nd.name ∧
          (q ≠ stn → nd'.leg = nd.leg)) ∧
      (∀ (q : NodePtr) (nd' : node), s'.nodes[q]? = some nd' → s.nodes.length ≤ q →
        nd'.name = n.name) ∧
      (∀ (l : LegPtr) (L : linkfor K), s.legs[l]? = some L →
        ∃ L' : linkfor K, s'.legs[l]? = some L' ∧ L'.reverse = L.reverse ∧ L'.flags = L.flags ∧
          L'.d = L.d ∧ L'.v = L.v ∧ (L'.to_ = L.to_ ∨ L.to_ = some stn)) ∧
      s'.pfxs = s.pfxs ∧ s'.poss = s.poss ∧ s'.stn_iter = s.stn_iter ∧ s'.cLegs = s.cLegs ∧
      s'.cStns = s.cStns ∧ s'.pcs_flags = s.pcs_flags ∧ s'.msgs = s.msgs := by
  by_cases hfree : ∃ k, n.leg k = none
  · obtain ⟨i, e, hi, _⟩ := freeleg_free s stn n hn hfree
    refine ⟨s, stn, i, n, e, hw, hn, hi, rfl, ?_, ?_, ?_, rfl, rfl, rfl, rfl, rfl, rfl, rfl⟩
    · intro q nd hq
      exact ⟨nd, hq, rfl, fun _ => rfl⟩
    · intro q nd' hq hle
      exact absurd (lt_of_getElem? hq) (Nat.not_lt.mpr hle)
    · intro l L hl
      exact ⟨L, hl, rfl, rfl, rfl, rfl, Or.inl rfl⟩
  · have hfull : ∀ k, n.leg k ≠ none := fun k hk => hfree ⟨k, hk⟩
    obtain ⟨l0, h0⟩ := Option.ne_none_iff_exists'.mp (hfull 0)
    obtain ⟨L0, T, Tn, r, R, hL0, hT, hTn, hr, hR, hRt, hRd, hdh⟩ := hw.pair stn n 0 l0 hn h0
    have hiter : s.stn_iter ≠ some s.nodes.length := by
      intro e
      exact absurd (hw.iter _ e) (Nat.lt_irrefl _)
    obtain ⟨s', e, nlen, llen, hN, hq, hLg, hLg1, hl, hp, hpos, hsl, hit, hc, hcs, hpf, hm⟩ :=
      freeleg_split_spec s stn n Tn l0 r L0 R T hn h0 hL0 hT hTn hr hR hiter hw.head
    refine ⟨s', s.nodes.length, 2, _, (freeleg_full s stn n hn hfull).trans e, ?_, hN, ?_, rfl,
      ?_, ?_, ?_, hp, hpos, hit, hc, hcs, hpf, hm⟩
    · -- well-formedness
      refine ⟨?_, ?_, ?_, ?_, ?_⟩
      · intro h hh
        rw [hsl] at hh
        cases hh
        rw [nlen]
        exact Nat.lt_succ_self _
      · intro x hx
        rw [hit] at hx
        rw [nlen]
        exact Nat.lt_succ_of_lt (hw.iter x hx)
      · intro q nd hnd
        have hqlt : q < s.nodes.length + 1 := nlen ▸ lt_of_getElem? hnd
        rcases Nat.lt_succ_iff_lt_or_eq.mp hqlt with hlt | heq
        · obtain ⟨nd0, hnd0⟩ := exists_of_lt hlt
          rw [hq q nd0 hnd0] at hnd
          cases hnd
          rw [hp]
          exact hw.name q nd0 hnd0
        · subst heq
          rw [hN] at hnd
          cases hnd
          rw [hp]
          exact hw.name stn n hn
      · intro p px m hpx hm'
        rw [hp] at hpx
        obtain ⟨nd, hnd, hname⟩ := hw.stn p px m hpx hm'
        exact ⟨_, hq m nd hnd, hname⟩
      · exact split_pair s s' hw stn n Tn l0 r L0 R T hn h0 hL0 hT hTn hr hR hRt hRd hdh nlen hN
          hq hLg hLg1 hl
    · simp
    · intro q nd hnd
      refine ⟨_, hq q nd hnd, rfl, ?_⟩
      intro hne
      simp [hne]
    · intro q nd' hnd hle
      have hqlt : q < s.nodes.length + 1 := nlen ▸ lt_of_getElem? hnd
      have heq : q = s.nodes.length := Nat.le_antisymm (Nat.lt_succ_iff.mp hqlt) hle
      subst heq
      rw [hN] at hnd
      cases hnd
      rfl
    · intro l L hL
      refine ⟨_, hl l L hL, ?_⟩
      by_cases e : l = r
      · subst e
        rw [hR] at hL
        cases hL
        simp [hRt]
      · simp [e]

/-! ### `StnFromPfx` -/

theorem StnFromPfx_old (s : State K) (name : PfxPtr) (x : Prefix) (stn : NodePtr)
    (hx : s.pfxs[name]? = some x) (hs : x.stn = some stn) :
    StnFromPfx s name = some (s, stn) := by
  simp [StnFromPfx, State.getPfx, hx, hs]

theorem StnFromPfx_new (s : State K) (name : PfxPtr) (x : Prefix)
    (hx : s.pfxs[name]? = some x) (hs : x.stn = none)
    (hiter : s.stn_iter ≠ some s.nodes.length)
    (hhead : ∀ h, s.stnlist = some h → h < s.nodes.length) :
    ∃ s', StnFromPfx s name = some (s', s.nodes.length) ∧
      s'.nodes.length = s.nodes.length + 1 ∧
      s'.nodes[s.nodes.length]? = some
        ({ name := some name, next := s.stnlist } : node) ∧
      (∀ (q : NodePtr) (nd : node), s.nodes[q]? = some nd → s'.nodes[q]? = some
        { nd with prev := if s.stnlist = some q then some s.nodes.length else nd.prev }) ∧
      s'.legs = s.legs ∧
      s'.pfxs = s.pfxs.set name
        { x with pos := if x.pos = none then some s.poss.length else x.pos,
                 fixed := if x.pos = none then false else x.fixed,
                 stn := some s.nodes.length } ∧
      s'.poss = (if x.pos = none then s.poss ++ [some ({} : pos K)] else s.poss) ∧
      s'.stnlist = some s.nodes.length ∧ s'.stn_iter = s.stn_iter ∧ s'.cLegs = s.cLegs ∧
      s'.cStns = s.cStns + 1 ∧ s'.pcs_flags = s.pcs_flags ∧ s'.msgs = s.msgs := by
  have hlx := lt_of_getElem? hx
  have hx' := getElem_of_getElem? hx (lt_of_getElem? hx)
  cases hp : x.pos with
  | none =>
    cases hl : s.stnlist with
    | none =>
      simp [StnFromPfx, State.getPfx, hx, hs, hp, hl, add_stn_to_list, State.newNode,
        State.newPos, State.modNode, State.modPfx, State.getNode, unfix, hiter,
        List.getElem?_set, List.getElem?_append, hlx, hx']
      intro q nd hq
      simp [lt_of_getElem? hq, hq]
    | some h =>
      have hh := hhead h hl
      obtain ⟨hd, hhd⟩ := exists_of_lt hh
      have hhd' := getElem_of_getElem? hhd (lt_of_getElem? hhd)
      simp [StnFromPfx, State.getPfx, hx, hs, hp, hl, add_stn_to_list, State.newNode,
        State.newPos, State.modNode, State.modPfx, State.getNode, unfix, hiter,
        List.getElem?_set, List.getElem?_append, hlx, hx', hh, hhd, hhd', Nat.ne_of_lt hh,
        Nat.ne_of_gt hh]
      intro q nd hq
      by_cases e : h = q
      · subst e
        rw [hhd] at hq
        cases hq
        simp [hh]
      · simp [lt_of_getElem? hq, hq, e]
  | some p =>
    cases hl : s.stnlist with
    | none =>
      simp [StnFromPfx, State.getPfx, hx, hs, hp, hl, add_stn_to_list, State.newNode,
        State.newPos, State.modNode, State.modPfx, State.getNode, unfix, hiter,
        List.getElem?_set, List.getElem?_append, hlx, hx']
      intro q nd hq
      simp [lt_of_getElem? hq, hq]
    | some h =>
      have hh := hhead h hl
      obtain ⟨hd, hhd⟩ := exists_of_lt hh
      have hhd' := getElem_of_getElem? hhd (lt_of_getElem? hhd)
      simp [StnFromPfx, State.getPfx, hx, hs, hp, hl, add_stn_to_list, State.newNode,
        State.newPos, State.modNode, State.modPfx, State.getNode, unfix, hiter,
        List.getElem?_set, List.getElem?_append, hlx, hx', hh, hhd, hhd', Nat.ne_of_lt hh,
        Nat.ne_of_gt hh]
      intro q nd hq
      by_cases e : h = q
      · subst e
        rw [hhd] at hq
        cases hq
        simp [hh]
      · simp [lt_of_getElem? hq, hq, e]

theorem StnFromPfx_wf (s : State K) (hw : WF s) (name : PfxPtr) (x : Prefix)
    (hx : s.pfxs[name]? = some x) :
    ∃ s' stn nd, StnFromPfx s name = some (s', stn) ∧ WF s' ∧
      s'.nodes[stn]? = some nd ∧ nd.name = some name ∧
      (∀ (q : NodePtr) (nd : node), s.nodes[q]? = some nd →
        ∃ nd' : node, s'.nodes[q]? = some nd' ∧ nd'.name = nd.name ∧ nd'.leg = nd.leg) ∧
      (∀ (q : NodePtr) (nd' : node), s'.nodes[q]? = some nd' → s.nodes.length ≤ q →
        q = stn ∧ nd'.name = some name ∧ nd'.leg = fun _ => none) ∧
      s'.legs = s.legs ∧
      (∀ (p : PfxPtr) (px : Prefix), s.pfxs[p]? = some px →
        ∃ px' : Prefix, s'.pfxs[p]? = some px' ∧ (p ≠ name → px' = px) ∧
          (px.stn ≠ none → px' = px) ∧ px'.up = px.up ∧ px'.ident = px.ident ∧
          px'.shape = px.shape) ∧
      s'.pfxs.length = s.pfxs.length ∧
      (∃ px' : Prefix, s'.pfxs[name]? = some px' ∧ px'.stn = some stn) ∧
      s'.stn_iter = s.stn_iter ∧ s'.cLegs = s.cLegs ∧ s'.pcs_flags = s.pcs_flags ∧
      s'.msgs = s.msgs := by
  cases hs : x.stn with
  | some stn =>
    obtain ⟨nd, hnd, hname⟩ := hw.stn name x stn hx hs
    refine ⟨s, stn, nd, StnFromPfx_old s name x stn hx hs, hw, hnd, hname, ?_, ?_, rfl, ?_, rfl,
      ⟨x, hx, hs⟩, rfl, rfl, rfl, rfl⟩
    · intro q nd hq
      exact ⟨nd, hq, rfl, rfl⟩
    · intro q nd' hq hle
      exact absurd (lt_of_getElem? hq) (Nat.not_lt.mpr hle)
    · intro p px hp
      exact ⟨px, hp, fun _ => rfl, fun _ => rfl, rfl, rfl, rfl⟩
  | none =>
    have hiter : s.stn_iter ≠ some s.nodes.length := by
      intro e
      exact absurd (hw.iter _ e) (Nat.lt_irrefl _)
    have hlx := lt_of_getElem? hx
    obtain ⟨s', e, nlen, hN, hq, hlegs, hpf, hpos, hsl, hit, hc, hcs, hpc, hm⟩ :=
      StnFromPfx_new s name x hx hs hiter hw.head
    have hpname : s'.pfxs[name]? = some
        { x with pos := if x.pos = none then some s.poss.length else x.pos,
                 fixed := if x.pos = none then false else x.fixed,
                 stn := some s.nodes.length } := by
      rw [hpf, List.getElem?_set_self hlx]
    have hpoth : ∀ p : PfxPtr, p ≠ name → s'.pfxs[p]? = s.pfxs[p]? := by
      intro p hp
      rw [hpf, List.getElem?_set_ne (Ne.symm hp)]
    refine ⟨s', s.nodes.length, _, e, ?_, hN, rfl, ?_, ?_, hlegs, ?_, ?_, ⟨_, hpname, rfl⟩,
      hit, hc, hpc, hm⟩
    · refine ⟨?_, ?_, ?_, ?_, ?_⟩
      · intro h hh
        rw [hsl] at hh
        cases hh
        rw [nlen]
        exact Nat.lt_succ_self _
      · intro y hy
        rw [hit] at hy
        rw [nlen]
        exact Nat.lt_succ_of_lt (hw.iter y hy)
      · intro q nd hnd
        have hqlt : q < s.nodes.length + 1 := nlen ▸ lt_of_getElem? hnd
        rcases Nat.lt_succ_iff_lt_or_eq.mp hqlt with hlt | heq
        · obtain ⟨nd0, hnd0⟩ := exists_of_lt hlt
          rw [hq q nd0 hnd0] at hnd
          cases hnd
          obtain ⟨p, px, m, h1, h2, h3⟩ := hw.name q nd0 hnd0
          by_cases hp : p = name
          · subst hp
            rw [hx] at h2
            cases h2
            rw [hs] at h3
            cases h3
          · exact ⟨p, px, m, h1, (hpoth p hp).trans h2, h3⟩
        · subst heq
          rw [hN] at hnd
          cases hnd
          exact ⟨name, _, _, rfl, hpname, rfl⟩
      · intro p px m hpx hm'
        by_cases hp : p = name
        · subst hp
          rw [hpname] at hpx
          cases hpx
          cases hm'
          exact ⟨_, hN, rfl⟩
        · rw [hpoth p hp] at hpx
          obtain ⟨nd, hnd, hname⟩ := hw.stn p px m hpx hm'
          exact ⟨_, hq m nd hnd, hname⟩
      · intro q nd i lp hnd hi
        have hqlt : q < s.nodes.length + 1 := nlen ▸ lt_of_getElem? hnd
        rcases Nat.lt_succ_iff_lt_or_eq.mp hqlt with hlt | heq
        · obtain ⟨nd0, hnd0⟩ := exists_of_lt hlt
          rw [hq q nd0 hnd0] at hnd
          cases hnd
          obtain ⟨L, T, Tn, r, R, hL, hT, hTn, hr, hR, hRt, hRd, hdh⟩ :=
            hw.pair q nd0 i lp hnd0 hi
          exact ⟨L, T, _, r, R, hlegs ▸ hL, hT, hq T Tn hTn, hr, hlegs ▸ hR, hRt, hRd, hdh⟩
        · subst heq
          rw [hN] at hnd
          cases hnd
          cases hi
    · intro q nd hnd
      exact ⟨_, hq q nd hnd, rfl, rfl⟩
    · intro q nd' hnd hle
      have hqlt : q < s.nodes.length + 1 := nlen ▸ lt_of_getElem? hnd
      have heq : q = s.nodes.length := Nat.le_antisymm (Nat.lt_succ_iff.mp hqlt) hle
      subst heq
      rw [hN] at hnd
      cases hnd
      exact ⟨rfl, rfl, rfl⟩
    · intro p px hp
      by_cases hpn : p = name
      · subst hpn
        rw [hx] at hp
        cases hp
        refine ⟨_, hpname, fun h => absurd rfl h, fun h => absurd hs h, rfl, rfl, rfl⟩
      · exact ⟨px, (hpoth p hpn).trans hp, fun _ => rfl, fun _ => rfl, rfl, rfl, rfl⟩
    · rw [hpf, List.length_set]

/-! ### `addleg_` -/

theorem addleg_fill_eq (s : State K) (fr to_ : NodePtr) (a b : LegPtr) (i j : Fin 3)
    (dx dy dz vx vy vz cyz czx cxy : K) (leg_flags : LegFlags) (A B : linkfor K)
    (ha : s.legs[a]? = some A) (hb : s.legs[b]? = some B) (hab : a ≠ b) :
    ∃ s', addleg_fill s fr to_ a b i j dx dy dz vx vy vz cyz czx cxy leg_flags = some s' ∧
      s'.legs.length = s.legs.length ∧
      s'.legs[a]? = some
        { to_ := some to_, reverse := ⟨j, FLAG_DATAHERE.lor leg_flags⟩, flags := s.pcs_flags,
          d := some ![dx, dy, dz], v := some ![vx, vy, vz, cxy, czx, cyz] } ∧
      s'.legs[b]? = some { B with to_ := some fr, reverse := ⟨i, LegFlags.zero⟩ } ∧
      (∀ l : LegPtr, l ≠ a → l ≠ b → s'.legs[l]? = s.legs[l]?) ∧
      s' = { s with legs := s'.legs } := by
  have hla := lt_of_getElem? ha
  have hlb := lt_of_getElem? hb
  simp [addleg_fill, State.modLeg, ha, hb, hab, Ne.symm hab, List.getElem?_set, hla, hlb,
    getElem_of_getElem? ha (lt_of_getElem? ha), getElem_of_getElem? hb (lt_of_getElem? hb)]
  intro l h1 h2
  simp [Ne.symm h1, Ne.symm h2]

theorem addleg_install_eq (s : State K) (fr to_ : NodePtr) (a b : LegPtr) (i j : Fin 3)
    (nf nt : node) (pa pb : PfxPtr) (xa xb : Prefix)
    (hnf : s.nodes[fr]? = some nf) (hnt : s.nodes[to_]? = some nt) (hne : fr ≠ to_)
    (hna : nf.name = some pa) (hnb : nt.name = some pb) (hpab : pa ≠ pb)
    (hxa : s.pfxs[pa]? = some xa) (hxb : s.pfxs[pb]? = some xb) :
    ∃ s', addleg_install s fr to_ a b i j = some s' ∧
      s'.nodes.length = s.nodes.length ∧
      s'.nodes[fr]? = some { nf with leg := Function.update nf.leg i (some a) } ∧
      s'.nodes[to_]? = some { nt with leg := Function.update nt.leg j (some b) } ∧
      (∀ q : NodePtr, q ≠ fr → q ≠ to_ → s'.nodes[q]? = s.nodes[q]?) ∧
      s'.pfxs.length = s.pfxs.length ∧
      s'.pfxs[pa]? = some { xa with shape := bump_shape xa.shape } ∧
      s'.pfxs[pb]? = some { xb with shape := bump_shape xb.shape } ∧
      (∀ p : PfxPtr, p ≠ pa → p ≠ pb → s'.pfxs[p]? = s.pfxs[p]?) ∧
      s' = { s with nodes := s'.nodes, pfxs := s'.pfxs } := by
  have h1 := lt_of_getElem? hnf
  have h2 := lt_of_getElem? hnt
  have h3 := lt_of_getElem? hxa
  have h4 := lt_of_getElem? hxb
  simp [addleg_install, State.modNode, State.modPfx, State.getNode, hnf, hnt, hne, Ne.symm hne,
    hna, hnb, hpab, Ne.symm hpab, hxa, hxb, List.getElem?_set, h1, h2, h3, h4,
    getElem_of_getElem? hnf (lt_of_getElem? hnf), getElem_of_getElem? hnt (lt_of_getElem? hnt), getElem_of_getElem? hxa (lt_of_getElem? hxa),
    getElem_of_getElem? hxb (lt_of_getElem? hxb)]
  constructor
  · intro q h1 h2
    simp [Ne.symm h1, Ne.symm h2]
  · intro p h1 h2
    simp [Ne.symm h1, Ne.symm h2]

theorem WF_newLegs (s : State K) (hw : WF s) (extra : List (linkfor K)) :
    WF { s with legs := s.legs ++ extra } := by
  refine ⟨hw.head, hw.iter, hw.name, hw.stn, ?_⟩
  intro q nd i lp hnd hi
  obtain ⟨L, T, Tn, r, R, hL, hT, hTn, hr, hR, hRt, hRd, hdh⟩ := hw.pair q nd i lp hnd hi
  refine ⟨L, T, Tn, r, R, ?_, hT, hTn, hr, ?_, hRt, hRd, hdh⟩
  · show (s.legs ++ extra)[lp]? = some L
    rw [List.getElem?_append_left (lt_of_getElem? hL)]
    exact hL
  · show (s.legs ++ extra)[r]? = some R
    rw [List.getElem?_append_left (lt_of_getElem? hR)]
    exact hR

omit [LinearOrderedField K] in
theorem linkfor_eq_blank (L : linkfor K) (h1 : L.to_ = none)
    (h2 : L.reverse = ⟨0, LegFlags.zero⟩) (h3 : L.flags = 0) (h4 : L.d = none)
    (h5 : L.v = none) : L = {} := by
  cases L
  simp at h1 h2 h3 h4 h5
  simp [h1, h2, h3, h4, h5]

/-- A leg record that `freeleg` leaves blank. -/
theorem blank_kept {s s' : State K} {stn : NodePtr} {l : LegPtr}
    (hl : ∀ (l : LegPtr) (L : linkfor K), s.legs[l]? = some L →
        ∃ L' : linkfor K, s'.legs[l]? = some L' ∧ L'.reverse = L.reverse ∧ L'.flags = L.flags ∧
          L'.d = L.d ∧ L'.v = L.v ∧ (L'.to_ = L.to_ ∨ L.to_ = some stn))
    (h : s.legs[l]? = some ({} : linkfor K)) : s'.legs[l]? = some ({} : linkfor K) := by
  obtain ⟨L', h1, h2, h3, h4, h5, h6⟩ := hl l _ h
  rw [h1]
  congr 1
  apply linkfor_eq_blank L' _ h2 h3 h4 h5
  rcases h6 with e | e
  · exact e
  · cases e

/-- Installing a new matched pair in two free slots keeps every pair matched. -/
theorem install_pair (s s' : State K) (hw : WF s) (fr to_ : NodePtr) (a b : LegPtr)
    (i j : Fin 3) (nf nt : node) (A B A' B' : linkfor K)
    (hnf : s.nodes[fr]? = some nf) (hfi : nf.leg i = none)
    (hnt : s.nodes[to_]? = some nt) (hfj : nt.leg j = none) (hne : fr ≠ to_)
    (ha : s.legs[a]? = some A) (hAt : A.to_ = none)
    (hb : s.legs[b]? = some B) (hBt : B.to_ = none)
    (hf' : s'.nodes[fr]? = some { nf with leg := Function.update nf.leg i (some a) })
    (ht' : s'.nodes[to_]? = some { nt with leg := Function.update nt.leg j (some b) })
    (hoth : ∀ q : NodePtr, q ≠ fr → q ≠ to_ → s'.nodes[q]? = s.nodes[q]?)
    (hA' : s'.legs[a]? = some A') (hA1 : A'.to_ = some to_) (hA2 : A'.reverse.dirn = j)
    (hA3 : data_here A' = true)
    (hB' : s'.legs[b]? = some B') (hB1 : B'.to_ = some fr) (hB2 : B'.reverse.dirn = i)
    (hB3 : data_here B' = false)
    (hloth : ∀ l : LegPtr, l ≠ a → l ≠ b → s'.legs[l]? = s.legs[l]?) :
    ∀ (q : NodePtr) (nd : node) (k : Fin 3) (lp : LegPtr),
      s'.nodes[q]? = some nd → nd.leg k = some lp → PairAt s' q k lp := by
  -- a leg that sits in a slot of `s` is neither of the two blank records
  have hnot : ∀ (l : LegPtr) (L : linkfor K) (T : NodePtr), s.legs[l]? = some L →
      L.to_ = some T → l ≠ a ∧ l ≠ b := by
    intro l L T hL hT
    constructor
    · intro e
      subst e
      rw [ha] at hL
      cases hL
      rw [hAt] at hT
      cases hT
    · intro e
      subst e
      rw [hb] at hL
      cases hL
      rw [hBt] at hT
      cases hT
  -- the node of `s'` at a pointer that is a node of `s`, with the slots it keeps
  have hnode : ∀ (T : NodePtr) (Tn : node) (d : Fin 3) (r : LegPtr), s.nodes[T]? = some Tn →
      Tn.leg d = some r → ∃ Tn' : node, s'.nodes[T]? = some Tn' ∧ Tn'.leg d = some r := by
    intro T Tn d r hTn hr
    by_cases e1 : T = fr
    · subst e1
      rw [hnf] at hTn
      cases hTn
      refine ⟨_, hf', ?_⟩
      have : d ≠ i := by
        intro e
        subst e
        rw [hfi] at hr
        cases hr
      simp [Function.update_noteq this, hr]
    · by_cases e2 : T = to_
      · subst e2
        rw [hnt] at hTn
        cases hTn
        refine ⟨_, ht', ?_⟩
        have : d ≠ j := by
          intro e
          subst e
          rw [hfj] at hr
          cases hr
        simp [Function.update_noteq this, hr]
      · exact ⟨Tn, (hoth T e1 e2).trans hTn, hr⟩
  have keep : ∀ (q : NodePtr) (nd : node) (k : Fin 3) (lp : LegPtr), s.nodes[q]? = some nd →
      nd.leg k = some lp → PairAt s' q k lp := by
    intro q nd k lp hnd hk
    obtain ⟨L, T, Tn, r, R, hL, hT, hTn, hr, hR, hRt, hRd, hdh⟩ := hw.pair q nd k lp hnd hk
    obtain ⟨n1, n2⟩ := hnot lp L T hL hT
    obtain ⟨n3, n4⟩ := hnot r R q hR hRt
    obtain ⟨Tn', hTn', hr'⟩ := hnode T Tn _ r hTn hr
    exact ⟨L, T, Tn', r, R, (hloth lp n1 n2).trans hL, hT, hTn', hr',
      (hloth r n3 n4).trans hR, hRt, hRd, hdh⟩
  intro q nd k lp hnd hk
  by_cases e1 : q = fr
  · subst e1
    rw [hf'] at hnd
    cases hnd
    by_cases e : k = i
    · subst e
      simp at hk
      subst hk
      refine ⟨A', to_, _, b, B', hA', hA1, ht', ?_, hB', hB1, hB2, ?_⟩
      · rw [hA2]
        simp
      · rw [hA3, hB3]
        decide
    · have hk' : nf.leg k = some lp := by
        simpa [Function.update_noteq e] using hk
      exact keep q nf k lp hnf hk'
  · by_cases e2 : q = to_
    · subst e2
      rw [ht'] at hnd
      cases hnd
      by_cases e : k = j
      · subst e
        simp at hk
        subst hk
        refine ⟨B', fr, _, a, A', hB', hB1, hf', ?_, hA', hA1, hA2, ?_⟩
        · rw [hB2]
          simp
        · rw [hA3, hB3]
          decide
      · have hk' : nt.leg k = some lp := by
          simpa [Function.update_noteq e] using hk
        exact keep q nt k lp hnt hk'
    · rw [hoth q e1 e2] at hnd
      exact keep q nd k lp hnd hk

theorem addleg_wf (s : State K) (hw : WF s) (fr to_ : NodePtr) (nf nt : node)
    (hnf : s.nodes[fr]? = some nf) (hnt : s.nodes[to_]? = some nt) (hne : nf.name ≠ nt.name)
    (dx dy dz vx vy vz cyz czx cxy : K) (leg_flags : LegFlags) :
    ∃ (s1 : State K) (fr' : NodePtr) (i : Fin 3) (s2 : State K) (to' : NodePtr) (j : Fin 3)
      (s' : State K) (nf2 nt2 : node),
      freeleg { s with legs := s.legs ++ [{}] ++ [{}] } fr = some (s1, fr', i) ∧
      freeleg s1 to_ = some (s2, to', j) ∧
      addleg_ s fr to_ dx dy dz vx vy vz cyz czx cxy leg_flags = some s' ∧ WF s' ∧
      fr' ≠ to' ∧
      s2.nodes[fr']? = some nf2 ∧ nf2.name = nf.name ∧ nf2.leg i = none ∧
      s2.nodes[to']? = some nt2 ∧ nt2.name = nt.name ∧ nt2.leg j = none ∧
      s'.nodes[fr']? = some
        { nf2 with leg := Function.update nf2.leg i (some s.legs.length) } ∧
      s'.nodes[to']? = some
        { nt2 with leg := Function.update nt2.leg j (some (s.legs.length + 1)) } ∧
      (∀ q : NodePtr, q ≠ fr' → q ≠ to' → s'.nodes[q]? = s2.nodes[q]?) ∧
      s'.nodes.length = s2.nodes.length ∧ s'.stnlist = s2.stnlist ∧
      s'.legs[s.legs.length]? = some
        { to_ := some to', reverse := ⟨j, FLAG_DATAHERE.lor leg_flags⟩, flags := s.pcs_flags,
          d := some ![dx, dy, dz], v := some ![vx, vy, vz, cxy, czx, cyz] } ∧
      s'.legs[s.legs.length + 1]? = some { to_ := some fr', reverse := ⟨i, LegFlags.zero⟩ } ∧
      (∀ l : LegPtr, l ≠ s.legs.length → l ≠ s.legs.length + 1 → s'.legs[l]? = s2.legs[l]?) ∧
      (∀ (q : NodePtr) (nd : node), s.nodes[q]? = some nd →
        ∃ nd' : node, s'.nodes[q]? = some nd' ∧ nd'.name = nd.name) ∧
      (∀ (q : NodePtr) (nd' : node), s'.nodes[q]? = some nd' → s.nodes.length ≤ q →
        nd'.name = nf.name ∨ nd'.name = nt.name) ∧
      (∀ (p : PfxPtr) (px : Prefix), s.pfxs[p]? = some px →
        ∃ px' : Prefix, s'.pfxs[p]? = some px' ∧ px'.stn = px.stn ∧ px'.up = px.up ∧
          px'.ident = px.ident ∧ px'.pos = px.pos ∧ px'.fixed = px.fixed) ∧
      s'.pfxs.length = s.pfxs.length ∧ s'.poss = s.poss ∧ s'.stn_iter = s.stn_iter ∧
      s'.cLegs = s.cLegs ∧ s'.cStns = s.cStns ∧ s'.pcs_flags = s.pcs_flags ∧
      s'.msgs = s.msgs := by
  -- the two fresh records
  have hwA : WF { s with legs := s.legs ++ [{}] ++ [{}] } := by
    have := WF_newLegs s hw [{}, {}]
    simpa using this
  have hA0 : ({ s with legs := s.legs ++ [{}] ++ [{}] } : State K).legs[s.legs.length]? =
      some {} := by
    show (s.legs ++ [{}] ++ [{}])[s.legs.length]? = some {}
    rw [List.append_assoc]
    exact (getElem?_append_two _ _ _).1
  have hB0 : ({ s with legs := s.legs ++ [{}] ++ [{}] } : State K).legs[s.legs.length + 1]? =
      some {} := by
    show (s.legs ++ [{}] ++ [{}])[s.legs.length + 1]? = some {}
    rw [List.append_assoc]
    exact (getElem?_append_two _ _ _).2
  -- first freeleg
  obtain ⟨s1, fr', i, nf1, e1, hw1, hnf1, hfi1, hname1, hold1, hnew1, hlegs1, hp1, hq1, hit1,
    hc1, hcs1, hpf1, hm1⟩ := freeleg_wf _ hwA fr nf hnf
  obtain ⟨nt1, hnt1, hnt1name, _⟩ := hold1 to_ nt hnt
  -- second freeleg
  obtain ⟨s2, to', j, nt2, e2, hw2, hnt2, hfj2, hname2, hold2, hnew2, hlegs2, hp2, hq2, hit2,
    hc2, hcs2, hpf2, hm2⟩ := freeleg_wf s1 hw1 to_ nt1 hnt1
  have hfrto : fr' ≠ to_ := by
    intro e
    subst e
    rw [hnf1] at hnt1
    cases hnt1
    exact hne (hname1.symm.trans hnt1name)
  obtain ⟨nf2, hnf2, hnf2name, hnf2leg⟩ := hold2 fr' nf1 hnf1
  have hfi2 : nf2.leg i = none := by
    rw [hnf2leg hfrto]
    exact hfi1
  have hne' : fr' ≠ to' := by
    intro e
    subst e
    rw [hnf2] at hnt2
    cases hnt2
    exact hne (hname1.symm.trans (hnf2name.symm.trans (hname2.trans hnt1name)))
  have hA2 : s2.legs[s.legs.length]? = some ({} : linkfor K) :=
    blank_kept hlegs2 (blank_kept hlegs1 hA0)
  have hB2 : s2.legs[s.legs.length + 1]? = some ({} : linkfor K) :=
    blank_kept hlegs2 (blank_kept hlegs1 hB0)
  -- the names
  obtain ⟨pa, xa, ma, hpa, hxa, _⟩ := hw2.name fr' nf2 hnf2
  obtain ⟨pb, xb, mb, hpb, hxb, _⟩ := hw2.name to' nt2 hnt2
  have hpab : pa ≠ pb := by
    intro e
    subst e
    apply hne
    rw [← hname1, ← hnf2name, hpa, ← hnt1name, ← hname2, hpb]
  -- the member assignments
  obtain ⟨s3, e3, l3len, l3a, l3b, l3oth, s3eq⟩ := addleg_fill_eq s2 fr' to' s.legs.length
    (s.legs.length + 1) i j dx dy dz vx vy vz cyz czx cxy leg_flags _ _ hA2 hB2
    (Nat.ne_of_lt (Nat.lt_succ_self _))
  have hn3 : s3.nodes = s2.nodes := by rw [s3eq]
  have hp3 : s3.pfxs = s2.pfxs := by rw [s3eq]
  obtain ⟨s', e4, n4len, n4f, n4t, n4oth, p4len, p4a, p4b, p4oth, s4eq⟩ :=
    addleg_install_eq s3 fr' to' s.legs.length (s.legs.length + 1) i j nf2 nt2 pa pb xa xb
      (hn3 ▸ hnf2) (hn3 ▸ hnt2) hne' hpa hpb hpab (hp3 ▸ hxa) (hp3 ▸ hxb)
  have hl4 : s'.legs = s3.legs := by rw [s4eq]
  have hpfx : ∀ (p : PfxPtr) (px : Prefix), s2.pfxs[p]? = some px →
      ∃ px' : Prefix, s'.pfxs[p]? = some px' ∧ px'.stn = px.stn ∧ px'.up = px.up ∧
        px'.ident = px.ident ∧ px'.pos = px.pos ∧ px'.fixed = px.fixed := by
    intro p px hpx
    by_cases ea : p = pa
    · subst ea
      rw [hxa] at hpx
      cases hpx
      exact ⟨_, p4a, rfl, rfl, rfl, rfl, rfl⟩
    · by_cases eb : p = pb
      · subst eb
        rw [hxb] at hpx
        cases hpx
        exact ⟨_, p4b, rfl, rfl, rfl, rfl, rfl⟩
      · exact ⟨px, by rw [p4oth p ea eb, hp3]; exact hpx, rfl, rfl, rfl, rfl, rfl⟩
  have hnodes : ∀ (q : NodePtr) (nd : node), s2.nodes[q]? = some nd →
      ∃ nd' : node, s'.nodes[q]? = some nd' ∧ nd'.name = nd.name := by
    intro q nd hq
    by_cases ea : q = fr'
    · subst ea
      rw [hnf2] at hq
      cases hq
      exact ⟨_, n4f, rfl⟩
    · by_cases eb : q = to'
      · subst eb
        rw [hnt2] at hq
        cases hq
        exact ⟨_, n4t, rfl⟩
      · exact ⟨nd, by rw [n4oth q ea eb, hn3]; exact hq, rfl⟩
  have hnodes' : ∀ (q : NodePtr) (nd' : node), s'.nodes[q]? = some nd' →
      ∃ nd : node, s2.nodes[q]? = some nd ∧ nd'.name = nd.name := by
    intro q nd' hq
    have hlt : q < s2.nodes.length := by
      have := lt_of_getElem? hq
      rw [n4len, hn3] at this
      exact this
    obtain ⟨nd, hnd⟩ := exists_of_lt hlt
    obtain ⟨nd2, h1, h2⟩ := hnodes q nd hnd
    rw [h1] at hq
    cases hq
    exact ⟨nd, hnd, h2⟩
  refine ⟨s1, fr', i, s2, to', j, s', nf2, nt2, e1, e2, ?_, ?_, hne', hnf2,
    hnf2name.trans hname1, hfi2, hnt2, hname2.trans hnt1name, hfj2, n4f, n4t,
    (fun q h1 h2 => (n4oth q h1 h2).trans (by rw [hn3])), n4len.trans (by rw [hn3]),
    (by rw [s4eq, s3eq]), ?_, ?_, (fun l h1 h2 => by rw [hl4]; exact l3oth l h1 h2),
    ?_, ?_, ?_, ?_, ?_, ?_, ?_, ?_, ?_, ?_⟩
  · have e1' := e1
    simp only [List.append_assoc, List.singleton_append] at e1'
    simp [addleg_, State.getNode, State.newLeg, hnf, hnt, hne, e1', e2, e3, e4]
  · -- well-formedness
    refine ⟨?_, ?_, ?_, ?_, ?_⟩
    · intro h hh
      rw [congrArg State.stnlist s4eq, congrArg State.stnlist s3eq] at hh
      rw [n4len, hn3]
      exact hw2.head h hh
    · intro x hx
      rw [congrArg State.stn_iter s4eq, congrArg State.stn_iter s3eq] at hx
      rw [n4len, hn3]
      exact hw2.iter x hx
    · intro q nd hq
      obtain ⟨nd2, hnd2, hname⟩ := hnodes' q nd hq
      obtain ⟨p, px, m, h1, h2, h3⟩ := hw2.name q nd2 hnd2
      obtain ⟨px', h4, h5, _⟩ := hpfx p px h2
      exact ⟨p, px', m, hname.trans h1, h4, h5.trans h3⟩
    · intro p px' m hpx' hm
      have hlt : p < s2.pfxs.length := by
        have := lt_of_getElem? hpx'
        rw [p4len, hp3] at this
        exact this
      obtain ⟨px, hpx⟩ := exists_of_lt hlt
      obtain ⟨px2, h1, h2, _⟩ := hpfx p px hpx
      rw [h1] at hpx'
      cases hpx'
      obtain ⟨nd, hnd, hname⟩ := hw2.stn p px m hpx (h2.symm.trans hm)
      obtain ⟨nd', h3, h4⟩ := hnodes m nd hnd
      exact ⟨nd', h3, h4.trans hname⟩
    · exact install_pair s2 s' hw2 fr' to' s.legs.length (s.legs.length + 1) i j nf2 nt2 _ _ _ _
        hnf2 hfi2 hnt2 hfj2 hne' hA2 rfl hB2 rfl n4f n4t
        (fun q h1 h2 => (n4oth q h1 h2).trans (by rw [hn3]))
        (hl4 ▸ l3a) rfl rfl (by simp [data_here, FLAG_DATAHERE, LegFlags.lor])
        (hl4 ▸ l3b) rfl rfl (by simp [data_here, LegFlags.zero])
        (fun l h1 h2 => by rw [hl4]; exact l3oth l h1 h2)
  · rw [hl4, l3a, hpf2, hpf1]
  · rw [hl4, l3b]
  · intro q nd hq
    obtain ⟨nd1, h1, h2, _⟩ := hold1 q nd hq
    obtain ⟨nd2, h3, h4, _⟩ := hold2 q nd1 h1
    obtain ⟨nd', h5, h6⟩ := hnodes q nd2 h3
    exact ⟨nd', h5, h6.trans (h4.trans h2)⟩
  · intro q nd' hq hle
    obtain ⟨nd2, h1, h2⟩ := hnodes' q nd' hq
    by_cases hq1 : q < s1.nodes.length
    · obtain ⟨nd1, hnd1⟩ := exists_of_lt hq1
      obtain ⟨nd2', h3, h4, _⟩ := hold2 q nd1 hnd1
      rw [h3] at h1
      cases h1
      left
      rw [h2, h4]
      exact hnew1 q nd1 hnd1 hle
    · right
      rw [h2, hnew2 q nd2 h1 (Nat.le_of_not_lt hq1)]
      exact hnt1name
  · intro p px hpx
    exact hpfx p px (by rw [hp2, hp1]; exact hpx)
  · rw [p4len, hp3, hp2, hp1]
  · rw [congrArg State.poss s4eq, congrArg State.poss s3eq, hq2, hq1]
  · rw [congrArg State.stn_iter s4eq, congrArg State.stn_iter s3eq, hit2, hit1]
  · rw [congrArg State.cLegs s4eq, congrArg State.cLegs s3eq, hc2, hc1]
  · rw [congrArg State.cStns s4eq, congrArg State.cStns s3eq, hcs2, hcs1]
  · rw [congrArg State.pcs_flags s4eq, congrArg State.pcs_flags s3eq, hpf2, hpf1]
  · rw [congrArg State.msgs s4eq, congrArg State.msgs s3eq, hm2, hm1]

/-! ### The stations of `addlegbyname` -/

/-- Two successive `StnFromPfx` calls on different names. -/
theorem two_stations (s : State K) (hw : WF s) (a b : PfxPtr) (hab : a ≠ b) (xa xb : Prefix)
    (hxa : s.pfxs[a]? = some xa) (hxb : s.pfxs[b]? = some xb) :
    ∃ (s1 : State K) (sa : NodePtr) (s2 : State K) (sb : NodePtr) (na nb : node),
      StnFromPfx s a = some (s1, sa) ∧ StnFromPfx s1 b = some (s2, sb) ∧ WF s2 ∧
      s2.nodes[sa]? = some na ∧ na.name = some a ∧
      s2.nodes[sb]? = some nb ∧ nb.name = some b ∧
      (xa.stn = none → na.leg = fun _ => none) ∧ (xb.stn = none → nb.leg = fun _ => none) ∧
      (∀ st, xa.stn = some st → sa = st) ∧ (∀ st, xb.stn = some st → sb = st) ∧
      (∀ (q : NodePtr) (nd : node), s.nodes[q]? = some nd →
        ∃ nd' : node, s2.nodes[q]? = some nd' ∧ nd'.name = nd.name ∧ nd'.leg = nd.leg) ∧
      (∀ (q : NodePtr) (nd' : node), s2.nodes[q]? = some nd' → s.nodes.length ≤ q →
        (q = sa ∧ xa.stn = none) ∨ (q = sb ∧ xb.stn = none)) ∧
      s2.legs = s.legs ∧
      (∀ (p : PfxPtr) (px : Prefix), s.pfxs[p]? = some px →
        ∃ px' : Prefix, s2.pfxs[p]? = some px' ∧ (p ≠ a → p ≠ b → px' = px) ∧
          px'.up = px.up ∧ px'.ident = px.ident ∧ px'.shape = px.shape) ∧
      s2.pfxs.length = s.pfxs.length ∧
      (∃ px' : Prefix, s2.pfxs[a]? = some px' ∧ px'.stn = some sa) ∧
      (∃ px' : Prefix, s2.pfxs[b]? = some px' ∧ px'.stn = some sb) ∧
      s2.stn_iter = s.stn_iter ∧ s2.cLegs = s.cLegs ∧ s2.pcs_flags = s.pcs_flags ∧
      s2.msgs = s.msgs := by
  obtain ⟨s1, sa, na1, e1, hw1, hna1, hna1name, hold1, hnew1, hlegs1, hpfx1, hplen1,
    ⟨pxa1, hpxa1, hpxa1stn⟩, hit1, hc1, hpc1, hm1⟩ := StnFromPfx_wf s hw a xa hxa
  obtain ⟨xb1, hxb1, hxb1eq, _, _, _, _⟩ := hpfx1 b xb hxb
  have hxb1' : xb1 = xb := hxb1eq (Ne.symm hab)
  subst hxb1'
  obtain ⟨s2, sb, nb2, e2, hw2, hnb2, hnb2name, hold2, hnew2, hlegs2, hpfx2, hplen2,
    ⟨pxb2, hpxb2, hpxb2stn⟩, hit2, hc2, hpc2, hm2⟩ := StnFromPfx_wf s1 hw1 b xb1 hxb1
  obtain ⟨na, hna, hnaname, hnaleg⟩ := hold2 sa na1 hna1
  -- a station made for a name that had none is new
  have hnewa : xa.stn = none → s.nodes.length ≤ sa := by
    intro hs
    by_contra hlt
    obtain ⟨nd, hnd⟩ := exists_of_lt (Nat.lt_of_not_le hlt)
    obtain ⟨nd', h1, h2, _⟩ := hold1 sa nd hnd
    rw [hna1] at h1
    cases h1
    obtain ⟨p, px, m, h3, h4, h5⟩ := hw.name sa nd hnd
    rw [← h2, hna1name] at h3
    cases h3
    rw [hxa] at h4
    cases h4
    rw [hs] at h5
    cases h5
  have hnewb : xb1.stn = none → s1.nodes.length ≤ sb := by
    intro hs
    by_contra hlt
    obtain ⟨nd, hnd⟩ := exists_of_lt (Nat.lt_of_not_le hlt)
    obtain ⟨nd', h1, h2, _⟩ := hold2 sb nd hnd
    rw [hnb2] at h1
    cases h1
    obtain ⟨p, px, m, h3, h4, h5⟩ := hw1.name sb nd hnd
    rw [← h2, hnb2name] at h3
    cases h3
    rw [hxb1] at h4
    cases h4
    rw [hs] at h5
    cases h5
  obtain ⟨pxa2, hpxa2, _, hpxa2keep, _⟩ := hpfx2 a pxa1 hpxa1
  have hpxa2' : pxa2 = pxa1 := hpxa2keep (by rw [hpxa1stn]; simp)
  subst hpxa2'
  refine ⟨s1, sa, s2, sb, na, nb2, e1, e2, hw2, hna, hnaname.trans hna1name, hnb2, hnb2name,
    ?_, ?_, ?_, ?_, ?_, ?_, hlegs2.trans hlegs1, ?_, hplen2.trans hplen1,
    ⟨pxa2, hpxa2, hpxa1stn⟩, ⟨pxb2, hpxb2, hpxb2stn⟩, hit2.trans hit1, hc2.trans hc1,
    hpc2.trans hpc1, hm2.trans hm1⟩
  · intro hs
    rw [hnaleg]
    exact (hnew1 sa na1 hna1 (hnewa hs)).2.2
  · intro hs
    exact (hnew2 sb nb2 hnb2 (hnewb hs)).2.2
  · intro st hs
    have := StnFromPfx_old s a xa st hxa hs
    rw [e1] at this
    cases this
    rfl
  · intro st hs
    have := StnFromPfx_old s1 b xb1 st hxb1 hs
    rw [e2] at this
    cases this
    rfl
  · intro q nd hq
    obtain ⟨nd1, h1, h2, h3⟩ := hold1 q nd hq
    obtain ⟨nd2, h4, h5, h6⟩ := hold2 q nd1 h1
    exact ⟨nd2, h4, h5.trans h2, h6.trans h3⟩
  · intro q nd' hq hle
    by_cases hq1 : q < s1.nodes.length
    · left
      obtain ⟨nd1, hnd1⟩ := exists_of_lt hq1
      have hqa := (hnew1 q nd1 hnd1 hle).1
      refine ⟨hqa, ?_⟩
      cases hs : xa.stn with
      | none => rfl
      | some st =>
        exfalso
        have := StnFromPfx_old s a xa st hxa hs
        rw [e1] at this
        cases this
        exact absurd (lt_of_getElem? hna1) (Nat.not_lt.mpr (hqa ▸ hle))
    · right
      have hqb := (hnew2 q nd' hq (Nat.le_of_not_lt hq1)).1
      refine ⟨hqb, ?_⟩
      cases hs : xb1.stn with
      | none => rfl
      | some st =>
        exfalso
        have := StnFromPfx_old s1 b xb1 st hxb1 hs
        rw [e2] at this
        cases this
        exact hq1 (lt_of_getElem? hq)
  · intro p px hp
    obtain ⟨px1, h1, h2, _, h3, h4, h5⟩ := hpfx1 p px hp
    obtain ⟨px2, h6, h7, _, h8, h9, h10⟩ := hpfx2 p px1 h1
    refine ⟨px2, h6, ?_, h8.trans h3, h9.trans h4, h10.trans h5⟩
    intro hpa hpb
    rw [h7 hpb, h2 hpa]

theorem addlegbyname_eq (s s0 : State K) (fr_name to_name : PfxPtr) (fToFirst : Bool)
    (fr to_ : NodePtr) (dx dy dz vx vy vz cyz czx cxy : K) (hne : fr_name ≠ to_name)
    (h : addlegbyname_stations s fr_name to_name fToFirst = some (s0, fr, to_)) :
    addlegbyname s fr_name to_name fToFirst dx dy dz vx vy vz cyz czx cxy =
      addleg_ { s0 with cLegs := s0.cLegs + 1 } fr to_ dx dy dz vx vy vz cyz czx cxy
        LegFlags.zero := by
  simp [addlegbyname, Ne.symm hne, h]

theorem WF_cLegs (s : State K) (hw : WF s) (c : Int) : WF { s with cLegs := c } :=
  ⟨hw.head, hw.iter, hw.name, hw.stn, hw.pair⟩

/-- The stations `addlegbyname` resolves its two names to. -/
theorem stations_wf (s : State K) (hw : WF s) (fr_name to_name : PfxPtr)
    (hne : fr_name ≠ to_name) (xf xt : Prefix)
    (hxf : s.pfxs[fr_name]? = some xf) (hxt : s.pfxs[to_name]? = some xt) (fToFirst : Bool) :
    ∃ (s0 : State K) (fr to_ : NodePtr) (nf nt : node),
      addlegbyname_stations s fr_name to_name fToFirst = some (s0, fr, to_) ∧ WF s0 ∧
      s0.nodes[fr]? = some nf ∧ nf.name = some fr_name ∧
      s0.nodes[to_]? = some nt ∧ nt.name = some to_name ∧
      (xf.stn = none → nf.leg = fun _ => none) ∧ (xt.stn = none → nt.leg = fun _ => none) ∧
      (∀ st, xf.stn = some st → fr = st) ∧ (∀ st, xt.stn = some st → to_ = st) ∧
      (∀ (q : NodePtr) (nd : node), s.nodes[q]? = some nd →
        ∃ nd' : node, s0.nodes[q]? = some nd' ∧ nd'.name = nd.name ∧ nd'.leg = nd.leg) ∧
      (∀ (q : NodePtr) (nd' : node), s0.nodes[q]? = some nd' → s.nodes.length ≤ q →
        (q = fr ∧ xf.stn = none) ∨ (q = to_ ∧ xt.stn = none)) ∧
      s0.legs = s.legs ∧
      (∀ (p : PfxPtr) (px : Prefix), s.pfxs[p]? = some px →
        ∃ px' : Prefix, s0.pfxs[p]? = some px' ∧ (p ≠ fr_name → p ≠ to_name → px' = px) ∧
          px'.up = px.up ∧ px'.ident = px.ident ∧ px'.shape = px.shape) ∧
      s0.pfxs.length = s.pfxs.length ∧
      (∃ px' : Prefix, s0.pfxs[fr_name]? = some px' ∧ px'.stn = some fr) ∧
      (∃ px' : Prefix, s0.pfxs[to_name]? = some px' ∧ px'.stn = some to_) ∧
      s0.stn_iter = s.stn_iter ∧ s0.cLegs = s.cLegs ∧ s0.pcs_flags = s.pcs_flags ∧
      s0.msgs = s.msgs := by
  cases fToFirst with
  | false =>
    obtain ⟨s1, sa, s2, sb, na, nb, e1, e2, hw2, h1, h2, h3, h4, h5, h6, h7, h8, h9, h10, h11,
      h12, h13, h14, h15, h16, h17, h18, h19⟩ :=
      two_stations s hw fr_name to_name hne xf xt hxf hxt
    refine ⟨s2, sa, sb, na, nb, ?_, hw2, h1, h2, h3, h4, h5, h6, h7, h8, h9, h10, h11, h12,
      h13, h14, h15, h16, h17, h18, h19⟩
    simp [addlegbyname_stations, e1, e2]
  | true =>
    obtain ⟨s1, sa, s2, sb, na, nb, e1, e2, hw2, h1, h2, h3, h4, h5, h6, h7, h8, h9, h10, h11,
      h12, h13, h14, h15, h16, h17, h18, h19⟩ :=
      two_stations s hw to_name fr_name (Ne.symm hne) xt xf hxt hxf
    refine ⟨s2, sb, sa, nb, na, ?_, hw2, h3, h4, h1, h2, h6, h5, h8, h7, h9, ?_, h11, ?_,
      h13, h15, h14, h16, h17, h18, h19⟩
    · simp [addlegbyname_stations, e1, e2]
    · intro q nd' hq hle
      exact (h10 q nd' hq hle).symm
    · intro p px hp
      obtain ⟨px', a1, a2, a3⟩ := h12 p px hp
      exact ⟨px', a1, fun x y => a2 y x, a3⟩

/-! ### `addleg_` with and without a split -/

/-- `addleg_` between two stations that both have a free slot: no station is
added, and each gets the new record in its lowest free slot. -/
theorem addleg_nosplit (s : State K) (hw : WF s) (fr to_ : NodePtr) (nf nt : node)
    (hnf : s.nodes[fr]? = some nf) (hnt : s.nodes[to_]? = some nt) (hne : nf.name ≠ nt.name)
    (hff : ∃ k, nf.leg k = none) (hft : ∃ k, nt.leg k = none)
    (dx dy dz vx vy vz cyz czx cxy : K) (leg_flags : LegFlags) :
    ∃ (i j : Fin 3) (s' : State K),
      addleg_ s fr to_ dx dy dz vx vy vz cyz czx cxy leg_flags = some s' ∧ WF s' ∧
      nf.leg i = none ∧ (∀ k, k < i → nf.leg k ≠ none) ∧
      nt.leg j = none ∧ (∀ k, k < j → nt.leg k ≠ none) ∧
      s'.nodes[fr]? = some { nf with leg := Function.update nf.leg i (some s.legs.length) } ∧
      s'.nodes[to_]? = some
        { nt with leg := Function.update nt.leg j (some (s.legs.length + 1)) } ∧
      (∀ q : NodePtr, q ≠ fr → q ≠ to_ → s'.nodes[q]? = s.nodes[q]?) ∧
      s'.nodes.length = s.nodes.length ∧ s'.stnlist = s.stnlist ∧
      s'.legs[s.legs.length]? = some
        { to_ := some to_, reverse := ⟨j, FLAG_DATAHERE.lor leg_flags⟩, flags := s.pcs_flags,
          d := some ![dx, dy, dz], v := some ![vx, vy, vz, cxy, czx, cyz] } ∧
      s'.legs[s.legs.length + 1]? = some { to_ := some fr, reverse := ⟨i, LegFlags.zero⟩ } ∧
      (∀ (l : LegPtr) (L : linkfor K), s.legs[l]? = some L → s'.legs[l]? = some L) ∧
      (∀ (p : PfxPtr) (px : Prefix), s.pfxs[p]? = some px →
        ∃ px' : Prefix, s'.pfxs[p]? = some px' ∧ px'.stn = px.stn ∧ px'.up = px.up ∧
          px'.ident = px.ident ∧ px'.pos = px.pos ∧ px'.fixed = px.fixed) ∧
      s'.pfxs.length = s.pfxs.length ∧ s'.poss = s.poss ∧ s'.stn_iter = s.stn_iter ∧
      s'.cLegs = s.cLegs ∧ s'.cStns = s.cStns ∧ s'.pcs_flags = s.pcs_flags ∧
      s'.msgs = s.msgs := by
  obtain ⟨s1, fr', i, s2, to', j, s', nf2, nt2, e1, e2, e3, hw', hne', hnf2, hnf2name, hfi,
    hnt2, hnt2name, hfj, hnf', hnt', hoth, hlen, hsl, hL, hL2, hloth, _, _, hpfx, hplen, hpos,
    hit, hc, hcs, hpf, hm⟩ := addleg_wf s hw fr to_ nf nt hnf hnt hne
      dx dy dz vx vy vz cyz czx cxy leg_flags
  obtain ⟨i0, f1, hi0, hi0low⟩ :=
    freeleg_free { s with legs := s.legs ++ [{}] ++ [{}] } fr nf hnf hff
  rw [f1] at e1
  cases e1
  obtain ⟨j0, f2, hj0, hj0low⟩ :=
    freeleg_free { s with legs := s.legs ++ [{}] ++ [{}] } to_ nt hnt hft
  rw [f2] at e2
  cases e2
  have hnf2' : s.nodes[fr]? = some nf2 := hnf2
  rw [hnf] at hnf2'
  cases hnf2'
  have hnt2' : s.nodes[to_]? = some nt2 := hnt2
  rw [hnt] at hnt2'
  cases hnt2'
  refine ⟨i, j, s', e3, hw', hi0, hi0low, hj0, hj0low, hnf', hnt', hoth, hlen, hsl, hL, hL2,
    ?_, hpfx, hplen, hpos, hit, hc, hcs, hpf, hm⟩
  intro l L hl
  have hlt := lt_of_getElem? hl
  rw [hloth l (Nat.ne_of_lt hlt) (Nat.ne_of_lt (Nat.lt_succ_of_lt hlt))]
  show (s.legs ++ [{}] ++ [{}])[l]? = some L
  rw [List.append_assoc, List.getElem?_append_left hlt]
  exact hl

/-- `addleg_` from a station with no free slot to one that has a free slot:
the first station is split, and the new record goes into slot 2 of the new
station. -/
theorem addleg_split (s : State K) (hw : WF s) (fr to_ : NodePtr) (nf nt : node)
    (hnf : s.nodes[fr]? = some nf) (hnt : s.nodes[to_]? = some nt) (hne : nf.name ≠ nt.name)
    (hfull : ∀ k, nf.leg k ≠ none) (hft : ∃ k, nt.leg k = none)
    (dx dy dz vx vy vz cyz czx cxy : K) (leg_flags : LegFlags) :
    ∃ (j : Fin 3) (s' : State K) (nnew nst nt' : node),
      addleg_ s fr to_ dx dy dz vx vy vz cyz czx cxy leg_flags = some s' ∧ WF s' ∧
      nt.leg j = none ∧ (∀ k, k < j → nt.leg k ≠ none) ∧
      s'.nodes.length = s.nodes.length + 1 ∧
      s'.nodes[s.nodes.length]? = some nnew ∧ nnew.name = nf.name ∧
      nnew.leg 0 = nf.leg 0 ∧ nnew.leg 1 = some (s.legs.length + 3) ∧
      nnew.leg 2 = some s.legs.length ∧
      s'.nodes[fr]? = some nst ∧ nst.name = nf.name ∧
      nst.leg 0 = some (s.legs.length + 2) ∧ nst.leg 1 = nf.leg 1 ∧ nst.leg 2 = nf.leg 2 ∧
      s'.nodes[to_]? = some nt' ∧ nt'.name = nt.name ∧ nt'.leg j = some (s.legs.length + 1) ∧
      (∀ (q : NodePtr) (nd : node), s.nodes[q]? = some nd →
        ∃ nd' : node, s'.nodes[q]? = some nd' ∧ nd'.name = nd.name) ∧
      s'.legs[s.legs.length]? = some
        { to_ := some to_, reverse := ⟨j, FLAG_DATAHERE.lor leg_flags⟩, flags := s.pcs_flags,
          d := some ![dx, dy, dz], v := some ![vx, vy, vz, cxy, czx, cyz] } ∧
      s'.legs[s.legs.length + 1]? = some
        { to_ := some s.nodes.length, reverse := ⟨2, LegFlags.zero⟩ } ∧
      s'.legs[s.legs.length + 2]? = some
        { to_ := some s.nodes.length, reverse := ⟨1, FLAG_DATAHERE.lor FLAG_FAKE⟩,
          flags := s.pcs_flags, d := some (fun _ => 0), v := some (fun _ => 0) } ∧
      s'.legs[s.legs.length + 3]? = some { to_ := some fr, reverse := ⟨0, LegFlags.zero⟩ } ∧
      (∀ (p : PfxPtr) (px : Prefix), s.pfxs[p]? = some px →
        ∃ px' : Prefix, s'.pfxs[p]? = some px' ∧ px'.stn = px.stn ∧ px'.up = px.up ∧
          px'.ident = px.ident ∧ px'.pos = px.pos ∧ px'.fixed = px.fixed) ∧
      s'.pfxs.length = s.pfxs.length ∧ s'.poss = s.poss ∧ s'.stn_iter = s.stn_iter ∧
      s'.cLegs = s.cLegs ∧ s'.cStns = s.cStns ∧ s'.pcs_flags = s.pcs_flags ∧
      s'.msgs = s.msgs := by
  obtain ⟨s1, fr', i, s2, to', j, s', nf2, nt2, e1, e2, e3, hw', hne', hnf2, hnf2name, hfi,
    hnt2, hnt2name, hfj, hnf', hnt', hoth, hlen, hsl, hL, hL2, hloth, hnames, _, hpfx, hplen,
    hpos, hit, hc, hcs, hpf, hm⟩ := addleg_wf s hw fr to_ nf nt hnf hnt hne
      dx dy dz vx vy vz cyz czx cxy leg_flags
  -- the split of `fr`
  have hwA : WF { s with legs := s.legs ++ [{}] ++ [{}] } := by
    have := WF_newLegs s hw [{}, {}]
    simpa using this
  have hlenA : (s.legs ++ [({} : linkfor K)] ++ [({} : linkfor K)]).length =
      s.legs.length + 2 := by
    simp
  obtain ⟨l0, h0⟩ := Option.ne_none_iff_exists'.mp (hfull 0)
  obtain ⟨L0, T, Tn, r, R, hL0, hT, hTn, hr, hR, hRt, hRd, hdh⟩ :=
    hwA.pair fr nf 0 l0 hnf h0
  have hitA : s.stn_iter ≠ some s.nodes.length := by
    intro e
    exact absurd (hw.iter _ e) (Nat.lt_irrefl _)
  obtain ⟨s1', f1, nlen, llen, hN, hq, hLg, hLg1, hl, _, _, hsl1, _⟩ :=
    freeleg_split_spec { s with legs := s.legs ++ [{}] ++ [{}] } fr nf Tn l0 r L0 R T hnf h0
      hL0 hT hTn hr hR hitA hw.head
  rw [freeleg_full { s with legs := s.legs ++ [{}] ++ [{}] } fr nf hnf hfull, f1] at e1
  cases e1
  -- `to_` keeps its free slot
  have hfrto : fr ≠ to_ := by
    intro e
    subst e
    rw [hnf] at hnt
    cases hnt
    exact hne rfl
  have hnt1 := hq to_ nt hnt
  simp only [Ne.symm hfrto, if_false] at hnt1
  obtain ⟨j0, f2, hj0, hj0low⟩ := freeleg_free s1 to_ _ hnt1 hft
  rw [f2] at e2
  cases e2
  -- the nodes after the two `freeleg` calls
  have hnf2' : s1.nodes[s.nodes.length]? = some nf2 := hnf2
  rw [hN] at hnf2'
  cases hnf2'
  rw [hnt1] at hnt2
  cases hnt2
  have hlo := lt_of_getElem? hnf
  have hlto := lt_of_getElem? hnt
  have hst : s'.nodes[fr]? = _ :=
    (hoth fr (Nat.ne_of_lt hlo) hfrto).trans (hq fr nf hnf)
  simp only [if_true] at hst
  have hLg' : s1.legs[s.legs.length + 2]? = _ := hlenA ▸ hLg
  have hLg1' : s1.legs[s.legs.length + 2 + 1]? = _ := hlenA ▸ hLg1
  refine ⟨j, s', _, _, _, e3, hw', hj0, hj0low, ?_, hnf', rfl, ?_, ?_, ?_, hst, rfl, ?_, ?_, ?_,
    hnt', rfl, ?_, hnames, hL, hL2, ?_, ?_, hpfx, hplen, hpos, hit, hc, hcs, hpf, hm⟩
  · rw [hlen, nlen]
  · simp [h0]
  · simp [hlenA]
  · simp
  · simp [hlenA]
  · simp
  · simp
  · simp
  · rw [hloth _ (Nat.ne_of_gt (Nat.lt_add_of_pos_right (by decide)))
      (Nat.ne_of_gt (Nat.add_lt_add_left (by decide) _))]
    exact hLg'
  · rw [hloth _ (Nat.ne_of_gt (Nat.lt_add_of_pos_right (by decide)))
      (Nat.ne_of_gt (Nat.add_lt_add_left (by decide) _))]
    exact hLg1'

/-! ### One leg from a name to a name without a station -/

/-- The lowest free slot of a station with no leg is slot 0. -/
theorem lowest_of_empty (leg : Fin 3 → Option LegPtr) (j : Fin 3) (h : leg = fun _ => none)
    (hlow : ∀ k, k < j → leg k ≠ none) : j = 0 := by
  by_contra hj
  have h0 : (0 : Fin 3) < j := by
    rcases j with ⟨v, hv⟩
    have : v ≠ 0 := fun e => hj (by subst e; rfl)
    exact Fin.mk_lt_mk.mpr (Nat.pos_of_ne_zero this)
  exact hlow 0 h0 (by rw [h])

/-- A leg from `P` to a name `Q` that has no station yet, when `P` has no
station or one with a free slot: no station is split. -/
theorem step_free (s : State K) (hw : WF s) (P Q : PfxPtr) (hne : P ≠ Q) (xp xq : Prefix)
    (hxp : s.pfxs[P]? = some xp) (hxq : s.pfxs[Q]? = some xq) (hq : xq.stn = none)
    (honly : ∀ (q : NodePtr) (nd : node), s.nodes[q]? = some nd → nd.name = some P →
      xp.stn = some q)
    (hfree : ∀ (st : NodePtr) (np : node), xp.stn = some st → s.nodes[st]? = some np →
      ∃ k, np.leg k = none)
    (fToFirst : Bool) (dx dy dz vx vy vz cyz czx cxy : K) :
    ∃ (s' : State K) (st sq : NodePtr) (np0 np' nq' : node) (i : Fin 3) (xp' : Prefix),
      addlegbyname s P Q fToFirst dx dy dz vx vy vz cyz czx cxy = some s' ∧ WF s' ∧
      s'.pfxs[P]? = some xp' ∧ xp'.stn = some st ∧
      s'.nodes[st]? = some np' ∧ np'.name = some P ∧
      (∀ (q : NodePtr) (nd : node), s'.nodes[q]? = some nd → nd.name = some P → q = st) ∧
      (xp.stn = none → np0.leg = fun _ => none) ∧
      (∀ (st0 : NodePtr) (np : node), xp.stn = some st0 → s.nodes[st0]? = some np →
        st0 = st ∧ np0.leg = np.leg) ∧
      np0.leg i = none ∧ (∀ k, k < i → np0.leg k ≠ none) ∧
      np'.leg = Function.update np0.leg i (some s.legs.length) ∧
      s'.nodes[sq]? = some nq' ∧ nq'.name = some Q ∧
      s'.legs[s.legs.length]? = some
        { to_ := some sq, reverse := ⟨0, FLAG_DATAHERE.lor LegFlags.zero⟩,
          flags := s.pcs_flags, d := some ![dx, dy, dz],
          v := some ![vx, vy, vz, cxy, czx, cyz] } ∧
      (∀ (p : PfxPtr) (px : Prefix), s.pfxs[p]? = some px →
        ∃ px' : Prefix, s'.pfxs[p]? = some px' ∧ px'.up = px.up ∧ px'.ident = px.ident ∧
          (p ≠ P → p ≠ Q → px'.stn = px.stn)) ∧
      s'.pfxs.length = s.pfxs.length ∧ s'.cLegs = s.cLegs + 1 ∧
      s'.pcs_flags = s.pcs_flags := by
  obtain ⟨s0, fr, to_, nf, nt, e0, hw0, hnf, hnfname, hnt, hntname, hfempty, htempty, hfold,
    _, hold0, hnew0, hlegs0, hpfx0, hplen0, ⟨xp0, hxp0, hxp0stn⟩, _, _, hc0, hpc0, _⟩ :=
    stations_wf s hw P Q hne xp xq hxp hxq fToFirst
  have hnames : nf.name ≠ nt.name := by
    rw [hnfname, hntname]
    intro e
    exact hne (Option.some.inj e)
  have hff : ∃ k, nf.leg k = none := by
    cases hs : xp.stn with
    | none => exact ⟨0, by rw [hfempty hs]⟩
    | some st0 =>
      have e := hfold st0 hs
      subst e
      obtain ⟨nd, hnd, _⟩ := hw.stn P xp fr hxp hs
      obtain ⟨nd', h1, _, h3⟩ := hold0 fr nd hnd
      have e2 : nf = nd' := Option.some.inj (hnf.symm.trans h1)
      rw [e2, h3]
      exact hfree fr nd hs hnd
  have hft : ∃ k, nt.leg k = none := ⟨0, by rw [htempty hq]⟩
  obtain ⟨i, j, s', e3, hw', hi, hilow, hj, hjlow, hnf', hnt', hoth, hlen, _, hL, _, _, hpfx,
    hplen, _, _, hc, _, hpf, _⟩ :=
    addleg_nosplit { s0 with cLegs := s0.cLegs + 1 } (WF_cLegs s0 hw0 _) fr to_ nf nt hnf hnt
      hnames hff hft dx dy dz vx vy vz cyz czx cxy LegFlags.zero
  have hj0 : j = 0 := lowest_of_empty nt.leg j (htempty hq) hjlow
  subst hj0
  obtain ⟨xp', hxp', hxp'stn, _⟩ := hpfx P xp0 hxp0
  have hfrto : fr ≠ to_ := by
    intro e
    subst e
    rw [hnf] at hnt
    cases hnt
    exact hnames rfl
  refine ⟨s', fr, to_, nf, _, _, i, xp', ?_, hw', hxp', hxp'stn.trans hxp0stn, hnf', hnfname,
    ?_, hfempty, ?_, hi, hilow, ?_, hnt', hntname, ?_, ?_, ?_, ?_, hpf.trans hpc0⟩
  · rw [addlegbyname_eq s s0 P Q fToFirst fr to_ dx dy dz vx vy vz cyz czx cxy hne e0]
    exact e3
  · intro q nd hq' hname
    by_contra hqfr
    by_cases hqto : q = to_
    · subst hqto
      rw [hnt'] at hq'
      cases hq'
      rw [hntname] at hname
      exact hne (Option.some.inj hname).symm
    · rw [hoth q hqfr hqto] at hq'
      have hq0 : s0.nodes[q]? = some nd := hq'
      by_cases hlt : q < s.nodes.length
      · obtain ⟨nd1, hnd1⟩ := exists_of_lt hlt
        obtain ⟨nd2, h1, h2, _⟩ := hold0 q nd1 hnd1
        rw [hq0] at h1
        cases h1
        exact hqfr (hfold q (honly q nd1 hnd1 (h2 ▸ hname))).symm
      · rcases hnew0 q nd hq0 (Nat.le_of_not_lt hlt) with ⟨e, _⟩ | ⟨e, _⟩
        · exact hqfr e
        · exact hqto e
  · intro st0 np hs hnp
    have e := hfold st0 hs
    subst e
    obtain ⟨nd', h1, _, h3⟩ := hold0 fr np hnp
    rw [hnf] at h1
    cases h1
    exact ⟨rfl, h3⟩
  · show Function.update nf.leg i (some s0.legs.length) = _
    rw [hlegs0]
  · have : ({ s0 with cLegs := s0.cLegs + 1 } : State K).legs.length = s.legs.length := by
      show s0.legs.length = s.legs.length
      rw [hlegs0]
    rw [← this, hL, ← hpc0]
  · intro p px hp
    obtain ⟨px0, h1, h2, h3, h4, _⟩ := hpfx0 p px hp
    obtain ⟨px', h5, h6, h7, h8, _⟩ := hpfx p px0 h1
    refine ⟨px', h5, h7.trans h3, h8.trans h4, ?_⟩
    intro hpP hpQ
    rw [h6, h2 hpP hpQ]
  · exact hplen.trans hplen0
  · rw [hc]
    show s0.cLegs + 1 = s.cLegs + 1
    rw [hc0]

/-- A leg from `P`, whose station has no free slot, to a name `Q` that has no
station yet: the station of `P` is split once. -/
theorem step_split (s : State K) (hw : WF s) (P Q : PfxPtr) (hne : P ≠ Q) (xp xq : Prefix)
    (hxp : s.pfxs[P]? = some xp) (hxq : s.pfxs[Q]? = some xq) (hq : xq.stn = none)
    (st : NodePtr) (np : node) (hst : xp.stn = some st) (hnp : s.nodes[st]? = some np)
    (hfull : ∀ k, np.leg k ≠ none)
    (honly : ∀ (q : NodePtr) (nd : node), s.nodes[q]? = some nd → nd.name = some P → q = st)
    (fToFirst : Bool) (dx dy dz vx vy vz cyz czx cxy : K) :
    ∃ (s' : State K) (new sq : NodePtr) (nnew nst nq' : node),
      addlegbyname s P Q fToFirst dx dy dz vx vy vz cyz czx cxy = some s' ∧ WF s' ∧
      new ≠ st ∧ s.nodes[new]? = none ∧
      s'.nodes[st]? = some nst ∧ nst.name = some P ∧
      s'.nodes[new]? = some nnew ∧ nnew.name = some P ∧
      (∀ (q : NodePtr) (nd : node), s'.nodes[q]? = some nd → nd.name = some P →
        q = st ∨ q = new) ∧
      nnew.leg 0 = np.leg 0 ∧ nnew.leg 1 = some (s.legs.length + 3) ∧
      nnew.leg 2 = some s.legs.length ∧
      nst.leg 0 = some (s.legs.length + 2) ∧ nst.leg 1 = np.leg 1 ∧ nst.leg 2 = np.leg 2 ∧
      s'.nodes[sq]? = some nq' ∧ nq'.name = some Q ∧ nq'.leg 0 = some (s.legs.length + 1) ∧
      s'.legs[s.legs.length]? = some
        { to_ := some sq, reverse := ⟨0, FLAG_DATAHERE.lor LegFlags.zero⟩,
          flags := s.pcs_flags, d := some ![dx, dy, dz],
          v := some ![vx, vy, vz, cxy, czx, cyz] } ∧
      s'.legs[s.legs.length + 1]? = some { to_ := some new, reverse := ⟨2, LegFlags.zero⟩ } ∧
      s'.legs[s.legs.length + 2]? = some
        { to_ := some new, reverse := ⟨1, FLAG_DATAHERE.lor FLAG_FAKE⟩,
          flags := s.pcs_flags, d := some (fun _ => 0), v := some (fun _ => 0) } ∧
      s'.legs[s.legs.length + 3]? = some { to_ := some st, reverse := ⟨0, LegFlags.zero⟩ } ∧
      (∀ (p : PfxPtr) (px : Prefix), s.pfxs[p]? = some px →
        ∃ px' : Prefix, s'.pfxs[p]? = some px' ∧ px'.up = px.up ∧ px'.ident = px.ident ∧
          (p ≠ P → p ≠ Q → px'.stn = px.stn)) ∧
      s'.pfxs.length = s.pfxs.length ∧ s'.cLegs = s.cLegs + 1 ∧
      s'.pcs_flags = s.pcs_flags := by
  obtain ⟨s0, fr, to_, nf, nt, e0, hw0, hnf, hnfname, hnt, hntname, _, htempty, hfold,
    _, hold0, hnew0, hlegs0, hpfx0, hplen0, _, _, _, hc0, hpc0, _⟩ :=
    stations_wf s hw P Q hne xp xq hxp hxq fToFirst
  have efr := hfold st hst
  subst efr
  have hnames : nf.name ≠ nt.name := by
    rw [hnfname, hntname]
    intro e
    exact hne (Option.some.inj e)
  obtain ⟨nd', h1, _, hnfleg⟩ := hold0 fr np hnp
  have e2 : nf = nd' := Option.some.inj (hnf.symm.trans h1)
  subst e2
  have hfull0 : ∀ k, nf.leg k ≠ none := by
    intro k
    rw [hnfleg]
    exact hfull k
  have hft : ∃ k, nt.leg k = none := ⟨0, by rw [htempty hq]⟩
  obtain ⟨j, s', nnew, nst, nt', e3, hw', hj, hjlow, hlen, hnew, hnewname, hnew0', hnew1,
    hnew2, hst', hstname, hst0, hst1, hst2, hnt', hnt'name, hnt'j, hnames', hL, hL1, hL2, hL3,
    hpfx, hplen, _, _, hc, _, hpf, _⟩ :=
    addleg_split { s0 with cLegs := s0.cLegs + 1 } (WF_cLegs s0 hw0 _) fr to_ nf nt hnf hnt
      hnames hfull0 hft dx dy dz vx vy vz cyz czx cxy LegFlags.zero
  have hj0 : j = 0 := lowest_of_empty nt.leg j (htempty hq) hjlow
  subst hj0
  have hlfr : fr < s0.nodes.length := lt_of_getElem? hnf
  have hll : ({ s0 with cLegs := s0.cLegs + 1 } : State K).legs.length = s.legs.length := by
    show s0.legs.length = s.legs.length
    rw [hlegs0]
  have hnn : ({ s0 with cLegs := s0.cLegs + 1 } : State K).nodes.length = s0.nodes.length :=
    rfl
  have hpp : ({ s0 with cLegs := s0.cLegs + 1 } : State K).pcs_flags = s.pcs_flags := hpc0
  rw [hll] at hL hL1 hL2 hL3 hnew1 hnew2 hst0 hnt'j
  rw [hnn] at hnew hL1 hL2 hlen
  rw [hpp] at hL hL2
  refine ⟨s', s0.nodes.length, to_, nnew, nst, nt', ?_, hw', Nat.ne_of_gt hlfr, ?_, hst',
    hstname.trans hnfname, hnew, hnewname.trans hnfname, ?_, hnew0'.trans (congrFun hnfleg 0), hnew1, hnew2,
    hst0, hst1.trans (by rw [hnfleg]), hst2.trans (by rw [hnfleg]), hnt',
    hnt'name.trans hntname, hnt'j, hL, hL1, hL2, hL3, ?_, hplen.trans hplen0, ?_,
    hpf.trans hpc0⟩
  · rw [addlegbyname_eq s s0 P Q fToFirst fr to_ dx dy dz vx vy vz cyz czx cxy hne e0]
    exact e3
  · rw [List.getElem?_eq_none_iff]
    by_contra hlt
    obtain ⟨nd, hnd⟩ := exists_of_lt (Nat.lt_of_not_le hlt)
    obtain ⟨nd2, h2, _⟩ := hold0 _ nd hnd
    exact absurd (lt_of_getElem? h2) (Nat.lt_irrefl _)
  · intro q nd hq' hname
    have hqlt : q < s0.nodes.length + 1 := hlen ▸ lt_of_getElem? hq'
    rcases Nat.lt_succ_iff_lt_or_eq.mp hqlt with hlt | heq
    · left
      obtain ⟨nd0, hnd0⟩ := exists_of_lt hlt
      have hnd0' : ({ s0 with cLegs := s0.cLegs + 1 } : State K).nodes[q]? = some nd0 := hnd0
      obtain ⟨nd2, h2, h3⟩ := hnames' q nd0 hnd0'
      rw [hq'] at h2
      cases h2
      rw [h3] at hname
      by_cases hlt2 : q < s.nodes.length
      · obtain ⟨nd1, hnd1⟩ := exists_of_lt hlt2
        obtain ⟨nd3, h4, h5, _⟩ := hold0 q nd1 hnd1
        rw [hnd0] at h4
        cases h4
        exact honly q nd1 hnd1 (h5 ▸ hname)
      · rcases hnew0 q nd0 hnd0 (Nat.le_of_not_lt hlt2) with ⟨e, _⟩ | ⟨e, _⟩
        · exact e
        · exfalso
          subst e
          rw [hnt] at hnd0
          cases hnd0
          rw [hntname] at hname
          exact hne (Option.some.inj hname).symm
    · right
      exact heq
  · intro p px hp
    obtain ⟨px0, h1, h2, h3, h4, _⟩ := hpfx0 p px hp
    obtain ⟨px', h5, h6, h7, h8, _⟩ := hpfx p px0 h1
    refine ⟨px', h5, h7.trans h3, h8.trans h4, ?_⟩
    intro hpP hpQ
    rw [h6, h2 hpP hpQ]
  · rw [hc]
    show s0.cLegs + 1 = s.cLegs + 1
    rw [hc0]

/-! ### Rendering of names -/

/-- Rendering a name reads only the parent links and identifiers of names. -/
theorem sprint_prefix__congr (s s' : State K)
    (h : ∀ (p : PfxPtr) (px : Prefix), s.pfxs[p]? = some px →
      ∃ px' : Prefix, s'.pfxs[p]? = some px' ∧ px'.up = px.up ∧ px'.ident = px.ident) :
    ∀ (fuel : Nat) (p : PfxPtr) (buf : String) (r : String × Nat),
      sprint_prefix_ s fuel p buf = some r → sprint_prefix_ s' fuel p buf = some r := by
  intro fuel
  induction fuel with
  | zero =>
    intro p buf r hr
    simp [sprint_prefix_] at hr
  | succ n ih =>
    intro p buf r hr
    cases hx : s.pfxs[p]? with
    | none => simp [sprint_prefix_, State.getPfx, hx] at hr
    | some x =>
      obtain ⟨x', hx', hup, hid⟩ := h p x hx
      cases hu : x.up with
      | none =>
        simp [sprint_prefix_, State.getPfx, hx, hu] at hr
        simp [sprint_prefix_, State.getPfx, hx', hup, hu, hr]
      | some up =>
        cases hrec : sprint_prefix_ s n up buf with
        | none => simp [sprint_prefix_, State.getPfx, hx, hu, hrec] at hr
        | some r1 =>
          have hrec' := ih up buf r1 hrec
          cases hxu : s.pfxs[up]? with
          | none => simp [sprint_prefix_, State.getPfx, hx, hu, hrec, hxu] at hr
          | some u =>
            obtain ⟨u', hu', huup, _⟩ := h up u hxu
            simp [sprint_prefix_, State.getPfx, hx, hu, hrec, hxu] at hr
            simp [sprint_prefix_, State.getPfx, hx', hup, hu, hrec', hu', huup, hid, hr]

theorem sprint_prefix_congr (s s' : State K) (hlen : s'.pfxs.length = s.pfxs.length)
    (h : ∀ (p : PfxPtr) (px : Prefix), s.pfxs[p]? = some px →
      ∃ px' : Prefix, s'.pfxs[p]? = some px' ∧ px'.up = px.up ∧ px'.ident = px.ident)
    (p : PfxPtr) (str : String) (hs : sprint_prefix s p = some str) :
    sprint_prefix s' p = some str := by
  cases hr : sprint_prefix_ s s.pfxs.length p "" with
  | none => simp [ sprint_prefix, hr] at hs
  | some r =>
    have hr' := sprint_prefix__congr s s' h _ p "" r hr
    simp [ sprint_prefix, hr] at hs
    simp [ sprint_prefix, hlen, hr', hs]

/-! ### The operations of the graph: the claims -/

/-- C6: `addlegbyname` called with the same name at both ends (and a name that
renders) reports the user error 50 with the rendered name and changes nothing
else: the leg and station counts, the station list, every station and its leg
slots, every leg record and every name are as before, so no station was
created. -/
theorem addlegbyname_same_name (s : State K) (name : PfxPtr) (str : String) (fToFirst : Bool)
    (dx dy dz vx vy vz cyz czx cxy : K) (hstr : sprint_prefix s name = some str) :
    ∃ s' : State K,
      addlegbyname s name name fToFirst dx dy dz vx vy vz cyz czx cxy = some s' ∧
      s'.msgs = s.msgs ++ [⟨Severity.error, 50, [str]⟩] ∧
      s'.cLegs = s.cLegs ∧ s'.cStns = s.cStns ∧ s'.stnlist = s.stnlist ∧
      s'.stn_iter = s.stn_iter ∧ s'.nodes = s.nodes ∧ s'.legs = s.legs ∧
      s'.pfxs = s.pfxs ∧ s'.poss = s.poss := by
  refine ⟨compile_error s 50 [str], ?_, rfl, rfl, rfl, rfl, rfl, rfl, rfl, rfl, rfl⟩
  simp [addlegbyname, hstr]

/-- C8: on a station with an empty leg slot `freeleg` returns the lowest index
whose slot is empty, hands back the same station pointer and leaves the whole
state as it was. -/
theorem freeleg_lowest_free (s : State K) (stn : NodePtr) (n : node)
    (hn : s.getNode stn = some n) (hfree : ∃ k, n.leg k = none) :
    ∃ i : Fin 3, freeleg s stn = some (s, stn, i) ∧ n.leg i = none ∧
      ∀ k : Fin 3, k < i → n.leg k ≠ none :=
  freeleg_free s stn n hn hfree

/-- C7: for two different names of a well-formed graph `addlegbyname` adds
exactly 1 to `cLegs` and installs one matched pair of leg records: with
`(fr', i)` and `(to', j)` what `freeleg` returns for the two ends, slot `i` of
`fr'` holds a record with target `to'`, displacement `(dx, dy, dz)`, packed
covariance `(vx, vy, vz, cxy, czx, cyz)` (so the xy, xz and yz entries are
`cxy`, `czx`, `cyz`), DATA_HERE set, FAKE clear and reverse index `j`; slot `j`
of `to'` holds a record with target `fr'`, reverse index `i` and DATA_HERE
clear. -/
theorem addlegbyname_installs_pair (s : State K) (hw : WF s) (fr_name to_name : PfxPtr)
    (hne : fr_name ≠ to_name) (xf xt : Prefix)
    (hxf : s.getPfx fr_name = some xf) (hxt : s.getPfx to_name = some xt) (fToFirst : Bool)
    (dx dy dz vx vy vz cyz czx cxy : K) :
    ∃ (s0 : State K) (fr to_ : NodePtr) (s1 : State K) (fr' : NodePtr) (i : Fin 3)
      (s2 : State K) (to' : NodePtr) (j : Fin 3) (s' : State K) (nf' nt' : node)
      (leg leg2 : LegPtr) (L L2 : linkfor K) (v : svar K),
      addlegbyname_stations s fr_name to_name fToFirst = some (s0, fr, to_) ∧
      freeleg { s0 with cLegs := s0.cLegs + 1, legs := s0.legs ++ [{}] ++ [{}] } fr =
        some (s1, fr', i) ∧
      freeleg s1 to_ = some (s2, to', j) ∧
      addlegbyname s fr_name to_name fToFirst dx dy dz vx vy vz cyz czx cxy = some s' ∧
      s'.cLegs = s.cLegs + 1 ∧
      s'.getNode fr' = some nf' ∧ nf'.name = some fr_name ∧ nf'.leg i = some leg ∧
      s'.getLeg leg = some L ∧ reverse_leg s' leg = some leg2 ∧
      L.to_ = some to' ∧ L.d = some ![dx, dy, dz] ∧
      L.v = some v ∧ v = ![vx, vy, vz, cxy, czx, cyz] ∧
      SN v 0 0 = vx ∧ SN v 1 1 = vy ∧ SN v 2 2 = vz ∧
      SN v 0 1 = cxy ∧ SN v 0 2 = czx ∧ SN v 1 2 = cyz ∧
      L.reverse.flags.datahere = true ∧ L.reverse.flags.fake = false ∧ L.reverse.dirn = j ∧
      s'.getNode to' = some nt' ∧ nt'.name = some to_name ∧ nt'.leg j = some leg2 ∧
      s'.getLeg leg2 = some L2 ∧ reverse_leg s' leg2 = some leg ∧
      L2.to_ = some fr' ∧ L2.reverse.dirn = i ∧ L2.reverse.flags.datahere = false := by
  obtain ⟨s0, fr, to_, nf, nt, e0, hw0, hnf, hnfname, hnt, hntname, _, _, _, _, _, _, hlegs0,
    _, _, _, _, _, hc0, _, _⟩ := stations_wf s hw fr_name to_name hne xf xt hxf hxt fToFirst
  have hnames : nf.name ≠ nt.name := by
    rw [hnfname, hntname]
    intro e
    exact hne (Option.some.inj e)
  obtain ⟨s1, fr', i, s2, to', j, s', nf2, nt2, e1, e2, e3, hw', hne', hnf2, hnf2name, hfi,
    hnt2, hnt2name, hfj, hnf', hnt', _, _, _, hL, hL2, _, _, _, _, _, _, _, hc, _, _, _⟩ :=
    addleg_wf { s0 with cLegs := s0.cLegs + 1 } (WF_cLegs s0 hw0 _) fr to_ nf nt hnf hnt hnames
      dx dy dz vx vy vz cyz czx cxy LegFlags.zero
  obtain ⟨e00, e01, e02, e10, e11, e12, e20, e21, e22⟩ := SNindex_vals
  refine ⟨s0, fr, to_, s1, fr', i, s2, to', j, s', _, _, s0.legs.length, s0.legs.length + 1,
    _, _, ![vx, vy, vz, cxy, czx, cyz], e0, e1, e2, ?_, ?_, hnf', hnf2name.trans hnfname, ?_,
    hL, ?_, rfl, rfl, rfl, rfl, ?_, ?_, ?_, ?_, ?_, ?_, rfl, rfl, rfl, hnt',
    hnt2name.trans hntname, ?_, hL2, ?_, rfl, rfl, rfl⟩
  · rw [addlegbyname_eq s s0 fr_name to_name fToFirst fr to_ dx dy dz vx vy vz cyz czx cxy hne
      e0]
    exact e3
  · rw [hc]
    show s0.cLegs + 1 = s.cLegs + 1
    rw [hc0]
  · simp
  · have hL' : s'.legs[s0.legs.length]? = some _ := hL
    have hnt'' : s'.nodes[to']? = some _ := hnt'
    simp [reverse_leg, State.getLeg, State.getNode, hL', hnt'']
  · simp [SN, e00]
  · simp [SN, e11]
  · simp [SN, e22]
  · simp [SN, e01]
  · simp [SN, e02]
  · rw [SN, e12]
    rfl
  · simp
  · have hL2' : s'.legs[s0.legs.length + 1]? = some _ := hL2
    have hnf'' : s'.nodes[fr']? = some _ := hnf'
    simp [reverse_leg, State.getLeg, State.getNode, hL2', hnf'']

/-- C9: on a station `old` whose three slots are all in use, the leg in slot 0
being one half of a matched pair, `freeleg` returns slot 2 of a new station
`new` that was not there before, sits at the head of the station list and
carries `old`'s name. Slot 0 of `new` holds the leg that was in slot 0 of
`old`, and the record of that leg's partner now points at `new`; slot 0 of
`old` holds a fresh record with target `new`, zero displacement, zero
covariance, DATA_HERE and FAKE set and reverse index 1; slot 1 of `new` holds
its partner, with target `old` and reverse index 0; slot 2 of `new` is empty;
slots 1 and 2 of `old` are as before, and no leg record other than the
partner's is changed. -/
theorem freeleg_full_splits (s : State K) (old : NodePtr) (n : node) (l0 l1 l2 : LegPtr)
    (hn : s.getNode old = some n)
    (h0 : n.leg 0 = some l0) (h1 : n.leg 1 = some l1) (h2 : n.leg 2 = some l2)
    (hpair : PairAt s old 0 l0)
    (hhead : ∀ h, s.stnlist = some h → h < s.nodes.length)
    (hiter : ∀ x, s.stn_iter = some x → x < s.nodes.length) :
    ∃ (s' : State K) (new : NodePtr) (nn no : node) (fl fl2 r : LegPtr) (R : linkfor K),
      freeleg s old = some (s', new, 2) ∧ new ≠ old ∧ s.getNode new = none ∧
      s'.stnlist = some new ∧ s'.getNode new = some nn ∧ nn.next = s.stnlist ∧
      nn.prev = none ∧
      (∀ (h : NodePtr) (hd : node), s.stnlist = some h → s.getNode h = some hd →
        ∃ hd' : node, s'.getNode h = some hd' ∧ hd'.prev = some new) ∧
      nn.name = n.name ∧
      nn.leg 0 = some l0 ∧ reverse_leg s l0 = some r ∧ s.getLeg r = some R ∧
      s'.getLeg r = some { R with to_ := some new } ∧
      reverse_leg s' l0 = some r ∧ reverse_leg s' r = some l0 ∧
      s'.getNode old = some no ∧ no.name = n.name ∧ no.leg 0 = some fl ∧
      s.getLeg fl = none ∧
      s'.getLeg fl = some
        { to_ := some new, reverse := ⟨1, ⟨true, true⟩⟩, flags := s.pcs_flags,
          d := some (fun _ => 0), v := some (fun _ => 0) } ∧
      nn.leg 1 = some fl2 ∧ s.getLeg fl2 = none ∧
      s'.getLeg fl2 = some { to_ := some old, reverse := ⟨0, ⟨false, false⟩⟩ } ∧
      reverse_leg s' fl = some fl2 ∧ reverse_leg s' fl2 = some fl ∧
      nn.leg 2 = none ∧ no.leg 1 = some l1 ∧ no.leg 2 = some l2 ∧
      (∀ (l : LegPtr) (L : linkfor K), s.getLeg l = some L → l ≠ r →
        s'.getLeg l = some L) := by
  obtain ⟨L0, T, Tn, r, R, hL0, hT, hTn, hr, hR, hRt, hRd, hdh⟩ := hpair
  have hn' : s.nodes[old]? = some n := hn
  have hit : s.stn_iter ≠ some s.nodes.length := by
    intro e
    exact absurd (hiter _ e) (Nat.lt_irrefl _)
  have hfull : ∀ k, n.leg k ≠ none := by
    intro k
    have h3 : k = 0 ∨ k = 1 ∨ k = 2 := by
      fin_cases k <;> simp
    rcases h3 with e | e | e <;> subst e <;> simp [h0, h1, h2]
  obtain ⟨s', e, nlen, llen, hN, hq, hLg, hLg1, hl, hp, hpos, hsl, hsi, hc, hcs, hpf, hm⟩ :=
    freeleg_split_spec s old n Tn l0 r L0 R T hn' h0 hL0 hT hTn hr hR hit hhead
  have hlo := lt_of_getElem? hn'
  have hl0r : l0 ≠ r := by
    intro e
    subst e
    rw [hL0] at hR
    cases hR
    exact hdh rfl
  have hTd : ¬ (T = old ∧ L0.reverse.dirn = 0) := by
    rintro ⟨e1, e2⟩
    subst e1
    rw [hn'] at hTn
    cases hTn
    rw [e2, h0] at hr
    cases hr
    exact hl0r rfl
  have hTn' := hq T Tn hTn
  have hr' : (if T = old then Function.update Tn.leg 0 (some s.legs.length) else Tn.leg)
      L0.reverse.dirn = some r := by
    by_cases e : T = old
    · rw [if_pos e, Function.update_noteq (fun e2 => hTd ⟨e, e2⟩)]
      exact hr
    · rw [if_neg e]
      exact hr
  have hL0' : s'.legs[l0]? = some L0 := (hl l0 L0 hL0).trans (by rw [if_neg hl0r])
  have hR' : s'.legs[r]? = some { R with to_ := some s.nodes.length } :=
    (hl r R hR).trans (by rw [if_pos rfl])
  have hold' := hq old n hn'
  refine ⟨s', s.nodes.length, _, _, s.legs.length, s.legs.length + 1, r, R,
    (freeleg_full s old n hn' hfull).trans e, Nat.ne_of_gt hlo, ?_, hsl, hN, rfl, rfl, ?_, rfl,
    ?_, ?_, hR, hR', ?_, ?_, hold', rfl, ?_, ?_, hLg, ?_, ?_, hLg1, ?_, ?_, ?_, ?_, ?_, ?_⟩
  · exact List.getElem?_eq_none (Nat.le_refl _)
  · intro h hd hh hhd
    refine ⟨_, hq h hd hhd, ?_⟩
    simp [hh]
  · simp
  · simp [reverse_leg, State.getLeg, State.getNode, hL0, hT, hTn, hr]
  · simp [reverse_leg, State.getLeg, State.getNode, hL0', hT, hTn', hr']
  · simp [reverse_leg, State.getLeg, State.getNode, hR', hN, hRd]
  · simp
  · exact List.getElem?_eq_none (Nat.le_refl _)
  · simp
  · exact List.getElem?_eq_none (Nat.le_succ _)
  · simp [reverse_leg, State.getLeg, State.getNode, hLg, hN]
  · simp [reverse_leg, State.getLeg, State.getNode, hLg1, hold']
  · simp
  · simp [h1]
  · simp [h2]
  · intro l L hL hlr
    exact (hl l L hL).trans (by rw [if_neg hlr])

/-- C10: in a well-formed graph, four legs added with `addlegbyname` from a name
`P` to four other names `Q1 .. Q4`, none of the five having a station yet,
produce exactly one split. After each of the first three legs one station
`st` carries `P`. After the fourth exactly two do, `st` and a station `new`
that did not exist before; `new` holds the fourth leg (in slot 2), both carry
the name `P` and so render the same string with `sprint_prefix`, and they are
joined by a pair of records, one in each direction, whose data-holding record
has zero displacement, zero covariance and DATA_HERE and FAKE set. -/
theorem four_legs_one_split (s : State K) (hw : WF s) (P Q1 Q2 Q3 Q4 : PfxPtr)
    (hd : [P, Q1, Q2, Q3, Q4].Nodup) (xP x1 x2 x3 x4 : Prefix)
    (hP : s.getPfx P = some xP) (h1 : s.getPfx Q1 = some x1) (h2 : s.getPfx Q2 = some x2)
    (h3 : s.getPfx Q3 = some x3) (h4 : s.getPfx Q4 = some x4)
    (hPs : xP.stn = none) (h1s : x1.stn = none) (h2s : x2.stn = none) (h3s : x3.stn = none)
    (h4s : x4.stn = none) (str : String) (hstr : sprint_prefix s P = some str)
    (f1 f2 f3 f4 : Bool) (a b c e : Fin 9 → K) :
    ∃ (s1 s2 s3 s4 : State K) (st new sq : NodePtr) (nst nnew nq : node)
      (fl fl2 lg4 : LegPtr),
      addlegbyname s P Q1 f1 (a 0) (a 1) (a 2) (a 3) (a 4) (a 5) (a 6) (a 7) (a 8) = some s1 ∧
      addlegbyname s1 P Q2 f2 (b 0) (b 1) (b 2) (b 3) (b 4) (b 5) (b 6) (b 7) (b 8) = some s2 ∧
      addlegbyname s2 P Q3 f3 (c 0) (c 1) (c 2) (c 3) (c 4) (c 5) (c 6) (c 7) (c 8) = some s3 ∧
      addlegbyname s3 P Q4 f4 (e 0) (e 1) (e 2) (e 3) (e 4) (e 5) (e 6) (e 7) (e 8) = some s4 ∧
      (∀ (q : NodePtr) (nd : node), s1.getNode q = some nd → nd.name = some P → q = st) ∧
      (∀ (q : NodePtr) (nd : node), s2.getNode q = some nd → nd.name = some P → q = st) ∧
      (∀ (q : NodePtr) (nd : node), s3.getNode q = some nd → nd.name = some P → q = st) ∧
      (∃ n3 : node, s3.getNode st = some n3 ∧ n3.name = some P) ∧
      new ≠ st ∧ s3.getNode new = none ∧
      s4.getNode st = some nst ∧ nst.name = some P ∧
      s4.getNode new = some nnew ∧ nnew.name = some P ∧
      (∀ (q : NodePtr) (nd : node), s4.getNode q = some nd → nd.name = some P →
        q = st ∨ q = new) ∧
      sprint_prefix s4 P = some str ∧
      nnew.leg 2 = some lg4 ∧
      s4.getLeg lg4 = some
        { to_ := some sq, reverse := ⟨0, ⟨true, false⟩⟩, flags := s.pcs_flags,
          d := some ![e 0, e 1, e 2], v := some ![e 3, e 4, e 5, e 8, e 7, e 6] } ∧
      s4.getNode sq = some nq ∧ nq.name = some Q4 ∧
      nst.leg 0 = some fl ∧
      s4.getLeg fl = some
        { to_ := some new, reverse := ⟨1, ⟨true, true⟩⟩, flags := s.pcs_flags,
          d := some (fun _ => 0), v := some (fun _ => 0) } ∧
      nnew.leg 1 = some fl2 ∧
      s4.getLeg fl2 = some { to_ := some st, reverse := ⟨0, ⟨false, false⟩⟩ } ∧
      reverse_leg s4 fl = some fl2 ∧ reverse_leg s4 fl2 = some fl ∧
      s4.cLegs = s.cLegs + 4 := by
  -- the five names are different
  simp only [List.nodup_cons, List.mem_cons, List.mem_singleton, not_or, List.not_mem_nil,
    not_false_eq_true, List.nodup_nil, and_true] at hd
  obtain ⟨⟨hP1, hP2, hP3, hP4⟩, ⟨h12, h13, h14⟩, ⟨h23, h24⟩, h34⟩ := hd
  -- first leg
  have honly0 : ∀ (q : NodePtr) (nd : node), s.nodes[q]? = some nd → nd.name = some P →
      xP.stn = some q := by
    intro q nd hq hname
    exfalso
    obtain ⟨p, px, m, e1, e2, e3⟩ := hw.name q nd hq
    rw [hname] at e1
    cases e1
    rw [show s.pfxs[P]? = some xP from hP] at e2
    cases e2
    rw [hPs] at e3
    cases e3
  obtain ⟨s1, st, sq1, n0, n1, nq1, i1, xP1, e1, hw1, hxP1, hxP1s, hn1, hn1name, honly1, hn0,
    _, hi1, hi1low, hn1leg, _, _, _, hpfx1, hplen1, hc1, hf1⟩ :=
    step_free s hw P Q1 hP1 xP x1 hP h1 h1s honly0
      (fun st np hs _ => by rw [hPs] at hs; cases hs) f1
      (a 0) (a 1) (a 2) (a 3) (a 4) (a 5) (a 6) (a 7) (a 8)
  have hi1' : i1 = 0 := lowest_of_empty n0.leg i1 (hn0 hPs) hi1low
  subst hi1'
  have hn1l0 : n1.leg 0 ≠ none := by rw [hn1leg]; simp
  have hn1l1 : n1.leg 1 = none := by rw [hn1leg, hn0 hPs]; simp
  have hn1l2 : n1.leg 2 = none := by rw [hn1leg, hn0 hPs]; simp
  -- second leg
  obtain ⟨y2, hy2, _, _, hy2s⟩ := hpfx1 Q2 x2 h2
  obtain ⟨y3, hy3, _, _, hy3s⟩ := hpfx1 Q3 x3 h3
  obtain ⟨y4, hy4, _, _, hy4s⟩ := hpfx1 Q4 x4 h4
  obtain ⟨s2, st2, sq2, m1, n2, nq2, i2, xP2, e2, hw2, hxP2, hxP2s, hn2, hn2name, honly2, _,
    hm1, hi2, hi2low, hn2leg, _, _, _, hpfx2, hplen2, hc2, hf2⟩ :=
    step_free s1 hw1 P Q2 hP2 xP1 y2 hxP1 hy2
      ((hy2s (Ne.symm hP2) (Ne.symm h12)).trans h2s)
      (fun q nd hq hname => by rw [hxP1s, honly1 q nd hq hname])
      (fun st0 np hs hnp => by
        rw [hxP1s] at hs
        cases hs
        rw [hn1] at hnp
        cases hnp
        exact ⟨1, hn1l1⟩) f2
      (b 0) (b 1) (b 2) (b 3) (b 4) (b 5) (b 6) (b 7) (b 8)
  obtain ⟨est2, hm1leg⟩ := hm1 st n1 hxP1s hn1
  subst est2
  have hi2' : i2 = 1 := by
    rw [hm1leg] at hi2 hi2low
    have h3 : i2 = 0 ∨ i2 = 1 ∨ i2 = 2 := by
      fin_cases i2 <;> simp
    rcases h3 with h | h | h
    · subst h
      exact absurd hi2 hn1l0
    · exact h
    · subst h
      exact absurd hn1l1 (hi2low 1 (by decide))
  subst hi2'
  have hn2l0 : n2.leg 0 ≠ none := by rw [hn2leg, hm1leg]; simpa using hn1l0
  have hn2l1 : n2.leg 1 ≠ none := by rw [hn2leg]; simp
  have hn2l2 : n2.leg 2 = none := by rw [hn2leg, hm1leg]; simpa using hn1l2
  -- third leg
  obtain ⟨z3, hz3, _, _, hz3s⟩ := hpfx2 Q3 y3 hy3
  obtain ⟨z4, hz4, _, _, hz4s⟩ := hpfx2 Q4 y4 hy4
  obtain ⟨s3, st3, sq3, m2, n3, nq3, i3, xP3, e3, hw3, hxP3, hxP3s, hn3, hn3name, honly3, _,
    hm2, hi3, hi3low, hn3leg, _, _, _, hpfx3, hplen3, hc3, hf3⟩ :=
    step_free s2 hw2 P Q3 hP3 xP2 z3 hxP2 hz3
      ((hz3s (Ne.symm hP3) (Ne.symm h23)).trans ((hy3s (Ne.symm hP3) (Ne.symm h13)).trans h3s))
      (fun q nd hq hname => by rw [hxP2s, honly2 q nd hq hname])
      (fun st0 np hs hnp => by
        rw [hxP2s] at hs
        cases hs
        rw [hn2] at hnp
        cases hnp
        exact ⟨2, hn2l2⟩) f3
      (c 0) (c 1) (c 2) (c 3) (c 4) (c 5) (c 6) (c 7) (c 8)
  obtain ⟨est3, hm2leg⟩ := hm2 st n2 hxP2s hn2
  subst est3
  have hi3' : i3 = 2 := by
    rw [hm2leg] at hi3
    have h3 : i3 = 0 ∨ i3 = 1 ∨ i3 = 2 := by
      fin_cases i3 <;> simp
    rcases h3 with h | h | h
    · subst h
      exact absurd hi3 hn2l0
    · subst h
      exact absurd hi3 hn2l1
    · exact h
  subst hi3'
  have hn3full : ∀ k, n3.leg k ≠ none := by
    intro k
    rw [hn3leg, hm2leg]
    have h3 : k = 0 ∨ k = 1 ∨ k = 2 := by
      fin_cases k <;> simp
    rcases h3 with h | h | h
    · subst h
      simpa using hn2l0
    · subst h
      simpa using hn2l1
    · subst h
      simp
  -- fourth leg
  obtain ⟨w4, hw4, _, _, hw4s⟩ := hpfx3 Q4 z4 hz4
  obtain ⟨s4, new, sq, nnew, nst, nq, e4, hw4', hnewst, hnew3, hnst, hnstname, hnnew, hnnewname,
    honly4, _, hnnew1, hnnew2, hnst0, _, _, hnq, hnqname, _, hL, _, hL2, hL3, hpfx4, hplen4,
    hc4, hf4⟩ :=
    step_split s3 hw3 P Q4 hP4 xP3 w4 hxP3 hw4
      ((hw4s (Ne.symm hP4) (Ne.symm h34)).trans ((hz4s (Ne.symm hP4) (Ne.symm h24)).trans
        ((hy4s (Ne.symm hP4) (Ne.symm h14)).trans h4s)))
      st n3 hxP3s hn3 hn3full honly3 f4
      (e 0) (e 1) (e 2) (e 3) (e 4) (e 5) (e 6) (e 7) (e 8)
  have hf : s3.pcs_flags = s.pcs_flags := hf3.trans (hf2.trans hf1)
  refine ⟨s1, s2, s3, s4, st, new, sq, nst, nnew, nq, _, _, _, e1, e2, e3, e4, honly1, honly2,
    honly3, ⟨n3, hn3, hn3name⟩, hnewst, hnew3, hnst, hnstname, hnnew, hnnewname, honly4, ?_,
    hnnew2, ?_, hnq, hnqname, hnst0, ?_, hnnew1, hL3, ?_, ?_, ?_⟩
  · -- rendering
    have r1 := sprint_prefix_congr s s1 hplen1
      (fun p px hp => by
        obtain ⟨px', g1, g2, g3, _⟩ := hpfx1 p px hp
        exact ⟨px', g1, g2, g3⟩) P str hstr
    have r2 := sprint_prefix_congr s1 s2 hplen2
      (fun p px hp => by
        obtain ⟨px', g1, g2, g3, _⟩ := hpfx2 p px hp
        exact ⟨px', g1, g2, g3⟩) P str r1
    have r3 := sprint_prefix_congr s2 s3 hplen3
      (fun p px hp => by
        obtain ⟨px', g1, g2, g3, _⟩ := hpfx3 p px hp
        exact ⟨px', g1, g2, g3⟩) P str r2
    exact sprint_prefix_congr s3 s4 hplen4
      (fun p px hp => by
        obtain ⟨px', g1, g2, g3, _⟩ := hpfx4 p px hp
        exact ⟨px', g1, g2, g3⟩) P str r3
  · rw [← hf]
    exact hL
  · rw [← hf]
    exact hL2
  · simp [reverse_leg, State.getLeg, State.getNode, hL2, hnnew, hnnew1]
  · simp [reverse_leg, State.getLeg, State.getNode, hL3, hnst, hnst0]
  · rw [hc4, hc3, hc2, hc1]
    ring

/-! ### Concrete inputs -/

theorem WF_exampleStar : WF exampleStar := by
  refine ⟨?_, ?_, ?_, ?_, ?_⟩
  · intro h hh
    cases hh
  · intro x hx
    cases hx
  · intro q nd hq
    simp [exampleStar] at hq
  · intro p px m hp hm
    have hlt := lt_of_getElem? hp
    have h6 : p < 6 := hlt
    interval_cases p <;> simp [exampleStar] at hp <;> subst hp <;> cases hm
  · intro q nd i lp hq
    simp [exampleStar] at hq

theorem sprint_exampleStar : sprint_prefix exampleStar 1 = some "P" := by
  decide

theorem addlegbyname_same_name_witness :
    sprint_prefix exampleStar 1 = some "P" ∧
    ∃ s' : State ℚ,
      addlegbyname exampleStar 1 1 false 1 0 0 1 1 1 0 0 0 = some s' ∧
      s'.msgs = exampleStar.msgs ++ [⟨Severity.error, 50, ["P"]⟩] ∧
      s'.cLegs = exampleStar.cLegs ∧ s'.cStns = exampleStar.cStns ∧
      s'.stnlist = exampleStar.stnlist ∧
      s'.stn_iter = exampleStar.stn_iter ∧ s'.nodes = exampleStar.nodes ∧
      s'.legs = exampleStar.legs ∧
      s'.pfxs = exampleStar.pfxs ∧ s'.poss = exampleStar.poss :=
  ⟨sprint_exampleStar,
    addlegbyname_same_name exampleStar 1 "P" false 1 0 0 1 1 1 0 0 0 sprint_exampleStar⟩

theorem addlegbyname_installs_pair_witness :
    WF exampleStar ∧ (1 : PfxPtr) ≠ 2 ∧
    exampleStar.getPfx 1 = some { up := some 0, ident := "P" } ∧
    exampleStar.getPfx 2 = some { up := some 0, ident := "Q1" } ∧
    ∃ (s' : State ℚ) (fr' to' : NodePtr) (i j : Fin 3) (nf' nt' : node) (leg leg2 : LegPtr)
      (L L2 : linkfor ℚ),
      addlegbyname exampleStar 1 2 false 1 0 0 1 1 1 0 0 0 = some s' ∧
      s'.cLegs = exampleStar.cLegs + 1 ∧
      s'.getNode fr' = some nf' ∧ nf'.leg i = some leg ∧ s'.getLeg leg = some L ∧
      L.to_ = some to' ∧ L.d = some ![1, 0, 0] ∧ L.v = some ![1, 1, 1, 0, 0, 0] ∧
      L.reverse.dirn = j ∧
      s'.getNode to' = some nt' ∧ nt'.leg j = some leg2 ∧ s'.getLeg leg2 = some L2 ∧
      L2.to_ = some fr' ∧ L2.reverse.dirn = i := by
  refine ⟨WF_exampleStar, by decide, rfl, rfl, ?_⟩
  obtain ⟨s0, fr, to_, s1, fr', i, s2, to', j, s', nf', nt', leg, leg2, L, L2, v, _, _, _, h4,
    h5, h6, _, h8, h9, _, h11, h12, h13, h14, _, _, _, _, _, _, _, _, h23, h24, _, h26, h27, _,
    h29, h30, _⟩ :=
    addlegbyname_installs_pair exampleStar WF_exampleStar 1 2 (by decide) _ _ rfl rfl false
      1 0 0 1 1 1 0 0 0
  exact ⟨s', fr', to', i, j, nf', nt', leg, leg2, L, L2, h4, h5, h6, h8, h9, h11, h12,
    h14 ▸ h13, h23, h24, h26, h27, h29, h30⟩

theorem freeleg_lowest_free_witness :
    exampleFull.getNode 1 =
      some { name := some 2, leg := ![some 1, none, none], next := some 0, prev := some 2 } ∧
    ∃ i : Fin 3, freeleg exampleFull 1 = some (exampleFull, 1, i) ∧
      (![some 1, none, none] : Fin 3 → Option LegPtr) i = none ∧
      ∀ k : Fin 3, k < i → (![some 1, none, none] : Fin 3 → Option LegPtr) k ≠ none :=
  ⟨rfl, freeleg_lowest_free exampleFull 1 _ rfl ⟨1, rfl⟩⟩

theorem freeleg_full_splits_witness :
    PairAt exampleFull 0 0 0 ∧
    ∃ (s' : State ℚ) (new : NodePtr) (nn no : node) (fl fl2 : LegPtr),
      freeleg exampleFull 0 = some (s', new, 2) ∧ new ≠ 0 ∧
      s'.stnlist = some new ∧ s'.getNode new = some nn ∧ nn.name = some 1 ∧
      nn.leg 0 = some 0 ∧ nn.leg 1 = some fl2 ∧ nn.leg 2 = none ∧
      s'.getNode 0 = some no ∧ no.leg 0 = some fl ∧ no.leg 1 = some 2 ∧ no.leg 2 = some 4 := by
  have hp : PairAt exampleFull 0 0 0 :=
    ⟨_, 1, _, 1, _, rfl, rfl, rfl, rfl, rfl, rfl, rfl, by decide⟩
  refine ⟨hp, ?_⟩
  obtain ⟨s', new, nn, no, fl, fl2, r, R, a1, a2, _, a4, a5, _, _, _, a9, a10, _, _, _, _, _,
    a16, _, a18, _, _, a21, _, _, _, _, a26, a27, a28, _⟩ :=
    freeleg_full_splits exampleFull 0 _ 0 2 4 rfl rfl rfl rfl hp
      (by intro h hh; cases hh; decide) (by intro x hx; cases hx)
  exact ⟨s', new, nn, no, fl, fl2, a1, a2, a4, a5, a9, a10, a21, a26, a16, a18, a27, a28⟩

theorem four_legs_one_split_witness :
    WF exampleStar ∧ ([1, 2, 3, 4, 5] : List PfxPtr).Nodup ∧
    sprint_prefix exampleStar 1 = some "P" ∧
    ∃ (s3 s4 : State ℚ) (st new : NodePtr) (nst nnew : node) (fl fl2 : LegPtr),
      addlegbyname s3 1 5 false (exampleLeg 0) (exampleLeg 1) (exampleLeg 2) (exampleLeg 3)
        (exampleLeg 4) (exampleLeg 5) (exampleLeg 6) (exampleLeg 7) (exampleLeg 8) = some s4 ∧
      (∀ (q : NodePtr) (nd : node), s3.getNode q = some nd → nd.name = some 1 → q = st) ∧
      new ≠ st ∧ s3.getNode new = none ∧
      s4.getNode st = some nst ∧ nst.name = some 1 ∧
      s4.getNode new = some nnew ∧ nnew.name = some 1 ∧
      sprint_prefix s4 1 = some "P" ∧
      nst.leg 0 = some fl ∧ nnew.leg 1 = some fl2 ∧
      reverse_leg s4 fl = some fl2 ∧ reverse_leg s4 fl2 = some fl ∧
      s4.cLegs = exampleStar.cLegs + 4 := by
  refine ⟨WF_exampleStar, by decide, sprint_exampleStar, ?_⟩
  obtain ⟨s1, s2, s3, s4, st, new, sq, nst, nnew, nq, fl, fl2, lg4, _, _, _, e4, _, _, o3, _,
    hne, hnew3, hnst, hnstname, hnnew, hnnewname, _, hstr, _, _, _, _, hfl, _, hfl2, _, hr1,
    hr2, hc⟩ :=
    four_legs_one_split exampleStar WF_exampleStar 1 2 3 4 5 (by decide) _ _ _ _ _ rfl rfl rfl
      rfl rfl rfl rfl rfl rfl rfl "P" sprint_exampleStar false false false false exampleLeg
      exampleLeg exampleLeg exampleLeg
  exact ⟨s3, s4, st, new, nst, nnew, fl, fl2, e4, o3, hne, hnew3, hnst, hnstname, hnnew,
    hnnewname, hstr, hfl, hfl2, hr1, hr2, hc⟩

/-! ### Copies and sums of legs -/

/-- The record behind a leg pointer is not touched by `osnew`. -/
theorem reverse_leg_newLeg (s : State K) (leg r : LegPtr) (x : linkfor K)
    (h : reverse_leg s leg = some r) :
    reverse_leg { s with legs := s.legs ++ [x] } leg = some r := by
  cases hl : s.legs[leg]? with
  | none => simp [reverse_leg, State.getLeg, hl] at h
  | some L =>
    have hlt := lt_of_getElem? hl
    simp only [reverse_leg, State.getLeg, hl, State.getNode, Option.bind_eq_bind,
      Option.some_bind] at h
    simp only [reverse_leg, State.getLeg, State.getNode, List.getElem?_append_left hlt, hl,
      Option.bind_eq_bind, Option.some_bind]
    exact h

/-- What `copy_link` computes on a leg of a pair with one DATA_HERE direction. -/
theorem copy_link_eq (s : State K) (leg : LegPtr) (L : linkfor K) (r : LegPtr)
    (R : linkfor K) (dd : delta K) (vv : svar K)
    (hL : s.legs[leg]? = some L) (hr : reverse_leg s leg = some r)
    (hR : s.legs[r]? = some R) (hone : data_here L ≠ data_here R)
    (hd : (if data_here L then L else R).d = some dd)
    (hv : (if data_here L then L else R).v = some vv) :
    copy_link s leg = some
      ({ s with legs := s.legs ++
          [{ d := some (if data_here L then dd else fun i => -dd i), v := some vv }] },
        s.legs.length) := by
  have hlt := lt_of_getElem? hL
  have hrlt := lt_of_getElem? hR
  have hr' := reverse_leg_newLeg s leg r ({} : linkfor K) hr
  cases hdh : data_here L with
  | true =>
    simp only [hdh, if_true] at hd hv
    simp [copy_link, copy_link_d, State.newLeg, State.getLeg, State.modLeg,
      List.getElem?_append_left hlt, hL, hdh, hd, hv, Nat.ne_of_gt hlt]
  | false =>
    have hR1 : data_here R = true := by
      cases h2 : data_here R with
      | true => rfl
      | false => rw [hdh, h2] at hone; exact absurd rfl hone
    simp only [hdh, Bool.false_eq_true, if_false] at hd hv
    simp [copy_link, copy_link_d, State.newLeg, State.getLeg, State.modLeg,
      List.getElem?_append_left hlt, List.getElem?_append_left hrlt, hL, hdh, hd, hv, hr',
      hR, hR1, Nat.ne_of_gt hrlt]

/-- C11: for a leg whose pair has exactly one direction with DATA_HERE set, on
which a displacement `dd` and a covariance `vv` are stored, `copy_link` returns
a new leg (a pointer that was no leg before; the store grows by its record and
nothing else changes) whose covariance is `vv` and whose displacement is `dd`
when the leg itself holds the data and the componentwise negation of `dd` when
its reverse does. -/
theorem copy_link_pair (s : State K) (leg : LegPtr) (L : linkfor K) (r : LegPtr)
    (R : linkfor K) (dd : delta K) (vv : svar K)
    (hL : s.legs[leg]? = some L) (hr : reverse_leg s leg = some r)
    (hR : s.legs[r]? = some R) (hone : data_here L ≠ data_here R)
    (hd : (if data_here L then L else R).d = some dd)
    (hv : (if data_here L then L else R).v = some vv) :
    ∃ (s' : State K) (legOut : LegPtr) (C : linkfor K),
      copy_link s leg = some (s', legOut) ∧ s.legs[legOut]? = none ∧
      s'.legs = s.legs ++ [C] ∧ s'.legs[legOut]? = some C ∧ C.v = some vv ∧
      (data_here L = true → C.d = some dd) ∧
      (data_here L = false → C.d = some (fun i => -dd i)) ∧
      s'.nodes = s.nodes ∧ s'.pfxs = s.pfxs ∧ s'.poss = s.poss ∧ s'.stnlist = s.stnlist ∧
      s'.stn_iter = s.stn_iter ∧ s'.cLegs = s.cLegs ∧ s'.cStns = s.cStns ∧
      s'.msgs = s.msgs := by
  refine ⟨_, _, _, copy_link_eq s leg L r R dd vv hL hr hR hone hd hv, ?_, rfl, ?_, rfl, ?_, ?_,
    rfl, rfl, rfl, rfl, rfl, rfl, rfl, rfl⟩
  · exact List.getElem?_eq_none (Nat.le_refl _)
  · simp
  · intro h
    simp [h]
  · intro h
    simp [h]

/-- What `addto_link` computes when `leg2` is a leg of a pair with one
DATA_HERE direction. -/
theorem addto_link_eq (s : State K) (leg leg2 : LegPtr) (L L2 : linkfor K) (r : LegPtr)
    (R : linkfor K) (d0 dd : delta K) (v0 vv : svar K)
    (hL : s.legs[leg]? = some L) (hd0 : L.d = some d0) (hv0 : L.v = some v0)
    (hL2 : s.legs[leg2]? = some L2) (hr : reverse_leg s leg2 = some r)
    (hR : s.legs[r]? = some R) (hone : data_here L2 ≠ data_here R)
    (hd : (if data_here L2 then L2 else R).d = some dd)
    (hv : (if data_here L2 then L2 else R).v = some vv) :
    addto_link s leg leg2 = some
      ({ s with
          legs :=
            s.legs.set leg
              { L with
                d := some (if data_here L2 then adddd d0 dd else subdd d0 dd)
                v := some (addss v0 vv) } }, leg) := by
  have hlt := lt_of_getElem? hL
  cases hdh : data_here L2 with
  | true =>
    simp only [hdh, if_true] at hd hv
    by_cases e : leg = leg2
    · subst e
      have e2 : L2 = L := Option.some.inj (hL2.symm.trans hL)
      subst e2
      have e3 : dd = d0 := Option.some.inj (hd.symm.trans hd0)
      have e4 : vv = v0 := Option.some.inj (hv.symm.trans hv0)
      subst e3 e4
      simp [addto_link, addto_link_d, State.getLeg, State.modLeg, hL, hdh, hd0, hv0, hd, hv,
        List.getElem?_set, hlt]
    · simp [addto_link, addto_link_d, State.getLeg, State.modLeg, hL, hL2, hdh, hd0, hv0, hd,
        hv, List.getElem?_set, hlt, e]
  | false =>
    have hR1 : data_here R = true := by
      cases h2 : data_here R with
      | true => rfl
      | false => rw [hdh, h2] at hone; exact absurd rfl hone
    simp only [hdh, Bool.false_eq_true, if_false] at hd hv
    by_cases e : leg = r
    · subst e
      have e2 : R = L := Option.some.inj (hR.symm.trans hL)
      subst e2
      have e3 : dd = d0 := Option.some.inj (hd.symm.trans hd0)
      have e4 : vv = v0 := Option.some.inj (hv.symm.trans hv0)
      subst e3 e4
      simp [addto_link, addto_link_d, State.getLeg, State.modLeg, hL, hL2, hdh, hd0, hv0, hd,
        hv, hr, hR1, List.getElem?_set, hlt]
    · simp [addto_link, addto_link_d, State.getLeg, State.modLeg, hL, hL2, hdh, hd0, hv0, hd,
        hv, hr, hR, hR1, List.getElem?_set, hlt, e]

/-- C12: for a forward leg `leg` with displacement `d0` and covariance `v0`,
and a leg `leg2` whose pair has exactly one DATA_HERE direction storing `dd`
and `vv`, `addto_link(leg, leg2)` returns `leg` and leaves on it the
displacement `d0 + dd` when `leg2` holds the data and `d0 - dd` when its
reverse does, and the covariance `v0 + vv` in both cases; no other leg record
changes; and the result is `leg` plus `copy_link(leg2)` in both members. -/
theorem addto_link_pair (s : State K) (leg leg2 : LegPtr) (L L2 : linkfor K) (r : LegPtr)
    (R : linkfor K) (d0 dd : delta K) (v0 vv : svar K)
    (hL : s.legs[leg]? = some L) (hd0 : L.d = some d0) (hv0 : L.v = some v0)
    (hL2 : s.legs[leg2]? = some L2) (hr : reverse_leg s leg2 = some r)
    (hR : s.legs[r]? = some R) (hone : data_here L2 ≠ data_here R)
    (hd : (if data_here L2 then L2 else R).d = some dd)
    (hv : (if data_here L2 then L2 else R).v = some vv) :
    ∃ (s' : State K) (L' : linkfor K) (d' : delta K) (v' : svar K),
      addto_link s leg leg2 = some (s', leg) ∧ s'.legs[leg]? = some L' ∧
      L'.d = some d' ∧ L'.v = some v' ∧
      (data_here L2 = true → d' = adddd d0 dd) ∧
      (data_here L2 = false → d' = subdd d0 dd) ∧ v' = addss v0 vv ∧
      L'.to_ = L.to_ ∧ L'.reverse = L.reverse ∧ L'.flags = L.flags ∧
      (∀ (q : LegPtr), q ≠ leg → s'.legs[q]? = s.legs[q]?) ∧ s'.nodes = s.nodes ∧
      s'.pfxs = s.pfxs ∧
      (∃ (sc : State K) (out : LegPtr) (C : linkfor K) (dc : delta K) (vc : svar K),
        copy_link s leg2 = some (sc, out) ∧ sc.legs[out]? = some C ∧ C.d = some dc ∧
        C.v = some vc ∧ d' = adddd d0 dc ∧ v' = addss v0 vc) := by
  have hlt := lt_of_getElem? hL
  refine ⟨_, { L with
      d := some (if data_here L2 then adddd d0 dd else subdd d0 dd)
      v := some (addss v0 vv) }, _, _,
    addto_link_eq s leg leg2 L L2 r R d0 dd v0 vv hL hd0 hv0 hL2 hr hR hone hd hv, ?_, rfl, rfl,
    ?_, ?_, rfl, rfl, rfl, rfl, ?_, rfl, rfl, ?_⟩
  · simp [List.getElem?_set, hlt]
  · intro h
    simp [h]
  · intro h
    simp [h]
  · intro q hq
    simp [List.getElem?_set, Ne.symm hq]
  · refine ⟨_, _, { d := some (if data_here L2 then dd else fun i => -dd i), v := some vv },
      _, _, copy_link_eq s leg2 L2 r R dd vv hL2 hr hR hone hd hv, ?_, rfl, rfl, ?_, rfl⟩
    · simp
    · cases hdh : data_here L2 with
      | true => simp
      | false =>
        funext i
        simp [adddd, subdd, sub_eq_add_neg]

/-! ### Get-or-create of stations -/

/-- C13: `StnFromPfx(name)` is get-or-create. A name with a station gets that
station back and the state is unchanged. A name without one gets a new station
(a pointer that was no station before) that carries the name, has three empty
slots, stands at the head of the station list (its `next` is the old head, its
`prev` is null, the old head's `prev` points at it, all other stations are as
before) and is recorded as the name's station; `cStns` grows by exactly 1; a
position is allocated and the name marked unfixed exactly when the name had no
position; and a second call returns the same station and changes nothing. -/
theorem StnFromPfx_get_or_create (s : State K) (name : PfxPtr) (x : Prefix)
    (hx : s.pfxs[name]? = some x)
    (hiter : ∀ i, s.stn_iter = some i → i < s.nodes.length)
    (hhead : ∀ h, s.stnlist = some h → h < s.nodes.length) :
    (∀ stn, x.stn = some stn → StnFromPfx s name = some (s, stn)) ∧
    (x.stn = none →
      ∃ (s' : State K) (stn : NodePtr) (nd : node) (x' : Prefix),
        StnFromPfx s name = some (s', stn) ∧ s.nodes[stn]? = none ∧
        s'.nodes[stn]? = some nd ∧ nd.name = some name ∧ nd.leg = (fun _ => none) ∧
        nd.next = s.stnlist ∧ nd.prev = none ∧ s'.stnlist = some stn ∧
        (∀ (q : NodePtr) (m : node), s.nodes[q]? = some m →
          ∃ m' : node, s'.nodes[q]? = some m' ∧ m'.name = m.name ∧ m'.leg = m.leg ∧
            m'.next = m.next ∧ m'.prev = (if s.stnlist = some q then some stn else m.prev)) ∧
        s'.nodes.length = s.nodes.length + 1 ∧
        s'.pfxs[name]? = some x' ∧ x'.stn = some stn ∧ x'.up = x.up ∧ x'.ident = x.ident ∧
        x'.shape = x.shape ∧
        (∀ (p : PfxPtr), p ≠ name → s'.pfxs[p]? = s.pfxs[p]?) ∧
        s'.cStns = s.cStns + 1 ∧ s'.cLegs = s.cLegs ∧ s'.legs = s.legs ∧
        (x.pos = none → x'.pos = some s.poss.length ∧ s.poss[s.poss.length]? = none ∧
          s'.poss = s.poss ++ [some ({} : pos K)] ∧ x'.fixed = false) ∧
        (x.pos ≠ none → x'.pos = x.pos ∧ s'.poss = s.poss ∧ x'.fixed = x.fixed) ∧
        StnFromPfx s' name = some (s', stn)) := by
  constructor
  · intro stn hs
    exact StnFromPfx_old s name x stn hx hs
  · intro hs
    have hit : s.stn_iter ≠ some s.nodes.length := by
      intro h
      exact Nat.lt_irrefl _ (hiter _ h)
    obtain ⟨s', h1, h2, h3, h4, h5, h6, h7, h8, h9, h10, h11, _, _⟩ :=
      StnFromPfx_new s name x hx hs hit hhead
    have hlt : name < s.pfxs.length := lt_of_getElem? hx
    have hx' : s'.pfxs[name]? = some
        { x with pos := if x.pos = none then some s.poss.length else x.pos,
                 fixed := if x.pos = none then false else x.fixed,
                 stn := some s.nodes.length } := by
      rw [h6]
      simp [List.getElem?_set, hlt]
    refine ⟨s', s.nodes.length, _, _, h1, List.getElem?_eq_none (Nat.le_refl _), h3, rfl, rfl,
      rfl, rfl, h8, ?_, h2, hx', rfl, rfl, rfl, rfl, ?_, h11, h10, h5, ?_, ?_, ?_⟩
    · intro q m hq
      exact ⟨_, h4 q m hq, rfl, rfl, rfl, rfl⟩
    · intro p hp
      rw [h6]
      simp [List.getElem?_set, Ne.symm hp]
    · intro hp
      refine ⟨by simp [hp], List.getElem?_eq_none (Nat.le_refl _), by simp [h7, hp],
        by simp [hp]⟩
    · intro hp
      refine ⟨by simp [hp], by simp [h7, hp], by simp [hp]⟩
    · exact StnFromPfx_old s' name _ _ hx' rfl

/-! ### Removal from the station list -/

theorem ListSeg_append (s : State K) (a b : List NodePtr) :
    ∀ (h t : Option NodePtr), ListSeg s h (a ++ b) t ↔ ∃ m, ListSeg s h a m ∧ ListSeg s m b t := by
  induction a with
  | nil =>
    intro h t
    constructor
    · intro hl
      exact ⟨h, rfl, hl⟩
    · rintro ⟨m, hm, hl⟩
      have e : h = m := hm
      rw [e]
      exact hl
  | cons x xs ih =>
    intro h t
    constructor
    · rintro ⟨hx, nd, hnd, hl⟩
      obtain ⟨m, h1, h2⟩ := (ih nd.next t).mp hl
      exact ⟨m, ⟨hx, nd, hnd, h1⟩, h2⟩
    · rintro ⟨m, ⟨hx, nd, hnd, h1⟩, h2⟩
      exact ⟨hx, nd, hnd, (ih nd.next t).mpr ⟨m, h1, h2⟩⟩

/-- The traversal from a given start is unique. -/
theorem ListSeg_det (s : State K) (l : List NodePtr) :
    ∀ (l' : List NodePtr) (h : Option NodePtr), ListSeg s h l none → ListSeg s h l' none →
      l = l' := by
  induction l with
  | nil =>
    intro l' h h1 h2
    cases l' with
    | nil => rfl
    | cons y ys =>
      have e : h = none := h1
      rw [e] at h2
      exact absurd h2.1 (by simp)
  | cons x xs ih =>
    intro l' h h1 h2
    obtain ⟨hx, nd, hnd, hl⟩ := h1
    cases l' with
    | nil =>
      have e : h = none := h2
      rw [e] at hx
      exact absurd hx (by simp)
    | cons y ys =>
      obtain ⟨hy, nd', hnd', hl'⟩ := h2
      have e : x = y := Option.some.inj (hx.symm.trans hy)
      subst e
      have e2 : nd = nd' := Option.some.inj (hnd.symm.trans hnd')
      subst e2
      rw [ih ys nd.next hl hl']

/-- A traversal that ends meets no station twice. -/
theorem ListSeg_nodup (s : State K) (l : List NodePtr) :
    ∀ (h : Option NodePtr), ListSeg s h l none → l.Nodup := by
  induction l with
  | nil =>
    intro h _
    exact List.nodup_nil
  | cons x xs ih =>
    intro h hl
    obtain ⟨hx, nd, hnd, hl'⟩ := hl
    refine List.nodup_cons.mpr ⟨?_, ih nd.next hl'⟩
    intro hmem
    obtain ⟨c, e, he⟩ := List.append_of_mem hmem
    rw [he] at hl'
    obtain ⟨m, _, h2⟩ := (ListSeg_append s c (x :: e) nd.next none).mp hl'
    obtain ⟨_, nd', hnd', hl2⟩ := h2
    have e2 : nd = nd' := Option.some.inj (hnd.symm.trans hnd')
    subst e2
    have hl3 : ListSeg s nd.next xs none := by
      have := (ListSeg_append s c (x :: e) nd.next none).mpr ⟨m, ‹_›, ⟨‹_›, nd, hnd, hl2⟩⟩
      rw [he]
      exact this
    have e3 := ListSeg_det s xs e nd.next hl3 hl2
    have hlen := congrArg List.length (he.symm.trans e3)
    simp at hlen
    omega

/-- A traversal reads only the `next` members of the stations it meets. -/
theorem ListSeg_congr (s s' : State K) (l : List NodePtr) :
    ∀ (h t : Option NodePtr),
      (∀ (x : NodePtr) (nd : node), x ∈ l → s.nodes[x]? = some nd →
        ∃ nd' : node, s'.nodes[x]? = some nd' ∧ nd'.next = nd.next) →
      ListSeg s h l t → ListSeg s' h l t := by
  induction l with
  | nil =>
    intro h t _ hl
    exact hl
  | cons x xs ih =>
    intro h t hc hl
    obtain ⟨hx, nd, hnd, hl'⟩ := hl
    obtain ⟨nd', hnd', hn⟩ := hc x nd (List.mem_cons_self _ _) hnd
    refine ⟨hx, nd', hnd', ?_⟩
    rw [hn]
    exact ih nd.next t (fun y ny hy hny => hc y ny (List.mem_cons_of_mem _ hy) hny) hl'

/-- Every station of a traversal is a station. -/
theorem ListSeg_mem (s : State K) (l : List NodePtr) :
    ∀ (h t : Option NodePtr) (x : NodePtr), ListSeg s h l t → x ∈ l →
      ∃ nd : node, s.nodes[x]? = some nd := by
  induction l with
  | nil =>
    intro h t x _ hx
    cases hx
  | cons y ys ih =>
    intro h t x hl hx
    obtain ⟨_, nd, hnd, hl'⟩ := hl
    rcases List.mem_cons.mp hx with e | hmem
    · subst e
      exact ⟨nd, hnd⟩
    · exact ih nd.next t x hl' hmem

/-- What unlinking `stn` writes: the `next` of its predecessor and the `prev`
of its successor, and nothing else. -/
theorem remove_stn_unlink_eq (s : State K) (list : Option NodePtr) (stn : NodePtr) (n : node)
    (hn : s.nodes[stn]? = some n)
    (hp : ∀ p, n.prev = some p → p < s.nodes.length)
    (hx : ∀ x, n.next = some x → x < s.nodes.length) :
    ∃ s' : State K,
      remove_stn_unlink s list stn = some (s', if n.prev = none then n.next else list) ∧
      (∀ (q : NodePtr) (nq : node), s.nodes[q]? = some nq → s'.nodes[q]? = some
        { nq with next := if n.prev = some q then n.next else nq.next,
                  prev := if n.next = some q then n.prev else nq.prev }) ∧
      s'.nodes.length = s.nodes.length ∧
      s'.legs = s.legs ∧ s'.pfxs = s.pfxs ∧ s'.poss = s.poss ∧ s'.stn_iter = s.stn_iter ∧
      s'.stnlist = s.stnlist ∧ s'.cLegs = s.cLegs ∧ s'.cStns = s.cStns ∧
      s'.pcs_flags = s.pcs_flags ∧ s'.msgs = s.msgs := by
  cases hpv : n.prev with
  | none =>
    cases hnx : n.next with
    | none =>
      refine ⟨s, by simp [remove_stn_unlink, State.getNode, hn, hpv, hnx], ?_, rfl, rfl, rfl,
        rfl, rfl, rfl, rfl, rfl, rfl, rfl⟩
      intro q nq hq
      simp [hq]
    | some x =>
      have hxl := hx x hnx
      obtain ⟨nx, hnx'⟩ : ∃ nx, s.nodes[x]? = some nx := ⟨_, List.getElem?_eq_getElem hxl⟩
      refine ⟨{ s with nodes := s.nodes.set x { nx with prev := none } },
        by simp [remove_stn_unlink, State.getNode, State.modNode, hn, hpv, hnx, hnx'], ?_,
        by simp, rfl, rfl, rfl, rfl, rfl, rfl, rfl, rfl, rfl⟩
      intro q nq hq
      by_cases e : x = q
      · subst e
        have e2 : nq = nx := Option.some.inj (hq.symm.trans hnx')
        subst e2
        simp [List.getElem?_set, hxl]
      · simp [List.getElem?_set, e, hq]
  | some p =>
    have hpl := hp p hpv
    obtain ⟨np, hnp⟩ : ∃ np, s.nodes[p]? = some np := ⟨_, List.getElem?_eq_getElem hpl⟩
    have hsl := lt_of_getElem? hn
    have hn1 : (s.nodes.set p { np with next := n.next })[stn]? = some n := by
      by_cases e : p = stn
      · subst e
        have e2 : np = n := Option.some.inj (hnp.symm.trans hn)
        subst e2
        simp [List.getElem?_set, hsl]
      · simp [List.getElem?_set, e, hn]
    cases hnx : n.next with
    | none =>
      rw [hnx] at hn1
      refine ⟨{ s with nodes := s.nodes.set p { np with next := none } },
        by simp [remove_stn_unlink, State.getNode, State.modNode, hn, hpv, hnx, hnp, hn1], ?_,
        by simp, rfl, rfl, rfl, rfl, rfl, rfl, rfl, rfl, rfl⟩
      intro q nq hq
      by_cases e : p = q
      · subst e
        have e2 : nq = np := Option.some.inj (hq.symm.trans hnp)
        subst e2
        simp [List.getElem?_set, hpl]
      · simp [List.getElem?_set, e, hq]
    | some x =>
      rw [hnx] at hn1
      have hxl := hx x hnx
      obtain ⟨nx, hnx'⟩ : ∃ nx, s.nodes[x]? = some nx := ⟨_, List.getElem?_eq_getElem hxl⟩
      obtain ⟨nx1, hnx1⟩ : ∃ nx1, (s.nodes.set p { np with next := some x })[x]? = some nx1 :=
        ⟨_, List.getElem?_eq_getElem (by simpa using hxl)⟩
      refine ⟨{ s with
          nodes :=
            (s.nodes.set p { np with next := some x }).set x { nx1 with prev := some p } },
        by simp [remove_stn_unlink, State.getNode, State.modNode, hn, hpv, hnx, hnp, hn1,
          hnx1], ?_, by simp, rfl, rfl, rfl, rfl, rfl, rfl, rfl, rfl, rfl⟩
      intro q nq hq
      by_cases e : x = q
      · subst e
        have e2 : nq = nx := Option.some.inj (hq.symm.trans hnx')
        subst e2
        by_cases e3 : p = x
        · subst e3
          have e4 : np = nq := Option.some.inj (hnp.symm.trans hnx')
          subst e4
          simp [List.getElem?_set, hxl] at hnx1
          subst hnx1
          simp [List.getElem?_set, hxl]
        · simp [List.getElem?_set, e3, hnx'] at hnx1
          subst hnx1
          simp [List.getElem?_set, hxl, e3]
      · by_cases e3 : p = q
        · subst e3
          have e4 : nq = np := Option.some.inj (hq.symm.trans hnp)
          subst e4
          simp [List.getElem?_set, e, hpl]
        · simp [List.getElem?_set, e, e3, hq]

/-- Unlinking a station of a well-formed list leaves a well-formed list with
that station taken out of the traversal. -/
theorem remove_stn_unlink_wf (s : State K) (list : Option NodePtr) (a b : List NodePtr)
    (stn : NodePtr) (n : node) (hw : WFList s list (a ++ stn :: b))
    (hn : s.nodes[stn]? = some n) :
    ∃ (s' : State K) (list' : Option NodePtr),
      remove_stn_unlink s list stn = some (s', list') ∧ WFList s' list' (a ++ b) ∧
      stn ∉ a ++ b ∧ s'.nodes[stn]? = some n ∧
      (∀ (q : NodePtr) (nq : node), s.nodes[q]? = some nq →
        ∃ nq' : node, s'.nodes[q]? = some nq' ∧ nq'.name = nq.name ∧ nq'.leg = nq.leg) ∧
      s'.nodes.length = s.nodes.length ∧
      s'.legs = s.legs ∧ s'.pfxs = s.pfxs ∧ s'.poss = s.poss ∧ s'.stn_iter = s.stn_iter ∧
      s'.stnlist = s.stnlist ∧ s'.cLegs = s.cLegs ∧ s'.cStns = s.cStns ∧
      s'.pcs_flags = s.pcs_flags ∧ s'.msgs = s.msgs := by
  have hnd := ListSeg_nodup s _ list hw.trav
  obtain ⟨hnotin, hab⟩ := List.nodup_cons.mp (List.nodup_middle.mp hnd)
  obtain ⟨m, hsa, hsb⟩ := (ListSeg_append s a (stn :: b) list none).mp hw.trav
  obtain ⟨hm, n', hn', hb⟩ := hsb
  have e : n' = n := Option.some.inj (hn'.symm.trans hn)
  subst e
  subst hm
  have hina : ∀ x, x ∈ a → x ∈ a ++ stn :: b := fun x hx => List.mem_append_left _ hx
  have hinb : ∀ x, x ∈ b → x ∈ a ++ stn :: b := fun x hx =>
    List.mem_append_right _ (List.mem_cons_of_mem _ hx)
  have hdis : ∀ x, x ∈ a → x ∈ b → False := fun x hxa hxb =>
    (List.nodup_append.mp hab).2.2 hxa hxb
  have hnext : ∀ x, n'.next = some x → x ∈ b := by
    intro x hx
    cases b with
    | nil =>
      have e : n'.next = none := hb
      rw [e] at hx
      cases hx
    | cons y ys =>
      have e : n'.next = some y := hb.1
      rw [e] at hx
      cases hx
      exact List.mem_cons_self _ _
  have hprev : (a = [] ∧ n'.prev = none ∧ list = some stn) ∨
      (∃ (a' : List NodePtr) (p : NodePtr) (np : node), a = a' ++ [p] ∧ n'.prev = some p ∧
        s.nodes[p]? = some np ∧ ListSeg s list a' (some p)) := by
    rcases List.eq_nil_or_concat a with e | ⟨a', p, e⟩
    · subst e
      have e2 : list = some stn := hsa
      exact Or.inl ⟨rfl, hw.head_prev stn n' e2 hn, e2⟩
    · rw [List.concat_eq_append] at e
      subst e
      obtain ⟨m1, h1, h2⟩ := (ListSeg_append s a' [p] list (some stn)).mp hsa
      obtain ⟨hm1, np, hnp, hlast⟩ := h2
      have hlast' : np.next = some stn := hlast
      subst hm1
      exact Or.inr ⟨a', p, np, rfl,
        hw.back p stn np n' (hina p (List.mem_append_right _ (List.mem_singleton_self p))) hnp
          hlast' hn, hnp, h1⟩
  have hprevmem : ∀ p, n'.prev = some p → p ∈ a := by
    intro p hp
    rcases hprev with ⟨_, h0, _⟩ | ⟨a', p', _, ha, h0, _, _⟩
    · rw [h0] at hp
      cases hp
    · rw [h0] at hp
      cases hp
      rw [ha]
      exact List.mem_append_right _ (List.mem_singleton_self _)
  have hvp : ∀ p, n'.prev = some p → p < s.nodes.length := by
    intro p hp
    obtain ⟨np, hnp⟩ := ListSeg_mem s _ list none p hw.trav (hina p (hprevmem p hp))
    exact lt_of_getElem? hnp
  have hvx : ∀ x, n'.next = some x → x < s.nodes.length := by
    intro x hx
    obtain ⟨nx, hnx⟩ := ListSeg_mem s _ list none x hw.trav (hinb x (hnext x hx))
    exact lt_of_getElem? hnx
  obtain ⟨s', heq, hch, hlen, h1, h2, h3, h4, h5, h6, h7, h8, h9⟩ :=
    remove_stn_unlink_eq s list stn n' hn hvp hvx
  have hback : ∀ (q : NodePtr) (nq' : node), s'.nodes[q]? = some nq' →
      ∃ nq : node, s.nodes[q]? = some nq ∧ nq' =
        { nq with next := if n'.prev = some q then n'.next else nq.next,
                  prev := if n'.next = some q then n'.prev else nq.prev } := by
    intro q nq' hq
    have hql : q < s.nodes.length := hlen ▸ lt_of_getElem? hq
    refine ⟨s.nodes[q], List.getElem?_eq_getElem hql, ?_⟩
    exact Option.some.inj (hq.symm.trans (hch q _ (List.getElem?_eq_getElem hql)))
  have hsame : ∀ (x : NodePtr) (nd : node), n'.prev ≠ some x → s.nodes[x]? = some nd →
      ∃ nd' : node, s'.nodes[x]? = some nd' ∧ nd'.next = nd.next := by
    intro x nd hx hnd
    exact ⟨_, hch x nd hnd, by simp [hx]⟩
  refine ⟨s', _, heq, ⟨?_, ?_, ?_⟩, hnotin, ?_, ?_, hlen, h1, h2, h3, h4, h5, h6, h7, h8, h9⟩
  · -- the traversal
    refine (ListSeg_append s' a b _ none).mpr ⟨n'.next, ?_, ?_⟩
    · rcases hprev with ⟨ha, h0, hl⟩ | ⟨a', p, np, ha, h0, hnp, hseg⟩
      · subst ha
        simp only [h0, if_true]
        rfl
      · subst ha
        have hne : n'.prev ≠ none := by
          rw [h0]
          simp
        simp only [hne, if_false]
        refine (ListSeg_append s' a' [p] list n'.next).mpr ⟨some p, ?_, ?_⟩
        · refine ListSeg_congr s s' a' list (some p) ?_ hseg
          intro x nd hx hnd
          refine hsame x nd ?_ hnd
          rw [h0]
          intro e
          have e' : p = x := Option.some.inj e
          rw [← e'] at hx
          exact (List.nodup_append.mp (List.nodup_append.mp hab).1).2.2 hx
            (List.mem_singleton_self p)
        · refine ⟨rfl, _, hch p np hnp, ?_⟩
          simp only [h0, if_true]
          rfl
    · refine ListSeg_congr s s' b n'.next none ?_ hb
      intro x nd hx hnd
      refine hsame x nd ?_ hnd
      intro e
      exact hdis x (hprevmem x e) hx
  · -- the head has no prev
    intro h nd' hh hnd'
    obtain ⟨nd, hnd, e⟩ := hback h nd' hnd'
    rw [e]
    rcases hprev with ⟨ha, h0, hl⟩ | ⟨a', p, np, ha, h0, hnp, hseg⟩
    · simp only [h0, if_true] at hh
      simp [hh, h0]
    · have hne : n'.prev ≠ none := by
        rw [h0]
        simp
      simp only [hne, if_false] at hh
      have hha : h ∈ a := by
        rw [ha]
        cases a' with
        | nil =>
          have e2 : list = some p := hseg
          rw [hh] at e2
          cases e2
          simp
        | cons y ys =>
          have e2 : list = some y := hseg.1
          rw [hh] at e2
          cases e2
          simp
      have hnx : n'.next ≠ some h := fun e2 => hdis h hha (hnext h e2)
      simp only [hnx, if_false]
      exact hw.head_prev h nd hh hnd
  · -- x->next->prev == x
    intro x y nd' ny' hx hnd' hnx hny'
    obtain ⟨nd, hnd, e⟩ := hback x nd' hnd'
    obtain ⟨ny, hny, e2⟩ := hback y ny' hny'
    have hxl : x ∈ a ++ stn :: b := by
      rcases List.mem_append.mp hx with h | h
      · exact hina x h
      · exact hinb x h
    rw [e] at hnx
    rw [e2]
    by_cases hp : n'.prev = some x
    · simp only [hp, if_true] at hnx
      simp [hnx, hp]
    · simp only [hp, if_false] at hnx
      have hb1 := hw.back x y nd ny hxl hnd hnx hny
      by_cases hq : n'.next = some y
      · have hb2 := hw.back stn y n' ny (by simp) hn hq hny
        rw [hb1] at hb2
        cases hb2
        exact absurd hx hnotin
      · simp [hq, hb1]
  · -- stn itself
    have := hch stn n' hn
    rw [this]
    have h1 : n'.prev ≠ some stn := fun e => hnotin (List.mem_append_left _ (hprevmem stn e))
    have h2 : n'.next ≠ some stn := fun e => hnotin (List.mem_append_right _ (hnext stn e))
    simp [h1, h2]
  · intro q nq hq
    exact ⟨_, hch q nq hq, rfl, rfl⟩

/-- Well-formedness of a station list reads only the stations. -/
theorem WFList_nodes (s s' : State K) (head : Option NodePtr) (l : List NodePtr)
    (h : s'.nodes = s.nodes) (hw : WFList s head l) : WFList s' head l := by
  refine ⟨?_, ?_, ?_⟩
  · refine ListSeg_congr s s' l head none ?_ hw.trav
    intro x nd _ hnd
    exact ⟨nd, by rw [h]; exact hnd, rfl⟩
  · intro x nd hx hnd
    rw [h] at hnd
    exact hw.head_prev x nd hx hnd
  · intro x y nd ny hx hnd hn hny
    rw [h] at hnd hny
    exact hw.back x y nd ny hx hnd hn hny

/-- C14: for a well-formed doubly linked station list with forward traversal
`l` (the head has no `prev`, `x->next->prev == x` for every element) that
contains `stn`, `remove_stn_from_list` returns, and leaves a well-formed list
whose traversal is `l` with `stn` taken out, the others in their old order; the
cursor `stn_iter` becomes the old `next` of `stn` (a station or null) when it
pointed at `stn` and is unchanged otherwise; the record of `stn` itself, its
`next` and `prev` included, is as before; and no station changes its name or
its leg slots. -/
theorem remove_stn_from_list_spec (s : State K) (list : Option NodePtr) (l : List NodePtr)
    (stn : NodePtr) (hw : WFList s list l) (hin : stn ∈ l) :
    ∃ (s' : State K) (list' : Option NodePtr) (a b : List NodePtr) (n : node),
      remove_stn_from_list s list stn = some (s', list') ∧
      l = a ++ stn :: b ∧ stn ∉ a ++ b ∧ WFList s' list' (a ++ b) ∧
      s.nodes[stn]? = some n ∧ s'.nodes[stn]? = some n ∧
      (s.stn_iter = some stn → s'.stn_iter = n.next) ∧
      (s.stn_iter ≠ some stn → s'.stn_iter = s.stn_iter) ∧
      (∀ (q : NodePtr) (nq : node), s.nodes[q]? = some nq →
        ∃ nq' : node, s'.nodes[q]? = some nq' ∧ nq'.name = nq.name ∧ nq'.leg = nq.leg) ∧
      s'.nodes.length = s.nodes.length ∧ s'.legs = s.legs ∧ s'.pfxs = s.pfxs ∧
      s'.poss = s.poss ∧ s'.cLegs = s.cLegs ∧ s'.cStns = s.cStns ∧ s'.msgs = s.msgs := by
  obtain ⟨a, b, hl⟩ := List.append_of_mem hin
  subst hl
  obtain ⟨n, hn⟩ := ListSeg_mem s _ list none stn hw.trav hin
  by_cases hit : s.stn_iter = some stn
  · have hw0 : WFList { s with stn_iter := n.next } list (a ++ stn :: b) :=
      WFList_nodes s _ list _ rfl hw
    obtain ⟨s', list', h1, h2, h3, h4, h5, h6, h7, h8, h9, h10, _, h12, h13, _, h15⟩ :=
      remove_stn_unlink_wf { s with stn_iter := n.next } list a b stn n hw0 hn
    refine ⟨s', list', a, b, n, ?_, rfl, h3, h2, hn, h4, fun _ => h10, fun h => absurd hit h,
      h5, h6, h7, h8, h9, h12, h13, h15⟩
    simp only [remove_stn_from_list, hit, if_true, State.getNode, hn, Option.bind_eq_bind,
      Option.some_bind, Option.pure_def]
    exact h1
  · obtain ⟨s', list', h1, h2, h3, h4, h5, h6, h7, h8, h9, h10, _, h12, h13, _, h15⟩ :=
      remove_stn_unlink_wf s list a b stn n hw hn
    refine ⟨s', list', a, b, n, ?_, rfl, h3, h2, hn, h4, fun h => absurd h hit, fun _ => h10,
      h5, h6, h7, h8, h9, h12, h13, h15⟩
    simp only [remove_stn_from_list, hit, if_false, Option.bind_eq_bind, Option.some_bind]
    exact h1

/-! ### The output of names -/

theorem intercalate_go_concat (sep : String) (l : List String) :
    ∀ (acc a : String),
      String.intercalate.go acc sep (l ++ [a]) = String.intercalate.go acc sep l ++ sep ++ a := by
  induction l with
  | nil =>
    intro acc a
    rfl
  | cons x xs ih =>
    intro acc a
    exact ih (acc ++ sep ++ x) a

/-- Joining with a separator, one more string at the end. -/
theorem intercalate_concat (sep : String) (l : List String) (a : String) :
    String.intercalate sep (l ++ [a]) =
      if l = [] then a else String.intercalate sep l ++ sep ++ a := by
  cases l with
  | nil => rfl
  | cons x xs => exact intercalate_go_concat sep xs x a

theorem push_dot (fh : String) : fh.push '.' = fh ++ "." := by
  apply String.ext
  simp

/-- The chain of parents of a name is unique. -/
theorem UpChain_det (s : State K) (us : List PfxPtr) :
    ∀ (us' : List PfxPtr) (p : PfxPtr), UpChain s p us → UpChain s p us' → us = us' := by
  induction us with
  | nil =>
    intro us' p h1 h2
    cases us' with
    | nil => rfl
    | cons y ys =>
      obtain ⟨x, hx, hu⟩ := h1
      obtain ⟨⟨x', hx', hu'⟩, _⟩ := h2
      have e : x = x' := Option.some.inj (hx.symm.trans hx')
      subst e
      rw [hu] at hu'
      cases hu'
  | cons u us ih =>
    intro us' p h1 h2
    obtain ⟨⟨x, hx, hu⟩, hr⟩ := h1
    cases us' with
    | nil =>
      obtain ⟨x', hx', hu'⟩ := h2
      have e : x = x' := Option.some.inj (hx.symm.trans hx')
      subst e
      rw [hu] at hu'
      cases hu'
    | cons y ys =>
      obtain ⟨⟨x', hx', hu'⟩, hr'⟩ := h2
      have e : x = x' := Option.some.inj (hx.symm.trans hx')
      subst e
      rw [hu] at hu'
      cases hu'
      rw [ih ys u hr hr']

/-- The chain of parents of a name on the chain. -/
theorem UpChain_suffix (s : State K) (c : List PfxPtr) :
    ∀ (p q : PfxPtr) (e : List PfxPtr), UpChain s p (c ++ q :: e) → UpChain s q e := by
  induction c with
  | nil =>
    intro p q e h
    exact h.2
  | cons u us ih =>
    intro p q e h
    exact ih u q e h.2

/-- Every name of a chain is a name. -/
theorem UpChain_valid (s : State K) (us : List PfxPtr) :
    ∀ (p q : PfxPtr), UpChain s p us → q ∈ p :: us → q < s.pfxs.length := by
  induction us with
  | nil =>
    intro p q h hq
    obtain ⟨x, hx, _⟩ := h
    simp at hq
    subst hq
    exact lt_of_getElem? hx
  | cons u us ih =>
    intro p q h hq
    obtain ⟨⟨x, hx, _⟩, hr⟩ := h
    rcases List.mem_cons.mp hq with e | hm
    · subst e
      exact lt_of_getElem? hx
    · exact ih u q hr hm

/-- A chain of parents that reaches a root meets no name twice. -/
theorem UpChain_nodup (s : State K) (us : List PfxPtr) :
    ∀ (p : PfxPtr), UpChain s p us → (p :: us).Nodup := by
  induction us with
  | nil =>
    intro p _
    simp
  | cons u us ih =>
    intro p h
    refine List.nodup_cons.mpr ⟨?_, ih u h.2⟩
    intro hmem
    obtain ⟨c, e, he⟩ := List.append_of_mem hmem
    have h2 : UpChain s p e := by
      rw [he] at h
      exact UpChain_suffix s c p p e h
    have e3 := UpChain_det s (u :: us) e p h h2
    have hlen := congrArg List.length (he.symm.trans e3)
    simp at hlen
    omega

/-- A chain of parents is shorter than the store of names. -/
theorem UpChain_length (s : State K) (us : List PfxPtr) (p : PfxPtr) (h : UpChain s p us) :
    us.length < s.pfxs.length := by
  have hnd := UpChain_nodup s us p h
  have hsub : (p :: us).toFinset ⊆ Finset.range s.pfxs.length := by
    intro q hq
    rw [List.mem_toFinset] at hq
    exact Finset.mem_range.mpr (UpChain_valid s us p q h hq)
  have hc := Finset.card_le_card hsub
  rw [List.toFinset_card_of_nodup hnd, Finset.card_range] at hc
  simpa using hc

theorem chainIdents_nil (s : State K) (p : PfxPtr) : chainIdents s p [] = [] := rfl

theorem chainIdents_cons (s : State K) (p u : PfxPtr) (us : List PfxPtr) :
    chainIdents s p (u :: us) = chainIdents s u us ++ [identOf s p] := by
  simp only [chainIdents, List.reverse_cons]
  cases h : us.reverse ++ [u] with
  | nil => simp at h
  | cons y ys => simp

theorem chainIdents_eq_nil (s : State K) (u : PfxPtr) (us : List PfxPtr) :
    chainIdents s u us = [] ↔ us = [] := by
  cases us with
  | nil => simp [chainIdents]
  | cons v vs => simp [chainIdents_cons]

/-- The root has no parent, so a chain above a name is empty exactly when the
name is a root. -/
theorem UpChain_up (s : State K) (u : PfxPtr) (us : List PfxPtr) (x : Prefix)
    (h : UpChain s u us) (hx : s.pfxs[u]? = some x) : x.up ≠ none ↔ us ≠ [] := by
  cases us with
  | nil =>
    obtain ⟨x', hx', hu⟩ := h
    have e : x = x' := Option.some.inj (hx.symm.trans hx')
    subst e
    simp [hu]
  | cons v vs =>
    obtain ⟨⟨x', hx', hu⟩, _⟩ := h
    have e : x = x' := Option.some.inj (hx.symm.trans hx')
    subst e
    simp [hu]

/-- What `sprint_prefix_` appends to the buffer. -/
theorem sprint_prefix__chain (s : State K) (us : List PfxPtr) :
    ∀ (p : PfxPtr) (fuel : Nat) (buf : String), UpChain s p us → us.length < fuel →
      ∃ len : Nat, sprint_prefix_ s fuel p buf =
        some (buf ++ String.intercalate "." (chainIdents s p us), len) := by
  induction us with
  | nil =>
    intro p fuel buf h hf
    obtain ⟨x, hx, hu⟩ := h
    obtain ⟨f, rfl⟩ : ∃ f, fuel = f + 1 := ⟨fuel - 1, by omega⟩
    refine ⟨1, ?_⟩
    simp [sprint_prefix_, State.getPfx, hx, hu, chainIdents_nil, String.intercalate]
  | cons u us ih =>
    intro p fuel buf h hf
    obtain ⟨⟨x, hx, hu⟩, hr⟩ := h
    obtain ⟨f, rfl⟩ : ∃ f, fuel = f + 1 := ⟨fuel - 1, by omega⟩
    have hf' : us.length < f := by
      simp at hf
      omega
    obtain ⟨len, hlen⟩ := ih u f buf hr hf'
    obtain ⟨xu, hxu⟩ : ∃ xu, s.pfxs[u]? = some xu := by
      cases us with
      | nil => exact ⟨_, hr.choose_spec.1⟩
      | cons v vs => exact ⟨_, hr.1.choose_spec.1⟩
    have hup := UpChain_up s u us xu hr hxu
    have hid : identOf s p = x.ident := by simp [identOf, hx]
    by_cases hn : us = []
    · have hxu' : xu.up = none := by
        by_contra h
        exact (hup.mp h) hn
      refine ⟨len + x.ident.utf8ByteSize, ?_⟩
      simp only [sprint_prefix_, State.getPfx, hx, hu, hlen, hxu, hxu', Option.bind_eq_bind,
        Option.some_bind, Option.pure_def, ne_eq, not_true_eq_false, if_false]
      rw [chainIdents_cons, intercalate_concat, hid]
      simp [hn, chainIdents, String.intercalate]
    · have hxu' : xu.up ≠ none := hup.mpr hn
      have hc : chainIdents s u us ≠ [] := fun h => hn ((chainIdents_eq_nil s u us).mp h)
      refine ⟨len + x.ident.utf8ByteSize + 1, ?_⟩
      simp only [sprint_prefix_, State.getPfx, hx, hu, hlen, hxu, hxu', Option.bind_eq_bind,
        Option.some_bind, Option.pure_def, ne_eq, not_false_eq_true, if_true]
      rw [chainIdents_cons, intercalate_concat, hid]
      simp [hc, String.append_assoc]

/-- What `fprint_prefix` writes to the stream. -/
theorem fprint_prefix_chain (s : State K) (us : List PfxPtr) :
    ∀ (p : PfxPtr) (fuel : Nat) (fh : String), UpChain s p us → us.length < fuel →
      fprint_prefix s fuel fh p =
        some (fh ++ String.intercalate "." (chainIdents s p us)) := by
  induction us with
  | nil =>
    intro p fuel fh h hf
    obtain ⟨x, hx, hu⟩ := h
    obtain ⟨f, rfl⟩ : ∃ f, fuel = f + 1 := ⟨fuel - 1, by omega⟩
    simp [ fprint_prefix, State.getPfx, hx, hu, chainIdents_nil, String.intercalate]
  | cons u us ih =>
    intro p fuel fh h hf
    obtain ⟨⟨x, hx, hu⟩, hr⟩ := h
    obtain ⟨f, rfl⟩ : ∃ f, fuel = f + 1 := ⟨fuel - 1, by omega⟩
    have hf' : us.length < f := by
      simp at hf
      omega
    have hrec := ih u f fh hr hf'
    obtain ⟨xu, hxu⟩ : ∃ xu, s.pfxs[u]? = some xu := by
      cases us with
      | nil => exact ⟨_, hr.choose_spec.1⟩
      | cons v vs => exact ⟨_, hr.1.choose_spec.1⟩
    have hup := UpChain_up s u us xu hr hxu
    have hid : identOf s p = x.ident := by simp [identOf, hx]
    by_cases hn : us = []
    · have hxu' : xu.up = none := by
        by_contra h
        exact (hup.mp h) hn
      simp only [ fprint_prefix, State.getPfx, hx, hu, hrec, hxu, hxu', Option.bind_eq_bind,
        Option.some_bind, Option.pure_def, ne_eq, not_true_eq_false, if_false]
      rw [chainIdents_cons, intercalate_concat, hid]
      simp [hn, chainIdents, String.intercalate]
    · have hxu' : xu.up ≠ none := hup.mpr hn
      have hc : chainIdents s u us ≠ [] := fun h => hn ((chainIdents_eq_nil s u us).mp h)
      simp only [ fprint_prefix, State.getPfx, hx, hu, hrec, hxu, hxu', Option.bind_eq_bind,
        Option.some_bind, Option.pure_def, ne_eq, not_false_eq_true, if_true]
      rw [chainIdents_cons, intercalate_concat, hid, push_dot]
      simp [hc, String.append_assoc]

/-- C15: for a name `p` whose parents up to the root are `us` (so that the
chain from the root is `p0, p1, .., pn = p`), `sprint_prefix(p)` returns the
identifiers of `p1, .., pn` joined by single dots, the identifier of the root
left out (the empty string when `p` is the root), and `fprint_prefix`, given
`n + 1` or more levels of recursion, writes exactly these characters to the
stream after what it held before. -/
theorem sprint_prefix_dotted (s : State K) (p : PfxPtr) (us : List PfxPtr)
    (h : UpChain s p us) :
    sprint_prefix s p = some (String.intercalate "." (chainIdents s p us)) ∧
    (us = [] → sprint_prefix s p = some "") ∧
    ∀ (fuel : Nat) (fh : String), us.length < fuel →
      fprint_prefix s fuel fh p = some (fh ++ String.intercalate "." (chainIdents s p us)) := by
  obtain ⟨len, hlen⟩ := sprint_prefix__chain s us p s.pfxs.length "" h (UpChain_length s us p h)
  have h1 : sprint_prefix s p = some (String.intercalate "." (chainIdents s p us)) := by
    simp [ sprint_prefix, hlen]
  refine ⟨h1, ?_, ?_⟩
  · intro e
    rw [h1, e]
    rfl
  · intro fuel fh hf
    exact fprint_prefix_chain s us p fuel fh h hf

/-! ### Propagation of a position changes position pointers only -/

theorem PosStep_refl (s : State K) (pw : Option PosPtr) : PosStep s s pw := by
  refine ⟨rfl, rfl, rfl, rfl, rfl, rfl, rfl, rfl, rfl, rfl, ?_⟩
  intro p px hp
  exact ⟨px.pos, hp, Or.inl rfl⟩

theorem PosStep_trans (s s' s'' : State K) (pw : Option PosPtr) (h1 : PosStep s s' pw)
    (h2 : PosStep s' s'' pw) : PosStep s s'' pw := by
  refine ⟨h2.nodes.trans h1.nodes, h2.legs.trans h1.legs, h2.poss.trans h1.poss,
    h2.stnlist.trans h1.stnlist, h2.stn_iter.trans h1.stn_iter, h2.cLegs.trans h1.cLegs,
    h2.cStns.trans h1.cStns, h2.pcs_flags.trans h1.pcs_flags, h2.msgs.trans h1.msgs,
    h2.len.trans h1.len, ?_⟩
  intro p px hp
  obtain ⟨q, hq, hq'⟩ := h1.pfx p px hp
  obtain ⟨q2, hq2, hq2'⟩ := h2.pfx p _ hq
  refine ⟨q2, hq2, ?_⟩
  rcases hq2' with e | e
  · rcases hq' with e' | e'
    · exact Or.inl (e.trans e')
    · exact Or.inr (e.trans e')
  · exact Or.inr e

/-- A name whose position is `pos_with` keeps it. -/
theorem PosStep_kept (s s' : State K) (pw : Option PosPtr) (h : PosStep s s' pw) (p : PfxPtr)
    (px : Prefix) (hp : s.pfxs[p]? = some px) (hpos : px.pos = pw) :
    s'.pfxs[p]? = some px := by
  obtain ⟨q, hq, hq'⟩ := h.pfx p px hp
  have e : q = px.pos := by
    rcases hq' with e | e
    · exact e
    · exact e.trans hpos.symm
  rw [hq, e]

/-- Assigning a position pointer to a name. -/
theorem PosStep_modPfx (s : State K) (pw : Option PosPtr) (name : PfxPtr) (x : Prefix)
    (hx : s.pfxs[name]? = some x) :
    ∃ s' : State K, s.modPfx name (fun y => { y with pos := pw }) = some s' ∧
      PosStep s s' pw ∧ s'.pfxs[name]? = some { x with pos := pw } := by
  have hlt := lt_of_getElem? hx
  refine ⟨{ s with pfxs := s.pfxs.set name { x with pos := pw } }, by simp [State.modPfx, hx],
    ⟨rfl, rfl, rfl, rfl, rfl, rfl, rfl, rfl, rfl, by simp, ?_⟩, by simp [List.getElem?_set, hlt]⟩
  intro p px hp
  by_cases e : name = p
  · subst e
    have e2 : px = x := Option.some.inj (hp.symm.trans hx)
    subst e2
    exact ⟨pw, by simp [List.getElem?_set, hlt], Or.inr rfl⟩
  · exact ⟨px.pos, by simp [List.getElem?_set, e, hp], Or.inl rfl⟩

/-- The test on a leg reads only stations and leg records. -/
theorem equated_leg_congr (s s' : State K) (hn : s'.nodes = s.nodes) (hl : s'.legs = s.legs)
    (leg : LegPtr) : equated_leg s' leg = equated_leg s leg := by
  simp only [equated_leg, reverse_leg, State.getLeg, State.getNode, hn, hl]

theorem EquateLeg_congr (s s' : State K) (hn : s'.nodes = s.nodes) (hl : s'.legs = s.legs)
    (x t : NodePtr) : EquateLeg s' x t ↔ EquateLeg s x t := by
  simp only [EquateLeg, hn, hl, equated_leg_congr s s' hn hl]

/-- Well-formedness does not read position pointers. -/
theorem WF_PosStep (s s' : State K) (pw : Option PosPtr) (h : PosStep s s' pw) (hw : WF s) :
    WF s' := by
  have hback : ∀ (p : PfxPtr) (px' : Prefix), s'.pfxs[p]? = some px' →
      ∃ px : Prefix, s.pfxs[p]? = some px ∧ px'.stn = px.stn := by
    intro p px' hp
    have hlt : p < s.pfxs.length := h.len ▸ lt_of_getElem? hp
    obtain ⟨q, hq, _⟩ := h.pfx p _ (List.getElem?_eq_getElem hlt)
    have e := Option.some.inj (hp.symm.trans hq)
    exact ⟨_, List.getElem?_eq_getElem hlt, by rw [e]⟩
  refine ⟨?_, ?_, ?_, ?_, ?_⟩
  · intro x hx
    rw [h.stnlist] at hx
    rw [h.nodes]
    exact hw.head x hx
  · intro x hx
    rw [h.stn_iter] at hx
    rw [h.nodes]
    exact hw.iter x hx
  · intro q nd hq
    rw [h.nodes] at hq
    obtain ⟨p, px, m, h1, h2, h3⟩ := hw.name q nd hq
    obtain ⟨q', hq', _⟩ := h.pfx p px h2
    exact ⟨p, _, m, h1, hq', h3⟩
  · intro p px' m hp hm
    obtain ⟨px, hpx, e⟩ := hback p px' hp
    rw [h.nodes]
    exact hw.stn p px m hpx (e ▸ hm)
  · intro q nd i lp hq hi
    rw [h.nodes] at hq
    obtain ⟨L, T, Tn, r, R, h1, h2, h3, h4, h5, h6⟩ := hw.pair q nd i lp hq hi
    refine ⟨L, T, Tn, r, R, ?_, h2, ?_, h4, ?_, h6⟩
    · rw [h.legs]
      exact h1
    · rw [h.nodes]
      exact h3
    · rw [h.legs]
      exact h5

/-- The loop of `replace_pfx_` changes position pointers only, when the
recursive call does. -/
theorem replace_pfx_legs_frame (pw : Option PosPtr)
    (self : State K → NodePtr → Option NodePtr → Option (State K))
    (hself : ∀ (s : State K) (t : NodePtr) (f : Option NodePtr) (s' : State K),
      self s t f = some s' → PosStep s s' pw)
    (stn : NodePtr) (from_ : Option NodePtr) (ds : List (Fin 3)) :
    ∀ (s s' : State K), replace_pfx_legs self stn from_ ds s = some s' → PosStep s s' pw := by
  induction ds with
  | nil =>
    intro s s' h
    simp only [replace_pfx_legs, Option.some.injEq] at h
    subst h
    exact PosStep_refl s pw
  | cons d ds ih =>
    intro s s' h
    cases hn : s.getNode stn with
    | none => simp [replace_pfx_legs, hn] at h
    | some nd =>
      cases hleg : nd.leg d with
      | none =>
        simp only [replace_pfx_legs, hn, hleg, Option.bind_eq_bind, Option.some_bind,
          Option.some.injEq] at h
        subst h
        exact PosStep_refl s pw
      | some leg =>
        cases hl : s.getLeg leg with
        | none => simp [replace_pfx_legs, hn, hleg, hl] at h
        | some l =>
          by_cases hto : l.to_ = from_
          · simp only [replace_pfx_legs, hn, hleg, hl, hto, if_true, Option.bind_eq_bind,
              Option.some_bind] at h
            exact ih s s' h
          · cases hz : equated_leg s leg with
            | none => simp [replace_pfx_legs, hn, hleg, hl, hto, hz] at h
            | some z =>
              cases z with
              | false =>
                simp only [replace_pfx_legs, hn, hleg, hl, hto, hz, if_false,
                  Option.bind_eq_bind, Option.some_bind, Bool.false_eq_true] at h
                exact ih s s' h
              | true =>
                cases ht : l.to_ with
                | none =>
                  rw [ht] at hto
                  simp [replace_pfx_legs, hn, hleg, hl, hto, hz, ht] at h
                | some t =>
                  cases hs : self s t (some stn) with
                  | none =>
                    rw [ht] at hto
                    simp [replace_pfx_legs, hn, hleg, hl, hz, ht, hs, hto] at h
                  | some s1 =>
                    rw [ht] at hto
                    simp only [replace_pfx_legs, hn, hleg, hl, hto, hz, ht, hs, if_false,
                      if_true, Option.bind_eq_bind, Option.some_bind] at h
                    exact PosStep_trans s s1 s' pw (hself s t _ s1 hs) (ih s1 s' h)

/-- `replace_pfx_` changes position pointers only. -/
theorem replace_pfx__frame (pr pw : Option PosPtr) (fuel : Nat) :
    ∀ (s : State K) (stn : NodePtr) (from_ : Option NodePtr) (s' : State K),
      replace_pfx_ pr pw fuel s stn from_ = some s' → PosStep s s' pw := by
  induction fuel with
  | zero =>
    intro s stn from_ s' h
    simp [replace_pfx_] at h
  | succ n ih =>
    intro s stn from_ s' h
    cases hn : s.getNode stn with
    | none => simp [replace_pfx_, hn] at h
    | some nd =>
      cases hname : nd.name with
      | none => simp [replace_pfx_, hn, hname] at h
      | some name =>
        cases hx : s.pfxs[name]? with
        | none => simp [replace_pfx_, hn, hname, State.modPfx, hx] at h
        | some x =>
          obtain ⟨s1, h1, hstep, _⟩ := PosStep_modPfx s pw name x hx
          simp only [replace_pfx_, hn, hname, h1, Option.bind_eq_bind, Option.some_bind] at h
          exact PosStep_trans s s1 s' pw hstep
            (replace_pfx_legs_frame pw _ ih stn from_ _ s1 s' h)

/-! ### Propagation of a position on a tree of zero-covariance legs ends -/

/-- On a well-formed graph whose DATA_HERE records store a covariance the test
on the leg in a slot has a result, and the leg has a target station. -/
theorem equated_leg_total (s : State K) (hw : WF s) (hdata : DataStored s) (x : NodePtr)
    (nd : node) (d : Fin 3) (leg : LegPtr) (hx : s.nodes[x]? = some nd)
    (hleg : nd.leg d = some leg) :
    ∃ (l : linkfor K) (t : NodePtr) (tn : node) (z : Bool), s.legs[leg]? = some l ∧
      l.to_ = some t ∧ s.nodes[t]? = some tn ∧ equated_leg s leg = some z := by
  obtain ⟨L, T, Tn, r, R, h1, h2, h3, h4, h5, _, _, h8⟩ := hw.pair x nd d leg hx hleg
  cases hdh : data_here L with
  | true =>
    obtain ⟨v, hv⟩ := hdata leg L h1 hdh
    exact ⟨L, T, Tn, fZeros v, h1, h2, h3, by simp [equated_leg, State.getLeg, h1, hdh, hv]⟩
  | false =>
    have hR : data_here R = true := by
      cases h : data_here R with
      | true => rfl
      | false => rw [hdh, h] at h8; exact absurd rfl h8
    obtain ⟨v, hv⟩ := hdata r R h5 hR
    exact ⟨L, T, Tn, fZeros v, h1, h2, h3, by
      simp [equated_leg, reverse_leg, State.getLeg, State.getNode, h1, hdh, h2, h3, h4, h5, hv]⟩

/-- The loop of `replace_pfx_` comes to an end when the recursive call returns
on every zero-covariance leg that does not lead back. -/
theorem replace_pfx_legs_total (s0 : State K) (hw : WF s0) (hdata : DataStored s0)
    (pw : Option PosPtr) (self : State K → NodePtr → Option NodePtr → Option (State K))
    (stn : NodePtr) (from_ : Option NodePtr) (nd0 : node) (hnd0 : s0.nodes[stn]? = some nd0)
    (hself : ∀ (s : State K) (t : NodePtr), PosStep s0 s pw → EquateLeg s0 stn t →
      some t ≠ from_ → ∃ s' : State K, self s t (some stn) = some s')
    (hframe : ∀ (s : State K) (t : NodePtr) (f : Option NodePtr) (s' : State K),
      self s t f = some s' → PosStep s s' pw)
    (ds : List (Fin 3)) :
    ∀ (s : State K), PosStep s0 s pw →
      ∃ s' : State K, replace_pfx_legs self stn from_ ds s = some s' := by
  induction ds with
  | nil =>
    intro s _
    exact ⟨s, rfl⟩
  | cons d ds ih =>
    intro s hs
    have hn : s.getNode stn = some nd0 := by
      simp only [State.getNode, hs.nodes]
      exact hnd0
    cases hleg : nd0.leg d with
    | none =>
      exact ⟨s, by simp [replace_pfx_legs, hn, hleg]⟩
    | some leg =>
      obtain ⟨l, t, tn, z, hl, ht, _, hz⟩ := equated_leg_total s0 hw hdata stn nd0 d leg hnd0 hleg
      have hl' : s.getLeg leg = some l := by
        simp only [State.getLeg, hs.legs]
        exact hl
      have hz' : equated_leg s leg = some z := by
        rw [equated_leg_congr s0 s hs.nodes hs.legs]
        exact hz
      by_cases hto : l.to_ = from_
      · obtain ⟨s', h'⟩ := ih s hs
        exact ⟨s', by simp [replace_pfx_legs, hn, hleg, hl', hto, h']⟩
      · cases z with
        | false =>
          obtain ⟨s', h'⟩ := ih s hs
          exact ⟨s', by simp [replace_pfx_legs, hn, hleg, hl', hto, hz', h']⟩
        | true =>
          have he : EquateLeg s0 stn t := ⟨nd0, d, leg, l, hnd0, hleg, hl, ht, hz⟩
          have hne : some t ≠ from_ := by
            rw [← ht]
            exact hto
          obtain ⟨s1, h1⟩ := hself s t hs he hne
          have hs1 := PosStep_trans s0 s s1 pw hs (hframe s t _ s1 h1)
          obtain ⟨s', h'⟩ := ih s1 hs1
          exact ⟨s', by simp [replace_pfx_legs, hn, hleg, hl', hz', ht, h1, h', hne]⟩

/-- `replace_pfx_` returns when the zero-covariance legs below the station it
starts at lead to stations of ever smaller height: `h x + 1` levels of
recursion are enough. -/
theorem replace_pfx__total (s0 : State K) (hw : WF s0) (hdata : DataStored s0)
    (h : NodePtr → Nat) (pr pw : Option PosPtr)
    (hdown : ∀ x t u : NodePtr, EquateLeg s0 x t → h t < h x → EquateLeg s0 t u → u ≠ x →
      h u < h t) :
    ∀ (k : Nat) (s : State K) (x : NodePtr) (from_ : Option NodePtr) (nd : node),
      PosStep s0 s pw → s0.nodes[x]? = some nd → h x ≤ k →
      (∀ u : NodePtr, EquateLeg s0 x u → some u ≠ from_ → h u < h x) →
      ∃ s' : State K, replace_pfx_ pr pw (k + 1) s x from_ = some s' := by
  intro k
  induction k with
  | zero =>
    intro s x from_ nd hs hx hk hlow
    obtain ⟨p, px, _, hname, hpx, _⟩ := hw.name x nd hx
    obtain ⟨q, hq, _⟩ := hs.pfx p px hpx
    obtain ⟨s1, h1, hstep, _⟩ := PosStep_modPfx s pw p _ hq
    have hn : s.getNode x = some nd := by
      simp only [State.getNode, hs.nodes]
      exact hx
    obtain ⟨s', h'⟩ := replace_pfx_legs_total s0 hw hdata pw (replace_pfx_ pr pw 0) x from_ nd hx
      (fun s2 t _ he hne => absurd (hlow t he hne) (by omega))
      (replace_pfx__frame pr pw 0) [0, 1, 2] s1 (PosStep_trans s0 s s1 pw hs hstep)
    refine ⟨s', ?_⟩
    rw [replace_pfx_]
    simp only [hn, hname, h1, Option.bind_eq_bind, Option.some_bind]
    exact h'
  | succ k ih =>
    intro s x from_ nd hs hx hk hlow
    obtain ⟨p, px, _, hname, hpx, _⟩ := hw.name x nd hx
    obtain ⟨q, hq, _⟩ := hs.pfx p px hpx
    obtain ⟨s1, h1, hstep, _⟩ := PosStep_modPfx s pw p _ hq
    have hn : s.getNode x = some nd := by
      simp only [State.getNode, hs.nodes]
      exact hx
    obtain ⟨s', h'⟩ := replace_pfx_legs_total s0 hw hdata pw (replace_pfx_ pr pw (k + 1)) x
      from_ nd hx
      (fun s2 t hs2 he hne => by
        obtain ⟨nd', d, leg, l, hx', hleg, hl, ht, _⟩ := id he
        have e : nd' = nd := Option.some.inj (hx'.symm.trans hx)
        subst e
        obtain ⟨l', t', tn, _, hl', ht', htn, _⟩ :=
          equated_leg_total s0 hw hdata x nd' d leg hx hleg
        have e2 : l' = l := Option.some.inj (hl'.symm.trans hl)
        subst e2
        have e3 : t' = t := Option.some.inj (ht'.symm.trans ht)
        subst e3
        have hlt := hlow t' he hne
        exact ih s2 t' (some x) tn hs2 htn (by omega)
          (fun u hu hux => hdown x t' u he hlt hu (fun e => hux (by rw [e]))))
      (replace_pfx__frame pr pw (k + 1)) [0, 1, 2] s1 (PosStep_trans s0 s s1 pw hs hstep)
    refine ⟨s', ?_⟩
    rw [replace_pfx_]
    simp only [hn, hname, h1, Option.bind_eq_bind, Option.some_bind]
    exact h'

/-! ### The two stations of an equate -/

/-- What `StnFromPfx` does to position pointers, fixed flags and positions. -/
theorem StnFromPfx_pos (s : State K) (hw : WF s) (name : PfxPtr) (x : Prefix)
    (hx : s.pfxs[name]? = some x) (s' : State K) (stn : NodePtr)
    (h : StnFromPfx s name = some (s', stn)) :
    (∃ x' : Prefix, s'.pfxs[name]? = some x' ∧
      (x.pos ≠ none → x'.pos = x.pos ∧ x'.fixed = x.fixed ∧ s'.poss = s.poss) ∧
      (x.pos = none → (x'.pos = none ∧ x'.fixed = x.fixed ∧ s'.poss = s.poss) ∨
        (x'.pos = some s.poss.length ∧ x'.fixed = false ∧
          s'.poss = s.poss ++ [some ({} : pos K)]))) ∧
    (∀ (p : PfxPtr) (px : Prefix), s.pfxs[p]? = some px → p ≠ name →
      s'.pfxs[p]? = some px) := by
  cases hs : x.stn with
  | some st =>
    have e := StnFromPfx_old s name x st hx hs
    rw [h] at e
    cases e
    refine ⟨⟨x, hx, fun _ => ⟨rfl, rfl, rfl⟩, fun hp => Or.inl ⟨hp, rfl, rfl⟩⟩, ?_⟩
    intro p px hp _
    exact hp
  | none =>
    have hit : s.stn_iter ≠ some s.nodes.length := by
      intro e
      exact Nat.lt_irrefl _ (hw.iter _ e)
    obtain ⟨s'', h1, _, _, _, _, h6, h7, _⟩ := StnFromPfx_new s name x hx hs hit hw.head
    rw [h] at h1
    cases h1
    have hlt := lt_of_getElem? hx
    have hx' : s'.pfxs[name]? = some
        { x with pos := if x.pos = none then some s.poss.length else x.pos,
                 fixed := if x.pos = none then false else x.fixed,
                 stn := some s.nodes.length } := by
      rw [h6]
      simp [List.getElem?_set, hlt]
    refine ⟨⟨_, hx', ?_, ?_⟩, ?_⟩
    · intro hp
      simp [hp, h7]
    · intro hp
      right
      simp [hp, h7]
    · intro p px hp hne
      rw [h6]
      simp [List.getElem?_set, Ne.symm hne, hp]

/-- The two `StnFromPfx` calls of `process_equate` on two names with different
position pointers: the stations, and what became of the position pointers and
fixed flags of the two names. -/
theorem equate_stations (s : State K) (hw : WF s) (a b : PfxPtr) (hab : a ≠ b)
    (xa xb : Prefix) (hxa : s.pfxs[a]? = some xa) (hxb : s.pfxs[b]? = some xb)
    (hpos : xa.pos ≠ xb.pos)
    (hva : ∀ p, xa.pos = some p → p < s.poss.length)
    (hvb : ∀ p, xb.pos = some p → p < s.poss.length)
    (hfa : xa.fixed = true → xa.pos ≠ none) (hfb : xb.fixed = true → xb.pos ≠ none) :
    ∃ (s1 : State K) (sa : NodePtr) (s2 : State K) (sb : NodePtr) (na nb : node)
      (ya yb : Prefix),
      StnFromPfx s a = some (s1, sa) ∧ StnFromPfx s1 b = some (s2, sb) ∧ WF s2 ∧
      s2.nodes[sa]? = some na ∧ na.name = some a ∧
      s2.nodes[sb]? = some nb ∧ nb.name = some b ∧
      s2.pfxs[a]? = some ya ∧ s2.pfxs[b]? = some yb ∧ ya.stn = some sa ∧ yb.stn = some sb ∧
      ya.fixed = xa.fixed ∧ yb.fixed = xb.fixed ∧ ya.pos ≠ yb.pos ∧
      (∀ p, xa.pos = some p → ya.pos = some p) ∧ (∀ p, xb.pos = some p → yb.pos = some p) ∧
      (∀ q, q < s.poss.length → s2.poss[q]? = s.poss[q]?) ∧
      (xa.stn = none → na.leg = fun _ => none) ∧ (xb.stn = none → nb.leg = fun _ => none) ∧
      (∀ st, xa.stn = some st → sa = st) ∧ (∀ st, xb.stn = some st → sb = st) ∧
      (∀ (q : NodePtr) (nd : node), s.nodes[q]? = some nd →
        ∃ nd' : node, s2.nodes[q]? = some nd' ∧ nd'.name = nd.name ∧ nd'.leg = nd.leg) ∧
      (∀ (q : NodePtr) (nd' : node), s2.nodes[q]? = some nd' → s.nodes.length ≤ q →
        (q = sa ∧ xa.stn = none) ∨ (q = sb ∧ xb.stn = none)) ∧
      s2.legs = s.legs ∧
      (∀ (p : PfxPtr) (px : Prefix), s.pfxs[p]? = some px →
        ∃ px' : Prefix, s2.pfxs[p]? = some px' ∧ (p ≠ a → p ≠ b → px' = px) ∧
          px'.up = px.up ∧ px'.ident = px.ident ∧ px'.shape = px.shape) ∧
      s2.pfxs.length = s.pfxs.length ∧
      s2.stn_iter = s.stn_iter ∧ s2.cLegs = s.cLegs ∧ s2.pcs_flags = s.pcs_flags ∧
      s2.msgs = s.msgs := by
  obtain ⟨s1, sa, s2, sb, na, nb, e1, e2, hw2, hna, hnaname, hnb, hnbname, hla, hlb, hsa, hsb,
    hold, hnew, hlegs, hpfx, hplen, ⟨pa, hpa, hpastn⟩, ⟨pb, hpb, hpbstn⟩, hit, hc, hpc, hm⟩ :=
    two_stations s hw a b hab xa xb hxa hxb
  have hw1' : WF s1 := by
    obtain ⟨s1', sa', nd', h1, hw1, _⟩ := StnFromPfx_wf s hw a xa hxa
    rw [e1] at h1
    cases h1
    exact hw1
  obtain ⟨⟨ya1, hya1, hA1, hA2⟩, hother1⟩ := StnFromPfx_pos s hw a xa hxa s1 sa e1
  have hxb1 : s1.pfxs[b]? = some xb := hother1 b xb hxb (Ne.symm hab)
  obtain ⟨⟨yb2, hyb2, hB1, hB2⟩, hother2⟩ := StnFromPfx_pos s1 hw1' b xb hxb1 s2 sb e2
  have hya2 : s2.pfxs[a]? = some ya1 := hother2 a ya1 hya1 hab
  have e3 : pa = ya1 := Option.some.inj (hpa.symm.trans hya2)
  have e4 : pb = yb2 := Option.some.inj (hpb.symm.trans hyb2)
  subst e3 e4
  -- the positions of `s` are kept
  have hposs1 : s1.poss = s.poss ∨ s1.poss = s.poss ++ [some ({} : pos K)] := by
    cases h : xa.pos with
    | some p => exact Or.inl (hA1 (by rw [h]; simp)).2.2
    | none =>
      rcases hA2 h with h' | h'
      · exact Or.inl h'.2.2
      · exact Or.inr h'.2.2
  have hposs2 : s2.poss = s1.poss ∨ s2.poss = s1.poss ++ [some ({} : pos K)] := by
    cases h : xb.pos with
    | some p => exact Or.inl (hB1 (by rw [h]; simp)).2.2
    | none =>
      rcases hB2 h with h' | h'
      · exact Or.inl h'.2.2
      · exact Or.inr h'.2.2
  have hlen1 : s.poss.length ≤ s1.poss.length := by
    rcases hposs1 with h | h
    · rw [h]
    · rw [h]
      simp
  have hkeep : ∀ q, q < s.poss.length → s2.poss[q]? = s.poss[q]? := by
    intro q hq
    have h1 : s1.poss[q]? = s.poss[q]? := by
      rcases hposs1 with h | h
      · rw [h]
      · rw [h, List.getElem?_append_left hq]
    have h2 : s2.poss[q]? = s1.poss[q]? := by
      rcases hposs2 with h | h
      · rw [h]
      · rw [h, List.getElem?_append_left (Nat.lt_of_lt_of_le hq hlen1)]
    rw [h2, h1]
  have hfixa : pa.fixed = xa.fixed := by
    cases h : xa.pos with
    | some p => exact (hA1 (by rw [h]; simp)).2.1
    | none =>
      have hf : xa.fixed = false := by
        cases hfx : xa.fixed with
        | false => rfl
        | true => exact absurd h (hfa hfx)
      rcases hA2 h with h' | h'
      · exact h'.2.1
      · rw [h'.2.1, hf]
  have hfixb : pb.fixed = xb.fixed := by
    cases h : xb.pos with
    | some p => exact (hB1 (by rw [h]; simp)).2.1
    | none =>
      have hf : xb.fixed = false := by
        cases hfx : xb.fixed with
        | false => rfl
        | true => exact absurd h (hfb hfx)
      rcases hB2 h with h' | h'
      · exact h'.2.1
      · rw [h'.2.1, hf]
  have hposne : pa.pos ≠ pb.pos := by
    cases ha : xa.pos with
    | some p =>
      have hpa' : pa.pos = some p := by
        rw [(hA1 (by rw [ha]; simp)).1, ha]
      have hs1 : s1.poss = s.poss := (hA1 (by rw [ha]; simp)).2.2
      cases hb : xb.pos with
      | some q =>
        have hpb' : pb.pos = some q := by
          rw [(hB1 (by rw [hb]; simp)).1, hb]
        rw [hpa', hpb']
        rw [ha, hb] at hpos
        exact hpos
      | none =>
        rcases hB2 hb with h' | h'
        · rw [hpa', h'.1]
          simp
        · rw [hpa', h'.1, hs1]
          intro e
          have e' : p = s.poss.length := Option.some.inj e
          exact absurd (hva p ha) (by rw [e']; exact Nat.lt_irrefl _)
    | none =>
      cases hb : xb.pos with
      | none =>
        rw [ha, hb] at hpos
        exact absurd rfl hpos
      | some q =>
        have hpb' : pb.pos = some q := by
          rw [(hB1 (by rw [hb]; simp)).1, hb]
        rcases hA2 ha with h' | h'
        · rw [hpb', h'.1]
          simp
        · rw [hpb', h'.1]
          intro e
          have e' : s.poss.length = q := Option.some.inj e
          exact absurd (hvb q hb) (by rw [← e']; exact Nat.lt_irrefl _)
  refine ⟨s1, sa, s2, sb, na, nb, pa, pb, e1, e2, hw2, hna, hnaname, hnb, hnbname, hya2, hyb2,
    hpastn, hpbstn, hfixa, hfixb, hposne, ?_, ?_, hkeep, hla, hlb, hsa, hsb, hold, hnew, hlegs,
    hpfx, hplen, hit, hc, hpc, hm⟩
  · intro p hp
    rw [(hA1 (by rw [hp]; simp)).1, hp]
  · intro p hp
    rw [(hB1 (by rw [hp]; simp)).1, hp]

/-! ### `replace_pfx` -/

/-- New stations without legs do not change the reverse of a leg, nor the test
on it. -/
theorem equated_leg_stations (s s2 : State K) (hlegs : s2.legs = s.legs)
    (hold : ∀ (q : NodePtr) (nd : node), s.nodes[q]? = some nd →
      ∃ nd' : node, s2.nodes[q]? = some nd' ∧ nd'.leg = nd.leg)
    (hnew : ∀ (q : NodePtr) (nd' : node), s2.nodes[q]? = some nd' → s.nodes.length ≤ q →
      nd'.leg = fun _ => none)
    (leg : LegPtr) :
    reverse_leg s2 leg = reverse_leg s leg ∧ equated_leg s2 leg = equated_leg s leg := by
  have hrev : ∀ lg : LegPtr, reverse_leg s2 lg = reverse_leg s lg := by
    intro lg
    simp only [reverse_leg, State.getLeg, State.getNode, hlegs]
    cases hl : s.legs[lg]? with
    | none => rfl
    | some l =>
      simp only [Option.bind_eq_bind, Option.some_bind]
      cases ht : l.to_ with
      | none => rfl
      | some t =>
        simp only [Option.some_bind]
        cases hn : s.nodes[t]? with
        | some nd =>
          obtain ⟨nd', h1, h2⟩ := hold t nd hn
          simp [h1, h2]
        | none =>
          cases hn2 : s2.nodes[t]? with
          | none => rfl
          | some nd' =>
            have hle : s.nodes.length ≤ t := by
              by_contra hlt
              rw [List.getElem?_eq_getElem (Nat.lt_of_not_le hlt)] at hn
              cases hn
            simp [hnew t nd' hn2 hle]
  refine ⟨hrev leg, ?_⟩
  simp only [equated_leg, State.getLeg, hlegs, hrev]

theorem EquateLeg_stations (s s2 : State K) (hlegs : s2.legs = s.legs)
    (hold : ∀ (q : NodePtr) (nd : node), s.nodes[q]? = some nd →
      ∃ nd' : node, s2.nodes[q]? = some nd' ∧ nd'.leg = nd.leg)
    (hnew : ∀ (q : NodePtr) (nd' : node), s2.nodes[q]? = some nd' → s.nodes.length ≤ q →
      nd'.leg = fun _ => none)
    (x t : NodePtr) (h : EquateLeg s2 x t) : EquateLeg s x t := by
  obtain ⟨nd', d, leg, l, hx, hleg, hl, ht, hz⟩ := h
  have hlt : x < s.nodes.length := by
    by_contra hge
    rw [hnew x nd' hx (Nat.le_of_not_lt hge)] at hleg
    cases hleg
  obtain ⟨nd2, h1, h2⟩ := hold x _ (List.getElem?_eq_getElem hlt)
  have e : nd2 = nd' := Option.some.inj (h1.symm.trans hx)
  subst e
  refine ⟨_, d, leg, l, List.getElem?_eq_getElem hlt, by rw [← h2]; exact hleg, ?_, ht, ?_⟩
  · rw [← hlegs]
    exact hl
  · rw [← (equated_leg_stations s s2 hlegs hold hnew leg).2]
    exact hz

/-- Where `replace_pfx_` starts, the position pointer of the station's name is
`pos_with` afterwards. -/
theorem replace_pfx__start (pr pw : Option PosPtr) (fuel : Nat) (s : State K) (x : NodePtr)
    (from_ : Option NodePtr) (s' : State K) (nd : node) (p : PfxPtr) (px : Prefix)
    (h : replace_pfx_ pr pw fuel s x from_ = some s') (hx : s.nodes[x]? = some nd)
    (hname : nd.name = some p) (hp : s.pfxs[p]? = some px) :
    s'.pfxs[p]? = some { px with pos := pw } := by
  cases fuel with
  | zero => simp [replace_pfx_] at h
  | succ n =>
    obtain ⟨s1, h1, _, hp1⟩ := PosStep_modPfx s pw p px hp
    rw [replace_pfx_] at h
    simp only [State.getNode, hx, hname, h1, Option.bind_eq_bind, Option.some_bind] at h
    have hstep := replace_pfx_legs_frame pw _ (replace_pfx__frame pr pw n) x from_ _ s1 s' h
    exact PosStep_kept s1 s' pw hstep p _ hp1 rfl

/-- `replace_pfx(pfx_replace, pfx_with)` on a well-formed graph, when the
zero-covariance legs below the station of `pfx_replace` form a tree: the call
returns; only position pointers have changed, and only to that of `pfx_with`;
both names hold that pointer; the old position of `pfx_replace` is freed. -/
theorem replace_pfx_spec (s : State K) (hw : WF s) (hdata : DataStored s) (R W : PfxPtr)
    (xr xw : Prefix) (hR : s.pfxs[R]? = some xr) (hW : s.pfxs[W]? = some xw)
    (hne : xr.pos ≠ xw.pos) (root : NodePtr) (hroot : xr.stn = some root)
    (h : NodePtr → Nat) (htree : EquateTree s h root) (fuel : Nat) (hf : h root < fuel) :
    ∃ s3 : State K, replace_pfx fuel s R W = some (osfree s3 xr.pos) ∧
      PosStep s s3 xw.pos ∧ s3.pfxs[R]? = some { xr with pos := xw.pos } ∧
      s3.pfxs[W]? = some xw := by
  obtain ⟨nd, hnd, hname⟩ := hw.stn R xr root hR hroot
  obtain ⟨k, rfl⟩ : ∃ k, fuel = k + 1 := ⟨fuel - 1, by omega⟩
  obtain ⟨s3, h3⟩ := replace_pfx__total s hw hdata h xr.pos xw.pos htree.down k s root none nd
    (PosStep_refl s _) hnd (by omega) (fun u hu _ => htree.top u hu)
  have hstep := replace_pfx__frame xr.pos xw.pos (k + 1) s root none s3 h3
  refine ⟨s3, ?_, hstep, replace_pfx__start _ _ _ s root none s3 nd R xr h3 hnd hname hR,
    PosStep_kept s s3 _ hstep W xw hW rfl⟩
  simp [replace_pfx, State.getPfx, hR, hW, hne, hroot, h3]

/-- Well-formedness reads the stations, the leg records, the names, the list
head and the cursor only. -/
theorem WF_congr (s s' : State K) (hw : WF s) (h1 : s'.nodes = s.nodes)
    (h2 : s'.legs = s.legs) (h3 : s'.pfxs = s.pfxs) (h4 : s'.stnlist = s.stnlist)
    (h5 : s'.stn_iter = s.stn_iter) : WF s' := by
  refine ⟨?_, ?_, ?_, ?_, ?_⟩
  · rw [h1, h4]
    exact hw.head
  · rw [h1, h5]
    exact hw.iter
  · rw [h1, h3]
    exact hw.name
  · rw [h1, h3]
    exact hw.stn
  · intro q nd i lp hq hi
    rw [h1] at hq
    obtain ⟨L, T, Tn, r, R, a1, a2, a3, a4, a5, a6⟩ := hw.pair q nd i lp hq hi
    exact ⟨L, T, Tn, r, R, by rw [h2]; exact a1, a2, by rw [h1]; exact a3, a4,
      by rw [h2]; exact a5, a6⟩

/-! ### `process_equate`, case by case -/

/-- `process_equate` on two different names with different position pointers
is the body of its `if`. -/
theorem process_equate_eq (fuel : Nat) (s : State K) (a b : PfxPtr) (hab : a ≠ b)
    (xa xb : Prefix) (hxa : s.pfxs[a]? = some xa) (hxb : s.pfxs[b]? = some xb)
    (hpos : xa.pos ≠ xb.pos) : process_equate fuel s a b = equate_merge fuel s a b := by
  simp [process_equate, hab, State.getPfx, hxa, hxb, hpos]

/-- The three ways `process_equate` reaches its `addleg_` call: `name1` not
fixed; `name1` fixed and `name2` not; both fixed with equal coordinates,
after the warning 53. In each it replaces the position of one name `R` by that
of the other name `W`. -/
theorem equate_merge_eq (fuel : Nat) (s : State K) (a b : PfxPtr) (s1 : State K)
    (sa : NodePtr) (s2 : State K) (sb : NodePtr)
    (e1 : StnFromPfx s a = some (s1, sa)) (e2 : StnFromPfx s1 b = some (s2, sb))
    (ya yb : Prefix) (hya : s2.pfxs[a]? = some ya) (hyb : s2.pfxs[b]? = some yb)
    (m : List Msg) (R W : PfxPtr)
    (hcase : (ya.fixed = false ∧ m = s2.msgs ∧ R = a ∧ W = b) ∨
      (ya.fixed = true ∧ yb.fixed = false ∧ m = s2.msgs ∧ R = b ∧ W = a) ∨
      (ya.fixed = true ∧ yb.fixed = true ∧ ∃ stra strb : String,
        sprint_prefix s2 a = some stra ∧ sprint_prefix s2 b = some strb ∧
        fixed_differ s2 a b = some false ∧
        m = s2.msgs ++ [⟨Severity.warning, 53, [stra, strb]⟩] ∧ R = b ∧ W = a)) :
    equate_merge fuel s a b =
      (replace_pfx fuel { s2 with msgs := m } R W).bind (fun s3 =>
        addleg_ { s3 with cLegs := s3.cLegs + 1 } sa sb 0 0 0 0 0 0 0 0 0 FLAG_FAKE) := by
  rcases hcase with ⟨hf, hm, hR, hW⟩ | ⟨hf, hf2, hm, hR, hW⟩ |
    ⟨hf, hf2, stra, strb, h1, h2, h3, hm, hR, hW⟩
  · subst hm hR hW
    cases hr : replace_pfx fuel s2 R W with
    | none =>
      have hr' : replace_pfx fuel { s2 with msgs := s2.msgs } R W = none := hr
      simp [equate_merge, e1, e2, pfx_fixed, State.getPfx, hya, hf, hr, hr']
    | some s3 =>
      have hr' : replace_pfx fuel { s2 with msgs := s2.msgs } R W = some s3 := hr
      simp [equate_merge, e1, e2, pfx_fixed, State.getPfx, hya, hf, hr, hr']
  · subst hm hR hW
    cases hr : replace_pfx fuel s2 R W with
    | none =>
      have hr' : replace_pfx fuel { s2 with msgs := s2.msgs } R W = none := hr
      simp [equate_merge, equate_fixed, e1, e2, pfx_fixed, State.getPfx, hya, hyb, hf, hf2,
        hr, hr']
    | some s3 =>
      have hr' : replace_pfx fuel { s2 with msgs := s2.msgs } R W = some s3 := hr
      simp [equate_merge, equate_fixed, e1, e2, pfx_fixed, State.getPfx, hya, hyb, hf, hf2,
        hr, hr']
  · subst hm hR hW
    cases hr : replace_pfx fuel (compile_warning s2 53 [stra, strb]) R W with
    | none =>
      have hr' : replace_pfx fuel
          { s2 with msgs := s2.msgs ++ [⟨Severity.warning, 53, [stra, strb]⟩] } R W = none := hr
      simp [equate_merge, equate_fixed, e1, e2, pfx_fixed, State.getPfx, hya, hyb, hf, hf2,
        h1, h2, h3, hr, hr']
    | some s3 =>
      have hr' : replace_pfx fuel
          { s2 with msgs := s2.msgs ++ [⟨Severity.warning, 53, [stra, strb]⟩] } R W =
          some s3 := hr
      simp [equate_merge, equate_fixed, e1, e2, pfx_fixed, State.getPfx, hya, hyb, hf, hf2,
        h1, h2, h3, hr, hr']

/-- The way `process_equate` leaves through the error 52. -/
theorem equate_merge_error (fuel : Nat) (s : State K) (a b : PfxPtr) (s1 : State K)
    (sa : NodePtr) (s2 : State K) (sb : NodePtr)
    (e1 : StnFromPfx s a = some (s1, sa)) (e2 : StnFromPfx s1 b = some (s2, sb))
    (ya yb : Prefix) (hya : s2.pfxs[a]? = some ya) (hyb : s2.pfxs[b]? = some yb)
    (hf : ya.fixed = true) (hf2 : yb.fixed = true) (stra strb : String)
    (h1 : sprint_prefix s2 a = some stra) (h2 : sprint_prefix s2 b = some strb)
    (h3 : fixed_differ s2 a b = some true) :
    equate_merge fuel s a b = some (compile_error s2 52 [stra, strb]) := by
  simp [equate_merge, equate_fixed, e1, e2, pfx_fixed, State.getPfx, hya, hyb, hf, hf2, h1,
    h2, h3]

/-- The tree of zero-covariance legs below the station of a name, after the
two `StnFromPfx` calls: as before when the name had a station, and a single
station without legs when it had none. -/
theorem EquateTree_stations (s s2 : State K) (hlegs : s2.legs = s.legs)
    (hold : ∀ (q : NodePtr) (nd : node), s.nodes[q]? = some nd →
      ∃ nd' : node, s2.nodes[q]? = some nd' ∧ nd'.leg = nd.leg)
    (hnew : ∀ (q : NodePtr) (nd' : node), s2.nodes[q]? = some nd' → s.nodes.length ≤ q →
      nd'.leg = fun _ => none)
    (h : NodePtr → Nat) (root : NodePtr) (xstn : Option NodePtr)
    (hroot : ∀ r, xstn = some r → root = r)
    (hfresh : xstn = none → ∃ nd : node, s2.nodes[root]? = some nd ∧ nd.leg = fun _ => none)
    (htree : ∀ r, xstn = some r → EquateTree s h r) (fuel : Nat)
    (hf : ∀ r, xstn = some r → h r < fuel) (hfuel : 0 < fuel) :
    ∃ h' : NodePtr → Nat, EquateTree s2 h' root ∧ h' root < fuel := by
  cases hx : xstn with
  | some r =>
    have e := hroot r hx
    subst e
    refine ⟨h, ⟨?_, ?_⟩, hf root hx⟩
    · intro t ht
      exact (htree root hx).top t (EquateLeg_stations s s2 hlegs hold hnew root t ht)
    · intro x t u h1 h2 h3 h4
      exact (htree root hx).down x t u (EquateLeg_stations s s2 hlegs hold hnew x t h1) h2
        (EquateLeg_stations s s2 hlegs hold hnew t u h3) h4
  | none =>
    obtain ⟨nd, hnd, hleg⟩ := hfresh hx
    refine ⟨fun _ => 0, ⟨?_, ?_⟩, hfuel⟩
    · intro t ht
      obtain ⟨nd', d, leg, _, hx', hl, _⟩ := ht
      have e : nd' = nd := Option.some.inj (hx'.symm.trans hnd)
      subst e
      rw [hleg] at hl
      cases hl
    · intro x t u _ h2 _ _
      exact absurd h2 (Nat.lt_irrefl 0)

/-- If `replace_pfx` returns, it has changed position pointers only, and freed
the old position of `pfx_replace`. -/
theorem replace_pfx_frame (fuel : Nat) (s : State K) (R W : PfxPtr) (xr xw : Prefix)
    (hR : s.pfxs[R]? = some xr) (hW : s.pfxs[W]? = some xw) (s' : State K)
    (h : replace_pfx fuel s R W = some s') :
    ∃ s3 : State K, s' = osfree s3 xr.pos ∧ PosStep s s3 xw.pos := by
  by_cases hne : xr.pos = xw.pos
  · simp [replace_pfx, State.getPfx, hR, hW, hne] at h
  · cases hroot : xr.stn with
    | none => simp [replace_pfx, State.getPfx, hR, hW, hne, hroot] at h
    | some root =>
      cases h3 : replace_pfx_ xr.pos xw.pos fuel s root none with
      | none => simp [replace_pfx, State.getPfx, hR, hW, hne, hroot, h3] at h
      | some s3 =>
        simp [replace_pfx, State.getPfx, hR, hW, hne, hroot, h3] at h
        exact ⟨s3, h.symm, replace_pfx__frame _ _ fuel s root none s3 h3⟩

/-- Freeing a position changes the positions only. -/
theorem osfree_fields (s : State K) (p : Option PosPtr) :
    (osfree s p).nodes = s.nodes ∧ (osfree s p).legs = s.legs ∧ (osfree s p).pfxs = s.pfxs ∧
    (osfree s p).stnlist = s.stnlist ∧ (osfree s p).stn_iter = s.stn_iter ∧
    (osfree s p).cLegs = s.cLegs ∧ (osfree s p).cStns = s.cStns ∧
    (osfree s p).pcs_flags = s.pcs_flags ∧ (osfree s p).msgs = s.msgs ∧
    (∀ q : PosPtr, p ≠ some q → (osfree s p).poss[q]? = s.poss[q]?) := by
  cases p with
  | none =>
    refine ⟨rfl, rfl, rfl, rfl, rfl, rfl, rfl, rfl, rfl, ?_⟩
    intro q _
    rfl
  | some r =>
    refine ⟨rfl, rfl, rfl, rfl, rfl, rfl, rfl, rfl, rfl, ?_⟩
    intro q hq
    have hne : r ≠ q := fun e => hq (by rw [e])
    simp [osfree, List.getElem?_set, hne]

/-- The end of `process_equate` from the `replace_pfx` call on, on a
well-formed graph in which the two names have stations: the position pointer of
`W` ends up on both names, and `addleg_` installs one matched pair of records
between the stations `freeleg` returns for the two ends, its DATA_HERE
direction marked FAKE with zero displacement and zero covariance. -/
theorem equate_tail (s2 : State K) (hw2 : WF s2) (hdata : DataStored s2) (m : List Msg)
    (a b : PfxPtr) (hab : a ≠ b) (sa sb : NodePtr) (na nb : node)
    (hna : s2.nodes[sa]? = some na) (hnaname : na.name = some a)
    (hnb : s2.nodes[sb]? = some nb) (hnbname : nb.name = some b)
    (R W : PfxPtr) (hRW : (R = a ∧ W = b) ∨ (R = b ∧ W = a)) (yr yw : Prefix)
    (hR : s2.pfxs[R]? = some yr) (hW : s2.pfxs[W]? = some yw) (hne : yr.pos ≠ yw.pos)
    (root : NodePtr) (hroot : yr.stn = some root) (h : NodePtr → Nat)
    (htree : EquateTree s2 h root) (fuel : Nat) (hf : h root < fuel) :
    ∃ (sA sf1 : State K) (fr' : NodePtr) (i : Fin 3) (sf2 : State K) (to' : NodePtr)
      (j : Fin 3) (s' : State K) (nf2 nt2 : node) (za zb : Prefix),
      (replace_pfx fuel { s2 with msgs := m } R W).bind (fun s3 =>
        addleg_ { s3 with cLegs := s3.cLegs + 1 } sa sb 0 0 0 0 0 0 0 0 0 FLAG_FAKE) =
        some s' ∧
      sA.nodes = s2.nodes ∧ sA.legs = s2.legs ∧
      freeleg { sA with legs := sA.legs ++ [{}] ++ [{}] } sa = some (sf1, fr', i) ∧
      freeleg sf1 sb = some (sf2, to', j) ∧ WF s' ∧ fr' ≠ to' ∧
      sf2.nodes[fr']? = some nf2 ∧ nf2.name = some a ∧ nf2.leg i = none ∧
      sf2.nodes[to']? = some nt2 ∧ nt2.name = some b ∧ nt2.leg j = none ∧
      s'.nodes[fr']? = some
        { nf2 with leg := Function.update nf2.leg i (some s2.legs.length) } ∧
      s'.nodes[to']? = some
        { nt2 with leg := Function.update nt2.leg j (some (s2.legs.length + 1)) } ∧
      s'.legs[s2.legs.length]? = some
        { to_ := some to', reverse := ⟨j, FLAG_DATAHERE.lor FLAG_FAKE⟩, flags := s2.pcs_flags,
          d := some ![0, 0, 0], v := some ![0, 0, 0, 0, 0, 0] } ∧
      s'.legs[s2.legs.length + 1]? = some { to_ := some fr', reverse := ⟨i, LegFlags.zero⟩ } ∧
      s'.pfxs[a]? = some za ∧ s'.pfxs[b]? = some zb ∧ za.pos = yw.pos ∧ zb.pos = yw.pos ∧
      (∀ q : PosPtr, yr.pos ≠ some q → s'.poss[q]? = s2.poss[q]?) ∧
      s'.cLegs = s2.cLegs + 1 ∧ s'.msgs = m ∧ s'.cStns = s2.cStns ∧
      (∀ l : LegPtr, l ≠ s2.legs.length → l ≠ s2.legs.length + 1 →
        s'.legs[l]? = sf2.legs[l]?) := by
  have hwM : WF { s2 with msgs := m } := WF_congr s2 _ hw2 rfl rfl rfl rfl rfl
  have htreeM : EquateTree { s2 with msgs := m } h root := by
    refine ⟨?_, ?_⟩
    · intro t ht
      exact htree.top t ((EquateLeg_congr s2 _ rfl rfl root t).mp ht)
    · intro x t u h1 h2 h3 h4
      exact htree.down x t u ((EquateLeg_congr s2 _ rfl rfl x t).mp h1) h2
        ((EquateLeg_congr s2 _ rfl rfl t u).mp h3) h4
  obtain ⟨s3, hrep, hstep, hR3, hW3⟩ := replace_pfx_spec { s2 with msgs := m } hwM hdata R W
    yr yw hR hW hne root hroot h htreeM fuel hf
  have hw3 : WF s3 := WF_PosStep _ s3 _ hstep hwM
  obtain ⟨o1, o2, o3, o4, o5, o6, o7, o8, o9, o10⟩ := osfree_fields s3 yr.pos
  have hwA : WF { osfree s3 yr.pos with cLegs := (osfree s3 yr.pos).cLegs + 1 } :=
    WF_congr s3 _ hw3 o1 o2 o3 o4 o5
  have hnaA : ({ osfree s3 yr.pos with cLegs := (osfree s3 yr.pos).cLegs + 1 } :
      State K).nodes[sa]? = some na := by
    show (osfree s3 yr.pos).nodes[sa]? = some na
    rw [o1, hstep.nodes]
    exact hna
  have hnbA : ({ osfree s3 yr.pos with cLegs := (osfree s3 yr.pos).cLegs + 1 } :
      State K).nodes[sb]? = some nb := by
    show (osfree s3 yr.pos).nodes[sb]? = some nb
    rw [o1, hstep.nodes]
    exact hnb
  have hnames : na.name ≠ nb.name := by
    rw [hnaname, hnbname]
    intro e
    exact hab (Option.some.inj e)
  obtain ⟨sf1, fr', i, sf2, to', j, s', nf2, nt2, f1, f2, f3, hw', hne', hnf2, hnf2name, hfi,
    hnt2, hnt2name, hfj, hnf', hnt', _, _, _, hL, hL2, hloth, _, _, hpfx, _, hposs, _, hc, hcs,
    hpf, hm⟩ := addleg_wf _ hwA sa sb na nb hnaA hnbA hnames 0 0 0 0 0 0 0 0 0 FLAG_FAKE
  have hlen : ({ osfree s3 yr.pos with cLegs := (osfree s3 yr.pos).cLegs + 1 } :
      State K).legs.length = s2.legs.length := by
    show (osfree s3 yr.pos).legs.length = s2.legs.length
    rw [o2, hstep.legs]
  rw [hlen] at hnf' hnt' hL hL2 hloth
  have hpa : ∃ za : Prefix, s'.pfxs[a]? = some za ∧ za.pos = yw.pos := by
    rcases hRW with ⟨eR, eW⟩ | ⟨eR, eW⟩
    · subst eR eW
      obtain ⟨px', h1, _, _, _, h2, _⟩ := hpfx R _ (by show (osfree s3 yr.pos).pfxs[R]? = _
                                                       rw [o3]; exact hR3)
      exact ⟨px', h1, h2⟩
    · subst eR eW
      obtain ⟨px', h1, _, _, _, h2, _⟩ := hpfx W _ (by show (osfree s3 yr.pos).pfxs[W]? = _
                                                       rw [o3]; exact hW3)
      exact ⟨px', h1, h2⟩
  have hpb : ∃ zb : Prefix, s'.pfxs[b]? = some zb ∧ zb.pos = yw.pos := by
    rcases hRW with ⟨eR, eW⟩ | ⟨eR, eW⟩
    · subst eR eW
      obtain ⟨px', h1, _, _, _, h2, _⟩ := hpfx W _ (by show (osfree s3 yr.pos).pfxs[W]? = _
                                                       rw [o3]; exact hW3)
      exact ⟨px', h1, h2⟩
    · subst eR eW
      obtain ⟨px', h1, _, _, _, h2, _⟩ := hpfx R _ (by show (osfree s3 yr.pos).pfxs[R]? = _
                                                       rw [o3]; exact hR3)
      exact ⟨px', h1, h2⟩
  obtain ⟨za, hza, hzap⟩ := hpa
  obtain ⟨zb, hzb, hzbp⟩ := hpb
  refine ⟨{ osfree s3 yr.pos with cLegs := (osfree s3 yr.pos).cLegs + 1 }, sf1, fr', i, sf2,
    to', j, s', nf2, nt2, za, zb, ?_, ?_, ?_, f1, f2, hw', hne', hnf2,
    hnf2name.trans hnaname, hfi, hnt2, hnt2name.trans hnbname, hfj, hnf', hnt', ?_, hL2, hza,
    hzb, hzap, hzbp, ?_, ?_, ?_, ?_, hloth⟩
  · rw [hrep]
    exact f3
  · show (osfree s3 yr.pos).nodes = s2.nodes
    rw [o1, hstep.nodes]
  · show (osfree s3 yr.pos).legs = s2.legs
    rw [o2, hstep.legs]
  · have e : ({ osfree s3 yr.pos with cLegs := (osfree s3 yr.pos).cLegs + 1 } :
        State K).pcs_flags = s2.pcs_flags := by
      show (osfree s3 yr.pos).pcs_flags = s2.pcs_flags
      rw [o8, hstep.pcs_flags]
    rw [e] at hL
    exact hL
  · intro q hq
    rw [hposs]
    show (osfree s3 yr.pos).poss[q]? = s2.poss[q]?
    rw [o10 q hq, hstep.poss]
  · rw [hc]
    show (osfree s3 yr.pos).cLegs + 1 = s2.cLegs + 1
    rw [o6, hstep.cLegs]
  · rw [hm]
    show (osfree s3 yr.pos).msgs = m
    rw [o9, hstep.msgs]
  · rw [hcs]
    show (osfree s3 yr.pos).cStns = s2.cStns
    rw [o7, hstep.cStns]

theorem getPos_lookup (s : State K) (p : PosPtr) (P : pos K) (h : s.getPos p = some P) :
    s.poss[p]? = some (some P) := by
  unfold State.getPos at h
  cases hp : s.poss[p]? with
  | none => simp [hp] at h
  | some o =>
    cases o with
    | none => simp [hp] at h
    | some x =>
      simp [hp] at h
      rw [h]

theorem getPos_of_lookup (s : State K) (p : PosPtr) (P : pos K)
    (h : s.poss[p]? = some (some P)) : s.getPos p = some P := by
  simp [State.getPos, h]

/-- Which name `process_equate` replaces (`R`) and which it keeps (`W`), what
it reports before, and that the tree below the station of `R` is as before the
two `StnFromPfx` calls. -/
theorem equate_choice (s : State K) (a b : PfxPtr)
    (xa xb : Prefix)
    (hla : xa.fixed = true → ∃ (p : PosPtr) (P : pos K), xa.pos = some p ∧ s.getPos p = some P)
    (hlb : xb.fixed = true → ∃ (p : PosPtr) (P : pos K), xb.pos = some p ∧ s.getPos p = some P)
    (stra strb : String)
    (hstr : xa.fixed = true → xb.fixed = true →
      sprint_prefix s a = some stra ∧ sprint_prefix s b = some strb)
    (hsame : xa.fixed = true → xb.fixed = true →
      ∀ (pa pb : PosPtr) (Pa Pb : pos K), xa.pos = some pa → xb.pos = some pb →
        s.getPos pa = some Pa → s.getPos pb = some Pb → ∀ d, Pa.p d = Pb.p d)
    (h : NodePtr → Nat)
    (htree : ∀ r, (if xa.fixed then xb else xa).stn = some r → EquateTree s h r)
    (fuel : Nat)
    (hf : ∀ r, (if xa.fixed then xb else xa).stn = some r → h r < fuel) (hfuel : 0 < fuel)
    (s2 : State K) (sa sb : NodePtr) (na nb : node) (ya yb : Prefix)
    (hna : s2.nodes[sa]? = some na) (hnb : s2.nodes[sb]? = some nb)
    (hya : s2.pfxs[a]? = some ya) (hyb : s2.pfxs[b]? = some yb)
    (hyastn : ya.stn = some sa) (hybstn : yb.stn = some sb)
    (hfixa : ya.fixed = xa.fixed) (hfixb : yb.fixed = xb.fixed) (hposne : ya.pos ≠ yb.pos)
    (hkeepa : ∀ p, xa.pos = some p → ya.pos = some p)
    (hkeepb : ∀ p, xb.pos = some p → yb.pos = some p)
    (hkeep : ∀ q, q < s.poss.length → s2.poss[q]? = s.poss[q]?)
    (hla' : xa.stn = none → na.leg = fun _ => none)
    (hlb' : xb.stn = none → nb.leg = fun _ => none)
    (hsa : ∀ st, xa.stn = some st → sa = st) (hsb : ∀ st, xb.stn = some st → sb = st)
    (hold : ∀ (q : NodePtr) (nd : node), s.nodes[q]? = some nd →
      ∃ nd' : node, s2.nodes[q]? = some nd' ∧ nd'.name = nd.name ∧ nd'.leg = nd.leg)
    (hnew : ∀ (q : NodePtr) (nd' : node), s2.nodes[q]? = some nd' → s.nodes.length ≤ q →
      (q = sa ∧ xa.stn = none) ∨ (q = sb ∧ xb.stn = none))
    (hlegs : s2.legs = s.legs)
    (hpfx : ∀ (p : PfxPtr) (px : Prefix), s.pfxs[p]? = some px →
      ∃ px' : Prefix, s2.pfxs[p]? = some px' ∧ (p ≠ a → p ≠ b → px' = px) ∧
        px'.up = px.up ∧ px'.ident = px.ident ∧ px'.shape = px.shape)
    (hplen : s2.pfxs.length = s.pfxs.length) (hm : s2.msgs = s.msgs) :
    ∃ (m : List Msg) (R W : PfxPtr) (yr yw : Prefix) (root : NodePtr) (h' : NodePtr → Nat),
      ((ya.fixed = false ∧ m = s2.msgs ∧ R = a ∧ W = b) ∨
        (ya.fixed = true ∧ yb.fixed = false ∧ m = s2.msgs ∧ R = b ∧ W = a) ∨
        (ya.fixed = true ∧ yb.fixed = true ∧ ∃ stra strb : String,
          sprint_prefix s2 a = some stra ∧ sprint_prefix s2 b = some strb ∧
          fixed_differ s2 a b = some false ∧
          m = s2.msgs ++ [⟨Severity.warning, 53, [stra, strb]⟩] ∧ R = b ∧ W = a)) ∧
      ((R = a ∧ W = b) ∨ (R = b ∧ W = a)) ∧
      s2.pfxs[R]? = some yr ∧ s2.pfxs[W]? = some yw ∧ yr.pos ≠ yw.pos ∧
      yr.stn = some root ∧ EquateTree s2 h' root ∧ h' root < fuel ∧
      m = s.msgs ++ (if xa.fixed && xb.fixed then [⟨Severity.warning, 53, [stra, strb]⟩]
        else []) ∧
      (∀ p, (if xa.fixed then xa else xb).pos = some p → yw.pos = some p) := by
  have hold' : ∀ (q : NodePtr) (nd : node), s.nodes[q]? = some nd →
      ∃ nd' : node, s2.nodes[q]? = some nd' ∧ nd'.leg = nd.leg := by
    intro q nd hq
    obtain ⟨nd', h1, _, h2⟩ := hold q nd hq
    exact ⟨nd', h1, h2⟩
  have hnew' : ∀ (q : NodePtr) (nd' : node), s2.nodes[q]? = some nd' → s.nodes.length ≤ q →
      nd'.leg = fun _ => none := by
    intro q nd' hq hle
    rcases hnew q nd' hq hle with ⟨e, hs⟩ | ⟨e, hs⟩
    · subst e
      have e2 : nd' = na := Option.some.inj (hq.symm.trans hna)
      rw [e2]
      exact hla' hs
    · subst e
      have e2 : nd' = nb := Option.some.inj (hq.symm.trans hnb)
      rw [e2]
      exact hlb' hs
  cases hxaf : xa.fixed with
  | false =>
    simp only [hxaf, Bool.false_eq_true, if_false] at htree hf
    obtain ⟨h', ht', hf'⟩ := EquateTree_stations s s2 hlegs hold' hnew' h sa xa.stn hsa
      (fun hs => ⟨na, hna, hla' hs⟩) htree fuel hf hfuel
    refine ⟨s2.msgs, a, b, ya, yb, sa, h', Or.inl ⟨hfixa.trans hxaf, rfl, rfl, rfl⟩,
      Or.inl ⟨rfl, rfl⟩, hya, hyb, hposne, hyastn, ht', hf', ?_, ?_⟩
    · simp [hm]
    · intro p hp
      simp only [Bool.false_eq_true, if_false] at hp
      exact hkeepb p hp
  | true =>
    simp only [hxaf, if_true] at htree hf
    obtain ⟨h', ht', hf'⟩ := EquateTree_stations s s2 hlegs hold' hnew' h sb xb.stn hsb
      (fun hs => ⟨nb, hnb, hlb' hs⟩) htree fuel hf hfuel
    have hkept : ∀ p, (if true = true then xa else xb).pos = some p → ya.pos = some p := by
      intro p hp
      simp only [if_true] at hp
      exact hkeepa p hp
    cases hxbf : xb.fixed with
    | false =>
      refine ⟨s2.msgs, b, a, yb, ya, sb, h',
        Or.inr (Or.inl ⟨hfixa.trans hxaf, hfixb.trans hxbf, rfl, rfl, rfl⟩),
        Or.inr ⟨rfl, rfl⟩, hyb, hya, Ne.symm hposne, hybstn, ht', hf', ?_, hkept⟩
      simp [hm]
    | true =>
      obtain ⟨h1, h2⟩ := hstr hxaf hxbf
      obtain ⟨pa, Pa, hpa, hPa⟩ := hla hxaf
      obtain ⟨pb, Pb, hpb, hPb⟩ := hlb hxbf
      have hcong : ∀ (p : PfxPtr) (px : Prefix), s.pfxs[p]? = some px →
          ∃ px' : Prefix, s2.pfxs[p]? = some px' ∧ px'.up = px.up ∧ px'.ident = px.ident := by
        intro p px hp
        obtain ⟨px', g1, _, g2, g3, _⟩ := hpfx p px hp
        exact ⟨px', g1, g2, g3⟩
      have h1' := sprint_prefix_congr s s2 hplen hcong a stra h1
      have h2' := sprint_prefix_congr s s2 hplen hcong b strb h2
      have hPa2 : s2.getPos pa = some Pa := by
        have hl := getPos_lookup s pa Pa hPa
        exact getPos_of_lookup s2 pa Pa (by rw [hkeep pa (lt_of_getElem? hl)]; exact hl)
      have hPb2 : s2.getPos pb = some Pb := by
        have hl := getPos_lookup s pb Pb hPb
        exact getPos_of_lookup s2 pb Pb (by rw [hkeep pb (lt_of_getElem? hl)]; exact hl)
      have hall := hsame hxaf hxbf pa pb Pa Pb hpa hpb hPa hPb
      have hd : fixed_differ s2 a b = some false := by
        simp [fixed_differ, State.getPfx, hya, hyb, hkeepa pa hpa, hkeepb pb hpb, hPa2, hPb2,
          hall]
      refine ⟨s2.msgs ++ [⟨Severity.warning, 53, [stra, strb]⟩], b, a, yb, ya, sb, h',
        Or.inr (Or.inr ⟨hfixa.trans hxaf, hfixb.trans hxbf, stra, strb, h1', h2', hd, rfl, rfl,
          rfl⟩),
        Or.inr ⟨rfl, rfl⟩, hyb, hya, Ne.symm hposne, hybstn, ht', hf', ?_, hkept⟩
      simp [hm]

/-- `process_equate` on two different names of a well-formed graph whose
position pointers differ, when it does not leave through the error 52 and the
zero-covariance legs below the station of the name it replaces form a tree:
the call returns; it reports the warning 53 when both are fixed and nothing
otherwise; the position pointer of the fixed name (of `name2` when neither is
fixed) ends up on both names and the position it points at is as before;
`cLegs` has grown by 1; and between the stations `freeleg` returns for the two
ends one matched pair of leg records is installed whose DATA_HERE direction is
marked FAKE and has zero displacement and covariance. -/
theorem equate_merge_spec (s : State K) (hw : WF s) (hdata : DataStored s) (a b : PfxPtr)
    (hab : a ≠ b) (xa xb : Prefix) (hxa : s.pfxs[a]? = some xa) (hxb : s.pfxs[b]? = some xb)
    (hpos : xa.pos ≠ xb.pos)
    (hva : ∀ p, xa.pos = some p → p < s.poss.length)
    (hvb : ∀ p, xb.pos = some p → p < s.poss.length)
    (hla : xa.fixed = true → ∃ (p : PosPtr) (P : pos K), xa.pos = some p ∧ s.getPos p = some P)
    (hlb : xb.fixed = true → ∃ (p : PosPtr) (P : pos K), xb.pos = some p ∧ s.getPos p = some P)
    (stra strb : String)
    (hstr : xa.fixed = true → xb.fixed = true →
      sprint_prefix s a = some stra ∧ sprint_prefix s b = some strb)
    (hsame : xa.fixed = true → xb.fixed = true →
      ∀ (pa pb : PosPtr) (Pa Pb : pos K), xa.pos = some pa → xb.pos = some pb →
        s.getPos pa = some Pa → s.getPos pb = some Pb → ∀ d, Pa.p d = Pb.p d)
    (h : NodePtr → Nat)
    (htree : ∀ r, (if xa.fixed then xb else xa).stn = some r → EquateTree s h r)
    (fuel : Nat)
    (hf : ∀ r, (if xa.fixed then xb else xa).stn = some r → h r < fuel) (hfuel : 0 < fuel) :
    ∃ (s1 : State K) (sa : NodePtr) (s2 : State K) (sb : NodePtr) (sA sf1 : State K)
      (fr' : NodePtr) (i : Fin 3) (sf2 : State K) (to' : NodePtr) (j : Fin 3) (s' : State K)
      (nf2 nt2 : node) (za zb : Prefix) (kept : Option PosPtr),
      StnFromPfx s a = some (s1, sa) ∧ StnFromPfx s1 b = some (s2, sb) ∧
      process_equate fuel s a b = some s' ∧
      sA.nodes = s2.nodes ∧ sA.legs = s.legs ∧
      freeleg { sA with legs := sA.legs ++ [{}] ++ [{}] } sa = some (sf1, fr', i) ∧
      freeleg sf1 sb = some (sf2, to', j) ∧ WF s' ∧ fr' ≠ to' ∧
      sf2.nodes[fr']? = some nf2 ∧ nf2.name = some a ∧ nf2.leg i = none ∧
      sf2.nodes[to']? = some nt2 ∧ nt2.name = some b ∧ nt2.leg j = none ∧
      s'.nodes[fr']? = some
        { nf2 with leg := Function.update nf2.leg i (some s.legs.length) } ∧
      s'.nodes[to']? = some
        { nt2 with leg := Function.update nt2.leg j (some (s.legs.length + 1)) } ∧
      s'.legs[s.legs.length]? = some
        { to_ := some to', reverse := ⟨j, FLAG_DATAHERE.lor FLAG_FAKE⟩, flags := s.pcs_flags,
          d := some ![0, 0, 0], v := some ![0, 0, 0, 0, 0, 0] } ∧
      s'.legs[s.legs.length + 1]? = some { to_ := some fr', reverse := ⟨i, LegFlags.zero⟩ } ∧
      s'.pfxs[a]? = some za ∧ s'.pfxs[b]? = some zb ∧ za.pos = kept ∧ zb.pos = kept ∧
      (∀ p, (if xa.fixed then xa else xb).pos = some p → kept = some p) ∧
      (∀ q, q < s.poss.length → kept = some q → s'.poss[q]? = s.poss[q]?) ∧
      s'.cLegs = s.cLegs + 1 ∧
      s'.msgs = s.msgs ++ (if xa.fixed && xb.fixed then
        [⟨Severity.warning, 53, [stra, strb]⟩] else []) ∧
      (∀ l : LegPtr, l ≠ s.legs.length → l ≠ s.legs.length + 1 →
        s'.legs[l]? = sf2.legs[l]?) := by
  have hfa : xa.fixed = true → xa.pos ≠ none := by
    intro hx
    obtain ⟨p, _, hp, _⟩ := hla hx
    rw [hp]
    simp
  have hfb : xb.fixed = true → xb.pos ≠ none := by
    intro hx
    obtain ⟨p, _, hp, _⟩ := hlb hx
    rw [hp]
    simp
  obtain ⟨s1, sa, s2, sb, na, nb, ya, yb, e1, e2, hw2, hna, hnaname, hnb, hnbname, hya, hyb,
    hyastn, hybstn, hfixa, hfixb, hposne, hkeepa, hkeepb, hkeep, hla', hlb', hsa, hsb, hold,
    hnew, hlegs, hpfx, hplen, hit, hc, hpc, hm⟩ :=
    equate_stations s hw a b hab xa xb hxa hxb hpos hva hvb hfa hfb
  obtain ⟨m, R, W, yr, yw, root, h', hcase, hRW, hR, hW, hne, hroot, ht', hf', hmeq, hkept⟩ :=
    equate_choice s a b xa xb hla hlb stra strb hstr hsame h htree fuel hf hfuel s2 sa sb na nb
      ya yb hna hnb hya hyb hyastn hybstn hfixa hfixb hposne hkeepa hkeepb hkeep hla' hlb' hsa
      hsb hold hnew hlegs hpfx hplen hm
  have hdata2 : DataStored s2 := by
    intro leg l hl hdh
    rw [hlegs] at hl
    exact hdata leg l hl hdh
  obtain ⟨sA, sf1, fr', i, sf2, to', j, s', nf2, nt2, za, zb, t1, t2, t3, t4, t5, t6, t7, t8,
    t9, t10, t11, t12, t13, t14, t15, t16, t17, t18, t19, t20, t21, t22, t23, t24, _, t26⟩ :=
    equate_tail s2 hw2 hdata2 m a b hab sa sb na nb hna hnaname hnb hnbname R W hRW yr yw hR hW
      hne root hroot h' ht' fuel hf'
  rw [hlegs] at t14 t15 t16 t17 t26
  rw [hpc] at t16
  refine ⟨s1, sa, s2, sb, sA, sf1, fr', i, sf2, to', j, s', nf2, nt2, za, zb, yw.pos, e1, e2,
    ?_, t2, t3.trans hlegs, t4, t5, t6, t7, t8, t9, t10, t11, t12, t13, t14, t15, t16, t17, t18,
    t19, t20, t21, hkept, ?_, ?_, ?_, t26⟩
  · rw [process_equate_eq fuel s a b hab xa xb hxa hxb hpos,
      equate_merge_eq fuel s a b s1 sa s2 sb e1 e2 ya yb hya hyb m R W hcase]
    exact t1
  · intro q hq hk
    rw [t22 q (by rw [← hk]; exact hne)]
    exact hkeep q hq
  · rw [t23, hc]
  · rw [t24, hmeq]

/-! ### Equates: the claims -/

/-- C16: when the two names already have the same position pointer (both
null included), `process_equate(name1, name2)` changes nothing in the graph.
For two different names the state is returned as it was, so no message is
reported; for `name1 == name2` (a name that renders) the only change is the
warning 13 with the rendered name: no station is created, no position pointer
changes, no leg is added and `cLegs` is unchanged. -/
theorem process_equate_same_pos (fuel : Nat) (s : State K) (name1 name2 : PfxPtr)
    (x1 x2 : Prefix) (h1 : s.getPfx name1 = some x1) (h2 : s.getPfx name2 = some x2)
    (hpos : x1.pos = x2.pos) :
    (name1 ≠ name2 → process_equate fuel s name1 name2 = some s) ∧
    (name1 = name2 → ∀ str : String, sprint_prefix s name1 = some str →
      ∃ s' : State K, process_equate fuel s name1 name2 = some s' ∧
        s'.msgs = s.msgs ++ [⟨Severity.warning, 13, [str]⟩] ∧
        s'.nodes = s.nodes ∧ s'.legs = s.legs ∧ s'.pfxs = s.pfxs ∧ s'.poss = s.poss ∧
        s'.stnlist = s.stnlist ∧ s'.stn_iter = s.stn_iter ∧ s'.cLegs = s.cLegs ∧
        s'.cStns = s.cStns) := by
  constructor
  · intro hne
    have hp : ¬ (x1.pos ≠ x2.pos) := fun h => h hpos
    simp only [process_equate, hne, if_false, h1, h2, Option.bind_eq_bind, Option.some_bind,
      hp, Option.pure_def]
  · intro he str hstr
    refine ⟨compile_warning s 13 [str], ?_, rfl, rfl, rfl, rfl, rfl, rfl, rfl, rfl, rfl⟩
    subst he
    simp only [process_equate, if_true, hstr, Option.bind_eq_bind, Option.some_bind,
      Option.pure_def]

theorem any_differ (Pa Pb : pos K) :
    ([2, 1, 0].any (fun d => decide (Pa.p d ≠ Pb.p d))) = true ↔ ∃ d, Pa.p d ≠ Pb.p d := by
  constructor
  · intro h
    rw [List.any_eq_true] at h
    obtain ⟨d, _, hd⟩ := h
    exact ⟨d, of_decide_eq_true hd⟩
  · rintro ⟨d, hd⟩
    rw [List.any_eq_true]
    refine ⟨d, ?_, decide_eq_true hd⟩
    fin_cases d <;> simp

/-- C17: for two different fixed names of a well-formed graph with different
position objects (both live), `process_equate` reports the error 52 with the
two rendered names exactly when the coordinates differ on some axis: if they
do, the call returns with that one new message, no name has changed its
position pointer, no position has changed, the leg records and `cLegs` are as
before, every station of before has its leg slots as before and a station
created by the call has none in use; if they do not, a call that returns has
reported the warning 53 instead and nothing else. -/
theorem process_equate_fixed_differ (fuel : Nat) (s : State K) (hw : WF s) (a b : PfxPtr)
    (hab : a ≠ b) (xa xb : Prefix) (hxa : s.pfxs[a]? = some xa) (hxb : s.pfxs[b]? = some xb)
    (pa pb : PosPtr) (Pa Pb : pos K) (hpa : xa.pos = some pa) (hpb : xb.pos = some pb)
    (hne : pa ≠ pb) (hPa : s.getPos pa = some Pa) (hPb : s.getPos pb = some Pb)
    (hfa : xa.fixed = true) (hfb : xb.fixed = true) (stra strb : String)
    (hsa : sprint_prefix s a = some stra) (hsb : sprint_prefix s b = some strb) :
    ((∃ d, Pa.p d ≠ Pb.p d) →
      ∃ s' : State K, process_equate fuel s a b = some s' ∧
        s'.msgs = s.msgs ++ [⟨Severity.error, 52, [stra, strb]⟩] ∧
        (∀ (p : PfxPtr) (px : Prefix), s.pfxs[p]? = some px →
          ∃ px' : Prefix, s'.pfxs[p]? = some px' ∧ px'.pos = px.pos) ∧
        (∀ q, q < s.poss.length → s'.poss[q]? = s.poss[q]?) ∧
        s'.legs = s.legs ∧ s'.cLegs = s.cLegs ∧
        (∀ (q : NodePtr) (nd : node), s.nodes[q]? = some nd →
          ∃ nd' : node, s'.nodes[q]? = some nd' ∧ nd'.leg = nd.leg) ∧
        (∀ (q : NodePtr) (nd' : node), s'.nodes[q]? = some nd' → s.nodes.length ≤ q →
          nd'.leg = fun _ => none)) ∧
    ((∀ d, Pa.p d = Pb.p d) →
      ∀ s' : State K, process_equate fuel s a b = some s' →
        s'.msgs = s.msgs ++ [⟨Severity.warning, 53, [stra, strb]⟩]) := by
  have hpos : xa.pos ≠ xb.pos := by
    rw [hpa, hpb]
    intro e
    exact hne (Option.some.inj e)
  have hla := lt_of_getElem? (getPos_lookup s pa Pa hPa)
  have hlb := lt_of_getElem? (getPos_lookup s pb Pb hPb)
  have hva : ∀ p, xa.pos = some p → p < s.poss.length := by
    intro p hp
    rw [hpa] at hp
    cases hp
    exact hla
  have hvb : ∀ p, xb.pos = some p → p < s.poss.length := by
    intro p hp
    rw [hpb] at hp
    cases hp
    exact hlb
  obtain ⟨s1, sa, s2, sb, na, nb, ya, yb, e1, e2, hw2, hna, hnaname, hnb, hnbname, hya, hyb,
    hyastn, hybstn, hfixa, hfixb, hposne, hkeepa, hkeepb, hkeep, hla', hlb', hsa', hsb', hold,
    hnew, hlegs, hpfx, hplen, hit, hc, hpc, hm⟩ :=
    equate_stations s hw a b hab xa xb hxa hxb hpos hva hvb
      (fun _ => by rw [hpa]; simp) (fun _ => by rw [hpb]; simp)
  have hcong : ∀ (p : PfxPtr) (px : Prefix), s.pfxs[p]? = some px →
      ∃ px' : Prefix, s2.pfxs[p]? = some px' ∧ px'.up = px.up ∧ px'.ident = px.ident := by
    intro p px hp
    obtain ⟨px', g1, _, g2, g3, _⟩ := hpfx p px hp
    exact ⟨px', g1, g2, g3⟩
  have h1' := sprint_prefix_congr s s2 hplen hcong a stra hsa
  have h2' := sprint_prefix_congr s s2 hplen hcong b strb hsb
  have hPa2 : s2.getPos pa = some Pa :=
    getPos_of_lookup s2 pa Pa (by rw [hkeep pa hla]; exact getPos_lookup s pa Pa hPa)
  have hPb2 : s2.getPos pb = some Pb :=
    getPos_of_lookup s2 pb Pb (by rw [hkeep pb hlb]; exact getPos_lookup s pb Pb hPb)
  have hdiff : fixed_differ s2 a b =
      some ([2, 1, 0].any (fun d => decide (Pa.p d ≠ Pb.p d))) := by
    simp [fixed_differ, State.getPfx, hya, hyb, hkeepa pa hpa, hkeepb pb hpb, hPa2, hPb2]
  constructor
  · intro hd
    have hd' : fixed_differ s2 a b = some true := by
      rw [hdiff, (any_differ Pa Pb).mpr hd]
    refine ⟨compile_error s2 52 [stra, strb], ?_, ?_, ?_, hkeep, hlegs, hc, ?_, ?_⟩
    · rw [process_equate_eq fuel s a b hab xa xb hxa hxb hpos]
      exact equate_merge_error fuel s a b s1 sa s2 sb e1 e2 ya yb hya hyb
        (hfixa.trans hfa) (hfixb.trans hfb) stra strb h1' h2' hd'
    · show s2.msgs ++ _ = _
      rw [hm]
    · intro p px hp
      by_cases ea : p = a
      · subst ea
        have e : px = xa := Option.some.inj (hp.symm.trans hxa)
        subst e
        exact ⟨ya, hya, (hkeepa pa hpa).trans hpa.symm⟩
      · by_cases eb : p = b
        · subst eb
          have e : px = xb := Option.some.inj (hp.symm.trans hxb)
          subst e
          exact ⟨yb, hyb, (hkeepb pb hpb).trans hpb.symm⟩
        · obtain ⟨px', g1, g2, _⟩ := hpfx p px hp
          exact ⟨px', g1, by rw [g2 ea eb]⟩
    · intro q nd hq
      obtain ⟨nd', g1, _, g2⟩ := hold q nd hq
      exact ⟨nd', g1, g2⟩
    · intro q nd' hq hle
      rcases hnew q nd' hq hle with ⟨e, hs⟩ | ⟨e, hs⟩
      · subst e
        have e2 : nd' = na := Option.some.inj (hq.symm.trans hna)
        rw [e2]
        exact hla' hs
      · subst e
        have e2 : nd' = nb := Option.some.inj (hq.symm.trans hnb)
        rw [e2]
        exact hlb' hs
  · intro hall s' hs'
    have hd' : fixed_differ s2 a b = some false := by
      rw [hdiff]
      cases hany : [2, 1, 0].any (fun d => decide (Pa.p d ≠ Pb.p d)) with
      | false => rfl
      | true =>
        obtain ⟨d, hd⟩ := (any_differ Pa Pb).mp hany
        exact absurd (hall d) hd
    rw [process_equate_eq fuel s a b hab xa xb hxa hxb hpos,
      equate_merge_eq fuel s a b s1 sa s2 sb e1 e2 ya yb hya hyb
        (s2.msgs ++ [⟨Severity.warning, 53, [stra, strb]⟩]) b a
        (Or.inr (Or.inr ⟨hfixa.trans hfa, hfixb.trans hfb, stra, strb, h1', h2', hd', rfl, rfl,
          rfl⟩))] at hs'
    obtain ⟨s3x, hrep, hadd⟩ := Option.bind_eq_some.mp hs'
    obtain ⟨s3, e3, hstep⟩ := replace_pfx_frame fuel
      { s2 with msgs := s2.msgs ++ [⟨Severity.warning, 53, [stra, strb]⟩] } b a yb ya hyb hya
      s3x hrep
    have hwM : WF { s2 with msgs := s2.msgs ++ [⟨Severity.warning, 53, [stra, strb]⟩] } :=
      WF_congr s2 _ hw2 rfl rfl rfl rfl rfl
    have hw3 : WF s3 := WF_PosStep _ s3 _ hstep hwM
    obtain ⟨o1, o2, o3, o4, o5, _, _, _, o9, _⟩ := osfree_fields s3 yb.pos
    subst e3
    have hwA : WF { osfree s3 yb.pos with cLegs := (osfree s3 yb.pos).cLegs + 1 } :=
      WF_congr s3 _ hw3 o1 o2 o3 o4 o5
    have hnames : na.name ≠ nb.name := by
      rw [hnaname, hnbname]
      intro e
      exact hab (Option.some.inj e)
    obtain ⟨_, _, _, _, _, _, s'', _, _, _, _, f3, _, _, _, _, _, _, _, _, _, _, _, _, _, _, _,
      _, _, _, _, _, _, _, _, _, _, hmsg⟩ := addleg_wf _ hwA sa sb na nb
        (by show (osfree s3 yb.pos).nodes[sa]? = some na
            rw [o1, hstep.nodes]; exact hna)
        (by show (osfree s3 yb.pos).nodes[sb]? = some nb
            rw [o1, hstep.nodes]; exact hnb)
        hnames 0 0 0 0 0 0 0 0 0 FLAG_FAKE
    rw [hadd] at f3
    cases f3
    rw [hmsg]
    show (osfree s3 yb.pos).msgs = _
    rw [o9, hstep.msgs]
    show s2.msgs ++ _ = _
    rw [hm]

/-- C18: when `process_equate(name1, name2)` merges (two different names of a
well-formed graph with different position pointers, not two fixed names with
different coordinates; the zero-covariance legs below the station of the name
that is replaced form a tree, so that the propagation ends), it returns and has
installed one new matched pair of leg records, in two pointers that were no
legs before: with `(fr', i)` and `(to', j)` what `freeleg` returns for the
stations of `name1` and `name2` (these stations, or the stations a split puts
in their place; `fr'` carries `name1` and `to'` carries `name2`), slot `i` of
`fr'` holds a record with target `to'`, DATA_HERE and FAKE set, reverse index
`j`, displacement `(0,0,0)` and all six covariance components 0, and slot `j`
of `to'` holds its reverse, with target `fr'`, reverse index `i` and DATA_HERE
clear. `cLegs` has grown by 1. When both names are fixed (with identical
coordinates) the warning 53 with the two rendered names is the one message
reported; otherwise none is. When both stations have a free slot there is no
split: the pair joins these two stations, the store of leg records has grown
by exactly these two records, and every record of before is unchanged. -/
theorem process_equate_fake_pair (s : State K) (hw : WF s) (hdata : DataStored s)
    (a b : PfxPtr) (hab : a ≠ b) (xa xb : Prefix) (hxa : s.pfxs[a]? = some xa)
    (hxb : s.pfxs[b]? = some xb) (hpos : xa.pos ≠ xb.pos)
    (hva : ∀ p, xa.pos = some p → p < s.poss.length)
    (hvb : ∀ p, xb.pos = some p → p < s.poss.length)
    (hla : xa.fixed = true → ∃ (p : PosPtr) (P : pos K), xa.pos = some p ∧ s.getPos p = some P)
    (hlb : xb.fixed = true → ∃ (p : PosPtr) (P : pos K), xb.pos = some p ∧ s.getPos p = some P)
    (stra strb : String)
    (hstr : xa.fixed = true → xb.fixed = true →
      sprint_prefix s a = some stra ∧ sprint_prefix s b = some strb)
    (hsame : xa.fixed = true → xb.fixed = true →
      ∀ (pa pb : PosPtr) (Pa Pb : pos K), xa.pos = some pa → xb.pos = some pb →
        s.getPos pa = some Pa → s.getPos pb = some Pb → ∀ d, Pa.p d = Pb.p d)
    (h : NodePtr → Nat)
    (htree : ∀ r, (if xa.fixed then xb else xa).stn = some r → EquateTree s h r)
    (fuel : Nat)
    (hf : ∀ r, (if xa.fixed then xb else xa).stn = some r → h r < fuel) (hfuel : 0 < fuel) :
    ∃ (s1 : State K) (sa : NodePtr) (s2 : State K) (sb : NodePtr) (sA sf1 : State K)
      (fr' : NodePtr) (i : Fin 3) (sf2 : State K) (to' : NodePtr) (j : Fin 3) (s' : State K)
      (nf' nt' : node) (leg leg2 : LegPtr) (L L2 : linkfor K) (v : svar K),
      StnFromPfx s a = some (s1, sa) ∧ StnFromPfx s1 b = some (s2, sb) ∧
      sA.nodes = s2.nodes ∧ sA.legs = s.legs ∧
      freeleg { sA with legs := sA.legs ++ [{}] ++ [{}] } sa = some (sf1, fr', i) ∧
      freeleg sf1 sb = some (sf2, to', j) ∧
      process_equate fuel s a b = some s' ∧
      s.legs[leg]? = none ∧ s.legs[leg2]? = none ∧ leg ≠ leg2 ∧ fr' ≠ to' ∧
      s'.getNode fr' = some nf' ∧ nf'.name = some a ∧ nf'.leg i = some leg ∧
      s'.getLeg leg = some L ∧ reverse_leg s' leg = some leg2 ∧ L.to_ = some to' ∧
      L.reverse.flags.datahere = true ∧ L.reverse.flags.fake = true ∧ L.reverse.dirn = j ∧
      L.d = some ![0, 0, 0] ∧ L.v = some v ∧ (∀ k, v k = 0) ∧
      s'.getNode to' = some nt' ∧ nt'.name = some b ∧ nt'.leg j = some leg2 ∧
      s'.getLeg leg2 = some L2 ∧ reverse_leg s' leg2 = some leg ∧ L2.to_ = some fr' ∧
      L2.reverse.dirn = i ∧ L2.reverse.flags.datahere = false ∧
      s'.cLegs = s.cLegs + 1 ∧
      s'.msgs = s.msgs ++ (if xa.fixed && xb.fixed then
        [⟨Severity.warning, 53, [stra, strb]⟩] else []) ∧
      ((∀ n : node, s2.nodes[sa]? = some n → ∃ k, n.leg k = none) →
        (∀ n : node, s2.nodes[sb]? = some n → ∃ k, n.leg k = none) →
        fr' = sa ∧ to' = sb ∧ s'.legs.length = s.legs.length + 2 ∧
        ∀ (l : LegPtr) (X : linkfor K), s.legs[l]? = some X → s'.legs[l]? = some X) := by
  obtain ⟨s1, sa, s2, sb, sA, sf1, fr', i, sf2, to', j, s', nf2, nt2, za, zb, kept, e1, e2, e3,
    t2, t3, t4, t5, _, t7, _, t9, _, _, t12, _, t14, t15, t16, t17, _, _, _, _, _, _, t24,
    t25, t26⟩ := equate_merge_spec s hw hdata a b hab xa xb hxa hxb hpos hva hvb hla hlb stra strb
      hstr hsame h htree fuel hf hfuel
  refine ⟨s1, sa, s2, sb, sA, sf1, fr', i, sf2, to', j, s', _, _, s.legs.length,
    s.legs.length + 1, _, _, ![0, 0, 0, 0, 0, 0], e1, e2, t2, t3, t4, t5, e3,
    List.getElem?_eq_none (Nat.le_refl _), List.getElem?_eq_none (Nat.le_succ _),
    Nat.ne_of_lt (Nat.lt_succ_self _), t7, t14, t9, ?_, t16, ?_, rfl, rfl, rfl, rfl, rfl, rfl,
    ?_, t15, t12, ?_, t17, ?_, rfl, rfl, rfl, t24, t25, ?_⟩
  · simp
  · simp [reverse_leg, State.getLeg, State.getNode, t16, t15]
  · intro k
    fin_cases k <;> rfl
  · simp
  · simp [reverse_leg, State.getLeg, State.getNode, t17, t14]
  · intro h1 h2
    obtain ⟨na, hna⟩ : ∃ n, s2.nodes[sa]? = some n := by
      cases hn : s2.nodes[sa]? with
      | some n => exact ⟨n, rfl⟩
      | none => simp [freeleg, State.getNode, t2, hn] at t4
    obtain ⟨i0, f1, _, _⟩ := freeleg_free { sA with legs := sA.legs ++ [{}] ++ [{}] } sa na
      (by show sA.nodes[sa]? = some na
          rw [t2]; exact hna) (h1 na hna)
    rw [f1] at t4
    have e4 := Option.some.inj t4
    have e5 : sf1 = { sA with legs := sA.legs ++ [{}] ++ [{}] } := (congrArg Prod.fst e4).symm
    have e6 : fr' = sa := (congrArg (fun x => x.2.1) e4).symm
    subst e5
    obtain ⟨nb, hnb⟩ : ∃ n, s2.nodes[sb]? = some n := by
      cases hn : s2.nodes[sb]? with
      | some n => exact ⟨n, rfl⟩
      | none => simp [freeleg, State.getNode, t2, hn] at t5
    obtain ⟨j0, f2, _, _⟩ := freeleg_free { sA with legs := sA.legs ++ [{}] ++ [{}] } sb nb
      (by show sA.nodes[sb]? = some nb
          rw [t2]; exact hnb) (h2 nb hnb)
    rw [f2] at t5
    have e7 := Option.some.inj t5
    have e8 : sf2 = { sA with legs := sA.legs ++ [{}] ++ [{}] } := (congrArg Prod.fst e7).symm
    have e9 : to' = sb := (congrArg (fun x => x.2.1) e7).symm
    subst e8
    have hold : ∀ l : LegPtr, l ≠ s.legs.length → l ≠ s.legs.length + 1 →
        s'.legs[l]? = (s.legs ++ [({} : linkfor K)] ++ [({} : linkfor K)])[l]? := by
      intro l h3 h4
      rw [t26 l h3 h4]
      show (sA.legs ++ [{}] ++ [{}])[l]? = _
      rw [t3]
    refine ⟨e6, e9, ?_, ?_⟩
    · have hnone : s'.legs[s.legs.length + 2]? = none := by
        rw [hold _ (Nat.ne_of_gt (Nat.lt_add_of_pos_right (by decide)))
          (Nat.ne_of_gt (Nat.lt_succ_self _))]
        exact List.getElem?_eq_none (by simp)
      have hle := List.getElem?_eq_none_iff.mp hnone
      have hlt := lt_of_getElem? t17
      omega
    · intro l X hl
      have hlt := lt_of_getElem? hl
      rw [hold l (Nat.ne_of_lt hlt) (Nat.ne_of_lt (Nat.lt_succ_of_lt hlt)),
        List.append_assoc, List.getElem?_append_left hlt]
      exact hl

/-- C19, as the code has it: for two different names `a`, `b` of a
well-formed graph that are both not fixed and have different (valid) position
objects, the zero-covariance legs below the station of `a` forming a tree,
`process_equate(a, b)` returns and the position kept is that of `b`: `b.pos`
is the same object as before the call, `a.pos` has been replaced by it (so it
is no longer what it was), and that position is as before. -/
theorem process_equate_unfixed_keeps_second (s : State K) (hw : WF s) (hdata : DataStored s)
    (a b : PfxPtr) (hab : a ≠ b) (xa xb : Prefix) (hxa : s.pfxs[a]? = some xa)
    (hxb : s.pfxs[b]? = some xb) (pa pb : PosPtr) (hpa : xa.pos = some pa)
    (hpb : xb.pos = some pb) (hne : pa ≠ pb) (hva : pa < s.poss.length)
    (hvb : pb < s.poss.length) (hfa : xa.fixed = false) (hfb : xb.fixed = false)
    (h : NodePtr → Nat) (htree : ∀ r, xa.stn = some r → EquateTree s h r) (fuel : Nat)
    (hf : ∀ r, xa.stn = some r → h r < fuel) (hfuel : 0 < fuel) :
    ∃ (s' : State K) (za zb : Prefix), process_equate fuel s a b = some s' ∧
      s'.pfxs[a]? = some za ∧ s'.pfxs[b]? = some zb ∧ zb.pos = xb.pos ∧ za.pos = xb.pos ∧
      za.pos ≠ xa.pos ∧ s'.poss[pb]? = s.poss[pb]? := by
  have hpos : xa.pos ≠ xb.pos := by
    rw [hpa, hpb]
    intro e
    exact hne (Option.some.inj e)
  obtain ⟨s1, sa, s2, sb, sA, sf1, fr', i, sf2, to', j, s', nf2, nt2, za, zb, kept, _, _, e3,
    _, _, _, _, _, _, _, _, _, _, _, _, _, _, _, _, t18, t19, t20, t21, t22, t23, _, _⟩ :=
    equate_merge_spec s hw hdata a b hab xa xb hxa hxb hpos
      (fun p hp => by rw [hpa] at hp; cases hp; exact hva)
      (fun p hp => by rw [hpb] at hp; cases hp; exact hvb)
      (fun hx => by rw [hfa] at hx; cases hx) (fun hx => by rw [hfb] at hx; cases hx) "" ""
      (fun hx => by rw [hfa] at hx; cases hx) (fun hx => by rw [hfa] at hx; cases hx) h
      (fun r hr => htree r (by simpa [hfa] using hr)) fuel
      (fun r hr => hf r (by simpa [hfa] using hr)) hfuel
  have hk : kept = some pb := t22 pb (by simp [hfa, hpb])
  refine ⟨s', za, zb, e3, t18, t19, ?_, ?_, ?_, t23 pb hvb hk⟩
  · rw [t21, hk, hpb]
  · rw [t20, hk, hpb]
  · rw [t20, hk, hpa]
    intro e
    exact hne (Option.some.inj e).symm

/-- C20: for two different names of a well-formed graph with different
position pointers of which exactly one is fixed, the fixed one having a live
position `pf` with coordinates `P` (and the zero-covariance legs below the
station of the other one forming a tree), `process_equate` returns and keeps
the position object of the fixed name, whichever argument it is: afterwards
both names point at `pf`, and its coordinates are still `P`. -/
theorem process_equate_keeps_fixed (s : State K) (hw : WF s) (hdata : DataStored s)
    (a b : PfxPtr) (hab : a ≠ b) (xa xb : Prefix) (hxa : s.pfxs[a]? = some xa)
    (hxb : s.pfxs[b]? = some xb) (hpos : xa.pos ≠ xb.pos) (hone : xa.fixed ≠ xb.fixed)
    (pf : PosPtr) (P : pos K) (hpf : (if xa.fixed then xa else xb).pos = some pf)
    (hP : s.getPos pf = some P)
    (hvu : ∀ p, (if xa.fixed then xb else xa).pos = some p → p < s.poss.length)
    (h : NodePtr → Nat)
    (htree : ∀ r, (if xa.fixed then xb else xa).stn = some r → EquateTree s h r)
    (fuel : Nat)
    (hf : ∀ r, (if xa.fixed then xb else xa).stn = some r → h r < fuel) (hfuel : 0 < fuel) :
    ∃ (s' : State K) (za zb : Prefix), process_equate fuel s a b = some s' ∧
      s'.pfxs[a]? = some za ∧ s'.pfxs[b]? = some zb ∧ za.pos = some pf ∧ zb.pos = some pf ∧
      s'.getPos pf = some P := by
  have hlt : pf < s.poss.length := lt_of_getElem? (getPos_lookup s pf P hP)
  have hva : ∀ p, xa.pos = some p → p < s.poss.length := by
    intro p hp
    cases hx : xa.fixed with
    | true =>
      rw [hx] at hpf
      simp only [if_true] at hpf
      rw [hp] at hpf
      cases hpf
      exact hlt
    | false =>
      rw [hx] at hvu
      exact hvu p (by simpa using hp)
  have hvb : ∀ p, xb.pos = some p → p < s.poss.length := by
    intro p hp
    cases hx : xa.fixed with
    | true =>
      rw [hx] at hvu
      exact hvu p (by simpa using hp)
    | false =>
      rw [hx] at hpf
      simp only [Bool.false_eq_true, if_false] at hpf
      rw [hp] at hpf
      cases hpf
      exact hlt
  have hla : xa.fixed = true →
      ∃ (p : PosPtr) (P : pos K), xa.pos = some p ∧ s.getPos p = some P := by
    intro hx
    rw [hx] at hpf
    exact ⟨pf, P, by simpa using hpf, hP⟩
  have hlb : xb.fixed = true →
      ∃ (p : PosPtr) (P : pos K), xb.pos = some p ∧ s.getPos p = some P := by
    intro hx
    have hx' : xa.fixed = false := by
      cases hxa' : xa.fixed with
      | false => rfl
      | true => rw [hx, hxa'] at hone; exact absurd rfl hone
    rw [hx'] at hpf
    exact ⟨pf, P, by simpa using hpf, hP⟩
  have hnot : xa.fixed = true → xb.fixed = true → False := by
    intro h1 h2
    rw [h1, h2] at hone
    exact hone rfl
  obtain ⟨s1, sa, s2, sb, sA, sf1, fr', i, sf2, to', j, s', nf2, nt2, za, zb, kept, _, _, e3,
    _, _, _, _, _, _, _, _, _, _, _, _, _, _, _, _, t18, t19, t20, t21, t22, t23, _, _⟩ :=
    equate_merge_spec s hw hdata a b hab xa xb hxa hxb hpos hva hvb hla hlb "" ""
      (fun h1 h2 => (hnot h1 h2).elim) (fun h1 h2 => (hnot h1 h2).elim) h htree fuel hf hfuel
  have hk : kept = some pf := t22 pf hpf
  refine ⟨s', za, zb, e3, t18, t19, by rw [t20, hk], by rw [t21, hk], ?_⟩
  exact getPos_of_lookup s' pf P (by rw [t23 pf hlt hk]; exact getPos_lookup s pf P hP)

/-! ### Concrete inputs for legs, lists and names -/

theorem copy_link_pair_witness :
    exampleChain.legs[1]? = some { to_ := some 0, reverse := ⟨0, LegFlags.zero⟩ } ∧
    reverse_leg exampleChain 1 = some 0 ∧
    ∃ (s' : State ℚ) (legOut : LegPtr) (C : linkfor ℚ),
      copy_link exampleChain 1 = some (s', legOut) ∧ s'.legs[legOut]? = some C ∧
      C.v = some ![1, 1, 1, 0, 0, 0] ∧ C.d = some (fun i => -(![1, 0, 0] : delta ℚ) i) ∧
      (fun i => -(![1, 0, 0] : delta ℚ) i) = ![-1, 0, 0] := by
  refine ⟨rfl, rfl, ?_⟩
  obtain ⟨s', legOut, C, h1, _, _, h4, h5, _, h7, _⟩ :=
    copy_link_pair exampleChain 1 _ 0 _ ![1, 0, 0] ![1, 1, 1, 0, 0, 0] rfl rfl rfl
      (by decide) rfl rfl
  refine ⟨s', legOut, C, h1, h4, h5, h7 rfl, ?_⟩
  funext i
  fin_cases i <;> simp

theorem addto_link_pair_witness :
    exampleChain.legs[3]? = some { to_ := some 1, reverse := ⟨1, LegFlags.zero⟩ } ∧
    reverse_leg exampleChain 3 = some 2 ∧
    ∃ (s' : State ℚ) (L' : linkfor ℚ) (d' : delta ℚ) (v' : svar ℚ),
      addto_link exampleChain 0 3 = some (s', 0) ∧ s'.legs[0]? = some L' ∧
      L'.d = some d' ∧ L'.v = some v' ∧ d' = subdd ![1, 0, 0] ![0, 1, 0] ∧
      v' = addss ![1, 1, 1, 0, 0, 0] ![1, 1, 1, 0, 0, 0] ∧
      subdd (![1, 0, 0] : delta ℚ) ![0, 1, 0] = ![1, -1, 0] := by
  refine ⟨rfl, rfl, ?_⟩
  obtain ⟨s', L', d', v', h1, h2, h3, h4, _, h6, h7, _⟩ :=
    addto_link_pair exampleChain 0 3 _ _ 2 _ ![1, 0, 0] ![0, 1, 0] ![1, 1, 1, 0, 0, 0]
      ![1, 1, 1, 0, 0, 0] rfl rfl rfl rfl rfl rfl (by decide) rfl rfl
  refine ⟨s', L', d', v', h1, h2, h3, h4, h6 rfl, h7, ?_⟩
  funext i
  fin_cases i <;> simp [subdd]

theorem StnFromPfx_get_or_create_witness :
    exampleChain.pfxs[1]? = some { up := some 0, ident := "cave" } ∧
    exampleChain.pfxs[2]? =
      some { up := some 1, ident := "A", pos := some 0, stn := some 0, shape := 1 } ∧
    StnFromPfx exampleChain 2 = some (exampleChain, 0) ∧
    ∃ (s' : State ℚ) (stn : NodePtr) (nd : node),
      StnFromPfx exampleChain 1 = some (s', stn) ∧ exampleChain.nodes[stn]? = none ∧
      s'.nodes[stn]? = some nd ∧ nd.name = some 1 ∧ s'.stnlist = some stn ∧
      s'.cStns = exampleChain.cStns + 1 ∧ StnFromPfx s' 1 = some (s', stn) := by
  have hi : ∀ i, exampleChain.stn_iter = some i → i < exampleChain.nodes.length := by
    intro i h
    cases h
  have hh : ∀ h, exampleChain.stnlist = some h → h < exampleChain.nodes.length := by
    intro h e
    cases e
    decide
  refine ⟨rfl, rfl, (StnFromPfx_get_or_create exampleChain 2 _ rfl hi hh).1 0 rfl, ?_⟩
  obtain ⟨s', stn, nd, x', h1, h2, h3, h4, _, _, _, h8, _, _, _, _, _, _, _, _, h17, _, _, _,
    _, h22⟩ := (StnFromPfx_get_or_create exampleChain 1 _ rfl hi hh).2 rfl
  exact ⟨s', stn, nd, h1, h2, h3, h4, h8, h17, h22⟩

theorem WFList_exampleChain : WFList exampleChain (some 2) [2, 1, 0] := by
  refine ⟨⟨rfl, _, rfl, rfl, _, rfl, rfl, _, rfl, rfl⟩, ?_, ?_⟩
  · intro h nd hh hnd
    cases hh
    simp [exampleChain] at hnd
    subst hnd
    rfl
  · intro x y nd ny hx hnd hn hny
    simp at hx
    rcases hx with e | e | e <;> subst e <;> simp [exampleChain] at hnd <;> subst hnd <;>
      simp at hn <;> subst hn <;> simp [exampleChain] at hny <;> subst hny <;> rfl

theorem remove_stn_from_list_spec_witness :
    WFList exampleChain (some 2) [2, 1, 0] ∧ (1 : NodePtr) ∈ [2, 1, 0] ∧
    ∃ (s' : State ℚ) (list' : Option NodePtr) (a b : List NodePtr) (n : node),
      remove_stn_from_list exampleChain (some 2) 1 = some (s', list') ∧
      [2, 1, 0] = a ++ 1 :: b ∧ 1 ∉ a ++ b ∧ WFList s' list' (a ++ b) ∧
      exampleChain.nodes[1]? = some n ∧ s'.nodes[1]? = some n := by
  refine ⟨WFList_exampleChain, by decide, ?_⟩
  obtain ⟨s', list', a, b, n, h1, h2, h3, h4, h5, h6, _⟩ :=
    remove_stn_from_list_spec exampleChain (some 2) [2, 1, 0] 1 WFList_exampleChain (by decide)
  exact ⟨s', list', a, b, n, h1, h2, h3, h4, h5, h6⟩

theorem sprint_prefix_dotted_witness :
    UpChain exampleChain 2 [1, 0] ∧
    String.intercalate "." (chainIdents exampleChain 2 [1, 0]) = "cave.A" ∧
    sprint_prefix exampleChain 2 =
      some (String.intercalate "." (chainIdents exampleChain 2 [1, 0])) ∧
    fprint_prefix exampleChain 3 "" 2 =
      some ("" ++ String.intercalate "." (chainIdents exampleChain 2 [1, 0])) := by
  have hc : UpChain exampleChain 2 [1, 0] := ⟨⟨_, rfl, rfl⟩, ⟨_, rfl, rfl⟩, ⟨_, rfl, rfl⟩⟩
  refine ⟨hc, by decide, (sprint_prefix_dotted exampleChain 2 [1, 0] hc).1,
    (sprint_prefix_dotted exampleChain 2 [1, 0] hc).2.2 3 "" (by decide)⟩

/-! ### Concrete inputs for equates -/

theorem WF_exampleNames : WF exampleNames := by
  refine ⟨?_, ?_, ?_, ?_, ?_⟩
  · intro h hh
    cases hh
  · intro x hx
    cases hx
  · intro q nd hq
    simp [exampleNames] at hq
  · intro p px m hp hm
    have hlt := lt_of_getElem? hp
    have h8 : p < 8 := hlt
    interval_cases p <;> simp [exampleNames] at hp <;> subst hp <;> cases hm
  · intro q nd i lp hq
    simp [exampleNames] at hq

theorem DataStored_exampleNames : DataStored exampleNames := by
  intro leg l hl
  simp [exampleNames] at hl

theorem sprint_exampleNames :
    sprint_prefix exampleNames 1 = some "F1" ∧ sprint_prefix exampleNames 2 = some "F2" ∧
    sprint_prefix exampleNames 3 = some "F3" ∧ sprint_prefix exampleNames 6 = some "N1" := by
  decide

theorem process_equate_same_pos_witness :
    exampleNames.getPfx 6 = some { up := some 0, ident := "N1" } ∧
    exampleNames.getPfx 7 = some { up := some 0, ident := "N2" } ∧
    sprint_prefix exampleNames 6 = some "N1" ∧
    process_equate 1 exampleNames 6 7 = some exampleNames ∧
    ∃ s' : State ℚ, process_equate 1 exampleNames 6 6 = some s' ∧
      s'.msgs = exampleNames.msgs ++ [⟨Severity.warning, 13, ["N1"]⟩] ∧
      s'.nodes = exampleNames.nodes ∧ s'.legs = exampleNames.legs ∧
      s'.pfxs = exampleNames.pfxs ∧ s'.cLegs = exampleNames.cLegs := by
  refine ⟨rfl, rfl, sprint_exampleNames.2.2.2,
    (process_equate_same_pos 1 exampleNames 6 7 _ _ rfl rfl rfl).1 (by decide), ?_⟩
  obtain ⟨s', h1, h2, h3, h4, h5, _, _, _, h9, _⟩ :=
    (process_equate_same_pos 1 exampleNames 6 6 _ _ rfl rfl rfl).2 rfl "N1"
      sprint_exampleNames.2.2.2
  exact ⟨s', h1, h2, h3, h4, h5, h9⟩

theorem process_equate_fixed_differ_witness :
    WF exampleNames ∧ (1 : PfxPtr) ≠ 2 ∧
    exampleNames.getPos 0 = some { } ∧ exampleNames.getPos 1 = some { p := ![1, 0, 0] } ∧
    (∃ d : Fin 3, ({ } : pos ℚ).p d ≠ ({ p := ![1, 0, 0] } : pos ℚ).p d) ∧
    ∃ s' : State ℚ, process_equate 1 exampleNames 1 2 = some s' ∧
      s'.msgs = exampleNames.msgs ++ [⟨Severity.error, 52, ["F1", "F2"]⟩] ∧
      s'.legs = exampleNames.legs ∧ s'.cLegs = exampleNames.cLegs := by
  have hd : ∃ d : Fin 3, ({ } : pos ℚ).p d ≠ ({ p := ![1, 0, 0] } : pos ℚ).p d :=
    ⟨0, by simp⟩
  refine ⟨WF_exampleNames, by decide, rfl, rfl, hd, ?_⟩
  obtain ⟨s', h1, h2, _, _, h5, h6, _⟩ :=
    (process_equate_fixed_differ 1 exampleNames WF_exampleNames 1 2 (by decide) _ _ rfl rfl 0 1
      _ _ rfl rfl (by decide) rfl rfl rfl rfl "F1" "F2" sprint_exampleNames.1
      sprint_exampleNames.2.1).1 hd
  exact ⟨s', h1, h2, h5, h6⟩

theorem process_equate_fake_pair_witness :
    WF exampleNames ∧ DataStored exampleNames ∧ (1 : PfxPtr) ≠ 3 ∧
    exampleNames.getPos 0 = some { } ∧ exampleNames.getPos 2 = some { } ∧
    ∃ (s' : State ℚ) (fr' to' : NodePtr) (i j : Fin 3) (nf' nt' : node) (leg leg2 : LegPtr)
      (L : linkfor ℚ) (v : svar ℚ),
      process_equate 1 exampleNames 1 3 = some s' ∧
      s'.getNode fr' = some nf' ∧ nf'.name = some 1 ∧ nf'.leg i = some leg ∧
      s'.getLeg leg = some L ∧ reverse_leg s' leg = some leg2 ∧ L.to_ = some to' ∧
      L.reverse.flags.datahere = true ∧ L.reverse.flags.fake = true ∧
      L.d = some ![0, 0, 0] ∧ L.v = some v ∧ (∀ k, v k = 0) ∧
      s'.getNode to' = some nt' ∧ nt'.name = some 3 ∧ nt'.leg j = some leg2 ∧
      reverse_leg s' leg2 = some leg ∧ s'.cLegs = exampleNames.cLegs + 1 ∧
      s'.msgs = exampleNames.msgs ++ [⟨Severity.warning, 53, ["F1", "F3"]⟩] := by
  refine ⟨WF_exampleNames, DataStored_exampleNames, by decide, rfl, rfl, ?_⟩
  obtain ⟨s1, sa, s2, sb, sA, sf1, fr', i, sf2, to', j, s', nf', nt', leg, leg2, L, L2, v, _, _,
    _, _, _, _, e, _, _, _, _, a1, a2, a3, a4, a5, a6, a7, a8, _, a10, a11, a12, a13, a14, a15,
    _, a17, _, _, _, a21, a22, _⟩ :=
    process_equate_fake_pair exampleNames WF_exampleNames DataStored_exampleNames 1 3
      (by decide) _ _ rfl rfl (by decide)
      (by intro p hp; cases hp; decide) (by intro p hp; cases hp; decide)
      (fun _ => ⟨0, _, rfl, rfl⟩) (fun _ => ⟨2, _, rfl, rfl⟩) "F1" "F3"
      (fun _ _ => ⟨sprint_exampleNames.1, sprint_exampleNames.2.2.1⟩)
      (by
        intro _ _ pa pb Pa Pb h1 h2 h3 h4 d
        cases h1
        cases h2
        cases h3
        cases h4
        rfl)
      (fun _ => 0) (by intro r hr; cases hr) 1 (by intro r hr; cases hr) (by decide)
  exact ⟨s', fr', to', i, j, nf', nt', leg, leg2, L, v, e, a1, a2, a3, a4, a5, a6, a7, a8, a10,
    a11, a12, a13, a14, a15, a17, a21, a22⟩

theorem process_equate_unfixed_keeps_second_witness :
    WF exampleNames ∧ DataStored exampleNames ∧ (4 : PfxPtr) ≠ 5 ∧
    exampleNames.pfxs[4]? = some { up := some 0, ident := "U1", pos := some 3 } ∧
    exampleNames.pfxs[5]? = some { up := some 0, ident := "U2", pos := some 4 } ∧
    ∃ (s' : State ℚ) (za zb : Prefix), process_equate 1 exampleNames 4 5 = some s' ∧
      s'.pfxs[4]? = some za ∧ s'.pfxs[5]? = some zb ∧ zb.pos = some 4 ∧ za.pos = some 4 := by
  refine ⟨WF_exampleNames, DataStored_exampleNames, by decide, rfl, rfl, ?_⟩
  obtain ⟨s', za, zb, h1, h2, h3, h4, h5, _⟩ :=
    process_equate_unfixed_keeps_second exampleNames WF_exampleNames DataStored_exampleNames
      4 5 (by decide) _ _ rfl rfl 3 4 rfl rfl (by decide) (by decide) (by decide) rfl rfl
      (fun _ => 0) (by intro r hr; cases hr) 1 (by intro r hr; cases hr) (by decide)
  exact ⟨s', za, zb, h1, h2, h3, h4, h5⟩

/-- What `process_equate(U1, U2)` does on `exampleNames`, whatever the depth
allowed (at least 1): it returns, and both names end at position 4, the one
`U2` had. -/
theorem equate_exampleNames (n : Nat) :
    ∃ (s' : State ℚ) (za zb : Prefix), process_equate (n + 1) exampleNames 4 5 = some s' ∧
      s'.pfxs[4]? = some za ∧ s'.pfxs[5]? = some zb ∧ za.pos = some 4 ∧ zb.pos = some 4 := by
  obtain ⟨_, _, _, _, _, _, _, _, _, _, _, s', _, _, za, zb, kept, _, _, e3, _, _, _, _, _,
    _, _, _, _, _, _, _, _, _, _, _, t18, t19, t20, t21, t22, _⟩ :=
    equate_merge_spec exampleNames WF_exampleNames DataStored_exampleNames 4 5 (by decide)
      _ _ rfl rfl (by decide)
      (by intro p hp; cases hp; decide) (by intro p hp; cases hp; decide)
      (by intro hx; cases hx) (by intro hx; cases hx) "" ""
      (by intro hx; cases hx) (by intro hx; cases hx)
      (fun _ => 0) (by intro r hr; cases hr) (n + 1) (by intro r hr; cases hr)
      (Nat.succ_pos n)
  have hk : kept = some 4 := t22 4 rfl
  exact ⟨s', za, zb, e3, t18, t19, by rw [t20, hk], by rw [t21, hk]⟩

/-- C19 as the claim states it fails on `exampleNames`, for the unfixed names
`U1` and `U2` with the different position objects 3 and 4:
`process_equate(U1, U2)` returns, and afterwards neither name points at 3, the
position object `U1` had before; and no run of it, whatever the depth allowed,
ends with both names at the position object `U1` had before. -/
theorem process_equate_keeps_first_refuted :
    (∃ (s' : State ℚ) (xa xb za zb : Prefix),
      exampleNames.pfxs[4]? = some xa ∧ exampleNames.pfxs[5]? = some xb ∧
      xa.fixed = false ∧ xb.fixed = false ∧ xa.pos = some 3 ∧ xb.pos = some 4 ∧
      process_equate 1 exampleNames 4 5 = some s' ∧
      s'.pfxs[4]? = some za ∧ s'.pfxs[5]? = some zb ∧ za.pos ≠ xa.pos ∧ zb.pos ≠ xa.pos) ∧
    ¬ ∃ (fuel : Nat) (s' : State ℚ) (xa za zb : Prefix),
      exampleNames.pfxs[4]? = some xa ∧ process_equate fuel exampleNames 4 5 = some s' ∧
      s'.pfxs[4]? = some za ∧ s'.pfxs[5]? = some zb ∧ za.pos = xa.pos ∧ zb.pos = xa.pos := by
  constructor
  · obtain ⟨s', za, zb, h1, h2, h3, h4, h5⟩ := equate_exampleNames 0
    refine ⟨s', _, _, za, zb, rfl, rfl, rfl, rfl, rfl, rfl, h1, h2, h3, ?_, ?_⟩
    · rw [h4]
      decide
    · rw [h5]
      decide
  · rintro ⟨fuel, s', xa, za, zb, hxa, hrun, hza, hzb, hpa, hpb⟩
    have e : xa = { up := some 0, ident := "U1", pos := some 3 } :=
      (Option.some.inj hxa).symm
    subst e
    cases fuel with
    | zero =>
      have h0 : process_equate 0 exampleNames 4 5 = none := rfl
      rw [h0] at hrun
      cases hrun
    | succ n =>
      obtain ⟨s'', za', zb', h1, h2, _, h4, _⟩ := equate_exampleNames n
      rw [hrun] at h1
      cases h1
      rw [hza] at h2
      cases h2
      rw [h4] at hpa
      cases hpa

theorem WF_exampleEquated : WF exampleEquated := by
  refine ⟨?_, ?_, ?_, ?_, ?_⟩
  · intro h hh
    cases hh
    decide
  · intro x hx
    cases hx
  · intro q nd hq
    have hlt : q < 2 := lt_of_getElem? hq
    interval_cases q <;> simp [exampleEquated] at hq <;> subst hq
    · exact ⟨4, _, 0, rfl, rfl, rfl⟩
    · exact ⟨5, _, 1, rfl, rfl, rfl⟩
  · intro p px m hp hm
    have hlt : p < 8 := lt_of_getElem? hp
    interval_cases p <;> simp [exampleEquated] at hp <;> subst hp <;> cases hm
    · exact ⟨_, rfl, rfl⟩
    · exact ⟨_, rfl, rfl⟩
  · intro q nd i lp hq hi
    have hlt : q < 2 := lt_of_getElem? hq
    interval_cases q <;> simp [exampleEquated] at hq <;> subst hq <;> fin_cases i <;>
      simp at hi <;> subst hi
    · exact ⟨_, 1, _, 1, _, rfl, rfl, rfl, rfl, rfl, rfl, rfl, by decide⟩
    · exact ⟨_, 0, _, 0, _, rfl, rfl, rfl, rfl, rfl, rfl, rfl, by decide⟩

theorem DataStored_exampleEquated : DataStored exampleEquated := by
  intro leg l hl hdh
  have hlt : leg < 2 := lt_of_getElem? hl
  interval_cases leg <;> simp [exampleEquated] at hl <;> subst hl
  · exact ⟨_, rfl⟩
  · exact absurd hdh (by decide)

/-- The only legs of `exampleEquated` are the two directions of the equate
between stations 0 and 1. -/
theorem EquateLeg_exampleEquated (x t : NodePtr) (h : EquateLeg exampleEquated x t) :
    (x = 0 ∧ t = 1) ∨ (x = 1 ∧ t = 0) := by
  obtain ⟨nd, d, leg, l, hx, hleg, hl, ht, _⟩ := h
  have hlt : x < 2 := lt_of_getElem? hx
  interval_cases x <;> simp [exampleEquated] at hx <;> subst hx <;> fin_cases d <;>
    simp at hleg <;> subst hleg <;> simp [exampleEquated] at hl <;> subst hl <;>
    simp at ht <;> subst ht <;> simp

theorem EquateTree_exampleEquated :
    EquateTree exampleEquated (fun q => if q = 0 then 1 else 0) 0 := by
  refine ⟨?_, ?_⟩
  · intro t ht
    rcases EquateLeg_exampleEquated 0 t ht with ⟨_, e⟩ | ⟨e, _⟩
    · subst e
      decide
    · cases e
  · intro x t u h1 h2 h3 h4
    rcases EquateLeg_exampleEquated x t h1 with ⟨e1, e2⟩ | ⟨e1, e2⟩
    · subst e1 e2
      rcases EquateLeg_exampleEquated 1 u h3 with ⟨e, _⟩ | ⟨_, e⟩
      · cases e
      · exact absurd e h4
    · subst e1 e2
      simp at h2

theorem process_equate_keeps_fixed_witness :
    WF exampleEquated ∧ DataStored exampleEquated ∧ (4 : PfxPtr) ≠ 1 ∧
    exampleEquated.pfxs[4]? =
      some { up := some 0, ident := "U1", pos := some 4, stn := some 0, shape := 1 } ∧
    exampleEquated.pfxs[1]? =
      some { up := some 0, ident := "F1", pos := some 0, fixed := true } ∧
    exampleEquated.getPos 0 = some { } ∧
    EquateTree exampleEquated (fun q => if q = 0 then 1 else 0) 0 ∧
    ∃ (s' : State ℚ) (za zb : Prefix), process_equate 2 exampleEquated 4 1 = some s' ∧
      s'.pfxs[4]? = some za ∧ s'.pfxs[1]? = some zb ∧ za.pos = some 0 ∧ zb.pos = some 0 ∧
      s'.getPos 0 = some { } := by
  refine ⟨WF_exampleEquated, DataStored_exampleEquated, by decide, rfl, rfl, rfl,
    EquateTree_exampleEquated, ?_⟩
  exact process_equate_keeps_fixed exampleEquated WF_exampleEquated DataStored_exampleEquated
    4 1 (by decide) _ _ rfl rfl (by decide) (by decide) 0 _ rfl rfl
    (by intro p hp; cases hp; decide) (fun q => if q = 0 then 1 else 0)
    (by intro r hr; cases hr; exact EquateTree_exampleEquated) 2
    (by intro r hr; cases hr; decide) (by decide)

/-! ### The packed product `smulvs` -/

omit [LinearOrderedField K] in
theorem foldlM_finRange_three {α : Type} (f : α → Fin 3 → Option α) (z : α) :
    (List.finRange 3).foldlM f z =
      (f z 0).bind (fun x => (f x 1).bind (fun y => f y 2)) := by
  show List.foldlM f z [0, 1, 2] = _
  simp only [List.foldlM, Option.bind_eq_bind, bind_pure]

/-- The sum the `k` loop of `smulvs` leaves in `tot` is an entry of the dense
product. -/
theorem smulvs_tot (a : var K) (b : svar K) (i j : Fin 3) :
    (List.finRange 3).foldl (fun tot k => tot + a i k * SN b k j) 0 =
      mulvv a (expand b) i j := rfl

/-- The passes of `smulvs` that store. -/
theorem smulvs_body_store (eps : K) (a : var K) (b : svar K) (i j : Fin 3) (r : svar K)
    (h : i ≤ j) :
    smulvs_body eps a b i j r =
      some (Function.update r (SNindex i j) (mulvv a (expand b) i j)) := by
  simp only [smulvs_body, smulvs_tot, h, if_true]

/-- The passes of `smulvs` that compare. -/
theorem smulvs_body_check (eps : K) (a : var K) (b : svar K) (i j : Fin 3) (r : svar K)
    (h : ¬ i ≤ j) :
    smulvs_body eps a b i j r =
      if |SN r j i - mulvv a (expand b) i j| ≤ THRESHOLD eps then some r else none := by
  simp only [smulvs_body, smulvs_tot, h, if_false, gt_iff_lt]
  by_cases c : |SN r j i - mulvv a (expand b) i j| ≤ THRESHOLD eps
  · simp [c, not_lt.mpr c]
  · simp [c, not_le.mp c]

/-- `smulvs` in closed form. -/
theorem smulvs_eq (eps : K) (r : svar K) (a : var K) (b : svar K) :
    smulvs eps r a b =
      if |mulvv a (expand b) 0 1 - mulvv a (expand b) 1 0| ≤ THRESHOLD eps ∧
          |mulvv a (expand b) 0 2 - mulvv a (expand b) 2 0| ≤ THRESHOLD eps ∧
          |mulvv a (expand b) 1 2 - mulvv a (expand b) 2 1| ≤ THRESHOLD eps
      then some (packUpper (mulvv a (expand b))) else none := by
  obtain ⟨e00, e01, e02, e10, e11, e12, e20, e21, e22⟩ := SNindex_vals
  have l00 : (0 : Fin 3) ≤ 0 := by decide
  have l01 : (0 : Fin 3) ≤ 1 := by decide
  have l02 : (0 : Fin 3) ≤ 2 := by decide
  have l11 : (1 : Fin 3) ≤ 1 := by decide
  have l12 : (1 : Fin 3) ≤ 2 := by decide
  have l22 : (2 : Fin 3) ≤ 2 := by decide
  have n10 : ¬ (1 : Fin 3) ≤ 0 := by decide
  have n20 : ¬ (2 : Fin 3) ≤ 0 := by decide
  have n21 : ¬ (2 : Fin 3) ≤ 1 := by decide
  generalize hP : mulvv a (expand b) = P
  simp only [smulvs, foldlM_finRange_three, smulvs_body_store _ _ _ _ _ _ l00,
    smulvs_body_store _ _ _ _ _ _ l01, smulvs_body_store _ _ _ _ _ _ l02,
    smulvs_body_store _ _ _ _ _ _ l11, smulvs_body_store _ _ _ _ _ _ l12,
    smulvs_body_store _ _ _ _ _ _ l22, smulvs_body_check _ _ _ _ _ _ n10,
    smulvs_body_check _ _ _ _ _ _ n20, smulvs_body_check _ _ _ _ _ _ n21, hP,
    Option.some_bind, e00, e01, e02, e10, e11, e12, e20, e21, e22, SN]
  have u1 : ∀ (f : svar K) (x : K), Function.update f 4 x 3 = f 3 := fun f x =>
    Function.update_noteq (by decide) x f
  have u2 : ∀ (f : svar K) (x : K), Function.update f 3 x 3 = x := fun f x =>
    Function.update_same 3 x f
  have u3 : ∀ (f : svar K) (x : K), Function.update f 5 x 4 = f 4 := fun f x =>
    Function.update_noteq (by decide) x f
  have u4 : ∀ (f : svar K) (x : K), Function.update f 1 x 4 = f 4 := fun f x =>
    Function.update_noteq (by decide) x f
  have u5 : ∀ (f : svar K) (x : K), Function.update f 4 x 4 = x := fun f x =>
    Function.update_same 4 x f
  have u6 : ∀ (f : svar K) (x : K), Function.update f 5 x 5 = x := fun f x =>
    Function.update_same 5 x f
  have hpack : Function.update (Function.update (Function.update (Function.update
      (Function.update (Function.update (Function.update (Function.update (Function.update r
        5 (-999)) 4 (-999)) 3 (-999)) 0 (P 0 0)) 3 (P 0 1)) 4 (P 0 2)) 1 (P 1 1)) 5 (P 1 2))
        2 (P 2 2) = packUpper P := by
    funext k
    fin_cases k
    all_goals simp [packUpper, Function.update_apply]
    rfl
  simp only [u1, u2]
  by_cases c1 : |P 0 1 - P 1 0| ≤ THRESHOLD eps
  · simp only [c1, if_true, Option.some_bind, u3, u4, u5, true_and]
    by_cases c2 : |P 0 2 - P 2 0| ≤ THRESHOLD eps
    · simp only [c2, if_true, Option.some_bind, u6, true_and]
      by_cases c3 : |P 1 2 - P 2 1| ≤ THRESHOLD eps
      · simp only [c3, if_true, Option.some_bind, hpack]
      · simp only [c3, if_false, Option.none_bind]
    · simp only [c2, if_false, Option.none_bind, false_and]
  · simp only [c1, if_false, Option.none_bind, false_and]

/-- C28: with exact reals, for every dense `a` and packed `b` (and whatever
the output matrix holds on entry), `smulvs(r, a, b)` completes, without the
fatal "didn't produce a sym mx", if and only if the dense product
`P = a * expand(b)` has `|P[j][i] - P[i][j]| <= THRESHOLD` for all `i > j`; and
when it completes, `r` is the packing of the upper triangle of `P`,
`(P[0][0], P[1][1], P[2][2], P[0][1], P[0][2], P[1][2])`. -/
theorem smulvs_completes_iff (eps : K) (r : svar K) (a : var K) (b : svar K) :
    ((∃ r' : svar K, smulvs eps r a b = some r') ↔
      ∀ i j : Fin 3, j < i →
        |mulvv a (expand b) j i - mulvv a (expand b) i j| ≤ THRESHOLD eps) ∧
    (∀ r' : svar K, smulvs eps r a b = some r' →
      r' = packUpper (mulvv a (expand b)) ∧
      r' = ![mulvv a (expand b) 0 0, mulvv a (expand b) 1 1, mulvv a (expand b) 2 2,
        mulvv a (expand b) 0 1, mulvv a (expand b) 0 2, mulvv a (expand b) 1 2]) := by
  rw [smulvs_eq]
  generalize mulvv a (expand b) = P
  have hall : (∀ i j : Fin 3, j < i → |P j i - P i j| ≤ THRESHOLD eps) ↔
      (|P 0 1 - P 1 0| ≤ THRESHOLD eps ∧ |P 0 2 - P 2 0| ≤ THRESHOLD eps ∧
        |P 1 2 - P 2 1| ≤ THRESHOLD eps) := by
    constructor
    · intro h
      exact ⟨h 1 0 (by decide), h 2 0 (by decide), h 2 1 (by decide)⟩
    · rintro ⟨h1, h2, h3⟩ i j hij
      fin_cases i <;> fin_cases j <;> first
        | exact absurd hij (by decide)
        | exact h1
        | exact h2
        | exact h3
  rw [hall]
  constructor
  · constructor
    · rintro ⟨r', h⟩
      by_contra c
      rw [if_neg c] at h
      exact Option.noConfusion h
    · intro c
      exact ⟨_, if_pos c⟩
  · intro r' h
    by_cases c : |P 0 1 - P 1 0| ≤ THRESHOLD eps ∧ |P 0 2 - P 2 0| ≤ THRESHOLD eps ∧
        |P 1 2 - P 2 1| ≤ THRESHOLD eps
    · rw [if_pos c] at h
      exact ⟨(Option.some.inj h).symm, (Option.some.inj h).symm⟩
    · rw [if_neg c] at h
      exact Option.noConfusion h

/-! ### The dense product `mulss` -/

omit [LinearOrderedField K] in
theorem SNindex_comm (i j : Fin 3) : SNindex i j = SNindex j i := by
  fin_cases i <;> fin_cases j <;> rfl

/-- An entry of `mulss(r, a, b)` across the diagonal is the entry of the
product taken in the other order. -/
theorem mulss_transpose (a b : svar K) (i j : Fin 3) : mulss a b j i = mulss b a i j := by
  simp only [mulss, foldl_finRange_three, SN, SNindex_comm j, SNindex_comm _ i]
  ring

/-- C29 (amended): for every pair of packed symmetric matrices `a` and `b`,
`mulss(r, a, b)` returns normally (it has no fatal exit) with `r` the dense
product of the two expanded matrices, and validates nothing: `r[j][i]` is the
entry `(i, j)` of the product taken in the other order, so the result has
`|r[i][j] - r[j][i]| <= THRESHOLD` for all `i`, `j` exactly when the products
`a * b` and `b * a` differ by at most `THRESHOLD` in every entry. -/
theorem mulss_dense_product (eps : K) (a b : svar K) :
    mulss a b = mulvv (expand a) (expand b) ∧
    (∀ i j : Fin 3, mulss a b j i = mulss b a i j) ∧
    ((∀ i j : Fin 3, |mulss a b i j - mulss a b j i| ≤ THRESHOLD eps) ↔
      (∀ i j : Fin 3, |mulss a b i j - mulss b a i j| ≤ THRESHOLD eps)) := by
  refine ⟨rfl, mulss_transpose a b, ?_⟩
  constructor
  · intro h i j
    rw [← mulss_transpose a b i j]
    exact h i j
  · intro h i j
    rw [mulss_transpose a b i j]
    exact h i j

/-- Two packed symmetric matrices whose product is not symmetric:
`a = [[1,1,0],[1,0,0],[0,0,0]]` and `b = diag(1,2,0)`. -/
theorem mulss_example :
    mulss (![1, 0, 0, 1, 0, 0] : svar ℚ) ![1, 2, 0, 0, 0, 0] 0 1 = 2 ∧
    mulss (![1, 0, 0, 1, 0, 0] : svar ℚ) ![1, 2, 0, 0, 0, 0] 1 0 = 1 := by
  obtain ⟨e00, e01, e02, e10, e11, e12, e20, e21, e22⟩ := SNindex_vals
  constructor <;>
    simp [mulss, foldl_finRange_three, SN, e00, e01, e02, e10, e11, e12, e20, e21, e22]

/-- C29, refuted as stated: with `REAL_EPSILON = 1/1000000` (a threshold of
`1/1000`), `mulss` on `a = [[1,1,0],[1,0,0],[0,0,0]]` and `b = diag(1,2,0)`,
both packed symmetric, returns the dense matrix with `r[0][1] = 2` and
`r[1][0] = 1`: it has returned normally with a result that is not symmetric
within the threshold. -/
theorem mulss_returns_asymmetric :
    ∃ r : var ℚ, mulss (![1, 0, 0, 1, 0, 0] : svar ℚ) ![1, 2, 0, 0, 0, 0] = r ∧
      ¬ (∀ i j : Fin 3, |r i j - r j i| ≤ THRESHOLD (1 / 1000000 : ℚ)) := by
  refine ⟨_, rfl, ?_⟩
  intro h
  have h01 := h 0 1
  rw [mulss_example.1, mulss_example.2] at h01
  norm_num [THRESHOLD] at h01

/-- A pair of commuting matrices, `a = diag(1,2,3)` and the identity. -/
theorem mulss_dense_product_witness :
    mulss (![1, 2, 3, 0, 0, 0] : svar ℚ) ![1, 1, 1, 0, 0, 0] =
        mulvv (expand ![1, 2, 3, 0, 0, 0]) (expand ![1, 1, 1, 0, 0, 0]) ∧
      mulss (![1, 2, 3, 0, 0, 0] : svar ℚ) ![1, 1, 1, 0, 0, 0] 1 0 =
        mulss (![1, 1, 1, 0, 0, 0] : svar ℚ) ![1, 2, 3, 0, 0, 0] 0 1 :=
  ⟨(mulss_dense_product (1 / 1000000) _ _).1, (mulss_dense_product (1 / 1000000) _ _).2.1 0 1⟩

/-! ### The comparison of two `.pos` files -/

/-- `read_line` hands out the next line that parses, and leaves the lines
after it. -/
theorem read_line_spec (fh : List (Option PosLine)) :
    (read_line fh).1 = (parsed fh).head? ∧ parsed (read_line fh).2 = (parsed fh).tail ∧
      (read_line fh).2.length + (read_line fh).1.toList.length ≤ fh.length := by
  induction fh with
  | nil => simp [read_line, parsed]
  | cons o fh ih =>
    cases o with
    | none =>
      obtain ⟨h1, h2, h3⟩ := ih
      refine ⟨?_, ?_, ?_⟩
      · simpa [read_line, parsed] using h1
      · simpa [read_line, parsed] using h2
      · simp only [read_line, List.length_cons]
        omega
    | some l => simp [read_line, parsed]

/-- The first two steps of a pass: no state is `Needline` afterwards, the
result is untouched and the bound on the passes has not grown. -/
theorem need_spec (v : DiffVars) :
    (need2 (need1 v)).pos1 ≠ state.Needline ∧ (need2 (need1 v)).pos2 ≠ state.Needline ∧
      (need2 (need1 v)).result = v.result ∧ passes (need2 (need1 v)) ≤ passes v := by
  obtain ⟨-, -, h1⟩ := read_line_spec v.fh1
  obtain ⟨-, -, h2⟩ := read_line_spec v.fh2
  rcases v with ⟨fh1, fh2, pos1, pos2, line1, line2, result⟩
  simp only at h1 h2
  rcases hr1 : read_line fh1 with ⟨o1, f1⟩
  rcases hr2 : read_line fh2 with ⟨o2, f2⟩
  rw [hr1] at h1
  rw [hr2] at h2
  cases pos1 <;> cases pos2 <;> cases o1 <;> cases o2 <;>
    simp [need1, need2, passes, hr1, hr2] at h1 h2 ⊢ <;> omega

theorem diff_pos_loop_succ (t : Double) (fuel : Nat) (v : DiffVars) (w : DiffVars)
    (hw : need2 (need1 v) = w) :
    diff_pos_loop t (fuel + 1) v =
      if w.pos1 = state.Eof then
        if w.pos2 = state.Eof then some w.result
        else diff_pos_loop t fuel { w with result := 1, pos2 := state.Needline }
      else if w.pos2 = state.Eof then
        diff_pos_loop t fuel { w with result := 1, pos1 := state.Needline }
      else diff_pos_loop t fuel (compare_lines t w) := by
  subst hw
  rfl

/-- While a line of each file is held, the comparison keeps a `result` of 1. -/
theorem compare_lines_one (t : Double) (v : DiffVars) (h : v.result = 1) :
    (compare_lines t v).result = 1 := by
  unfold compare_lines
  generalize moved t v.line1 v.line2 = m
  by_cases hid : v.line1.id = v.line2.id
  · rw [if_pos hid]
    cases m
    · exact h
    · rfl
  · rw [if_neg hid]
    simp only
    split <;> rfl

/-- The comparison of two lines held gives at least one of them up. -/
theorem compare_lines_passes (t : Double) (v : DiffVars) (h1 : v.pos1 = state.Haveline)
    (h2 : v.pos2 = state.Haveline) : passes (compare_lines t v) < passes v := by
  unfold compare_lines
  generalize moved t v.line1 v.line2 = m
  rcases v with ⟨fh1, fh2, pos1, pos2, line1, line2, result⟩
  simp only at h1 h2
  subst h1 h2
  by_cases hid : line1.id = line2.id
  · rw [if_pos hid]
    cases m <;> simp only [passes, reduceCtorEq, if_true, if_false, Bool.false_eq_true] <;> omega
  · rw [if_neg hid]
    simp only
    split <;> simp only [passes, reduceCtorEq, if_true, if_false] <;> omega

/-- Once `result` is 1 it stays 1, and the loop comes to its `break`. -/
theorem diff_pos_loop_one (t : Double) :
    ∀ (fuel : Nat) (v : DiffVars), v.result = 1 → passes v < fuel →
      diff_pos_loop t fuel v = some 1 := by
  intro fuel
  induction fuel with
  | zero => intro v _ h; exact absurd h (Nat.not_lt_zero _)
  | succ fuel ih =>
    intro v hres hp
    obtain ⟨n1, n2, hr, hle⟩ := need_spec v
    generalize hw : need2 (need1 v) = w at n1 n2 hr hle
    rw [diff_pos_loop_succ t fuel v w hw]
    rcases w with ⟨fh1, fh2, pos1, pos2, line1, line2, result⟩
    simp only at n1 n2 hr
    unfold passes at hp
    cases pos1 with
    | Needline => exact absurd rfl n1
    | Eof =>
      cases pos2 with
      | Needline => exact absurd rfl n2
      | Eof =>
        simp only [if_true]
        rw [hr, hres]
      | Haveline =>
        simp only [reduceCtorEq, if_true, if_false]
        apply ih
        · rfl
        · simp only [passes, reduceCtorEq, if_true, if_false] at hle ⊢
          omega
    | Haveline =>
      cases pos2 with
      | Needline => exact absurd rfl n2
      | Eof =>
        simp only [reduceCtorEq, if_true, if_false]
        apply ih
        · rfl
        · simp only [passes, reduceCtorEq, if_true, if_false] at hle ⊢
          omega
      | Haveline =>
        simp only [reduceCtorEq, if_false]
        simp only [passes, reduceCtorEq, if_true, if_false] at hle
        apply ih
        · exact compare_lines_one t _ (hr.trans hres)
        · have hc := compare_lines_passes t
            { fh1 := fh1, fh2 := fh2, pos1 := state.Haveline, pos2 := state.Haveline,
              line1 := line1, line2 := line2, result := result } rfl rfl
          simp only [passes, reduceCtorEq, if_true, if_false] at hc ⊢
          omega

theorem head?_eq_none {α : Type} (l : List α) (h : l.head? = none) : l = [] := by
  cases l with
  | nil => rfl
  | cons a l => simp at h

theorem head?_tail {α : Type} (l t : List α) (a : α) (h : l.head? = some a) (ht : l.tail = t) :
    l = a :: t := by
  cases l with
  | nil => simp at h
  | cons b l =>
    simp only [List.head?_cons, Option.some.injEq] at h
    simp only [List.tail_cons] at ht
    rw [h, ht]

/-- A pass that starts with both states `Needline` and `result` 0: the loop
returns 0 when the lines still to come agree pairwise, and 1 otherwise. -/
theorem diff_pos_loop_fresh (t : Double) :
    ∀ (fuel : Nat) (v : DiffVars), v.pos1 = state.Needline → v.pos2 = state.Needline →
      v.result = 0 → passes v < fuel →
      (diff_pos_loop t fuel v = some 0 ∨ diff_pos_loop t fuel v = some 1) ∧
      (diff_pos_loop t fuel v = some 0 ↔
        List.Forall₂ (fun a b : PosLine => a.id = b.id ∧ moved t a b = false)
          (parsed v.fh1) (parsed v.fh2)) := by
  intro fuel
  induction fuel with
  | zero => intro v _ _ _ h; exact absurd h (Nat.not_lt_zero _)
  | succ fuel ih =>
    intro v h1 h2 hres hp
    obtain ⟨a1, a2, a3⟩ := read_line_spec v.fh1
    obtain ⟨b1, b2, b3⟩ := read_line_spec v.fh2
    rcases v with ⟨fh1, fh2, pos1, pos2, line1, line2, result⟩
    simp only at h1 h2 hres a1 a2 a3 b1 b2 b3
    subst h1 h2 hres
    simp only [passes, reduceCtorEq, if_false, Nat.add_zero] at hp
    rcases hr1 : read_line fh1 with ⟨o1, f1⟩
    rcases hr2 : read_line fh2 with ⟨o2, f2⟩
    rw [hr1] at a1 a2 a3
    rw [hr2] at b1 b2 b3
    simp only at a1 a2 a3 b1 b2 b3
    have one_ne : (some (1 : Int) = some 0) ↔ False := by simp
    cases o1 with
    | none =>
      have e1 := head?_eq_none _ a1.symm
      cases o2 with
      | none =>
        have e2 := head?_eq_none _ b1.symm
        rw [diff_pos_loop_succ t fuel _ _ rfl]
        simp only [need1, need2, hr1, hr2, if_true, e1, e2]
        exact ⟨Or.inl trivial, ⟨fun _ => List.Forall₂.nil, fun _ => trivial⟩⟩
      | some b =>
        have e2 := head?_tail _ _ _ b1.symm b2.symm
        rw [diff_pos_loop_succ t fuel _ _ rfl]
        simp only [need1, need2, hr1, hr2, if_true, reduceCtorEq, if_false, e1, e2]
        rw [diff_pos_loop_one t fuel _ rfl (by
          simp only [passes, reduceCtorEq, if_false, Option.toList, List.length_cons,
            List.length_nil] at a3 b3 ⊢
          omega)]
        refine ⟨Or.inr rfl, ?_⟩
        rw [one_ne]
        constructor
        · exact False.elim
        · intro h; cases h
    | some a =>
      have e1 := head?_tail _ _ _ a1.symm a2.symm
      cases o2 with
      | none =>
        have e2 := head?_eq_none _ b1.symm
        rw [diff_pos_loop_succ t fuel _ _ rfl]
        simp only [need1, need2, hr1, hr2, if_true, reduceCtorEq, if_false, e1, e2]
        rw [diff_pos_loop_one t fuel _ rfl (by
          simp only [passes, reduceCtorEq, if_false, Option.toList, List.length_cons,
            List.length_nil] at a3 b3 ⊢
          omega)]
        refine ⟨Or.inr rfl, ?_⟩
        rw [one_ne]
        constructor
        · exact False.elim
        · intro h; cases h
      | some b =>
        have e2 := head?_tail _ _ _ b1.symm b2.symm
        rw [diff_pos_loop_succ t fuel _ _ rfl]
        simp only [need1, need2, hr1, hr2, if_true, reduceCtorEq, if_false, e1, e2,
          List.forall₂_cons]
        simp only [Option.toList, List.length_cons, List.length_nil] at a3 b3
        by_cases hid : a.id = b.id
        · by_cases hm : moved t a b = true
          · rw [diff_pos_loop_one t fuel _ (by simp [compare_lines, hid, hm]) (by
              simp only [compare_lines, hid, hm, if_true, passes, reduceCtorEq, if_false]
              omega)]
            refine ⟨Or.inr rfl, ?_⟩
            rw [one_ne]
            constructor
            · exact False.elim
            · rintro ⟨⟨-, h⟩, -⟩
              rw [h] at hm
              exact Bool.noConfusion hm
          · have hm' : moved t a b = false := by
              cases h : moved t a b
              · rfl
              · exact absurd h hm
            have hc : compare_lines t
                { fh1 := f1, fh2 := f2, pos1 := state.Haveline, pos2 := state.Haveline,
                  line1 := a, line2 := b, result := 0 } =
                { fh1 := f1, fh2 := f2, pos1 := state.Needline, pos2 := state.Needline,
                  line1 := a, line2 := b, result := 0 } := by
              simp [compare_lines, hid, hm']
            rw [hc]
            obtain ⟨i1, i2⟩ := ih
              { fh1 := f1, fh2 := f2, pos1 := state.Needline, pos2 := state.Needline,
                line1 := a, line2 := b, result := 0 } rfl rfl rfl (by
                simp only [passes, reduceCtorEq, if_false]
                omega)
            refine ⟨i1, ?_⟩
            rw [i2]
            simp only [hid, hm', true_and]
        · rw [diff_pos_loop_one t fuel _ (by
              simp only [compare_lines, hid, if_false]
              split <;> rfl) (by
              simp only [compare_lines, hid, if_false]
              split <;> simp only [passes, reduceCtorEq, if_true, if_false] <;> omega)]
          refine ⟨Or.inr rfl, ?_⟩
          rw [one_ne]
          constructor
          · exact False.elim
          · rintro ⟨⟨h, -⟩, -⟩
            exact hid h

/-- A choice between two values that both differ from `x` differs from `x`. -/
theorem ite_ne_of {α : Type} (c : Prop) [Decidable c] (a b x : α) (ha : a ≠ x) (hb : b ≠ x) :
    (if c then a else b) ≠ x := by
  by_cases h : c
  · rw [if_pos h]
    exact ha
  · rw [if_neg h]
    exact hb

/-- Rounding gives a number or an infinity, never a NaN. -/
theorem rnd_ne_nan (neg : Bool) (m : ℚ) : Double.rnd neg m ≠ Double.nan :=
  ite_ne_of _ _ _ _ Double.noConfusion (ite_ne_of _ _ _ _ Double.noConfusion Double.noConfusion)

/-- On values that are not NaN, `>` fails exactly when `<=` holds. -/
theorem gt_false_iff_le (x y : Double) (hx : x ≠ Double.nan) (hy : y ≠ Double.nan) :
    Double.gt x y = false ↔ Double.le x y = true := by
  cases x with
  | nan => exact absurd rfl hx
  | inf s =>
    cases y with
    | nan => exact absurd rfl hy
    | inf t => cases s <;> cases t <;> simp [Double.gt, Double.lt, Double.le]
    | fin t b => cases s <;> simp [Double.gt, Double.lt, Double.le]
  | fin s a =>
    cases y with
    | nan => exact absurd rfl hy
    | inf t => cases t <;> simp [Double.gt, Double.lt, Double.le]
    | fin t b => simp [Double.gt, Double.lt, Double.le]

/-- A comparison with a NaN on the left fails, `>` and `<=` alike. -/
theorem nan_compares (y : Double) :
    Double.gt Double.nan y = false ∧ Double.le Double.nan y = false := by
  cases y <;> exact ⟨rfl, rfl⟩

/-- `EPSILON` is a number. -/
theorem EPSILON_ne_nan : EPSILON ≠ Double.nan := rnd_ne_nan _ _

/-- The test of `diff_pos` on two lines fails exactly when on no axis the
comparison `>` holds. -/
theorem moved_false_iff (t : Double) (a b : PosLine) :
    moved t a b = false ↔
      Double.gt (Double.fabs (a.x - b.x) - t) EPSILON = false ∧
        Double.gt (Double.fabs (a.y - b.y) - t) EPSILON = false ∧
        Double.gt (Double.fabs (a.z - b.z) - t) EPSILON = false := by
  simp only [moved, Bool.or_eq_false_iff, and_assoc]

/-- No line has moved, index by index and pair by pair. -/
theorem Unmoved_iff (t : Double) :
    ∀ l1 l2 : List PosLine, Unmoved t l1 l2 ↔
      List.Forall₂ (fun a b : PosLine => a.id = b.id ∧ moved t a b = false) l1 l2 := by
  intro l1
  induction l1 with
  | nil =>
    intro l2
    cases l2 with
    | nil =>
      constructor
      · intro _; exact List.Forall₂.nil
      · intro _
        refine ⟨rfl, ?_⟩
        intro i a b h
        simp at h
    | cons b l2 =>
      constructor
      · rintro ⟨h, -⟩
        simp at h
      · intro h; cases h
  | cons a l1 ih =>
    intro l2
    cases l2 with
    | nil =>
      constructor
      · rintro ⟨h, -⟩
        simp at h
      · intro h; cases h
    | cons b l2 =>
      rw [List.forall₂_cons, ← ih l2]
      constructor
      · rintro ⟨hl, h⟩
        have h0 := h 0 a b (by simp) (by simp)
        refine ⟨⟨h0.1, (moved_false_iff t a b).mpr h0.2⟩, ?_, ?_⟩
        · simpa using hl
        · intro i x y hx hy
          exact h (i + 1) x y (by simpa using hx) (by simpa using hy)
      · rintro ⟨⟨hid, hm⟩, hl, h⟩
        refine ⟨by simp [hl], ?_⟩
        intro i x y hx hy
        cases i with
        | zero =>
          simp only [List.getElem?_cons_zero, Option.some.injEq] at hx hy
          subst hx hy
          exact ⟨hid, (moved_false_iff t _ _).mp hm⟩
        | succ i =>
          exact h i x y (by simpa using hx) (by simpa using hy)

/-- Where no comparison meets a NaN, no line has moved exactly when the lines
agree within the threshold. -/
theorem Unmoved_iff_Agree (t : Double) (l1 l2 : List PosLine) (hn : Numbers t l1 l2) :
    Unmoved t l1 l2 ↔ Agree t l1 l2 := by
  constructor
  · rintro ⟨hl, h⟩
    refine ⟨hl, ?_⟩
    intro i a b ha hb
    obtain ⟨hid, hx, hy, hz⟩ := h i a b ha hb
    obtain ⟨nx, ny, nz⟩ := hn i a b ha hb
    exact ⟨hid, (gt_false_iff_le _ _ nx EPSILON_ne_nan).mp hx,
      (gt_false_iff_le _ _ ny EPSILON_ne_nan).mp hy, (gt_false_iff_le _ _ nz EPSILON_ne_nan).mp hz⟩
  · rintro ⟨hl, h⟩
    refine ⟨hl, ?_⟩
    intro i a b ha hb
    obtain ⟨hid, hx, hy, hz⟩ := h i a b ha hb
    obtain ⟨nx, ny, nz⟩ := hn i a b ha hb
    exact ⟨hid, (gt_false_iff_le _ _ nx EPSILON_ne_nan).mpr hx,
      (gt_false_iff_le _ _ ny EPSILON_ne_nan).mpr hy, (gt_false_iff_le _ _ nz EPSILON_ne_nan).mpr hz⟩

/-- The value `diff_pos` returns: 0 or 1, and 0 exactly when no line has
moved. -/
theorem diff_pos_unmoved (fh1 fh2 : List (Option PosLine)) (threshold : Double) :
    (diff_pos fh1 fh2 threshold = some 0 ∨ diff_pos fh1 fh2 threshold = some 1) ∧
    (diff_pos fh1 fh2 threshold = some 0 ↔ Unmoved threshold (parsed fh1) (parsed fh2)) := by
  obtain ⟨h1, h2⟩ := diff_pos_loop_fresh threshold (fh1.length + fh2.length + 1)
    { fh1 := fh1, fh2 := fh2, pos1 := state.Needline, pos2 := state.Needline,
      line1 := ⟨Double.fin false 0, Double.fin false 0, Double.fin false 0, ""⟩,
      line2 := ⟨Double.fin false 0, Double.fin false 0, Double.fin false 0, ""⟩, result := 0 }
    rfl rfl rfl (by
      simp only [passes, reduceCtorEq, if_false]
      omega)
  rw [← Unmoved_iff] at h2
  exact ⟨h1, h2⟩

/-- C30 (amended): for every two files, `diff_pos` on the two sequences of
position lines `read_line` parses from them comes to an end and returns 0 or 1;
it returns 0 if and only if the two sequences have the same length and, at
every index, the same name and no coordinate difference `d` for which the
comparison `fabs(d) - threshold > EPSILON` holds in `double` arithmetic, and 1
in every other case. Where none of the values `fabs(d) - threshold` is a NaN,
the condition is that each of them has `fabs(d) - threshold <= EPSILON`. -/
theorem diff_pos_zero_iff_unmoved (fh1 fh2 : List (Option PosLine)) (threshold : Double) :
    (diff_pos fh1 fh2 threshold = some 0 ∨ diff_pos fh1 fh2 threshold = some 1) ∧
    (diff_pos fh1 fh2 threshold = some 0 ↔ Unmoved threshold (parsed fh1) (parsed fh2)) ∧
    (¬ Unmoved threshold (parsed fh1) (parsed fh2) → diff_pos fh1 fh2 threshold = some 1) ∧
    (Numbers threshold (parsed fh1) (parsed fh2) →
      (diff_pos fh1 fh2 threshold = some 0 ↔ Agree threshold (parsed fh1) (parsed fh2))) := by
  obtain ⟨h1, h2⟩ := diff_pos_unmoved fh1 fh2 threshold
  refine ⟨h1, h2, ?_, ?_⟩
  · intro hn
    rcases h1 with h | h
    · exact absurd (h2.mp h) hn
    · exact h
  · intro hn
    rw [h2]
    exact Unmoved_iff_Agree threshold _ _ hn

/-- Rounding shows in the test: for the first coordinates `1.12001` and `0.12`
and the threshold 1 the difference of the decimals, less the threshold, is
`0.00001` and not above it, yet the test of `diff_pos` on the doubles read
holds: what is computed for `fabs(x1 - x2) - threshold` is
`1.0000000000065512e-05`. -/
theorem moved_by_rounding :
    ¬ (|(112001 / 100000 : ℚ) - 12 / 100| - 1 > 1 / 100000) ∧
    moved (Double.ofRat 1)
      ⟨Double.ofRat (112001 / 100000), Double.ofRat 0, Double.ofRat 0, "a"⟩
      ⟨Double.ofRat (12 / 100), Double.ofRat 0, Double.ofRat 0, "a"⟩ = true := by
  decide!

/-- C30, refuted as stated: the files `(nan,0,0 ) a` and `(5,0,0 ) a` have one
line each, for the same name; with the default threshold `diff_pos` returns 0,
yet the difference of the first coordinates is a NaN, for which
`|d| - threshold <= EPSILON` does not hold. -/
theorem diff_pos_nan_returns_zero :
    (parsed exampleNaN).length = (parsed exampleFive).length ∧
    (∀ (i : Nat) (a b : PosLine), (parsed exampleNaN)[i]? = some a →
      (parsed exampleFive)[i]? = some b → a.id = b.id) ∧
    diff_pos exampleNaN exampleFive DFLT_MAX_THRESHOLD = some 0 ∧
    ¬ Agree DFLT_MAX_THRESHOLD (parsed exampleNaN) (parsed exampleFive) := by
  have e1 : parsed exampleNaN =
      [⟨Double.nan, Double.fin false 0, Double.fin false 0, "a"⟩] := rfl
  have e2 : parsed exampleFive =
      [⟨Double.fin false 5, Double.fin false 0, Double.fin false 0, "a"⟩] := rfl
  have hx : Double.fabs (Double.nan - Double.fin false 5) - DFLT_MAX_THRESHOLD = Double.nan := by
    cases DFLT_MAX_THRESHOLD <;> rfl
  have hy : Double.gt
      (Double.fabs (Double.fin false 0 - Double.fin false 0) - DFLT_MAX_THRESHOLD) EPSILON
      = false := by decide!
  refine ⟨rfl, ?_, ?_, ?_⟩
  · intro i a b ha hb
    rw [e1] at ha
    rw [e2] at hb
    cases i with
    | zero =>
      simp only [List.getElem?_cons_zero, Option.some.injEq] at ha hb
      subst ha hb
      rfl
    | succ i => simp at ha
  · rw [(diff_pos_unmoved _ _ _).2, e1, e2]
    refine ⟨rfl, ?_⟩
    intro i a b ha hb
    cases i with
    | zero =>
      simp only [List.getElem?_cons_zero, Option.some.injEq] at ha hb
      subst ha hb
      refine ⟨rfl, ?_, hy, hy⟩
      show Double.gt (Double.fabs (Double.nan - Double.fin false 5) - DFLT_MAX_THRESHOLD)
        EPSILON = false
      rw [hx]
      exact (nan_compares _).1
    | succ i => simp at ha
  · rintro ⟨-, h⟩
    rw [e1, e2] at h
    have h0 := (h 0 _ _ rfl rfl).2.1
    have h0' : Double.le (Double.fabs (Double.nan - Double.fin false 5) - DFLT_MAX_THRESHOLD)
        EPSILON = true := h0
    rw [hx, (nan_compares _).2] at h0'
    exact Bool.noConfusion h0'

/-! ### `process_equate`, from its result -/

/-- The two ways out of the body of `process_equate`, when it returns: through
the error 52, or through `replace_pfx` and `addleg_`. -/
theorem equate_merge_inv (fuel : Nat) (s : State K) (a b : PfxPtr) (s1 : State K)
    (sa : NodePtr) (s2 : State K) (sb : NodePtr)
    (e1 : StnFromPfx s a = some (s1, sa)) (e2 : StnFromPfx s1 b = some (s2, sb))
    (ya yb : Prefix) (hya : s2.pfxs[a]? = some ya) (hyb : s2.pfxs[b]? = some yb)
    (s' : State K) (h : equate_merge fuel s a b = some s') :
    (ya.fixed = true ∧ yb.fixed = true ∧ ∃ stra strb : String,
      sprint_prefix s2 a = some stra ∧ sprint_prefix s2 b = some strb ∧
      fixed_differ s2 a b = some true ∧ s' = compile_error s2 52 [stra, strb]) ∨
    (∃ (m : List Msg) (R W : PfxPtr) (s3 : State K),
      ((ya.fixed = false ∧ m = s2.msgs ∧ R = a ∧ W = b) ∨
        (ya.fixed = true ∧ yb.fixed = false ∧ m = s2.msgs ∧ R = b ∧ W = a) ∨
        (ya.fixed = true ∧ yb.fixed = true ∧ ∃ stra strb : String,
          sprint_prefix s2 a = some stra ∧ sprint_prefix s2 b = some strb ∧
          fixed_differ s2 a b = some false ∧
          m = s2.msgs ++ [⟨Severity.warning, 53, [stra, strb]⟩] ∧ R = b ∧ W = a)) ∧
      replace_pfx fuel { s2 with msgs := m } R W = some s3 ∧
      addleg_ { s3 with cLegs := s3.cLegs + 1 } sa sb 0 0 0 0 0 0 0 0 0 FLAG_FAKE = some s') := by
  have key : ∀ (m : List Msg) (R W : PfxPtr),
      ((ya.fixed = false ∧ m = s2.msgs ∧ R = a ∧ W = b) ∨
        (ya.fixed = true ∧ yb.fixed = false ∧ m = s2.msgs ∧ R = b ∧ W = a) ∨
        (ya.fixed = true ∧ yb.fixed = true ∧ ∃ stra strb : String,
          sprint_prefix s2 a = some stra ∧ sprint_prefix s2 b = some strb ∧
          fixed_differ s2 a b = some false ∧
          m = s2.msgs ++ [⟨Severity.warning, 53, [stra, strb]⟩] ∧ R = b ∧ W = a)) →
      ∃ s3 : State K, replace_pfx fuel { s2 with msgs := m } R W = some s3 ∧
        addleg_ { s3 with cLegs := s3.cLegs + 1 } sa sb 0 0 0 0 0 0 0 0 0 FLAG_FAKE =
          some s' := by
    intro m R W hcase
    rw [equate_merge_eq fuel s a b s1 sa s2 sb e1 e2 ya yb hya hyb m R W hcase] at h
    cases hr : replace_pfx fuel { s2 with msgs := m } R W with
    | none => rw [hr] at h; exact Option.noConfusion h
    | some s3 => rw [hr] at h; exact ⟨s3, rfl, h⟩
  cases hfa : ya.fixed with
  | false =>
    right
    have hc := key s2.msgs a b (Or.inl ⟨hfa, rfl, rfl, rfl⟩)
    obtain ⟨s3, h3, h4⟩ := hc
    exact ⟨_, _, _, s3, Or.inl ⟨rfl, rfl, rfl, rfl⟩, h3, h4⟩
  | true =>
    cases hfb : yb.fixed with
    | false =>
      right
      obtain ⟨s3, h3, h4⟩ := key s2.msgs b a (Or.inr (Or.inl ⟨hfa, hfb, rfl, rfl, rfl⟩))
      exact ⟨_, _, _, s3, Or.inr (Or.inl ⟨rfl, rfl, rfl, rfl, rfl⟩), h3, h4⟩
    | true =>
      cases h1 : sprint_prefix s2 a with
      | none =>
        simp [equate_merge, equate_fixed, e1, e2, pfx_fixed, State.getPfx, hya, hyb, hfa, hfb,
          h1] at h
      | some stra =>
        cases h3 : fixed_differ s2 a b with
        | none =>
          simp [equate_merge, equate_fixed, e1, e2, pfx_fixed, State.getPfx, hya, hyb, hfa,
            hfb, h1, h3] at h
        | some differ =>
          cases h2 : sprint_prefix s2 b with
          | none =>
            simp [equate_merge, equate_fixed, e1, e2, pfx_fixed, State.getPfx, hya, hyb, hfa,
              hfb, h1, h2, h3] at h
          | some strb =>
            cases differ with
            | true =>
              left
              rw [equate_merge_error fuel s a b s1 sa s2 sb e1 e2 ya yb hya hyb hfa hfb stra
                strb h1 h2 h3] at h
              exact ⟨rfl, rfl, stra, strb, rfl, rfl, rfl, (Option.some.inj h).symm⟩
            | false =>
              right
              obtain ⟨s3, h5, h4⟩ := key (s2.msgs ++ [⟨Severity.warning, 53, [stra, strb]⟩])
                b a (Or.inr (Or.inr ⟨hfa, hfb, stra, strb, h1, h2, h3, rfl, rfl, rfl⟩))
              exact ⟨_, _, _, s3,
                Or.inr (Or.inr ⟨rfl, rfl, stra, strb, rfl, rfl, rfl, rfl, rfl, rfl⟩), h5, h4⟩

/-- The ways through `process_equate`, when it returns: the warning 13 for one
name given twice, nothing for two names that share their position pointer, and
the body of the `if` otherwise. -/
theorem process_equate_cases (fuel : Nat) (s : State K) (a b : PfxPtr) (s' : State K)
    (h : process_equate fuel s a b = some s') :
    (a = b ∧ ∃ str : String, sprint_prefix s a = some str ∧ s' = compile_warning s 13 [str]) ∨
    (a ≠ b ∧ ∃ xa xb : Prefix, s.pfxs[a]? = some xa ∧ s.pfxs[b]? = some xb ∧
      ((xa.pos = xb.pos ∧ s' = s) ∨ (xa.pos ≠ xb.pos ∧ equate_merge fuel s a b = some s'))) := by
  by_cases hab : a = b
  · left
    refine ⟨hab, ?_⟩
    subst hab
    simp only [process_equate, if_true] at h
    cases hs : sprint_prefix s a with
    | none =>
      rw [hs] at h
      exact Option.noConfusion h
    | some str =>
      rw [hs] at h
      exact ⟨str, rfl, (Option.some.inj h).symm⟩
  · right
    refine ⟨hab, ?_⟩
    cases hxa : s.pfxs[a]? with
    | none => simp [process_equate, hab, State.getPfx, hxa] at h
    | some xa =>
      cases hxb : s.pfxs[b]? with
      | none => simp [process_equate, hab, State.getPfx, hxa, hxb] at h
      | some xb =>
        refine ⟨xa, xb, rfl, rfl, ?_⟩
        by_cases hpos : xa.pos = xb.pos
        · left
          simp [process_equate, hab, State.getPfx, hxa, hxb, hpos] at h
          exact ⟨hpos, h.symm⟩
        · right
          rw [process_equate_eq fuel s a b hab xa xb hxa hxb hpos] at h
          exact ⟨hpos, h⟩

/-- The body of `process_equate` on a well-formed graph, when it returns: after
the two `StnFromPfx` calls (state `s2`) it either reports the error 52 and
stops, or replaces position pointers by that of one name `W` (state `s3`),
frees the old position of the other name `R`, counts a leg and calls `addleg_`
on the two stations. -/
theorem equate_merge_cases (fuel : Nat) (s : State K) (hw : WF s) (a b : PfxPtr)
    (hab : a ≠ b) (xa xb : Prefix) (hxa : s.pfxs[a]? = some xa) (hxb : s.pfxs[b]? = some xb)
    (s' : State K) (h : equate_merge fuel s a b = some s') :
    ∃ (s1 : State K) (sa : NodePtr) (s2 : State K) (sb : NodePtr) (na nb : node)
      (ya yb : Prefix),
      StnFromPfx s a = some (s1, sa) ∧ StnFromPfx s1 b = some (s2, sb) ∧ WF s2 ∧
      s2.nodes[sa]? = some na ∧ na.name = some a ∧
      s2.nodes[sb]? = some nb ∧ nb.name = some b ∧
      s2.pfxs[a]? = some ya ∧ s2.pfxs[b]? = some yb ∧
      ((∃ stra strb : String, ya.fixed = true ∧ yb.fixed = true ∧
          fixed_differ s2 a b = some true ∧ s' = compile_error s2 52 [stra, strb]) ∨
        (∃ (m : List Msg) (R W : PfxPtr) (yr yw : Prefix) (s3 : State K),
          ((R = a ∧ W = b ∧ ya.fixed = false) ∨ (R = b ∧ W = a ∧ ya.fixed = true)) ∧
          s2.pfxs[R]? = some yr ∧ s2.pfxs[W]? = some yw ∧ yr.pos ≠ yw.pos ∧
          (∃ root : NodePtr, yr.stn = some root ∧
            replace_pfx_ yr.pos yw.pos fuel { s2 with msgs := m } root none = some s3) ∧
          PosStep { s2 with msgs := m } s3 yw.pos ∧
          WF { osfree s3 yr.pos with cLegs := (osfree s3 yr.pos).cLegs + 1 } ∧
          addleg_ { osfree s3 yr.pos with cLegs := (osfree s3 yr.pos).cLegs + 1 } sa sb
            0 0 0 0 0 0 0 0 0 FLAG_FAKE = some s')) := by
  obtain ⟨s1, sa, s2, sb, na, nb, e1, e2, hw2, hna, hnan, hnb, hnbn, -, -, -, -, -, -, -, -, -,
    ⟨ya, hya, -⟩, ⟨yb, hyb, -⟩, -⟩ := two_stations s hw a b hab xa xb hxa hxb
  refine ⟨s1, sa, s2, sb, na, nb, ya, yb, e1, e2, hw2, hna, hnan, hnb, hnbn, hya, hyb, ?_⟩
  rcases equate_merge_inv fuel s a b s1 sa s2 sb e1 e2 ya yb hya hyb s' h with
    ⟨hfa, hfb, stra, strb, -, -, h3, hs'⟩ | ⟨m, R, W, s3, hcase, hr, hadd⟩
  · left
    exact ⟨stra, strb, hfa, hfb, h3, hs'⟩
  · right
    have hRW : (R = a ∧ W = b ∧ ya.fixed = false) ∨ (R = b ∧ W = a ∧ ya.fixed = true) := by
      rcases hcase with ⟨hf, -, hR, hW⟩ | ⟨hf, -, -, hR, hW⟩ | ⟨hf, -, -, -, -, -, -, -, hR, hW⟩
      · exact Or.inl ⟨hR, hW, hf⟩
      · exact Or.inr ⟨hR, hW, hf⟩
      · exact Or.inr ⟨hR, hW, hf⟩
    have hyr : ∃ yr : Prefix, s2.pfxs[R]? = some yr := by
      rcases hRW with ⟨hR, -, -⟩ | ⟨hR, -, -⟩
      · exact ⟨ya, by rw [hR]; exact hya⟩
      · exact ⟨yb, by rw [hR]; exact hyb⟩
    have hyw : ∃ yw : Prefix, s2.pfxs[W]? = some yw := by
      rcases hRW with ⟨-, hW, -⟩ | ⟨-, hW, -⟩
      · exact ⟨yb, by rw [hW]; exact hyb⟩
      · exact ⟨ya, by rw [hW]; exact hya⟩
    obtain ⟨yr, hyr⟩ := hyr
    obtain ⟨yw, hyw⟩ := hyw
    have hyr' : ({ s2 with msgs := m } : State K).pfxs[R]? = some yr := hyr
    have hyw' : ({ s2 with msgs := m } : State K).pfxs[W]? = some yw := hyw
    by_cases hne : yr.pos = yw.pos
    · simp [replace_pfx, State.getPfx, hyr', hyw', hne] at hr
    cases hroot : yr.stn with
    | none => simp [replace_pfx, State.getPfx, hyr', hyw', hne, hroot] at hr
    | some root =>
      cases h3 : replace_pfx_ yr.pos yw.pos fuel { s2 with msgs := m } root none with
      | none => simp [replace_pfx, State.getPfx, hyr', hyw', hne, hroot, h3] at hr
      | some s3p =>
        simp [replace_pfx, State.getPfx, hyr', hyw', hne, hroot, h3] at hr
        have hstep := replace_pfx__frame _ _ fuel _ root none s3p h3
        have hwm : WF ({ s2 with msgs := m } : State K) := WF_congr s2 _ hw2 rfl rfl rfl rfl rfl
        have hw3 : WF s3p := WF_PosStep _ _ _ hstep hwm
        obtain ⟨o1, o2, o3, o4, o5, -⟩ := osfree_fields s3p yr.pos
        have hwo : WF (osfree s3p yr.pos) := WF_congr s3p _ hw3 o1 o2 o3 o4 o5
        subst hr
        exact ⟨m, R, W, yr, yw, s3p, hRW, hyr, hyw, hne, ⟨root, hroot, h3⟩, hstep,
          WF_cLegs _ hwo _, hadd⟩

/-! ### The leg count of `process_equate` -/

/-- What a returning `process_equate` does to `cLegs` on a well-formed graph:
nothing when it adds no leg record, and one more when it adds the FAKE pair. -/
theorem process_equate_count (fuel : Nat) (s : State K) (hw : WF s) (a b : PfxPtr)
    (s' : State K) (h : process_equate fuel s a b = some s') :
    (s'.cLegs = s.cLegs ∧ s'.legs = s.legs ∧
      (a = b ∨ (∃ xa xb : Prefix, s.pfxs[a]? = some xa ∧ s.pfxs[b]? = some xb ∧
          xa.pos = xb.pos) ∨
        ∃ m : Msg, m.severity = Severity.error ∧ m.code = 52 ∧ s'.msgs = s.msgs ++ [m])) ∨
    (s'.cLegs = s.cLegs + 1 ∧ a ≠ b ∧
      (∃ xa xb : Prefix, s.pfxs[a]? = some xa ∧ s.pfxs[b]? = some xb ∧ xa.pos ≠ xb.pos) ∧
      ∃ (to' : NodePtr) (j : Fin 3), s'.legs[s.legs.length]? = some
        { to_ := some to', reverse := ⟨j, FLAG_DATAHERE.lor FLAG_FAKE⟩, flags := s.pcs_flags,
          d := some ![0, 0, 0], v := some ![0, 0, 0, 0, 0, 0] }) := by
  rcases process_equate_cases fuel s a b s' h with
    ⟨hab, str, -, hs'⟩ | ⟨hab, xa, xb, hxa, hxb, ⟨hpos, hs'⟩ | ⟨hpos, hm⟩⟩
  · left
    subst hs'
    exact ⟨rfl, rfl, Or.inl hab⟩
  · left
    subst hs'
    exact ⟨rfl, rfl, Or.inr (Or.inl ⟨xa, xb, hxa, hxb, hpos⟩)⟩
  · obtain ⟨s1, sa, s2, sb, na, nb, ya, yb, e1, e2, hw2, hna, hnan, hnb, hnbn, hya, hyb, hc⟩ :=
      equate_merge_cases fuel s hw a b hab xa xb hxa hxb s' hm
    obtain ⟨s1', sa', s2', sb', -, -, e1', e2', -, -, -, -, -, -, -, -, -, -, -, hlegs, -, -,
      -, -, -, hcl, hpcs, hmsg⟩ := two_stations s hw a b hab xa xb hxa hxb
    rw [e1] at e1'
    cases e1'
    rw [e2] at e2'
    cases e2'
    rcases hc with ⟨stra, strb, -, -, -, hs'⟩ |
      ⟨m, R, W, yr, yw, s3, -, -, -, -, -, hstep, hw3, hadd⟩
    · left
      subst hs'
      refine ⟨hcl, hlegs, Or.inr (Or.inr ⟨⟨Severity.error, 52, [stra, strb]⟩, rfl, rfl, ?_⟩)⟩
      simp only [compile_error, hmsg]
    · right
      obtain ⟨o1, o2, -, -, -, o6, -, o8, -, -⟩ := osfree_fields s3 yr.pos
      have hna3 : ({ osfree s3 yr.pos with cLegs := (osfree s3 yr.pos).cLegs + 1 } :
          State K).nodes[sa]? = some na := by
        show (osfree s3 yr.pos).nodes[sa]? = some na
        rw [o1, hstep.nodes]
        exact hna
      have hnb3 : ({ osfree s3 yr.pos with cLegs := (osfree s3 yr.pos).cLegs + 1 } :
          State K).nodes[sb]? = some nb := by
        show (osfree s3 yr.pos).nodes[sb]? = some nb
        rw [o1, hstep.nodes]
        exact hnb
      have hne : na.name ≠ nb.name := by
        rw [hnan, hnbn]
        intro e
        exact hab (Option.some.inj e)
      obtain ⟨_, _, _, _, to', j, s'', _, _, _, _, hadd', _, _, _, _, _, _, _, _, _, _, _, _,
        _, hleg, _, _, _, _, _, _, _, _, hcl', _, _, _⟩ :=
        addleg_wf _ hw3 sa sb na nb hna3 hnb3 hne 0 0 0 0 0 0 0 0 0 FLAG_FAKE
      rw [hadd] at hadd'
      cases hadd'
      have hlen : ({ osfree s3 yr.pos with cLegs := (osfree s3 yr.pos).cLegs + 1 } :
          State K).legs.length = s.legs.length := by
        show (osfree s3 yr.pos).legs.length = s.legs.length
        rw [o2, hstep.legs]
        show s2.legs.length = s.legs.length
        rw [hlegs]
      have hfl : ({ osfree s3 yr.pos with cLegs := (osfree s3 yr.pos).cLegs + 1 } :
          State K).pcs_flags = s.pcs_flags := by
        show (osfree s3 yr.pos).pcs_flags = s.pcs_flags
        rw [o8, hstep.pcs_flags]
        exact hpcs
      rw [hlen, hfl] at hleg
      refine ⟨?_, hab, ⟨xa, xb, hxa, hxb, hpos⟩, to', j, hleg⟩
      rw [hcl']
      show (osfree s3 yr.pos).cLegs + 1 = s.cLegs + 1
      rw [o6, hstep.cLegs]
      show s2.cLegs + 1 = s.cLegs + 1
      rw [hcl]

/-- C21 (amended): on a well-formed graph, `process_equate` changes `cLegs`
only when it adds a FAKE equate leg, and then by exactly one. When the two
names are one name or share their position pointer, `cLegs` and the leg
records after the call are those before it; and whenever the call returns,
either `cLegs` and the leg records are unchanged, or `cLegs` is one more than
before and a new leg record marked DATA_HERE and FAKE, with zero displacement
and zero covariance, has been added. -/
theorem process_equate_counts_equate (fuel : Nat) (s : State K) (hw : WF s) (a b : PfxPtr)
    (s' : State K) (h : process_equate fuel s a b = some s') :
    ((a = b ∨ ∃ xa xb : Prefix, s.pfxs[a]? = some xa ∧ s.pfxs[b]? = some xb ∧
        xa.pos = xb.pos) → s'.cLegs = s.cLegs ∧ s'.legs = s.legs) ∧
    ((s'.cLegs = s.cLegs ∧ s'.legs = s.legs) ∨
      (s'.cLegs = s.cLegs + 1 ∧ ∃ (to' : NodePtr) (j : Fin 3),
        s'.legs[s.legs.length]? = some
          { to_ := some to', reverse := ⟨j, FLAG_DATAHERE.lor FLAG_FAKE⟩,
            flags := s.pcs_flags, d := some ![0, 0, 0], v := some ![0, 0, 0, 0, 0, 0] })) := by
  rcases process_equate_count fuel s hw a b s' h with ⟨h1, h2, -⟩ | ⟨h1, hab, hpos, h3⟩
  · exact ⟨fun _ => ⟨h1, h2⟩, Or.inl ⟨h1, h2⟩⟩
  · refine ⟨?_, Or.inr ⟨h1, h3⟩⟩
    rintro (e | ⟨xa, xb, hxa, hxb, e⟩)
    · exact absurd e hab
    · obtain ⟨xa', xb', hxa', hxb', hne⟩ := hpos
      rw [hxa] at hxa'
      rw [hxb] at hxb'
      cases hxa'
      cases hxb'
      exact absurd e hne

/-! ### Slot packing -/

/-- Filling the lowest empty slot of packed slots leaves them packed. -/
theorem packed_update (leg : Fin 3 → Option LegPtr) (i : Fin 3) (l : LegPtr)
    (hp : ∀ a b : Fin 3, a < b → leg a = none → leg b = none)
    (hlow : ∀ k, k < i → leg k ≠ none) :
    ∀ a b : Fin 3, a < b → Function.update leg i (some l) a = none →
      Function.update leg i (some l) b = none := by
  intro a b hab ha
  by_cases hai : a = i
  · subst hai
    simp at ha
  · rw [Function.update_noteq hai] at ha
    by_cases hbi : b = i
    · subst hbi
      exact absurd ha (hlow a hab)
    · rw [Function.update_noteq hbi]
      exact hp a b hab ha

/-- Packing reads the stations only. -/
theorem Packed_congr (s s' : State K) (hp : Packed s) (h : s'.nodes = s.nodes) :
    Packed s' := by
  intro q nd i j hq
  rw [h] at hq
  exact hp q nd i j hq

/-- `freeleg` keeps the slots packed, and the slot it returns is the lowest
empty one of the station it returns. -/
theorem freeleg_packed (s : State K) (hw : WF s) (hp : Packed s) (stn : NodePtr)
    (s' : State K) (stn' : NodePtr) (i : Fin 3) (h : freeleg s stn = some (s', stn', i)) :
    Packed s' ∧ ∃ n' : node, s'.nodes[stn']? = some n' ∧ n'.leg i = none ∧
      ∀ k, k < i → n'.leg k ≠ none := by
  cases hn : s.nodes[stn]? with
  | none => simp [freeleg, State.getNode, hn] at h
  | some n =>
    by_cases hfree : ∃ k, n.leg k = none
    · obtain ⟨i0, e, hi, hlow⟩ := freeleg_free s stn n hn hfree
      rw [e] at h
      cases h
      exact ⟨hp, n, hn, hi, hlow⟩
    · have hfull : ∀ k, n.leg k ≠ none := fun k hk => hfree ⟨k, hk⟩
      obtain ⟨l0, h0⟩ := Option.ne_none_iff_exists'.mp (hfull 0)
      obtain ⟨L0, T, Tn, r, R, hL0, hT, hTn, hr, hR, -, -, -⟩ := hw.pair stn n 0 l0 hn h0
      have hiter : s.stn_iter ≠ some s.nodes.length := by
        intro e
        exact absurd (hw.iter _ e) (Nat.lt_irrefl _)
      obtain ⟨s'', e, nlen, -, hN, hq, -⟩ :=
        freeleg_split_spec s stn n Tn l0 r L0 R T hn h0 hL0 hT hTn hr hR hiter hw.head
      rw [freeleg_full s stn n hn hfull, e] at h
      cases h
      refine ⟨?_, _, hN, by simp, ?_⟩
      · intro q nd a b hnd hab ha
        have hqlt : q < s.nodes.length + 1 := nlen ▸ lt_of_getElem? hnd
        rcases Nat.lt_succ_iff_lt_or_eq.mp hqlt with hlt | heq
        · obtain ⟨nd0, hnd0⟩ := exists_of_lt hlt
          rw [hq q nd0 hnd0] at hnd
          cases hnd
          by_cases hqs : q = stn
          · subst hqs
            have e0 : nd0 = n := Option.some.inj (hnd0.symm.trans hn)
            subst e0
            simp only [if_true] at ha ⊢
            by_cases ha0 : a = 0
            · subst ha0
              simp at ha
            · rw [Function.update_noteq ha0] at ha
              exact absurd ha (hfull a)
          · simp only [hqs, if_false] at ha ⊢
            exact hp q nd0 a b hnd0 hab ha
        · subst heq
          rw [hN] at hnd
          cases hnd
          fin_cases a <;> fin_cases b <;> simp_all
      · intro k hk
        fin_cases k <;> simp_all

/-- `StnFromPfx` keeps a graph well-formed and packed. -/
theorem StnFromPfx_keeps (s : State K) (hw : WF s) (hp : Packed s) (name : PfxPtr)
    (s' : State K) (stn : NodePtr) (h : StnFromPfx s name = some (s', stn)) :
    WF s' ∧ Packed s' := by
  cases hx : s.pfxs[name]? with
  | none => simp [StnFromPfx, State.getPfx, hx] at h
  | some x =>
    obtain ⟨s'', stn'', nd, e, hw', -, -, hold, hnew, -⟩ := StnFromPfx_wf s hw name x hx
    rw [h] at e
    cases e
    refine ⟨hw', ?_⟩
    intro q nd' a b hq hab ha
    by_cases hlt : q < s.nodes.length
    · obtain ⟨nd0, hnd0⟩ := exists_of_lt hlt
      obtain ⟨nd1, h1, -, hleg⟩ := hold q nd0 hnd0
      rw [hq] at h1
      cases h1
      rw [hleg] at ha ⊢
      exact hp q nd0 a b hnd0 hab ha
    · obtain ⟨-, -, hleg⟩ := hnew q nd' hq (Nat.le_of_not_lt hlt)
      rw [hleg]

/-- `addleg_` keeps a graph well-formed and packed. -/
theorem addleg_keeps (s : State K) (hw : WF s) (hp : Packed s) (fr to_ : NodePtr)
    (dx dy dz vx vy vz cyz czx cxy : K) (leg_flags : LegFlags) (s' : State K)
    (h : addleg_ s fr to_ dx dy dz vx vy vz cyz czx cxy leg_flags = some s') :
    WF s' ∧ Packed s' := by
  cases hnf : s.nodes[fr]? with
  | none => simp [addleg_, State.getNode, hnf] at h
  | some nf =>
    cases hnt : s.nodes[to_]? with
    | none => simp [addleg_, State.getNode, hnf, hnt] at h
    | some nt =>
      by_cases hne : nf.name = nt.name
      · simp [addleg_, State.getNode, hnf, hnt, hne] at h
      · obtain ⟨s1, fr', i, s2, to', j, s'', nf2, nt2, e1, e2, e3, hw', hft, hnf2, hnf2n, hfi,
          hnt2, -, htj, hf', ht', hoth, -⟩ :=
          addleg_wf s hw fr to_ nf nt hnf hnt hne dx dy dz vx vy vz cyz czx cxy leg_flags
        rw [h] at e3
        cases e3
        refine ⟨hw', ?_⟩
        have hw0 : WF ({ s with legs := s.legs ++ [{}] ++ [{}] } : State K) := by
          have := WF_newLegs s hw [({} : linkfor K), ({} : linkfor K)]
          simpa using this
        have hp0 : Packed ({ s with legs := s.legs ++ [{}] ++ [{}] } : State K) :=
          Packed_congr s _ hp rfl
        obtain ⟨hp1, n1, hn1, hn1i, hn1low⟩ := freeleg_packed _ hw0 hp0 fr s1 fr' i e1
        have hnf0 : ({ s with legs := s.legs ++ [{}] ++ [{}] } : State K).nodes[fr]? =
            some nf := hnf
        have hnt0 : ({ s with legs := s.legs ++ [{}] ++ [{}] } : State K).nodes[to_]? =
            some nt := hnt
        obtain ⟨s1', fr1, i1, n1', e1', hw1, hn1', -, hn1name, hold1, -⟩ :=
          freeleg_wf _ hw0 fr nf hnf0
        rw [e1] at e1'
        cases e1'
        have en1 : n1' = n1 := Option.some.inj (hn1'.symm.trans hn1)
        subst en1
        obtain ⟨hp2, n2, hn2, hn2j, hn2low⟩ := freeleg_packed _ hw1 hp1 to_ s2 to' j e2
        obtain ⟨nt1, hnt1, hnt1name, -⟩ := hold1 to_ nt hnt0
        obtain ⟨s2', to2, j2, n2', e2', -, -, -, -, hold2, -⟩ := freeleg_wf _ hw1 to_ nt1 hnt1
        rw [e2] at e2'
        cases e2'
        have hfrto : fr' ≠ to_ := by
          intro e
          subst e
          have : n1' = nt1 := Option.some.inj (hn1.symm.trans hnt1)
          subst this
          exact hne (hn1name.symm.trans hnt1name)
        obtain ⟨nf2', hnf2', -, hleg2⟩ := hold2 fr' n1' hn1
        have enf2 : nf2' = nf2 := Option.some.inj (hnf2'.symm.trans hnf2)
        subst enf2
        have ent2 : n2 = nt2 := Option.some.inj (hn2.symm.trans hnt2)
        subst ent2
        have hleg2' := hleg2 hfrto
        intro q nd a b hq hab ha
        by_cases hqf : q = fr'
        · subst hqf
          rw [hf'] at hq
          cases hq
          refine packed_update nf2'.leg i _ (fun a b => hp2 q nf2' a b hnf2) ?_ a b hab ha
          intro k hk
          rw [hleg2']
          exact hn1low k hk
        · by_cases hqt : q = to'
          · subst hqt
            rw [ht'] at hq
            cases hq
            exact packed_update n2.leg j _ (fun a b => hp2 q n2 a b hnt2) hn2low a b hab ha
          · rw [hoth q hqf hqt] at hq
            exact hp2 q nd a b hq hab ha

/-- `addlegbyname` keeps a graph well-formed and packed. -/
theorem addlegbyname_keeps (s : State K) (hw : WF s) (hp : Packed s) (fr_name to_name : PfxPtr)
    (fToFirst : Bool) (dx dy dz vx vy vz cyz czx cxy : K) (s' : State K)
    (h : addlegbyname s fr_name to_name fToFirst dx dy dz vx vy vz cyz czx cxy = some s') :
    WF s' ∧ Packed s' := by
  by_cases hne : to_name = fr_name
  · simp only [addlegbyname, hne, if_true] at h
    cases hs : sprint_prefix s fr_name with
    | none =>
      rw [hs] at h
      exact Option.noConfusion h
    | some str =>
      rw [hs] at h
      have e : s' = compile_error s 50 [str] := (Option.some.inj h).symm
      subst e
      exact ⟨WF_congr s _ hw rfl rfl rfl rfl rfl, Packed_congr s _ hp rfl⟩
  · cases hst : addlegbyname_stations s fr_name to_name fToFirst with
    | none => simp [addlegbyname, hne, hst] at h
    | some r =>
      obtain ⟨s0, fr, to_⟩ := r
      rw [addlegbyname_eq s s0 fr_name to_name fToFirst fr to_ dx dy dz vx vy vz cyz czx cxy
        (fun e => hne e.symm) hst] at h
      have h0 : WF s0 ∧ Packed s0 := by
        by_cases hf : fToFirst = true
        · simp only [addlegbyname_stations, hf, if_true] at hst
          cases ha : StnFromPfx s to_name with
          | none => simp [ha] at hst
          | some ra =>
            obtain ⟨sa, t⟩ := ra
            obtain ⟨hwa, hpa⟩ := StnFromPfx_keeps s hw hp to_name sa t ha
            cases hb : StnFromPfx sa fr_name with
            | none => simp [ha, hb] at hst
            | some rb =>
              obtain ⟨sb, f⟩ := rb
              simp [ha, hb] at hst
              obtain ⟨e, -, -⟩ := hst
              subst e
              exact StnFromPfx_keeps sa hwa hpa fr_name sb f hb
        · simp only [addlegbyname_stations, hf] at hst
          cases ha : StnFromPfx s fr_name with
          | none => simp [ha] at hst
          | some ra =>
            obtain ⟨sa, t⟩ := ra
            obtain ⟨hwa, hpa⟩ := StnFromPfx_keeps s hw hp fr_name sa t ha
            cases hb : StnFromPfx sa to_name with
            | none => simp [ha, hb] at hst
            | some rb =>
              obtain ⟨sb, f⟩ := rb
              simp [ha, hb] at hst
              obtain ⟨e, -, -⟩ := hst
              subst e
              exact StnFromPfx_keeps sa hwa hpa to_name sb f hb
      exact addleg_keeps { s0 with cLegs := s0.cLegs + 1 } (WF_cLegs s0 h0.1 _)
        (Packed_congr s0 _ h0.2 rfl) fr to_ _ _ _ _ _ _ _ _ _ _ s' h

/-- `process_equate` keeps a graph well-formed and packed. -/
theorem process_equate_keeps (fuel : Nat) (s : State K) (hw : WF s) (hp : Packed s)
    (a b : PfxPtr) (s' : State K) (h : process_equate fuel s a b = some s') :
    WF s' ∧ Packed s' := by
  rcases process_equate_cases fuel s a b s' h with
    ⟨-, str, -, hs'⟩ | ⟨hab, xa, xb, hxa, hxb, ⟨-, hs'⟩ | ⟨-, hm⟩⟩
  · subst hs'
    exact ⟨WF_congr s _ hw rfl rfl rfl rfl rfl, Packed_congr s _ hp rfl⟩
  · subst hs'
    exact ⟨hw, hp⟩
  · obtain ⟨s1, sa, s2, sb, na, nb, ya, yb, e1, e2, hw2, -, -, -, -, -, -, hc⟩ :=
      equate_merge_cases fuel s hw a b hab xa xb hxa hxb s' hm
    obtain ⟨hw1, hp1⟩ := StnFromPfx_keeps s hw hp a s1 sa e1
    obtain ⟨-, hp2⟩ := StnFromPfx_keeps s1 hw1 hp1 b s2 sb e2
    rcases hc with ⟨stra, strb, -, -, -, hs'⟩ |
      ⟨m, R, W, yr, yw, s3, -, -, -, -, -, hstep, hw3, hadd⟩
    · subst hs'
      exact ⟨WF_congr s2 _ hw2 rfl rfl rfl rfl rfl, Packed_congr s2 _ hp2 rfl⟩
    · obtain ⟨o1, -⟩ := osfree_fields s3 yr.pos
      have hp3 : Packed ({ osfree s3 yr.pos with cLegs := (osfree s3 yr.pos).cLegs + 1 } :
          State K) := by
        apply Packed_congr s2 _ hp2
        show (osfree s3 yr.pos).nodes = s2.nodes
        rw [o1, hstep.nodes]
      exact addleg_keeps _ hw3 hp3 sa sb _ _ _ _ _ _ _ _ _ _ s' hadd

/-- Every graph the operations build is well-formed and packed. -/
theorem Built_keeps (s : State K) (h : Built s) : WF s ∧ Packed s := by
  induction h with
  | empty s he =>
    refine ⟨⟨?_, ?_, ?_, ?_, ?_⟩, ?_⟩
    · intro x hx
      rw [he.stnlist] at hx
      cases hx
    · intro x hx
      rw [he.stn_iter] at hx
      cases hx
    · intro q nd hq
      rw [he.nodes] at hq
      simp at hq
    · intro p px m hp hm
      rw [(he.names p px hp).1] at hm
      cases hm
    · intro q nd i lp hq
      rw [he.nodes] at hq
      simp at hq
    · intro q nd i j hq
      rw [he.nodes] at hq
      simp at hq
  | stn s s' name stn _ h ih => exact StnFromPfx_keeps s ih.1 ih.2 name s' stn h
  | leg s s' fr_name to_name fToFirst dx dy dz vx vy vz cyz czx cxy _ h ih =>
    exact addlegbyname_keeps s ih.1 ih.2 _ _ _ _ _ _ _ _ _ _ _ _ s' h
  | fake s s' fr to_ dx dy dz vx vy vz cyz czx cxy _ h ih =>
    exact addleg_keeps s ih.1 ih.2 fr to_ _ _ _ _ _ _ _ _ _ _ s' h
  | free s s' stn stn' i _ h ih =>
    refine ⟨?_, (freeleg_packed s ih.1 ih.2 stn s' stn' i h).1⟩
    cases hn : s.nodes[stn]? with
    | none => simp [freeleg, State.getNode, hn] at h
    | some n =>
      obtain ⟨s'', stn'', i'', n', e, hw', -⟩ := freeleg_wf s ih.1 stn n hn
      rw [h] at e
      cases e
      exact hw'
  | equate s s' fuel name1 name2 _ h ih =>
    exact process_equate_keeps fuel s ih.1 ih.2 name1 name2 s' h

/-! ### What the propagation of a position goes through -/

/-- The loop of `replace_pfx_` calls the recursion on every zero-covariance
leg that does not lead back and has no empty slot before it in the scan. -/
theorem replace_pfx_legs_sees (pw : Option PosPtr)
    (self : State K → NodePtr → Option NodePtr → Option (State K))
    (hframe : ∀ (s : State K) (t : NodePtr) (f : Option NodePtr) (s' : State K),
      self s t f = some s' → PosStep s s' pw)
    (s0 : State K) (stn : NodePtr) (from_ : Option NodePtr) (nd0 : node)
    (hnd0 : s0.nodes[stn]? = some nd0) :
    ∀ (ds : List (Fin 3)) (s s' : State K), PosStep s0 s pw →
      replace_pfx_legs self stn from_ ds s = some s' →
      ∀ (pre post : List (Fin 3)) (d : Fin 3), ds = pre ++ d :: post →
        (∀ e ∈ pre, nd0.leg e ≠ none) →
        ∀ (leg : LegPtr) (l : linkfor K) (t : NodePtr), nd0.leg d = some leg →
          s0.legs[leg]? = some l → l.to_ = some t → some t ≠ from_ →
          equated_leg s0 leg = some true →
          ∃ s1 s2 : State K, PosStep s0 s1 pw ∧ self s1 t (some stn) = some s2 ∧
            PosStep s2 s' pw := by
  intro ds
  induction ds with
  | nil =>
    intro s s' _ _ pre post d hds
    simp at hds
  | cons e ds ih =>
    intro s s' hs h pre post d hds hpre leg l t hleg hl ht hne hz
    have hn : s.getNode stn = some nd0 := by
      simp only [State.getNode, hs.nodes]
      exact hnd0
    -- the slot at the head of the scan is occupied
    have hocc : nd0.leg e ≠ none := by
      cases pre with
      | nil =>
        simp only [List.nil_append, List.cons.injEq] at hds
        rw [hds.1, hleg]
        exact Option.some_ne_none _
      | cons p pre' =>
        simp only [List.cons_append, List.cons.injEq] at hds
        rw [hds.1]
        exact hpre p (List.mem_cons_self _ _)
    obtain ⟨lege, hlege⟩ := Option.ne_none_iff_exists'.mp hocc
    cases hle : s.getLeg lege with
    | none => simp [replace_pfx_legs, hn, hlege, hle] at h
    | some le =>
      have hle0 : s0.legs[lege]? = some le := by
        have := hle
        simp only [State.getLeg, hs.legs] at this
        exact this
      -- what the scan does after this slot
      have hrest : ∀ (s1 : State K), PosStep s0 s1 pw →
          replace_pfx_legs self stn from_ ds s1 = some s' →
          ∀ (p : Fin 3) (pre' : List (Fin 3)), pre = p :: pre' →
          ∃ s1 s2 : State K, PosStep s0 s1 pw ∧ self s1 t (some stn) = some s2 ∧
            PosStep s2 s' pw := by
        intro s1 hs1 h1 p pre' hp
        subst hp
        simp only [List.cons_append, List.cons.injEq] at hds
        exact ih s1 s' hs1 h1 pre' post d hds.2
          (fun x hx => hpre x (List.mem_cons_of_mem _ hx)) leg l t hleg hl ht hne hz
      by_cases hto : le.to_ = from_
      · simp only [replace_pfx_legs, hn, hlege, hle, hto, if_true, Option.bind_eq_bind,
          Option.some_bind] at h
        cases pre with
        | nil =>
          simp only [List.nil_append, List.cons.injEq] at hds
          obtain ⟨hde, -⟩ := hds
          subst hde
          rw [hlege] at hleg
          cases hleg
          rw [hle0] at hl
          cases hl
          rw [ht] at hto
          exact absurd hto hne
        | cons p pre' => exact hrest s hs h p pre' rfl
      · cases hze : equated_leg s lege with
        | none => simp [replace_pfx_legs, hn, hlege, hle, hto, hze] at h
        | some z =>
          have hze0 : equated_leg s0 lege = some z := by
            rw [← equated_leg_congr s0 s hs.nodes hs.legs]
            exact hze
          cases z with
          | false =>
            simp only [replace_pfx_legs, hn, hlege, hle, hto, hze, if_false,
              Option.bind_eq_bind, Option.some_bind, Bool.false_eq_true] at h
            cases pre with
            | nil =>
              simp only [List.nil_append, List.cons.injEq] at hds
              obtain ⟨hde, -⟩ := hds
              subst hde
              rw [hlege] at hleg
              cases hleg
              rw [hze0] at hz
              cases hz
            | cons p pre' => exact hrest s hs h p pre' rfl
          | true =>
            cases hte : le.to_ with
            | none =>
              rw [hte] at hto
              simp [replace_pfx_legs, hn, hlege, hle, hto, hze, hte] at h
            | some te =>
              cases hse : self s te (some stn) with
              | none =>
                rw [hte] at hto
                simp [replace_pfx_legs, hn, hlege, hle, hze, hte, hse, hto] at h
              | some sm =>
                rw [hte] at hto
                simp only [replace_pfx_legs, hn, hlege, hle, hto, hze, hte, hse, if_false,
                  if_true, Option.bind_eq_bind, Option.some_bind] at h
                have hsm : PosStep s0 sm pw :=
                  PosStep_trans s0 s sm pw hs (hframe s te _ sm hse)
                cases pre with
                | nil =>
                  simp only [List.nil_append, List.cons.injEq] at hds
                  obtain ⟨hde, -⟩ := hds
                  subst hde
                  rw [hlege] at hleg
                  cases hleg
                  rw [hle0] at hl
                  cases hl
                  rw [ht] at hte
                  cases hte
                  exact ⟨s, sm, hs, hse, replace_pfx_legs_frame pw self hframe stn from_ ds sm s' h⟩
                | cons p pre' => exact hrest sm hsm h p pre' rfl

/-- The slots the scan `d = 0, 1, 2` passes before it comes to slot `d`. -/
theorem scan_split (d : Fin 3) :
    ∃ pre post : List (Fin 3), ([0, 1, 2] : List (Fin 3)) = pre ++ d :: post ∧
      ∀ e ∈ pre, e < d := by
  fin_cases d
  · exact ⟨[], [1, 2], rfl, by simp⟩
  · exact ⟨[0], [2], rfl, by simp⟩
  · refine ⟨[0, 1], [], rfl, ?_⟩
    intro e he
    simp only [List.mem_cons, List.mem_singleton, List.not_mem_nil, or_false] at he
    rcases he with h | h <;> subst h <;> decide

/-- The stations a returning call of `replace_pfx_` has gone through: it has
set the position pointer of the name of each; each of their zero-covariance
legs leads to another of them, save the legs from the starting station back to
`from`; and each is reached from the starting station along zero-covariance
legs. -/
theorem replace_pfx__covers (s0 : State K) (hp : Packed s0) (pr pw : Option PosPtr) :
    ∀ (fuel : Nat) (s : State K) (x : NodePtr) (from_ : Option NodePtr) (s' : State K),
      PosStep s0 s pw → replace_pfx_ pr pw fuel s x from_ = some s' →
      ∃ C : NodePtr → Prop, C x ∧
        (∀ y, C y → ∃ (nd : node) (p : PfxPtr) (px : Prefix), s0.nodes[y]? = some nd ∧
          nd.name = some p ∧ s'.pfxs[p]? = some px ∧ px.pos = pw) ∧
        (∀ y z, C y → EquateLeg s0 y z → C z ∨ (y = x ∧ some z = from_)) ∧
        (∀ y, C y → Relation.ReflTransGen (EquateLeg s0) x y) := by
  intro fuel
  induction fuel with
  | zero =>
    intro s x from_ s' _ h
    simp [replace_pfx_] at h
  | succ n ih =>
    intro s x from_ s' hs h
    cases hn : s.getNode x with
    | none => simp [replace_pfx_, hn] at h
    | some nd0 =>
      have hnd0 : s0.nodes[x]? = some nd0 := by
        have := hn
        simp only [State.getNode, hs.nodes] at this
        exact this
      cases hname : nd0.name with
      | none => simp [replace_pfx_, hn, hname] at h
      | some name =>
        cases hx : s.pfxs[name]? with
        | none => simp [replace_pfx_, hn, hname, State.modPfx, hx] at h
        | some px0 =>
          obtain ⟨s1, h1, hstep1, hset1⟩ := PosStep_modPfx s pw name px0 hx
          simp only [replace_pfx_, hn, hname, h1, Option.bind_eq_bind, Option.some_bind] at h
          have hs1 : PosStep s0 s1 pw := PosStep_trans s0 s s1 pw hs hstep1
          have hframe : ∀ (s : State K) (stn : NodePtr) (from_ : Option NodePtr)
              (s' : State K), replace_pfx_ pr pw n s stn from_ = some s' → PosStep s s' pw :=
            replace_pfx__frame pr pw n
          have hloop : PosStep s1 s' pw :=
            replace_pfx_legs_frame pw _ hframe x from_ _ s1 s' h
          refine ⟨fun y => y = x ∨ ∃ (t : NodePtr) (sb : State K) (Ct : NodePtr → Prop),
            EquateLeg s0 x t ∧ PosStep sb s' pw ∧ Ct t ∧
            (∀ y, Ct y → ∃ (nd : node) (p : PfxPtr) (px : Prefix), s0.nodes[y]? = some nd ∧
              nd.name = some p ∧ sb.pfxs[p]? = some px ∧ px.pos = pw) ∧
            (∀ y z, Ct y → EquateLeg s0 y z → Ct z ∨ (y = t ∧ some z = some x)) ∧
            (∀ y, Ct y → Relation.ReflTransGen (EquateLeg s0) t y) ∧ Ct y,
            Or.inl rfl, ?_, ?_, ?_⟩
          · rintro y (hy | ⟨t, sb, Ct, -, hsb, -, hset, -, -, hCy⟩)
            · subst hy
              exact ⟨nd0, name, _, hnd0, hname,
                PosStep_kept s1 s' pw hloop name _ hset1 rfl, rfl⟩
            · obtain ⟨nd, p, px, a1, a2, a3, a4⟩ := hset y hCy
              exact ⟨nd, p, px, a1, a2, PosStep_kept sb s' pw hsb p px a3 a4, a4⟩
          · rintro y z (hy | ⟨t, sb, Ct, hxt, hsb, hCt, hset, hclo, hreach, hCy⟩) hyz
            · subst hy
              by_cases hzf : some z = from_
              · exact Or.inr ⟨rfl, hzf⟩
              · left
                obtain ⟨nd, d, leg, l, b1, b2, b3, b4, b5⟩ := hyz
                have e : nd = nd0 := Option.some.inj (b1.symm.trans hnd0)
                subst e
                obtain ⟨pre, post, hsplit, hlt⟩ := scan_split d
                have hpre : ∀ e ∈ pre, nd.leg e ≠ none := by
                  intro e he hnone
                  have := hp y nd e d hnd0 (hlt e he) hnone
                  rw [b2] at this
                  cases this
                obtain ⟨sa, sb, hsa, hcall, hsb⟩ :=
                  replace_pfx_legs_sees pw _ hframe s0 y from_ nd hnd0 _ s1 s' hs1 h pre post d
                    hsplit hpre leg l z b2 b3 b4 hzf b5
                obtain ⟨Cz, c1, c2, c3, c4⟩ := ih sa z (some y) sb hsa hcall
                exact Or.inr ⟨z, sb, Cz, ⟨nd, d, leg, l, b1, b2, b3, b4, b5⟩, hsb, c1, c2, c3,
                  c4, c1⟩
            · left
              rcases hclo y z hCy hyz with hz | ⟨-, hz⟩
              · exact Or.inr ⟨t, sb, Ct, hxt, hsb, hCt, hset, hclo, hreach, hz⟩
              · exact Or.inl (Option.some.inj hz)
          · rintro y (hy | ⟨t, sb, Ct, hxt, -, -, -, -, hreach, hCy⟩)
            · subst hy
              exact Relation.ReflTransGen.refl
            · exact Relation.ReflTransGen.head hxt (hreach y hCy)

/-- The loop of `replace_pfx_` changes the name of no station but through the
recursive call on a zero-covariance leg. -/
theorem replace_pfx_legs_only (pw : Option PosPtr)
    (self : State K → NodePtr → Option NodePtr → Option (State K))
    (s0 : State K) (stn : NodePtr) (from_ : Option NodePtr) (nd0 : node)
    (hnd0 : s0.nodes[stn]? = some nd0) (T : NodePtr → PfxPtr → Prop)
    (hself : ∀ (s : State K) (t : NodePtr) (f : Option NodePtr) (s' : State K),
      PosStep s0 s pw → self s t f = some s' → PosStep s s' pw ∧
        ∀ (p : PfxPtr) (px : Prefix), s.pfxs[p]? = some px → s'.pfxs[p]? = some px ∨ T t p) :
    ∀ (ds : List (Fin 3)) (s s' : State K), PosStep s0 s pw →
      replace_pfx_legs self stn from_ ds s = some s' →
      ∀ (p : PfxPtr) (px : Prefix), s.pfxs[p]? = some px →
        s'.pfxs[p]? = some px ∨ ∃ t : NodePtr, EquateLeg s0 stn t ∧ T t p := by
  intro ds
  induction ds with
  | nil =>
    intro s s' _ h p px hp
    simp only [replace_pfx_legs, Option.some.injEq] at h
    subst h
    exact Or.inl hp
  | cons d ds ih =>
    intro s s' hs h p px hp
    have hn : s.getNode stn = some nd0 := by
      simp only [State.getNode, hs.nodes]
      exact hnd0
    cases hleg : nd0.leg d with
    | none =>
      simp only [replace_pfx_legs, hn, hleg, Option.bind_eq_bind, Option.some_bind,
        Option.some.injEq] at h
      subst h
      exact Or.inl hp
    | some leg =>
      cases hl : s.getLeg leg with
      | none => simp [replace_pfx_legs, hn, hleg, hl] at h
      | some l =>
        by_cases hto : l.to_ = from_
        · simp only [replace_pfx_legs, hn, hleg, hl, hto, if_true, Option.bind_eq_bind,
            Option.some_bind] at h
          exact ih s s' hs h p px hp
        · cases hz : equated_leg s leg with
          | none => simp [replace_pfx_legs, hn, hleg, hl, hto, hz] at h
          | some z =>
            cases z with
            | false =>
              simp only [replace_pfx_legs, hn, hleg, hl, hto, hz, if_false,
                Option.bind_eq_bind, Option.some_bind, Bool.false_eq_true] at h
              exact ih s s' hs h p px hp
            | true =>
              cases ht : l.to_ with
              | none =>
                rw [ht] at hto
                simp [replace_pfx_legs, hn, hleg, hl, hto, hz, ht] at h
              | some t =>
                cases hse : self s t (some stn) with
                | none =>
                  rw [ht] at hto
                  simp [replace_pfx_legs, hn, hleg, hl, hz, ht, hse, hto] at h
                | some sm =>
                  rw [ht] at hto
                  simp only [replace_pfx_legs, hn, hleg, hl, hto, hz, ht, hse, if_false,
                    if_true, Option.bind_eq_bind, Option.some_bind] at h
                  obtain ⟨hstep, honly⟩ := hself s t _ sm hs hse
                  have hl0 : s0.legs[leg]? = some l := by
                    have := hl
                    simp only [State.getLeg, hs.legs] at this
                    exact this
                  have hz0 : equated_leg s0 leg = some true := by
                    rw [← equated_leg_congr s0 s hs.nodes hs.legs]
                    exact hz
                  rcases honly p px hp with hkeep | hT
                  · exact ih sm s' (PosStep_trans s0 s sm pw hs hstep) h p px hkeep
                  · exact Or.inr ⟨t, ⟨nd0, d, leg, l, hnd0, hleg, hl0, ht, hz0⟩, hT⟩

/-- A name whose position pointer `replace_pfx_` has changed is the name of a
station reached from the starting station along zero-covariance legs. -/
theorem replace_pfx__only (s0 : State K) (pr pw : Option PosPtr) :
    ∀ (fuel : Nat) (s : State K) (x : NodePtr) (from_ : Option NodePtr) (s' : State K),
      PosStep s0 s pw → replace_pfx_ pr pw fuel s x from_ = some s' →
      ∀ (p : PfxPtr) (px : Prefix), s.pfxs[p]? = some px →
        s'.pfxs[p]? = some px ∨ ∃ (y : NodePtr) (nd : node),
          Relation.ReflTransGen (EquateLeg s0) x y ∧ s0.nodes[y]? = some nd ∧
            nd.name = some p := by
  intro fuel
  induction fuel with
  | zero =>
    intro s x from_ s' _ h
    simp [replace_pfx_] at h
  | succ n ih =>
    intro s x from_ s' hs h p px hp
    cases hn : s.getNode x with
    | none => simp [replace_pfx_, hn] at h
    | some nd0 =>
      have hnd0 : s0.nodes[x]? = some nd0 := by
        have := hn
        simp only [State.getNode, hs.nodes] at this
        exact this
      cases hname : nd0.name with
      | none => simp [replace_pfx_, hn, hname] at h
      | some name =>
        cases hx : s.pfxs[name]? with
        | none => simp [replace_pfx_, hn, hname, State.modPfx, hx] at h
        | some px0 =>
          obtain ⟨s1, h1, hstep1, -⟩ := PosStep_modPfx s pw name px0 hx
          simp only [replace_pfx_, hn, hname, h1, Option.bind_eq_bind, Option.some_bind] at h
          by_cases hpn : p = name
          · subst hpn
            exact Or.inr ⟨x, nd0, Relation.ReflTransGen.refl, hnd0, hname⟩
          · have hp1 : s1.pfxs[p]? = some px := by
              simp only [State.modPfx, hx, Option.some.injEq] at h1
              subst h1
              show (s.pfxs.set name _)[p]? = some px
              rw [List.getElem?_set_ne (fun e => hpn e.symm)]
              exact hp
            have hs1 : PosStep s0 s1 pw := PosStep_trans s0 s s1 pw hs hstep1
            rcases replace_pfx_legs_only pw _ s0 x from_ nd0 hnd0
              (fun t p => ∃ (y : NodePtr) (nd : node),
                Relation.ReflTransGen (EquateLeg s0) t y ∧ s0.nodes[y]? = some nd ∧
                  nd.name = some p)
              (fun s t f s' hs hcall =>
                ⟨replace_pfx__frame pr pw n s t f s' hcall, ih s t f s' hs hcall⟩)
              _ s1 s' hs1 h p px hp1 with hk | ⟨t, hxt, y, nd, hty, hy, hyn⟩
            · exact Or.inl hk
            · exact Or.inr ⟨y, nd, Relation.ReflTransGen.head hxt hty, hy, hyn⟩

/-- A returning `replace_pfx` is one returning `replace_pfx_` from the station
of `pfx_replace`, followed by the release of the old position. -/
theorem replace_pfx_inv (fuel : Nat) (s : State K) (R W : PfxPtr) (xr xw : Prefix)
    (hR : s.pfxs[R]? = some xr) (hW : s.pfxs[W]? = some xw) (s' : State K)
    (h : replace_pfx fuel s R W = some s') :
    xr.pos ≠ xw.pos ∧ ∃ (root : NodePtr) (s3 : State K), xr.stn = some root ∧
      replace_pfx_ xr.pos xw.pos fuel s root none = some s3 ∧ s' = osfree s3 xr.pos := by
  by_cases hne : xr.pos = xw.pos
  · simp [replace_pfx, State.getPfx, hR, hW, hne] at h
  · refine ⟨hne, ?_⟩
    cases hroot : xr.stn with
    | none => simp [replace_pfx, State.getPfx, hR, hW, hne, hroot] at h
    | some root =>
      cases h3 : replace_pfx_ xr.pos xw.pos fuel s root none with
      | none => simp [replace_pfx, State.getPfx, hR, hW, hne, hroot, h3] at h
      | some s3 =>
        simp [replace_pfx, State.getPfx, hR, hW, hne, hroot, h3] at h
        exact ⟨root, s3, rfl, h3, h.symm⟩

/-- What a returning `replace_pfx_` from a station `root` (entered from no
station) has done on a packed graph: the names of the stations reached from
`root` along zero-covariance legs hold `pos_with`, and every other name is as
before. -/
theorem replace_pfx__exact (s : State K) (hp : Packed s) (pr pw : Option PosPtr) (fuel : Nat)
    (root : NodePtr) (s3 : State K) (h : replace_pfx_ pr pw fuel s root none = some s3) :
    (∀ (y : NodePtr) (nd : node) (p : PfxPtr) (px : Prefix),
      Relation.ReflTransGen (EquateLeg s) root y → s.nodes[y]? = some nd →
      nd.name = some p → s.pfxs[p]? = some px → s3.pfxs[p]? = some { px with pos := pw }) ∧
    (∀ (p : PfxPtr) (px : Prefix), s.pfxs[p]? = some px →
      (¬ ∃ (y : NodePtr) (nd : node), Relation.ReflTransGen (EquateLeg s) root y ∧
        s.nodes[y]? = some nd ∧ nd.name = some p) → s3.pfxs[p]? = some px) := by
  have hstep : PosStep s s3 pw := replace_pfx__frame pr pw fuel s root none s3 h
  obtain ⟨C, hC, hset, hclo, -⟩ :=
    replace_pfx__covers s hp pr pw fuel s root none s3 (PosStep_refl s pw) h
  have hall : ∀ y, Relation.ReflTransGen (EquateLeg s) root y → C y := by
    intro y hy
    induction hy with
    | refl => exact hC
    | tail _ hbc ih =>
      rcases hclo _ _ ih hbc with hz | ⟨-, hz⟩
      · exact hz
      · cases hz
  constructor
  · intro y nd p px hy hnd hname hpx
    obtain ⟨nd', p', px', a1, a2, a3, a4⟩ := hset y (hall y hy)
    rw [hnd] at a1
    cases a1
    rw [hname] at a2
    cases a2
    obtain ⟨q, hq, -⟩ := hstep.pfx p px hpx
    rw [a3] at hq
    cases hq
    rw [a3]
    simp only at a4
    rw [a4]
  · intro p px hpx hno
    rcases replace_pfx__only s pr pw fuel s root none s3 (PosStep_refl s pw) h p px hpx with
      hk | hr
    · exact hk
    · exact absurd hr hno

/-- On a well-formed, packed graph in which the zero-covariance legs below
the station of `pfx_replace` form a tree of height less than the bound,
`replace_pfx(pfx_replace, pfx_with)` returns, and it has set the position
pointer to that of `pfx_with` for the name of exactly those stations that are
reached from the station of `pfx_replace` along zero-covariance legs (that
station included): every such name holds the pointer, and every other name,
so the name of a station that can only be reached across a leg with a non-zero
covariance component, has the position pointer, and all else, it had. -/
theorem replace_pfx_reaches_tree (s : State K) (hw : WF s) (hp : Packed s) (hdata : DataStored s)
    (R W : PfxPtr) (xr xw : Prefix) (hR : s.pfxs[R]? = some xr) (hW : s.pfxs[W]? = some xw)
    (hne : xr.pos ≠ xw.pos) (root : NodePtr) (hroot : xr.stn = some root)
    (h : NodePtr → Nat) (htree : EquateTree s h root) (fuel : Nat) (hf : h root < fuel) :
    ∃ s' : State K, replace_pfx fuel s R W = some s' ∧
      (∀ (y : NodePtr) (nd : node) (p : PfxPtr) (px : Prefix),
        Relation.ReflTransGen (EquateLeg s) root y → s.nodes[y]? = some nd →
        nd.name = some p → s.pfxs[p]? = some px →
        s'.pfxs[p]? = some { px with pos := xw.pos }) ∧
      (∀ (p : PfxPtr) (px : Prefix), s.pfxs[p]? = some px →
        (¬ ∃ (y : NodePtr) (nd : node), Relation.ReflTransGen (EquateLeg s) root y ∧
          s.nodes[y]? = some nd ∧ nd.name = some p) → s'.pfxs[p]? = some px) := by
  obtain ⟨s3', hrun, -⟩ := replace_pfx_spec s hw hdata R W xr xw hR hW hne root hroot h htree
    fuel hf
  obtain ⟨-, root', s3, hroot', h3, hs'⟩ := replace_pfx_inv fuel s R W xr xw hR hW _ hrun
  rw [hroot] at hroot'
  cases hroot'
  obtain ⟨h1, h2⟩ := replace_pfx__exact s hp xr.pos xw.pos fuel root s3 h3
  obtain ⟨-, -, o3, -⟩ := osfree_fields s3 xr.pos
  refine ⟨_, hrun, ?_, ?_⟩
  · intro y nd p px hy hnd hname hpx
    rw [hs', o3]
    exact h1 y nd p px hy hnd hname hpx
  · intro p px hpx hno
    rw [hs', o3]
    exact h2 p px hpx hno

/-! ### Matched pairs and slot packing: the claims -/

/-- A returning `addfakeleg` (or `addleg_`) was given two stations with
different names: `ASSERT(fr->name != to->name)`. -/
theorem addfakeleg_names (s s' : State K) (fr to_ : NodePtr)
    (dx dy dz vx vy vz cyz czx cxy : K)
    (h : addfakeleg s fr to_ dx dy dz vx vy vz cyz czx cxy = some s') :
    ∃ nf nt : node, s.nodes[fr]? = some nf ∧ s.nodes[to_]? = some nt ∧ nf.name ≠ nt.name := by
  cases hnf : s.nodes[fr]? with
  | none => simp [addfakeleg, addleg_, State.getNode, hnf] at h
  | some nf =>
    cases hnt : s.nodes[to_]? with
    | none => simp [addfakeleg, addleg_, State.getNode, hnf, hnt] at h
    | some nt =>
      refine ⟨nf, nt, rfl, rfl, ?_⟩
      intro hne
      simp [addfakeleg, addleg_, State.getNode, hnf, hnt, hne] at h

/-- Packed slots are occupied exactly at the indices below some `k`. -/
theorem packed_initial (leg : Fin 3 → Option LegPtr)
    (hp : ∀ a b : Fin 3, a < b → leg a = none → leg b = none) :
    ∃ k : Nat, k ≤ 3 ∧ ∀ i : Fin 3, leg i ≠ none ↔ i.val < k := by
  by_cases h0 : leg 0 = none
  · refine ⟨0, by decide, ?_⟩
    intro i
    have hi : leg i = none := by
      by_cases e : i = 0
      · rw [e]; exact h0
      · exact hp 0 i (Fin.pos_iff_ne_zero.mpr e) h0
    simp [hi]
  by_cases h1 : leg 1 = none
  · refine ⟨1, by decide, ?_⟩
    intro i
    fin_cases i
    · simpa using h0
    · simpa using h1
    · have := hp 1 2 (by decide) h1
      simpa using this
  by_cases h2 : leg 2 = none
  · refine ⟨2, by decide, ?_⟩
    intro i
    fin_cases i
    · simpa using h0
    · simpa using h1
    · simpa using h2
  · refine ⟨3, le_refl 3, ?_⟩
    intro i
    fin_cases i
    · simpa using h0
    · simpa using h1
    · simpa using h2

/-- C25: in every state reached from the empty graph by `StnFromPfx`,
`addlegbyname`, `addfakeleg` (a returning call is one on stations with
different names), `freeleg` and `process_equate`, for every station `q` and
occupied slot `i` the leg `l = q.leg[i]` has a target `T` with an occupied slot
at the reverse index of `l`, the leg `r` in that slot has target `q` and reverse
index `i`, and exactly one of the two has DATA_HERE set; `r` is what
`reverse_leg(l)` gives, so that the assertion `data_here(reverse_leg(l))` made
by `copy_link` and `addto_link` when `l` has no DATA_HERE holds. -/
theorem Built_matched_pairs (s : State K) (hb : Built s) (q : NodePtr) (nd : node) (i : Fin 3)
    (lp : LegPtr) (hq : s.nodes[q]? = some nd) (hl : nd.leg i = some lp) :
    ∃ (L : linkfor K) (T : NodePtr) (Tn : node) (r : LegPtr) (R : linkfor K),
      s.legs[lp]? = some L ∧ L.to_ = some T ∧ s.nodes[T]? = some Tn ∧
      Tn.leg L.reverse.dirn = some r ∧ s.legs[r]? = some R ∧
      R.to_ = some q ∧ R.reverse.dirn = i ∧
      ((data_here L = true ∧ data_here R = false) ∨
        (data_here L = false ∧ data_here R = true)) ∧
      reverse_leg s lp = some r ∧ (data_here L = false → data_here R = true) := by
  obtain ⟨L, T, Tn, r, R, h1, h2, h3, h4, h5, h6, h7, h8⟩ :=
    (Built_keeps s hb).1.pair q nd i lp hq hl
  have hx : (data_here L = true ∧ data_here R = false) ∨
      (data_here L = false ∧ data_here R = true) := by
    cases hL : data_here L <;> cases hR : data_here R <;> simp [hL, hR] at h8 ⊢
  refine ⟨L, T, Tn, r, R, h1, h2, h3, h4, h5, h6, h7, hx, ?_, ?_⟩
  · simp [reverse_leg, State.getLeg, State.getNode, h1, h2, h3, h4]
  · intro hL
    rcases hx with ⟨a, -⟩ | ⟨-, b⟩
    · rw [a] at hL
      cases hL
    · exact b

/-- C26: in every state reached from the empty graph by `StnFromPfx`,
`addlegbyname`, `addfakeleg`, `freeleg` and `process_equate`, the occupied leg
slots of every station are exactly the indices `0 .. k-1` for some `k` from 0
to 3: no empty slot lies below an occupied one. So the scan of `replace_pfx_`,
which stops at the first empty slot, passes every leg of the station: when the
scan returns, it has made the recursive call for every leg of the station that
has zero covariance and does not lead back to `from`. -/
theorem Built_slots_packed (s : State K) (hb : Built s) (q : NodePtr) (nd : node)
    (hq : s.nodes[q]? = some nd) :
    (∃ k : Nat, k ≤ 3 ∧ ∀ i : Fin 3, nd.leg i ≠ none ↔ i.val < k) ∧
    (∀ i j : Fin 3, i < j → nd.leg i = none → nd.leg j = none) ∧
    (∀ (pr pw : Option PosPtr) (fuel : Nat) (from_ : Option NodePtr) (s' : State K),
      replace_pfx_legs (replace_pfx_ pr pw fuel) q from_ [0, 1, 2] s = some s' →
      ∀ (d : Fin 3) (leg : LegPtr) (l : linkfor K) (t : NodePtr), nd.leg d = some leg →
        s.legs[leg]? = some l → l.to_ = some t → some t ≠ from_ →
        equated_leg s leg = some true →
        ∃ s1 s2 : State K, replace_pfx_ pr pw fuel s1 t (some q) = some s2) := by
  have hp := (Built_keeps s hb).2
  refine ⟨packed_initial nd.leg (fun a b => hp q nd a b hq), fun i j => hp q nd i j hq, ?_⟩
  intro pr pw fuel from_ s' h d leg l t hleg hl ht hne hz
  obtain ⟨pre, post, hsplit, hlt⟩ := scan_split d
  have hpre : ∀ e ∈ pre, nd.leg e ≠ none := by
    intro e he hnone
    have := hp q nd e d hq (hlt e he) hnone
    rw [hleg] at this
    cases this
  obtain ⟨s1, s2, -, hcall, -⟩ :=
    replace_pfx_legs_sees pw _ (replace_pfx__frame pr pw fuel) s q from_ nd hq _ s s'
      (PosStep_refl s pw) h pre post d hsplit hpre leg l t hleg hl ht hne hz
  exact ⟨s1, s2, hcall⟩

/-! ### The legs in the slots, operation by operation -/

/-- The test of `replace_pfx_` on one half of a matched pair reads the
covariance of the half that has DATA_HERE. -/
theorem equated_leg_pair (s : State K) (leg : LegPtr) (L : linkfor K) (T : NodePtr) (Tn : node)
    (r : LegPtr) (R : linkfor K) (h1 : s.legs[leg]? = some L) (h2 : L.to_ = some T)
    (h3 : s.nodes[T]? = some Tn) (h4 : Tn.leg L.reverse.dirn = some r)
    (h5 : s.legs[r]? = some R) :
    equated_leg s leg = (if data_here L then L.v else R.v).map fZeros := by
  cases hd : data_here L with
  | true => cases hv : L.v <;> simp [equated_leg, State.getLeg, h1, hd, hv]
  | false =>
    cases hv : R.v <;>
      simp [equated_leg, reverse_leg, State.getLeg, State.getNode, h1, hd, h2, h3, h4, h5, hv]

/-- A zero-covariance leg, slot by slot. -/
theorem EquateLeg_iff (s : State K) (x y : NodePtr) :
    EquateLeg s x y ↔ ∃ d e : Fin 3, SlotLeg s x d y e true := by
  constructor
  · rintro ⟨nd, d, leg, l, h1, h2, h3, h4, h5⟩
    exact ⟨d, l.reverse.dirn, nd, leg, l, h1, h2, h3, h4, rfl, h5⟩
  · rintro ⟨d, e, nd, leg, l, h1, h2, h3, h4, -, h5⟩
    exact ⟨nd, d, leg, l, h1, h2, h3, h4, h5⟩

/-- The two halves of a matched pair give the same test. -/
theorem SlotLeg_symm (s : State K) (hw : WF s) (x : NodePtr) (d : Fin 3) (y : NodePtr)
    (e : Fin 3) (z : Bool) (h : SlotLeg s x d y e z) : SlotLeg s y e x d z := by
  obtain ⟨nd, leg, l, h1, h2, h3, h4, h5, h6⟩ := h
  obtain ⟨L, T, Tn, r, R, p1, p2, p3, p4, p5, p6, p7, p8⟩ := hw.pair x nd d leg h1 h2
  rw [h3] at p1
  cases p1
  rw [h4] at p2
  cases p2
  rw [h5] at p4
  refine ⟨Tn, r, R, p3, p4, p5, p6, p7, ?_⟩
  have hleg : nd.leg R.reverse.dirn = some leg := by rw [p7]; exact h2
  rw [equated_leg_pair s r R x nd leg l p5 p6 h1 hleg h3]
  rw [equated_leg_pair s leg l y Tn r R h3 h4 p3 (h5 ▸ p4) p5] at h6
  rw [← h6]
  cases hl : data_here l <;> cases hR : data_here R <;> simp [hl, hR] at p8 ⊢

/-- A zero-covariance leg can be followed both ways. -/
theorem EquateLeg_symm (s : State K) (hw : WF s) (x y : NodePtr) (h : EquateLeg s x y) :
    EquateLeg s y x := by
  obtain ⟨d, e, hs⟩ := (EquateLeg_iff s x y).mp h
  exact (EquateLeg_iff s y x).mpr ⟨e, d, SlotLeg_symm s hw x d y e true hs⟩

/-- The slots after the node split of `freeleg` on a full station `old` of a
well-formed graph, `new` being the station added: slot 0 of `old` and slot 1
of `new` hold the two halves of a new zero-covariance pair, and every other
leg is where it was, the leg of slot 0 of `old` apart, which is now in slot 0
of `new`; the test on a leg that was there before gives what it gave. -/
theorem split_slots (s s' : State K) (hw : WF s) (old : NodePtr) (n : node)
    (hn : s.nodes[old]? = some n) (hfull : ∀ k, n.leg k ≠ none) (i : Fin 3) (new : NodePtr)
    (hs : freeleg s old = some (s', new, i)) :
    new = s.nodes.length ∧ i = 2 ∧ s'.nodes.length = s.nodes.length + 1 ∧
    (∃ nn : node, s'.nodes[new]? = some nn ∧ nn.name = n.name) ∧
    (∀ (q : NodePtr) (nd : node), s.nodes[q]? = some nd →
      ∃ nd' : node, s'.nodes[q]? = some nd' ∧ nd'.name = nd.name) ∧
    SlotLeg s' old 0 new 1 true ∧ SlotLeg s' new 1 old 0 true ∧
    (∀ (x : NodePtr) (d : Fin 3) (y : NodePtr) (e : Fin 3) (z : Bool), SlotLeg s x d y e z →
      SlotLeg s' (moved_to old new x d) d (moved_to old new y e) e z) ∧
    (∀ (x1 : NodePtr) (d : Fin 3) (y1 : NodePtr) (e : Fin 3) (z : Bool),
      SlotLeg s' x1 d y1 e z →
      (x1 = old ∧ d = 0 ∧ y1 = new ∧ e = 1 ∧ z = true) ∨
      (x1 = new ∧ d = 1 ∧ y1 = old ∧ e = 0 ∧ z = true) ∨
      ∃ x y : NodePtr, SlotLeg s x d y e z ∧ x1 = moved_to old new x d ∧
        y1 = moved_to old new y e) := by
  obtain ⟨l0, h0⟩ := Option.ne_none_iff_exists'.mp (hfull 0)
  obtain ⟨L0, T, Tn, r, R, hL0, hT, hTn, hr, hR, hRt, hRd, hdh⟩ := hw.pair old n 0 l0 hn h0
  have hiter : s.stn_iter ≠ some s.nodes.length := by
    intro e
    exact absurd (hw.iter _ e) (Nat.lt_irrefl _)
  obtain ⟨s'', e, nlen, llen, hN, hq, hLg, hLg1, hl, -⟩ :=
    freeleg_split_spec s old n Tn l0 r L0 R T hn h0 hL0 hT hTn hr hR hiter hw.head
  rw [freeleg_full s old n hn hfull, e] at hs
  cases hs
  have holdlt : old < s.nodes.length := lt_of_getElem? hn
  have hne : old ≠ s.nodes.length := Nat.ne_of_lt holdlt
  -- (**) where a leg that was in a slot is now
  have hnode : ∀ (x : NodePtr) (nd : node) (d : Fin 3) (leg : LegPtr),
      s.nodes[x]? = some nd → nd.leg d = some leg →
      ∃ nd1 : node, s'.nodes[moved_to old s.nodes.length x d]? = some nd1 ∧
        nd1.leg d = some leg := by
    intro x nd d leg hx hleg
    by_cases hc : x = old ∧ d = 0
    · obtain ⟨hx1, hd1⟩ := hc
      subst hx1 hd1
      have en : nd = n := Option.some.inj (hx.symm.trans hn)
      subst en
      rw [h0] at hleg
      cases hleg
      simp only [moved_to, and_self, if_true]
      exact ⟨_, hN, by simp⟩
    · simp only [moved_to, hc, if_false]
      refine ⟨_, hq x nd hx, ?_⟩
      by_cases hxo : x = old
      · have hd0 : d ≠ 0 := fun h => hc ⟨hxo, h⟩
        simp only [hxo, if_true]
        rw [Function.update_noteq hd0]
        exact hleg
      · simp only [hxo, if_false]
        exact hleg
  -- a leg in a slot is `r` exactly when it leads to slot 0 of `old`
  have hisr : ∀ (x : NodePtr) (nd : node) (d : Fin 3) (leg : LegPtr) (L : linkfor K)
      (y : NodePtr), s.nodes[x]? = some nd → nd.leg d = some leg → s.legs[leg]? = some L →
      L.to_ = some y → (leg = r ↔ (y = old ∧ L.reverse.dirn = 0)) := by
    intro x nd d leg L y hx hleg hL hy
    constructor
    · intro e
      subst e
      rw [hR] at hL
      cases hL
      rw [hRt] at hy
      cases hy
      exact ⟨rfl, hRd⟩
    · rintro ⟨hy1, hd1⟩
      subst hy1
      obtain ⟨L', T', Tn', r', R', p1, p2, p3, p4, p5, p6, p7, -⟩ := hw.pair x nd d leg hx hleg
      rw [hL] at p1
      cases p1
      rw [hy] at p2
      cases p2
      rw [hn] at p3
      cases p3
      rw [hd1, h0] at p4
      cases p4
      rw [hL0] at p5
      cases p5
      rw [hT] at p6
      cases p6
      rw [hx] at hTn
      cases hTn
      rw [p7, hleg] at hr
      exact Option.some.inj hr
  -- (*) the record and the test of a leg that was in a slot
  have hleg : ∀ (x : NodePtr) (nd : node) (d : Fin 3) (leg : LegPtr) (L : linkfor K)
      (y : NodePtr), s.nodes[x]? = some nd → nd.leg d = some leg → s.legs[leg]? = some L →
      L.to_ = some y →
      ∃ L' : linkfor K, s'.legs[leg]? = some L' ∧
        L'.to_ = some (moved_to old s.nodes.length y L.reverse.dirn) ∧
        L'.reverse = L.reverse ∧ L'.v = L.v ∧ equated_leg s' leg = equated_leg s leg := by
    intro x nd d leg L y hx hleg hL hy
    obtain ⟨L1, T1, Tn1, p, P, p1, p2, p3, p4, p5, p6, p7, -⟩ := hw.pair x nd d leg hx hleg
    rw [hL] at p1
    cases p1
    rw [hy] at p2
    cases p2
    have hL' := hl leg L hL
    have hP' := hl p P p5
    obtain ⟨nd1, hnd1, hnd1leg⟩ := hnode y Tn1 L.reverse.dirn p p3 p4
    have hto : (if leg = r then { L with to_ := some s.nodes.length } else L).to_ =
        some (moved_to old s.nodes.length y L.reverse.dirn) := by
      by_cases hc : leg = r
      · obtain ⟨c1, c2⟩ := (hisr x nd d leg L y hx hleg hL hy).mp hc
        simp [hc, moved_to, c1, c2]
      · have hc' : ¬ (y = old ∧ L.reverse.dirn = 0) := fun h =>
          hc ((hisr x nd d leg L y hx hleg hL hy).mpr h)
        simp [hc, moved_to, hc', hy]
    have hrev : (if leg = r then { L with to_ := some s.nodes.length } else L).reverse =
        L.reverse := by
      by_cases hc : leg = r <;> simp [hc]
    have hv : (if leg = r then { L with to_ := some s.nodes.length } else L).v = L.v := by
      by_cases hc : leg = r <;> simp [hc]
    have hPv : (if p = r then { P with to_ := some s.nodes.length } else P).v = P.v := by
      by_cases hc : p = r <;> simp [hc]
    refine ⟨_, hL', hto, hrev, hv, ?_⟩
    rw [equated_leg_pair s leg L y Tn1 p P hL hy p3 p4 p5]
    rw [equated_leg_pair s' leg _ _ nd1 p _ hL' hto hnd1 (by rw [hrev]; exact hnd1leg) hP']
    have hdata : data_here (if leg = r then { L with to_ := some s.nodes.length } else L) =
        data_here L := by
      simp only [data_here, hrev]
    rw [hdata, hv, hPv]
  -- the new pair
  have hnewold : s'.nodes[old]? = some
      { n with leg := Function.update n.leg 0 (some s.legs.length),
               prev := if s.stnlist = some old then some s.nodes.length else n.prev } := by
    have := hq old n hn
    simpa using this
  have hza : equated_leg s' s.legs.length = some true := by
    rw [equated_leg_pair s' s.legs.length _ s.nodes.length _ (s.legs.length + 1) _ hLg rfl hN
      (by simp) hLg1]
    simp [data_here, FLAG_DATAHERE, FLAG_FAKE, LegFlags.lor, fZeros, fZerosFrom]
  have hzb : equated_leg s' (s.legs.length + 1) = some true := by
    rw [equated_leg_pair s' (s.legs.length + 1) _ old _ s.legs.length _ hLg1 rfl hnewold
      (by simp) hLg]
    simp [data_here, LegFlags.zero, fZeros, fZerosFrom]
  refine ⟨rfl, rfl, nlen, ⟨_, hN, rfl⟩, ?_, ?_, ?_, ?_, ?_⟩
  · intro q nd hqn
    exact ⟨_, hq q nd hqn, rfl⟩
  · exact ⟨_, s.legs.length, _, hnewold, by simp, hLg, rfl, rfl, hza⟩
  · exact ⟨_, s.legs.length + 1, _, hN, by simp, hLg1, rfl, rfl, hzb⟩
  · rintro x d y e z ⟨nd, leg, L, h1, h2, h3, h4, h5, h6⟩
    obtain ⟨nd1, a1, a2⟩ := hnode x nd d leg h1 h2
    obtain ⟨L', b1, b2, b3, -, b5⟩ := hleg x nd d leg L y h1 h2 h3 h4
    refine ⟨nd1, leg, L', a1, a2, b1, ?_, ?_, ?_⟩
    · rw [b2, h5]
    · rw [b3, h5]
    · rw [b5, h6]
  · rintro x1 d y1 e z ⟨nd1, leg, L1, h1, h2, h3, h4, h5, h6⟩
    have hx1lt : x1 < s.nodes.length + 1 := nlen ▸ lt_of_getElem? h1
    rcases Nat.lt_succ_iff_lt_or_eq.mp hx1lt with hlt | heq
    · obtain ⟨nd, hnd⟩ := exists_of_lt hlt
      rw [hq x1 nd hnd] at h1
      cases h1
      by_cases hc : x1 = old ∧ d = 0
      · obtain ⟨c1, c2⟩ := hc
        subst c1 c2
        left
        simp only [if_true, Function.update_same, Option.some.injEq] at h2
        subst h2
        rw [hLg] at h3
        cases h3
        simp only [Option.some.injEq] at h4
        rw [hza] at h6
        exact ⟨rfl, rfl, h4.symm, h5.symm, (Option.some.inj h6).symm⟩
      · right; right
        have hslot : nd.leg d = some leg := by
          by_cases hxo : x1 = old
          · have hd0 : d ≠ 0 := fun h => hc ⟨hxo, h⟩
            simp only [hxo, if_true] at h2
            rw [Function.update_noteq hd0] at h2
            exact h2
          · simp only [hxo, if_false] at h2
            exact h2
        obtain ⟨L, T1, Tn1, p, P, p1, p2, -⟩ := hw.pair x1 nd d leg hnd hslot
        obtain ⟨L', b1, b2, b3, -, b5⟩ := hleg x1 nd d leg L T1 hnd hslot p1 p2
        rw [h3] at b1
        cases b1
        rw [b2] at h4
        rw [b3] at h5
        rw [b5] at h6
        refine ⟨x1, T1, ⟨nd, leg, L, hnd, hslot, p1, p2, h5, h6⟩, ?_, ?_⟩
        · simp [moved_to, hc]
        · rw [← h5]
          exact (Option.some.inj h4).symm
    · subst heq
      rw [hN] at h1
      cases h1
      have hd : d = 0 ∨ d = 1 ∨ d = 2 := by
        fin_cases d <;> simp
      rcases hd with hd | hd | hd
      · subst hd
        right; right
        simp at h2
        subst h2
        obtain ⟨L', b1, b2, b3, -, b5⟩ := hleg old n 0 l0 L0 T hn h0 hL0 hT
        rw [h3] at b1
        cases b1
        rw [b2] at h4
        rw [b3] at h5
        rw [b5] at h6
        refine ⟨old, T, ⟨n, l0, L0, hn, h0, hL0, hT, h5, h6⟩, ?_, ?_⟩
        · simp [moved_to]
        · rw [← h5]
          exact (Option.some.inj h4).symm
      · subst hd
        right; left
        simp at h2
        subst h2
        rw [hLg1] at h3
        cases h3
        simp only [Option.some.injEq] at h4
        rw [hzb] at h6
        exact ⟨rfl, rfl, h4.symm, h5.symm, (Option.some.inj h6).symm⟩
      · subst hd
        simp at h2

/-- The name of a station, from its record. -/
theorem nameOf_lookup (s : State K) (x : NodePtr) (nd : node) (h : s.nodes[x]? = some nd) :
    nameOf s x = nd.name := by
  simp [nameOf, h]

/-- The slots after the end of `addleg_` (the members of the two new leg
records and the two slot assignments) on a well-formed graph: the free slots
`i` of `fr` and `j` of `to_` hold the two halves of the new pair, on which the
test of `replace_pfx_` gives `fZeros` of the covariance entered, and every
other leg is where it was, with the test it had. -/
theorem install_slots (s s' : State K) (hw : WF s) (fr to_ : NodePtr) (a b : LegPtr)
    (i j : Fin 3) (nf nt : node) (A B A' B' : linkfor K)
    (hnf : s.nodes[fr]? = some nf) (hfi : nf.leg i = none)
    (hnt : s.nodes[to_]? = some nt) (hfj : nt.leg j = none) (hne : fr ≠ to_)
    (ha : s.legs[a]? = some A) (hAt : A.to_ = none)
    (hb : s.legs[b]? = some B) (hBt : B.to_ = none)
    (hf' : s'.nodes[fr]? = some { nf with leg := Function.update nf.leg i (some a) })
    (ht' : s'.nodes[to_]? = some { nt with leg := Function.update nt.leg j (some b) })
    (hoth : ∀ q : NodePtr, q ≠ fr → q ≠ to_ → s'.nodes[q]? = s.nodes[q]?)
    (hA' : s'.legs[a]? = some A') (hA1 : A'.to_ = some to_) (hA2 : A'.reverse.dirn = j)
    (hA3 : data_here A' = true) (v : svar K) (hAv : A'.v = some v)
    (hB' : s'.legs[b]? = some B') (hB1 : B'.to_ = some fr) (hB2 : B'.reverse.dirn = i)
    (hB3 : data_here B' = false)
    (hloth : ∀ l : LegPtr, l ≠ a → l ≠ b → s'.legs[l]? = s.legs[l]?)
    (hpos : ∀ p : PfxPtr, namePos s' p = namePos s p) :
    InstallSlots s s' fr to_ i j (fZeros v) := by
  -- a leg in a slot is none of the two new records
  have hold : ∀ (x : NodePtr) (nd : node) (d : Fin 3) (leg : LegPtr),
      s.nodes[x]? = some nd → nd.leg d = some leg → leg ≠ a ∧ leg ≠ b := by
    intro x nd d leg hx hleg
    obtain ⟨L, T, -, -, -, p1, p2, -⟩ := hw.pair x nd d leg hx hleg
    constructor
    · intro e
      subst e
      rw [ha] at p1
      cases p1
      rw [hAt] at p2
      cases p2
    · intro e
      subst e
      rw [hb] at p1
      cases p1
      rw [hBt] at p2
      cases p2
  have hnode : ∀ (x : NodePtr) (nd : node) (d : Fin 3) (leg : LegPtr),
      s.nodes[x]? = some nd → nd.leg d = some leg →
      ∃ nd1 : node, s'.nodes[x]? = some nd1 ∧ nd1.leg d = some leg := by
    intro x nd d leg hx hleg
    by_cases hxf : x = fr
    · subst hxf
      rw [hnf] at hx
      cases hx
      have hdi : d ≠ i := by
        intro e
        rw [e, hfi] at hleg
        cases hleg
      exact ⟨_, hf', by simp [Function.update_noteq hdi, hleg]⟩
    · by_cases hxt : x = to_
      · subst hxt
        rw [hnt] at hx
        cases hx
        have hdj : d ≠ j := by
          intro e
          rw [e, hfj] at hleg
          cases hleg
        exact ⟨_, ht', by simp [Function.update_noteq hdj, hleg]⟩
      · exact ⟨nd, (hoth x hxf hxt).trans hx, hleg⟩
  have hleg : ∀ (x : NodePtr) (nd : node) (d : Fin 3) (leg : LegPtr) (L : linkfor K),
      s.nodes[x]? = some nd → nd.leg d = some leg → s.legs[leg]? = some L →
      s'.legs[leg]? = some L ∧ equated_leg s' leg = equated_leg s leg := by
    intro x nd d leg L hx hslot hL
    obtain ⟨n1, n2⟩ := hold x nd d leg hx hslot
    have hL' : s'.legs[leg]? = some L := (hloth leg n1 n2).trans hL
    refine ⟨hL', ?_⟩
    obtain ⟨L1, T, Tn, p, P, p1, p2, p3, p4, p5, -⟩ := hw.pair x nd d leg hx hslot
    rw [hL] at p1
    cases p1
    obtain ⟨m1, m2⟩ := hold T Tn _ p p3 p4
    have hP' : s'.legs[p]? = some P := (hloth p m1 m2).trans p5
    obtain ⟨Tn1, q1, q2⟩ := hnode T Tn _ p p3 p4
    rw [equated_leg_pair s leg L T Tn p P hL p2 p3 p4 p5,
      equated_leg_pair s' leg L T Tn1 p P hL' p2 q1 q2 hP']
  have hname : ∀ x : NodePtr, nameOf s' x = nameOf s x := by
    intro x
    by_cases hxf : x = fr
    · subst hxf
      rw [nameOf_lookup s' x _ hf', nameOf_lookup s x _ hnf]
    · by_cases hxt : x = to_
      · subst hxt
        rw [nameOf_lookup s' x _ ht', nameOf_lookup s x _ hnt]
      · simp only [nameOf, hoth x hxf hxt]
  have hza : equated_leg s' a = some (fZeros v) := by
    rw [equated_leg_pair s' a A' to_ _ b B' hA' hA1 ht' (by rw [hA2]; simp) hB']
    simp [hA3, hAv]
  have hzb : equated_leg s' b = some (fZeros v) := by
    rw [equated_leg_pair s' b B' fr _ a A' hB' hB1 hf' (by rw [hB2]; simp) hA']
    simp [hB3, hAv]
  refine ⟨hname, hpos, hne, ?_, ?_, ?_, ?_, ?_, ?_⟩
  · rintro y e z' ⟨nd, leg, l, h1, h2, -⟩
    rw [hnf] at h1
    cases h1
    rw [hfi] at h2
    cases h2
  · rintro y e z' ⟨nd, leg, l, h1, h2, -⟩
    rw [hnt] at h1
    cases h1
    rw [hfj] at h2
    cases h2
  · exact ⟨_, a, A', hf', by simp, hA', hA1, hA2, hza⟩
  · exact ⟨_, b, B', ht', by simp, hB', hB1, hB2, hzb⟩
  · rintro x d y e z' ⟨nd, leg, L, h1, h2, h3, h4, h5, h6⟩
    obtain ⟨nd1, a1, a2⟩ := hnode x nd d leg h1 h2
    obtain ⟨b1, b2⟩ := hleg x nd d leg L h1 h2 h3
    exact ⟨nd1, leg, L, a1, a2, b1, h4, h5, by rw [b2, h6]⟩
  · rintro x d y e z' ⟨nd1, leg, L1, h1, h2, h3, h4, h5, h6⟩
    -- the slot in the old state
    have hcase : ∀ (nd : node), s.nodes[x]? = some nd → nd.leg d = some leg →
        SlotLeg s x d y e z' := by
      intro nd hx hslot
      obtain ⟨L, T, -, -, -, p1, -⟩ := hw.pair x nd d leg hx hslot
      obtain ⟨b1, b2⟩ := hleg x nd d leg L hx hslot p1
      rw [h3] at b1
      cases b1
      exact ⟨nd, leg, L1, hx, hslot, p1, h4, h5, by rw [← b2, h6]⟩
    by_cases hxf : x = fr
    · subst hxf
      rw [hf'] at h1
      cases h1
      by_cases hdi : d = i
      · subst hdi
        right; left
        simp only [Function.update_same, Option.some.injEq] at h2
        subst h2
        rw [hA'] at h3
        cases h3
        rw [hA1] at h4
        rw [hza] at h6
        exact ⟨rfl, rfl, (Option.some.inj h4).symm, (hA2.symm.trans h5).symm,
          (Option.some.inj h6).symm⟩
      · left
        simp only [Function.update_noteq hdi] at h2
        exact hcase nf hnf h2
    · by_cases hxt : x = to_
      · subst hxt
        rw [ht'] at h1
        cases h1
        by_cases hdj : d = j
        · subst hdj
          right; right
          simp only [Function.update_same, Option.some.injEq] at h2
          subst h2
          rw [hB'] at h3
          cases h3
          rw [hB1] at h4
          rw [hzb] at h6
          exact ⟨rfl, rfl, (Option.some.inj h4).symm, (hB2.symm.trans h5).symm,
            (Option.some.inj h6).symm⟩
        · left
          simp only [Function.update_noteq hdj] at h2
          exact hcase nt hnt h2
      · left
        rw [hoth x hxf hxt] at h1
        exact hcase nd1 h1 h2

/-- A state is like itself. -/
theorem SameSlots_refl (s : State K) : SameSlots s s :=
  ⟨fun _ => rfl, fun _ => rfl, fun _ _ _ _ _ => Iff.rfl⟩

/-- Two new leg records that are in no slot change nothing for the legs in the
slots. -/
theorem blank_slots (s : State K) (hw : WF s) (extra : List (linkfor K)) :
    SameSlots s { s with legs := s.legs ++ extra } := by
  have hlk : ∀ (l : LegPtr) (L : linkfor K), s.legs[l]? = some L →
      (s.legs ++ extra)[l]? = some L := by
    intro l L h
    rw [List.getElem?_append_left (lt_of_getElem? h)]
    exact h
  have heq : ∀ (x : NodePtr) (nd : node) (d : Fin 3) (leg : LegPtr),
      s.nodes[x]? = some nd → nd.leg d = some leg →
      ∃ L : linkfor K, s.legs[leg]? = some L ∧
        equated_leg ({ s with legs := s.legs ++ extra } : State K) leg = equated_leg s leg := by
    intro x nd d leg hx hslot
    obtain ⟨L, T, Tn, p, P, p1, p2, p3, p4, p5, -⟩ := hw.pair x nd d leg hx hslot
    refine ⟨L, p1, ?_⟩
    rw [equated_leg_pair s leg L T Tn p P p1 p2 p3 p4 p5,
      equated_leg_pair ({ s with legs := s.legs ++ extra } : State K) leg L T Tn p P
        (hlk leg L p1) p2 p3 p4 (hlk p P p5)]
  refine ⟨fun _ => rfl, fun _ => rfl, ?_⟩
  intro x d y e z
  constructor
  · rintro ⟨nd, leg, l, h1, h2, h3, h4, h5, h6⟩
    have h1' : s.nodes[x]? = some nd := h1
    obtain ⟨L, hL, hz⟩ := heq x nd d leg h1' h2
    have h3' : (s.legs ++ extra)[leg]? = some l := h3
    rw [hlk leg L hL] at h3'
    have el : L = l := Option.some.inj h3'
    subst el
    exact ⟨nd, leg, L, h1', h2, hL, h4, h5, by rw [← hz, h6]⟩
  · rintro ⟨nd, leg, l, h1, h2, h3, h4, h5, h6⟩
    obtain ⟨L, -, hz⟩ := heq x nd d leg h1 h2
    exact ⟨nd, leg, l, h1, h2, hlk leg l h3, h4, h5, by rw [hz, h6]⟩

/-- What `freeleg` does to the slots of a well-formed graph. -/
theorem freeleg_slots (s : State K) (hw : WF s) (stn : NodePtr) (s' : State K)
    (stn' : NodePtr) (i : Fin 3) (h : freeleg s stn = some (s', stn', i)) :
    FreeSlots s s' stn stn' ∧ WF s' ∧ s'.pfxs = s.pfxs ∧ s'.poss = s.poss ∧
    (∀ (l : LegPtr) (L : linkfor K), s.legs[l]? = some L → L.to_ = none →
      ∃ L' : linkfor K, s'.legs[l]? = some L' ∧ L'.to_ = none) := by
  cases hn : s.nodes[stn]? with
  | none => simp [freeleg, State.getNode, hn] at h
  | some n =>
    obtain ⟨s'', stn'', i'', n', e, hw', -, -, -, -, -, hlegs, hpfx, hposs, -⟩ :=
      freeleg_wf s hw stn n hn
    rw [h] at e
    cases e
    have hblank : ∀ (l : LegPtr) (L : linkfor K), s.legs[l]? = some L → L.to_ = none →
        ∃ L' : linkfor K, s'.legs[l]? = some L' ∧ L'.to_ = none := by
      intro l L hl hto
      obtain ⟨L', a1, -, -, -, -, a6⟩ := hlegs l L hl
      refine ⟨L', a1, ?_⟩
      rcases a6 with a6 | a6
      · rw [a6, hto]
      · rw [hto] at a6
        cases a6
    refine ⟨?_, hw', hpfx, hposs, hblank⟩
    by_cases hfree : ∃ k, n.leg k = none
    · obtain ⟨i0, e0, -⟩ := freeleg_free s stn n hn hfree
      rw [h] at e0
      cases e0
      exact Or.inl ⟨SameSlots_refl s, rfl⟩
    · right
      have hfull : ∀ k, n.leg k ≠ none := fun k hk => hfree ⟨k, hk⟩
      obtain ⟨hnew, -, nlen, ⟨nn, hnn, hnname⟩, hkeep, hlink, hback, hfwd, hbwd⟩ :=
        split_slots s s' hw stn n hn hfull i stn' h
      obtain ⟨p, px, m, hname, -⟩ := hw.name stn n hn
      refine ⟨?_, ?_, ?_, ?_, ?_, hlink, hback, hfwd, hbwd⟩
      · rw [hnew]
        simp [nameOf]
      · rw [nameOf_lookup s stn n hn, hname]
        exact Option.some_ne_none _
      · rw [nameOf_lookup s' stn' nn hnn, nameOf_lookup s stn n hn, hnname]
      · intro x hx
        by_cases hlt : x < s.nodes.length
        · obtain ⟨nd, hnd⟩ := exists_of_lt hlt
          obtain ⟨nd', a1, a2⟩ := hkeep x nd hnd
          rw [nameOf_lookup s' x nd' a1, nameOf_lookup s x nd hnd, a2]
        · have hgt : s.nodes.length < x := by
            rw [hnew] at hx
            exact Nat.lt_of_le_of_ne (Nat.le_of_not_lt hlt) (Ne.symm hx)
          have h1 : s.nodes[x]? = none := List.getElem?_eq_none (Nat.le_of_lt hgt)
          have h2 : s'.nodes[x]? = none := List.getElem?_eq_none (by rw [nlen]; exact hgt)
          simp [nameOf, h1, h2]
      · intro p
        simp only [namePos, hpfx]

/-- A returning `addleg_` on a well-formed graph, stage by stage: the two new
leg records (state `s0`), `freeleg` on `fr` (state `s1`, station `fr'`),
`freeleg` on `to` (state `s2`, station `to'`), and the installation of the new
pair in the slots `i` of `fr'` and `j` of `to'`. -/
theorem addleg_stages (s : State K) (hw : WF s) (fr to_ : NodePtr)
    (dx dy dz vx vy vz cyz czx cxy : K) (leg_flags : LegFlags) (s' : State K)
    (h : addleg_ s fr to_ dx dy dz vx vy vz cyz czx cxy leg_flags = some s') :
    ∃ (s0 s1 s2 : State K) (fr' to' : NodePtr) (i j : Fin 3),
      SameSlots s s0 ∧ WF s0 ∧ FreeSlots s0 s1 fr fr' ∧ WF s1 ∧ FreeSlots s1 s2 to_ to' ∧
      WF s2 ∧ InstallSlots s2 s' fr' to' i j (fZeros ![vx, vy, vz, cxy, czx, cyz]) ∧ WF s' ∧
      nameOf s fr ≠ none ∧ nameOf s to_ ≠ none ∧ nameOf s fr ≠ nameOf s to_ ∧
      nameOf s' fr' = nameOf s fr ∧ nameOf s' to' = nameOf s to_ ∧
      s0.pfxs = s.pfxs ∧ s1.pfxs = s.pfxs ∧ s2.pfxs = s.pfxs ∧ s'.poss = s.poss ∧
      (∀ (p : PfxPtr) (px : Prefix), s.pfxs[p]? = some px →
        ∃ px' : Prefix, s'.pfxs[p]? = some px' ∧ px'.stn = px.stn ∧ px'.up = px.up ∧
          px'.ident = px.ident ∧ px'.pos = px.pos ∧ px'.fixed = px.fixed) ∧
      s'.pfxs.length = s.pfxs.length := by
  cases hnf : s.nodes[fr]? with
  | none => simp [addleg_, State.getNode, hnf] at h
  | some nf =>
    cases hnt : s.nodes[to_]? with
    | none => simp [addleg_, State.getNode, hnf, hnt] at h
    | some nt =>
      by_cases hne : nf.name = nt.name
      · simp [addleg_, State.getNode, hnf, hnt, hne] at h
      · obtain ⟨s1, fr', i, s2, to', j, s'', nf2, nt2, e1, e2, e3, hw', hft, hnf2, hnf2n, hfi,
          hnt2, hnt2n, htj, hf', ht', hoth, -, -, hA, hB, hloth, -, -, hpfx, hplen, hposs, -⟩ :=
          addleg_wf s hw fr to_ nf nt hnf hnt hne dx dy dz vx vy vz cyz czx cxy leg_flags
        rw [h] at e3
        cases e3
        have hw0 : WF ({ s with legs := s.legs ++ [{}] ++ [{}] } : State K) := by
          have := WF_newLegs s hw [({} : linkfor K), ({} : linkfor K)]
          simpa using this
        have hsame : SameSlots s ({ s with legs := s.legs ++ [{}] ++ [{}] } : State K) := by
          have := blank_slots s hw [({} : linkfor K), ({} : linkfor K)]
          simpa using this
        obtain ⟨hfree1, hw1, hp1, -, hblank1⟩ := freeleg_slots _ hw0 fr s1 fr' i e1
        obtain ⟨hfree2, hw2, hp2, -, hblank2⟩ := freeleg_slots _ hw1 to_ s2 to' j e2
        -- the two new records are blank before the installation
        have ha0 : ({ s with legs := s.legs ++ [{}] ++ [{}] } : State K).legs[s.legs.length]? =
            some ({} : linkfor K) := by
          show (s.legs ++ [{}] ++ [{}])[s.legs.length]? = some ({} : linkfor K)
          rw [List.append_assoc]
          exact (getElem?_append_two s.legs _ _).1
        have hb0 : ({ s with legs := s.legs ++ [{}] ++ [{}] } :
            State K).legs[s.legs.length + 1]? = some ({} : linkfor K) := by
          show (s.legs ++ [{}] ++ [{}])[s.legs.length + 1]? = some ({} : linkfor K)
          rw [List.append_assoc]
          exact (getElem?_append_two s.legs _ _).2
        obtain ⟨A1, hA1, hA1t⟩ := hblank1 _ _ ha0 rfl
        obtain ⟨A2, hA2, hA2t⟩ := hblank2 _ _ hA1 hA1t
        obtain ⟨B1, hB1, hB1t⟩ := hblank1 _ _ hb0 rfl
        obtain ⟨B2, hB2, hB2t⟩ := hblank2 _ _ hB1 hB1t
        have hpfx2 : s2.pfxs = s.pfxs := by
          rw [hp2, hp1]
        have hpos : ∀ p : PfxPtr, namePos s' p = namePos s2 p := by
          intro p
          simp only [namePos, hpfx2]
          cases hp : s.pfxs[p]? with
          | none =>
            have hlen : s.pfxs.length ≤ p := by
              by_contra hc
              obtain ⟨px, hpx⟩ := exists_of_lt (Nat.lt_of_not_le hc)
              rw [hp] at hpx
              cases hpx
            have : s'.pfxs[p]? = none := List.getElem?_eq_none (by rw [hplen]; exact hlen)
            rw [this]
          | some px =>
            obtain ⟨px', a1, -, -, -, a5, -⟩ := hpfx p px hp
            rw [a1]
            simp [a5]
        have hinst := install_slots s2 s' hw2 fr' to' s.legs.length (s.legs.length + 1) i j nf2
          nt2 A2 B2 _ _ hnf2 hfi hnt2 htj hft hA2 hA2t hB2 hB2t hf' ht' hoth hA rfl rfl
          (by simp [data_here, FLAG_DATAHERE, LegFlags.lor]) ![vx, vy, vz, cxy, czx, cyz] rfl
          hB rfl rfl (by simp [data_here, LegFlags.zero]) hloth hpos
        obtain ⟨pa, -, -, hpa, -⟩ := hw.name fr nf hnf
        obtain ⟨pb, -, -, hpb, -⟩ := hw.name to_ nt hnt
        refine ⟨_, s1, s2, fr', to', i, j, hsame, hw0, hfree1, hw1, hfree2, hw2, hinst, hw',
          ?_, ?_, ?_, ?_, ?_, rfl, hp1, hpfx2, hposs, hpfx, hplen⟩
        · rw [nameOf_lookup s fr nf hnf, hpa]
          exact Option.some_ne_none _
        · rw [nameOf_lookup s to_ nt hnt, hpb]
          exact Option.some_ne_none _
        · rw [nameOf_lookup s fr nf hnf, nameOf_lookup s to_ nt hnt]
          exact hne
        · rw [nameOf_lookup s' fr' _ hf', nameOf_lookup s fr nf hnf]
          exact hnf2n
        · rw [nameOf_lookup s' to' _ ht', nameOf_lookup s to_ nt hnt]
          exact hnt2n

/-! ### How the zero-covariance legs grow -/

/-- A path of zero-covariance legs of `s` is one of `s'` when every leg is. -/
theorem path_lift (s s' : State K)
    (h : ∀ a b : NodePtr, EquateLeg s a b → Relation.ReflTransGen (EquateLeg s') a b)
    (a b : NodePtr) (hab : Relation.ReflTransGen (EquateLeg s) a b) :
    Relation.ReflTransGen (EquateLeg s') a b := by
  induction hab with
  | refl => exact Relation.ReflTransGen.refl
  | tail _ hbc ih => exact ih.trans (h _ _ hbc)

/-- On a well-formed graph a path of zero-covariance legs can be walked
backwards. -/
theorem path_symm (s : State K) (hw : WF s) (a b : NodePtr)
    (hab : Relation.ReflTransGen (EquateLeg s) a b) :
    Relation.ReflTransGen (EquateLeg s) b a := by
  induction hab with
  | refl => exact Relation.ReflTransGen.refl
  | tail _ hbc ih =>
    exact (Relation.ReflTransGen.single (EquateLeg_symm s hw _ _ hbc)).trans ih

/-- A station with a leg in a slot is an object with a name. -/
theorem SlotLeg_named (s : State K) (hw : WF s) (x : NodePtr) (d : Fin 3) (y : NodePtr)
    (e : Fin 3) (z : Bool) (h : SlotLeg s x d y e z) : nameOf s x ≠ none := by
  obtain ⟨nd, leg, l, h1, -⟩ := h
  obtain ⟨p, -, -, hp, -⟩ := hw.name x nd h1
  rw [nameOf_lookup s x nd h1, hp]
  exact Option.some_ne_none p

theorem Grows_refl (X : Option PfxPtr → Option PfxPtr → Prop) (s : State K) : Grows X s s :=
  ⟨fun _ => rfl, fun _ _ h => Relation.ReflTransGen.single h, fun _ _ => rfl,
   fun x _ => ⟨x, rfl, Relation.ReflTransGen.refl⟩,
   fun x y h => Or.inr (Or.inr ⟨x, y, h, rfl, rfl⟩)⟩

theorem Grows_trans (X : Option PfxPtr → Option PfxPtr → Prop) (s s1 s2 : State K)
    (h1 : Grows X s s1) (h2 : Grows X s1 s2) : Grows X s s2 := by
  refine ⟨fun p => (h2.pos p).trans (h1.pos p), ?_, ?_, ?_, ?_⟩
  · intro a b hab
    exact path_lift s1 s2 h2.lift a b (h1.lift a b hab)
  · intro x hx
    rw [h2.keep x (by rw [h1.keep x hx]; exact hx), h1.keep x hx]
  · intro x hx
    obtain ⟨x1, hn1, hp1⟩ := h2.twin x hx
    obtain ⟨x0, hn0, hp0⟩ := h1.twin x1 (by rw [hn1]; exact hx)
    exact ⟨x0, hn0.trans hn1, (path_lift s1 s2 h2.lift x0 x1 hp0).trans hp1⟩
  · intro x y hxy
    rcases h2.sound x y hxy with h | h | ⟨x1, y1, he, hx1, hy1⟩
    · exact Or.inl h
    · exact Or.inr (Or.inl h)
    · rcases h1.sound x1 y1 he with h | h | ⟨x0, y0, he0, hx0, hy0⟩
      · left
        rw [← hx1, ← hy1]
        exact h
      · right; left
        rw [← hx1, ← hy1]
        exact h
      · exact Or.inr (Or.inr ⟨x0, y0, he0, hx0.trans hx1, hy0.trans hy1⟩)

theorem Grows_same (X : Option PfxPtr → Option PfxPtr → Prop) (s s' : State K)
    (h : SameSlots s s') : Grows X s s' := by
  have hE : ∀ a b : NodePtr, EquateLeg s' a b ↔ EquateLeg s a b := by
    intro a b
    rw [EquateLeg_iff, EquateLeg_iff]
    constructor
    · rintro ⟨d, e, hh⟩
      exact ⟨d, e, (h.slots a d b e true).mp hh⟩
    · rintro ⟨d, e, hh⟩
      exact ⟨d, e, (h.slots a d b e true).mpr hh⟩
  refine ⟨h.pos, fun a b hab => Relation.ReflTransGen.single ((hE a b).mpr hab),
    fun x _ => h.name x, ?_, ?_⟩
  · intro x _
    exact ⟨x, (h.name x).symm, Relation.ReflTransGen.refl⟩
  · intro x y hxy
    exact Or.inr (Or.inr ⟨x, y, (hE x y).mp hxy, (h.name x).symm, (h.name y).symm⟩)

/-- A station and the station its slot has moved to are joined by
zero-covariance legs after a split. -/
theorem split_moved (s s' : State K) (old new : NodePtr) (h : SplitSlots s s' old new)
    (hw' : WF s') (x : NodePtr) (d : Fin 3) :
    Relation.ReflTransGen (EquateLeg s') x (moved_to old new x d) ∧
    Relation.ReflTransGen (EquateLeg s') (moved_to old new x d) x := by
  unfold moved_to
  split_ifs with hc
  · obtain ⟨rfl, -⟩ := hc
    have h1 : EquateLeg s' x new := (EquateLeg_iff s' x new).mpr ⟨0, 1, h.link⟩
    exact ⟨Relation.ReflTransGen.single h1,
      Relation.ReflTransGen.single (EquateLeg_symm s' hw' _ _ h1)⟩
  · exact ⟨Relation.ReflTransGen.refl, Relation.ReflTransGen.refl⟩

/-- The name of the station a slot has moved to. -/
theorem split_moved_name (s s' : State K) (old new : NodePtr)
    (h : SplitSlots s s' old new) (x : NodePtr) (d : Fin 3) (hx : nameOf s x ≠ none) :
    nameOf s' (moved_to old new x d) = nameOf s x := by
  unfold moved_to
  split_ifs with hc
  · obtain ⟨rfl, -⟩ := hc
    exact h.name_new
  · apply h.name_old
    rintro rfl
    exact hx h.fresh

theorem Grows_split (X : Option PfxPtr → Option PfxPtr → Prop) (s s' : State K) (hw : WF s)
    (hw' : WF s') (old new : NodePtr) (h : SplitSlots s s' old new) : Grows X s s' := by
  refine ⟨h.pos, ?_, ?_, ?_, ?_⟩
  · intro a b hab
    obtain ⟨d, e, hs⟩ := (EquateLeg_iff s a b).mp hab
    have h1 := h.fwd a d b e true hs
    have h2 : EquateLeg s' (moved_to old new a d) (moved_to old new b e) :=
      (EquateLeg_iff s' _ _).mpr ⟨d, e, h1⟩
    exact ((split_moved s s' old new h hw' a d).1.trans (Relation.ReflTransGen.single h2)).trans
      (split_moved s s' old new h hw' b e).2
  · intro x hx
    apply h.name_old
    rintro rfl
    exact hx h.fresh
  · intro x hx
    by_cases hxn : x = new
    · subst hxn
      refine ⟨old, h.name_new.symm, ?_⟩
      exact Relation.ReflTransGen.single ((EquateLeg_iff s' old x).mpr ⟨0, 1, h.link⟩)
    · exact ⟨x, (h.name_old x hxn).symm, Relation.ReflTransGen.refl⟩
  · intro x y hxy
    obtain ⟨d, e, hs⟩ := (EquateLeg_iff s' x y).mp hxy
    have hon : old ≠ new := by
      rintro rfl
      exact h.isold h.fresh
    rcases h.bwd x d y e true hs with ⟨rfl, -, rfl, -, -⟩ | ⟨rfl, -, rfl, -, -⟩ |
      ⟨x0, y0, hs0, rfl, rfl⟩
    · left
      rw [h.name_new, h.name_old x hon]
    · left
      rw [h.name_new, h.name_old y hon]
    · right; right
      refine ⟨x0, y0, (EquateLeg_iff s x0 y0).mpr ⟨d, e, hs0⟩, ?_, ?_⟩
      · exact (split_moved_name s s' old new h x0 d
          (SlotLeg_named s hw x0 d y0 e true hs0)).symm
      · exact (split_moved_name s s' old new h y0 e
          (SlotLeg_named s hw y0 e x0 d true (SlotLeg_symm s hw x0 d y0 e true hs0))).symm

theorem Grows_free (X : Option PfxPtr → Option PfxPtr → Prop) (s s' : State K) (hw : WF s)
    (hw' : WF s') (stn stn' : NodePtr) (h : FreeSlots s s' stn stn') : Grows X s s' := by
  rcases h with ⟨h, -⟩ | h
  · exact Grows_same X s s' h
  · exact Grows_split X s s' hw hw' stn stn' h

/-- After `freeleg(&stn)` the station handed back has the name of `stn` and is
joined to it by zero-covariance legs. -/
theorem free_station (s s' : State K) (stn stn' : NodePtr) (h : FreeSlots s s' stn stn') :
    nameOf s' stn' = nameOf s stn ∧ Relation.ReflTransGen (EquateLeg s') stn stn' := by
  rcases h with ⟨h, rfl⟩ | h
  · exact ⟨h.name _, Relation.ReflTransGen.refl⟩
  · exact ⟨h.name_new,
      Relation.ReflTransGen.single ((EquateLeg_iff s' stn stn').mpr ⟨0, 1, h.link⟩)⟩

theorem Grows_install (s s' : State K) (fr to_ : NodePtr) (i j : Fin 3) (z : Bool)
    (h : InstallSlots s s' fr to_ i j z) :
    Grows (fun a b => z = true ∧ ((a = nameOf s fr ∧ b = nameOf s to_) ∨
      (a = nameOf s to_ ∧ b = nameOf s fr))) s s' := by
  refine ⟨h.pos, ?_, fun x _ => h.name x, ?_, ?_⟩
  · intro a b hab
    obtain ⟨d, e, hs⟩ := (EquateLeg_iff s a b).mp hab
    exact Relation.ReflTransGen.single ((EquateLeg_iff s' a b).mpr ⟨d, e, h.fwd a d b e true hs⟩)
  · intro x _
    exact ⟨x, (h.name x).symm, Relation.ReflTransGen.refl⟩
  · intro x y hxy
    obtain ⟨d, e, hs⟩ := (EquateLeg_iff s' x y).mp hxy
    rcases h.bwd x d y e true hs with h0 | ⟨rfl, -, rfl, -, hz⟩ | ⟨rfl, -, rfl, -, hz⟩
    · exact Or.inr (Or.inr ⟨x, y, (EquateLeg_iff s x y).mpr ⟨d, e, h0⟩, (h.name x).symm,
        (h.name y).symm⟩)
    · exact Or.inr (Or.inl ⟨hz.symm, Or.inl ⟨h.name _, h.name _⟩⟩)
    · exact Or.inr (Or.inl ⟨hz.symm, Or.inr ⟨h.name _, h.name _⟩⟩)

/-- What a returning `addleg_` does to the zero-covariance legs of a
well-formed graph: it splits stations and adds one leg, between stations that
carry the names of `fr` and of `to` and are joined to them by zero-covariance
legs; the names have the position pointers they had. -/
theorem addleg_grows (s : State K) (hw : WF s) (fr to_ : NodePtr)
    (dx dy dz vx vy vz cyz czx cxy : K) (leg_flags : LegFlags) (s' : State K)
    (h : addleg_ s fr to_ dx dy dz vx vy vz cyz czx cxy leg_flags = some s') :
    WF s' ∧
    Grows (fun a b => fZeros ![vx, vy, vz, cxy, czx, cyz] = true ∧
      ((a = nameOf s fr ∧ b = nameOf s to_) ∨ (a = nameOf s to_ ∧ b = nameOf s fr))) s s' ∧
    (fZeros ![vx, vy, vz, cxy, czx, cyz] = true →
      Relation.ReflTransGen (EquateLeg s') fr to_) ∧
    nameOf s fr ≠ none ∧ nameOf s to_ ≠ none ∧ nameOf s fr ≠ nameOf s to_ ∧
    s'.poss = s.poss ∧
    (∀ (p : PfxPtr) (px : Prefix), s.pfxs[p]? = some px →
      ∃ px' : Prefix, s'.pfxs[p]? = some px' ∧ px'.stn = px.stn ∧ px'.up = px.up ∧
        px'.ident = px.ident ∧ px'.pos = px.pos ∧ px'.fixed = px.fixed) ∧
    s'.pfxs.length = s.pfxs.length := by
  obtain ⟨s0, s1, s2, fr', to', i, j, h0, hw0, h1, hw1, h2, hw2, h3, hw', hnf, hnt, hne, hf', ht',
    -, -, -, hposs, hpfx, hlen⟩ :=
    addleg_stages s hw fr to_ dx dy dz vx vy vz cyz czx cxy leg_flags s' h
  refine ⟨hw', ?_, ?_, hnf, hnt, hne, hposs, hpfx, hlen⟩
  · have g0 := Grows_same (fun a b => fZeros ![vx, vy, vz, cxy, czx, cyz] = true ∧
      ((a = nameOf s fr ∧ b = nameOf s to_) ∨ (a = nameOf s to_ ∧ b = nameOf s fr))) s s0 h0
    have g1 := Grows_free (fun a b => fZeros ![vx, vy, vz, cxy, czx, cyz] = true ∧
      ((a = nameOf s fr ∧ b = nameOf s to_) ∨ (a = nameOf s to_ ∧ b = nameOf s fr)))
      s0 s1 hw0 hw1 fr fr' h1
    have g2 := Grows_free (fun a b => fZeros ![vx, vy, vz, cxy, czx, cyz] = true ∧
      ((a = nameOf s fr ∧ b = nameOf s to_) ∨ (a = nameOf s to_ ∧ b = nameOf s fr)))
      s1 s2 hw1 hw2 to_ to' h2
    have g3 := Grows_install s2 s' fr' to' i j _ h3
    rw [← h3.name fr', ← h3.name to', hf', ht'] at g3
    exact Grows_trans _ s s2 s' (Grows_trans _ s s1 s2 (Grows_trans _ s s0 s1 g0 g1) g2) g3
  · intro hz
    have g2 := Grows_free (fun _ _ => False) s1 s2 hw1 hw2 to_ to' h2
    have g3 := Grows_install s2 s' fr' to' i j _ h3
    have p1 : Relation.ReflTransGen (EquateLeg s') fr fr' :=
      path_lift s2 s' g3.lift fr fr' (path_lift s1 s2 g2.lift fr fr' (free_station s0 s1 fr fr' h1).2)
    have p2 : Relation.ReflTransGen (EquateLeg s') to_ to' :=
      path_lift s2 s' g3.lift to_ to' (free_station s1 s2 to_ to' h2).2
    have p3 : EquateLeg s' fr' to' := by
      have := h3.link
      rw [hz] at this
      exact (EquateLeg_iff s' fr' to').mpr ⟨i, j, this⟩
    exact (p1.trans (Relation.ReflTransGen.single p3)).trans (path_symm s' hw' to_ to' p2)

/-! ### Graphs of never-fixed stations -/

/-- The leg records with DATA_HERE set still store a covariance after
`freeleg`. -/
theorem freeleg_data (s : State K) (hw : WF s) (hd : DataStored s) (stn : NodePtr)
    (s' : State K) (stn' : NodePtr) (i : Fin 3) (h : freeleg s stn = some (s', stn', i)) :
    DataStored s' := by
  cases hn : s.nodes[stn]? with
  | none => simp [freeleg, State.getNode, hn] at h
  | some n =>
    by_cases hfree : ∃ k, n.leg k = none
    · obtain ⟨i0, e, -, -⟩ := freeleg_free s stn n hn hfree
      rw [e] at h
      cases h
      exact hd
    · have hfull : ∀ k, n.leg k ≠ none := fun k hk => hfree ⟨k, hk⟩
      obtain ⟨l0, h0⟩ := Option.ne_none_iff_exists'.mp (hfull 0)
      obtain ⟨L0, T, Tn, r, R, hL0, hT, hTn, hr, hR, -, -, -⟩ := hw.pair stn n 0 l0 hn h0
      have hiter : s.stn_iter ≠ some s.nodes.length := by
        intro e
        exact absurd (hw.iter _ e) (Nat.lt_irrefl _)
      obtain ⟨s'', e, -, llen, -, -, hA, hB, hl, -⟩ :=
        freeleg_split_spec s stn n Tn l0 r L0 R T hn h0 hL0 hT hTn hr hR hiter hw.head
      rw [freeleg_full s stn n hn hfull, e] at h
      cases h
      intro (leg : Nat) l hleg hdh
      have hlt : leg < s.legs.length + 2 := llen ▸ lt_of_getElem? hleg
      by_cases h1 : leg < s.legs.length
      · obtain ⟨L, hL⟩ := exists_of_lt h1
        rw [hl leg L hL] at hleg
        have el := Option.some.inj hleg
        subst el
        have hdL : data_here L = true := by
          by_cases hc : leg = r
          · simpa [hc, data_here] using hdh
          · simpa [hc] using hdh
        obtain ⟨v, hv⟩ := hd leg L hL hdL
        refine ⟨v, ?_⟩
        by_cases hc : leg = r
        · simp [hc, hv]
        · simp [hc, hv]
      · by_cases h2 : leg = s.legs.length
        · subst h2
          rw [hA] at hleg
          have el := Option.some.inj hleg
          subst el
          exact ⟨_, rfl⟩
        · have h3 : leg = s.legs.length + 1 := by omega
          subst h3
          rw [hB] at hleg
          have el := Option.some.inj hleg
          subst el
          simp [data_here, LegFlags.zero] at hdh

/-- The leg records with DATA_HERE set still store a covariance after
`addleg_`. -/
theorem addleg_data (s : State K) (hw : WF s) (hd : DataStored s) (fr to_ : NodePtr)
    (dx dy dz vx vy vz cyz czx cxy : K) (leg_flags : LegFlags) (s' : State K)
    (h : addleg_ s fr to_ dx dy dz vx vy vz cyz czx cxy leg_flags = some s') :
    DataStored s' := by
  cases hnf : s.nodes[fr]? with
  | none => simp [addleg_, State.getNode, hnf] at h
  | some nf =>
    cases hnt : s.nodes[to_]? with
    | none => simp [addleg_, State.getNode, hnf, hnt] at h
    | some nt =>
      by_cases hne : nf.name = nt.name
      · simp [addleg_, State.getNode, hnf, hnt, hne] at h
      · obtain ⟨s1, fr', i, s2, to', j, s'', nf2, nt2, e1, e2, e3, -, -, -, -, -, -, -, -, -, -,
          -, -, -, hA, hB, hloth, -⟩ :=
          addleg_wf s hw fr to_ nf nt hnf hnt hne dx dy dz vx vy vz cyz czx cxy leg_flags
        rw [h] at e3
        cases e3
        have hw0 : WF ({ s with legs := s.legs ++ [{}] ++ [{}] } : State K) := by
          have := WF_newLegs s hw [({} : linkfor K), ({} : linkfor K)]
          simpa using this
        have hd0 : DataStored ({ s with legs := s.legs ++ [{}] ++ [{}] } : State K) := by
          intro (leg : Nat) l hleg hdh
          have hleg : (s.legs ++ [({} : linkfor K)] ++ [({} : linkfor K)])[leg]? = some l := hleg
          by_cases h1 : leg < s.legs.length
          · rw [List.append_assoc, List.getElem?_append_left h1] at hleg
            exact hd leg l hleg hdh
          · have hlt : leg < s.legs.length + 2 := by
              have := lt_of_getElem? hleg
              simpa using this
            have hb : l = {} := by
              have h2 := getElem?_append_two s.legs ({} : linkfor K) ({} : linkfor K)
              rw [List.append_assoc] at hleg
              by_cases h3 : leg = s.legs.length
              · subst h3
                exact (Option.some.inj (hleg.symm.trans h2.1))
              · have h4 : leg = s.legs.length + 1 := by omega
                subst h4
                exact (Option.some.inj (hleg.symm.trans h2.2))
            subst hb
            simp [data_here, LegFlags.zero] at hdh
        obtain ⟨-, hw1, -⟩ := freeleg_slots _ hw0 fr s1 fr' i e1
        have hd1 := freeleg_data _ hw0 hd0 fr s1 fr' i e1
        have hd2 := freeleg_data s1 hw1 hd1 to_ s2 to' j e2
        intro leg l hleg hdh
        by_cases h1 : leg = s.legs.length
        · subst h1
          rw [hA] at hleg
          have el := Option.some.inj hleg
          subst el
          exact ⟨_, rfl⟩
        · by_cases h2 : leg = s.legs.length + 1
          · subst h2
            rw [hB] at hleg
            have el := Option.some.inj hleg
            subst el
            simp [data_here, LegFlags.zero] at hdh
          · rw [hloth leg h1 h2] at hleg
            exact hd2 leg l hleg hdh

/-- The chain of parents of a name reads the `up` members only. -/
theorem UpChain_congr (s s' : State K)
    (h : ∀ (p : PfxPtr) (px : Prefix), s.pfxs[p]? = some px →
      ∃ px' : Prefix, s'.pfxs[p]? = some px' ∧ px'.up = px.up)
    (us : List PfxPtr) : ∀ p : PfxPtr, UpChain s p us → UpChain s' p us := by
  induction us with
  | nil =>
    rintro p ⟨x, hx, hu⟩
    obtain ⟨x', hx', hu'⟩ := h p x hx
    exact ⟨x', hx', hu'.trans hu⟩
  | cons u us ih =>
    rintro p ⟨⟨x, hx, hu⟩, hc⟩
    obtain ⟨x', hx', hu'⟩ := h p x hx
    exact ⟨⟨x', hx', hu'.trans hu⟩, ih u hc⟩

/-- A station with a name is an object. -/
theorem node_of_nameOf (s : State K) (x : NodePtr) (h : nameOf s x ≠ none) :
    ∃ nd : node, s.nodes[x]? = some nd := by
  cases hnd : s.nodes[x]? with
  | none => simp [nameOf, hnd] at h
  | some nd => exact ⟨nd, rfl⟩

theorem nameOf_congr (s s' : State K) (h : s'.nodes = s.nodes) (x : NodePtr) :
    nameOf s' x = nameOf s x := by
  simp [nameOf, h]

theorem posOf_congr (s s' : State K) (h : s'.nodes = s.nodes) (h3 : s'.pfxs = s.pfxs)
    (x : NodePtr) : posOf s' x = posOf s x := by
  simp [posOf, nameOf, namePos, h, h3]

/-- The invariants of a graph of never-fixed stations read the stations, the leg
records, the names, the positions, the list head and the cursor only. -/
theorem Tidy_congr (s s' : State K) (ht : Tidy s) (h1 : s'.nodes = s.nodes)
    (h2 : s'.legs = s.legs) (h3 : s'.pfxs = s.pfxs) (h4 : s'.poss = s.poss)
    (h5 : s'.stnlist = s.stnlist) (h6 : s'.stn_iter = s.stn_iter) : Tidy s' := by
  have hE : ∀ x y, EquateLeg s' x y ↔ EquateLeg s x y := EquateLeg_congr s s' h1 h2
  have hEq : EquateLeg s' = EquateLeg s := by
    funext x y
    exact propext (hE x y)
  refine ⟨WF_congr s s' ht.wf h1 h2 h3 h5 h6, Packed_congr s s' ht.packed h1, ?_, ?_, ?_, ?_, ?_,
    ?_, ?_⟩
  · intro leg l hl hd
    rw [h2] at hl
    exact ht.data leg l hl hd
  · intro p px hp
    rw [h3] at hp
    exact ht.unfixed p px hp
  · intro p px q hp hq
    rw [h3] at hp
    rw [h4]
    exact ht.alive p px q hp hq
  · intro p px hp
    rw [h3] at hp
    exact ht.stn_pos p px hp
  · intro p px hp
    rw [h3] at hp
    obtain ⟨us, hus⟩ := ht.names p px hp
    refine ⟨us, UpChain_congr s s' ?_ us p hus⟩
    intro q qx hq
    exact ⟨qx, by rw [h3]; exact hq, rfl⟩
  · intro x y hxy
    rw [posOf_congr s s' h1 h3, posOf_congr s s' h1 h3]
    exact ht.same x y ((hE x y).mp hxy)
  · intro x y hx hy hxy
    rw [hEq]
    rw [nameOf_congr s s' h1] at hx hy
    rw [posOf_congr s s' h1 h3, posOf_congr s s' h1 h3] at hxy
    exact ht.conn x y hx hy hxy

/-- On a graph of never-fixed stations, the name of a station has a position
that is an object. -/
theorem Tidy_station_pos (s : State K) (ht : Tidy s) (x : NodePtr) (nd : node)
    (hx : s.nodes[x]? = some nd) :
    ∃ (p : PfxPtr) (px : Prefix) (q : PosPtr) (P : pos K), nd.name = some p ∧
      s.pfxs[p]? = some px ∧ px.pos = some q ∧ s.poss[q]? = some (some P) ∧
      nameOf s x = some p ∧ posOf s x = some q := by
  obtain ⟨p, px, m, hn, hp, hm⟩ := ht.wf.name x nd hx
  cases hq : px.pos with
  | none =>
    have := (ht.stn_pos p px hp).mpr hq
    rw [hm] at this
    cases this
  | some q =>
    obtain ⟨P, hP⟩ := ht.alive p px q hp hq
    refine ⟨p, px, q, P, hn, hp, hq, hP, ?_, ?_⟩
    · rw [nameOf_lookup s x nd hx, hn]
    · simp [posOf, namePos, nameOf_lookup s x nd hx, hn, hp, hq]

/-- `StnFromPfx` keeps the invariants of a graph of never-fixed stations, and
the station it returns carries the name. -/
theorem StnFromPfx_tidy (s : State K) (ht : Tidy s) (name : PfxPtr) (s' : State K)
    (stn : NodePtr) (h : StnFromPfx s name = some (s', stn)) :
    Tidy s' ∧ (∃ nd : node, s'.nodes[stn]? = some nd ∧ nd.name = some name) ∧
    (∀ x y : NodePtr, EquateLeg s x y → EquateLeg s' x y) ∧
    (∀ x : NodePtr, nameOf s x ≠ none → nameOf s' x = nameOf s x) ∧
    (∀ (p : PfxPtr) (px : Prefix), s.pfxs[p]? = some px → px.pos ≠ none →
      s'.pfxs[p]? = some px) := by
  cases hx : s.pfxs[name]? with
  | none => simp [StnFromPfx, State.getPfx, hx] at h
  | some x =>
    cases hstn : x.stn with
    | some st =>
      rw [StnFromPfx_old s name x st hx hstn] at h
      cases h
      exact ⟨ht, ht.wf.stn name x _ hx hstn, fun _ _ h => h, fun _ _ => rfl, fun _ _ h _ => h⟩
    | none =>
      have hpos : x.pos = none := (ht.stn_pos name x hx).mp hstn
      have hiter : s.stn_iter ≠ some s.nodes.length := by
        intro e
        exact absurd (ht.wf.iter _ e) (Nat.lt_irrefl _)
      obtain ⟨s'', e, nlen, hN, hq, hlegs, hpfx, hposs, -⟩ :=
        StnFromPfx_new s name x hx hstn hiter ht.wf.head
      rw [h] at e
      cases e
      simp only [hpos, if_true] at hpfx hposs
      obtain ⟨hw', hp'⟩ := StnFromPfx_keeps s ht.wf ht.packed name s' _ h
      have hnlt : name < s.pfxs.length := lt_of_getElem? hx
      have hpn : s'.pfxs[name]? =
          some { x with pos := some s.poss.length, fixed := false, stn := some s.nodes.length } := by
        rw [hpfx, List.getElem?_set_self hnlt]
      have hpo : ∀ p : PfxPtr, p ≠ name → s'.pfxs[p]? = s.pfxs[p]? := by
        intro p hp
        rw [hpfx, List.getElem?_set_ne (Ne.symm hp)]
      have hold : ∀ (q : NodePtr) (nd : node), s.nodes[q]? = some nd →
          ∃ nd' : node, s'.nodes[q]? = some nd' ∧ nd'.name = nd.name ∧ nd'.leg = nd.leg := by
        intro q nd hnd
        exact ⟨_, hq q nd hnd, rfl, rfl⟩
      have hold2 : ∀ (q : NodePtr) (nd : node), s.nodes[q]? = some nd →
          ∃ nd' : node, s'.nodes[q]? = some nd' ∧ nd'.leg = nd.leg := by
        intro q nd hnd
        exact ⟨_, hq q nd hnd, rfl⟩
      have hnew : ∀ (q : NodePtr) (nd' : node), s'.nodes[q]? = some nd' →
          s.nodes.length ≤ q → nd'.leg = fun _ => none := by
        intro q nd' hnd' hle
        have hlt : q < s.nodes.length + 1 := nlen ▸ lt_of_getElem? hnd'
        have e : q = s.nodes.length := Nat.le_antisymm (Nat.lt_succ_iff.mp hlt) hle
        subst e
        rw [hN] at hnd'
        cases hnd'
        rfl
      have hEb : ∀ x y : NodePtr, EquateLeg s' x y → EquateLeg s x y :=
        EquateLeg_stations s s' hlegs hold2 hnew
      have hEf : ∀ x y : NodePtr, EquateLeg s x y → EquateLeg s' x y := by
        rintro x y ⟨nd, d, leg, l, h1, h2, h3, h4, h5⟩
        refine ⟨_, d, leg, l, hq x nd h1, h2, by rw [hlegs]; exact h3, h4, ?_⟩
        rw [(equated_leg_stations s s' hlegs hold2 hnew leg).2]
        exact h5
      have hnoname : ∀ (q : NodePtr) (nd : node), s.nodes[q]? = some nd →
          nd.name ≠ some name := by
        intro q nd hnd hc
        obtain ⟨p, px, m, hn, hp, hm⟩ := ht.wf.name q nd hnd
        rw [hc] at hn
        cases hn
        rw [hx] at hp
        cases hp
        rw [hstn] at hm
        cases hm
      have hposold : ∀ (q : NodePtr) (nd : node), s.nodes[q]? = some nd →
          nameOf s' q = nameOf s q ∧ posOf s' q = posOf s q ∧
          ∃ r : PosPtr, posOf s q = some r ∧ r < s.poss.length := by
        intro q nd hnd
        obtain ⟨p, px, r, P, hn, hp, hr, hP, hnm, hps⟩ := Tidy_station_pos s ht q nd hnd
        have hne : p ≠ name := by
          rintro rfl
          exact hnoname q nd hnd hn
        have h1 : nameOf s' q = nameOf s q := by
          rw [nameOf_lookup s' q _ (hq q nd hnd), nameOf_lookup s q nd hnd]
        refine ⟨h1, ?_, r, hps, lt_of_getElem? hP⟩
        rw [hps]
        simp [posOf, h1, hnm, namePos, hpo p hne, hp, hr]
      have hnamenew : nameOf s' s.nodes.length = some name := by
        rw [nameOf_lookup s' _ _ hN]
      have hposnew : posOf s' s.nodes.length = some s.poss.length := by
        simp [posOf, hnamenew, namePos, hpn]
      have hcase : ∀ (q : NodePtr), nameOf s' q ≠ none →
          (∃ nd : node, s.nodes[q]? = some nd) ∨ q = s.nodes.length := by
        intro q hq'
        by_cases hlt : q < s.nodes.length
        · exact Or.inl (exists_of_lt hlt)
        · right
          cases hnd : s'.nodes[q]? with
          | none => simp [nameOf, hnd] at hq'
          | some nd' =>
            have hlt2 : q < s.nodes.length + 1 := nlen ▸ lt_of_getElem? hnd
            exact Nat.le_antisymm (Nat.lt_succ_iff.mp hlt2) (Nat.le_of_not_lt hlt)
      refine ⟨⟨hw', hp', ?_, ?_, ?_, ?_, ?_, ?_, ?_⟩, ⟨_, hN, rfl⟩, hEf, ?_, ?_⟩
      rotate_left 7
      · intro q hq'
        obtain ⟨nd, hnd⟩ := node_of_nameOf s q hq'
        exact (hposold q nd hnd).1
      · intro p px hp hpp
        have hpe : p ≠ name := by
          rintro rfl
          rw [hx] at hp
          cases hp
          exact hpp hpos
        rw [hpo p hpe]
        exact hp
      · intro leg l hl hd
        rw [hlegs] at hl
        exact ht.data leg l hl hd
      · intro p px hp
        by_cases hpe : p = name
        · subst hpe
          rw [hpn] at hp
          cases hp
          rfl
        · rw [hpo p hpe] at hp
          exact ht.unfixed p px hp
      · intro p px q hp hq'
        by_cases hpe : p = name
        · subst hpe
          rw [hpn] at hp
          cases hp
          cases hq'
          exact ⟨{}, by rw [hposs]; simp⟩
        · rw [hpo p hpe] at hp
          obtain ⟨P, hP⟩ := ht.alive p px q hp hq'
          refine ⟨P, ?_⟩
          rw [hposs, List.getElem?_append_left (lt_of_getElem? hP)]
          exact hP
      · intro p px hp
        by_cases hpe : p = name
        · subst hpe
          rw [hpn] at hp
          cases hp
          simp
        · rw [hpo p hpe] at hp
          exact ht.stn_pos p px hp
      · intro p px hp
        have hup : ∀ (p : PfxPtr) (px : Prefix), s.pfxs[p]? = some px →
            ∃ px' : Prefix, s'.pfxs[p]? = some px' ∧ px'.up = px.up := by
          intro p px hp
          by_cases hpe : p = name
          · subst hpe
            rw [hx] at hp
            cases hp
            exact ⟨_, hpn, rfl⟩
          · exact ⟨px, by rw [hpo p hpe]; exact hp, rfl⟩
        by_cases hpe : p = name
        · subst hpe
          obtain ⟨us, hus⟩ := ht.names p x hx
          exact ⟨us, UpChain_congr s s' hup us p hus⟩
        · rw [hpo p hpe] at hp
          obtain ⟨us, hus⟩ := ht.names p px hp
          exact ⟨us, UpChain_congr s s' hup us p hus⟩
      · intro a b hab
        have hab0 := hEb a b hab
        obtain ⟨nd, d, leg, l, h1, -⟩ := hab0
        have hb0 := EquateLeg_symm s ht.wf a b (hEb a b hab)
        obtain ⟨nd2, d2, leg2, l2, h2, -⟩ := hb0
        rw [(hposold a nd h1).2.1, (hposold b nd2 h2).2.1]
        exact ht.same a b (hEb a b hab)
      · intro a b ha hb hab
        rcases hcase a ha with ⟨nd, h1⟩ | rfl
        · rcases hcase b hb with ⟨nd2, h2⟩ | rfl
          · rw [(hposold a nd h1).2.1, (hposold b nd2 h2).2.1] at hab
            have hna : nameOf s a ≠ none := by rw [← (hposold a nd h1).1]; exact ha
            have hnb : nameOf s b ≠ none := by rw [← (hposold b nd2 h2).1]; exact hb
            exact path_lift s s' (fun x y hxy => Relation.ReflTransGen.single (hEf x y hxy)) a b
              (ht.conn a b hna hnb hab)
          · obtain ⟨-, e1, r, hr, hrlt⟩ := hposold a nd h1
            rw [e1, hr, hposnew] at hab
            cases hab
            exact absurd hrlt (Nat.lt_irrefl _)
        · rcases hcase b hb with ⟨nd2, h2⟩ | rfl
          · obtain ⟨-, e1, r, hr, hrlt⟩ := hposold b nd2 h2
            rw [e1, hr, hposnew] at hab
            cases hab
            exact absurd hrlt (Nat.lt_irrefl _)
          · exact Relation.ReflTransGen.refl

theorem Tidy_named (s : State K) (ht : Tidy s) : Named s :=
  ⟨ht.unfixed, ht.alive, ht.stn_pos, ht.names⟩

/-- The facts about the names carry over to a state with the same positions
whose names have the members they had. -/
theorem Named_fields (s s' : State K) (hn : Named s) (hposs : s'.poss = s.poss)
    (hlen : s'.pfxs.length = s.pfxs.length)
    (hpfx : ∀ (p : PfxPtr) (px : Prefix), s.pfxs[p]? = some px →
      ∃ px' : Prefix, s'.pfxs[p]? = some px' ∧ px'.stn = px.stn ∧ px'.up = px.up ∧
        px'.ident = px.ident ∧ px'.pos = px.pos ∧ px'.fixed = px.fixed) : Named s' := by
  have hback : ∀ (p : PfxPtr) (px' : Prefix), s'.pfxs[p]? = some px' →
      ∃ px : Prefix, s.pfxs[p]? = some px ∧ px'.stn = px.stn ∧ px'.up = px.up ∧
        px'.pos = px.pos ∧ px'.fixed = px.fixed := by
    intro p px' hp
    have hlt : p < s.pfxs.length := hlen ▸ lt_of_getElem? hp
    obtain ⟨px, hpx⟩ := exists_of_lt hlt
    obtain ⟨px2, h1, h2, h3, -, h4, h5⟩ := hpfx p px hpx
    rw [hp] at h1
    cases h1
    exact ⟨px, hpx, h2, h3, h4, h5⟩
  refine ⟨?_, ?_, ?_, ?_⟩
  · intro p px' hp
    obtain ⟨px, hpx, -, -, -, h5⟩ := hback p px' hp
    rw [h5]
    exact hn.unfixed p px hpx
  · intro p px' q hp hq
    obtain ⟨px, hpx, -, -, h4, -⟩ := hback p px' hp
    rw [hposs]
    exact hn.alive p px q hpx (h4 ▸ hq)
  · intro p px' hp
    obtain ⟨px, hpx, h2, -, h4, -⟩ := hback p px' hp
    rw [h2, h4]
    exact hn.stn_pos p px hpx
  · intro p px' hp
    obtain ⟨px, hpx, -⟩ := hback p px' hp
    obtain ⟨us, hus⟩ := hn.names p px hpx
    refine ⟨us, UpChain_congr s s' ?_ us p hus⟩
    intro q qx hq
    obtain ⟨qx', h1, -, h3, -⟩ := hpfx q qx hq
    exact ⟨qx', h1, h3⟩

theorem posOf_eq (s : State K) (x : NodePtr) : posOf s x = (nameOf s x).bind (namePos s) := rfl

/-- The invariants of a graph of never-fixed stations after a growth of the
zero-covariance legs: the new legs join names with the same position pointer,
and stations that had names with the same position pointer are joined by the
zero-covariance legs there are now. -/
theorem grows_tidy (X : Option PfxPtr → Option PfxPtr → Prop) (s s' : State K)
    (hg : Grows X s s') (hw' : WF s') (hp' : Packed s') (hd' : DataStored s') (hn' : Named s')
    (hsame : ∀ x y : NodePtr, EquateLeg s x y → posOf s x = posOf s y)
    (hX : ∀ a b : Option PfxPtr, X a b → a.bind (namePos s) = b.bind (namePos s))
    (hconn : ∀ x y : NodePtr, nameOf s x ≠ none → nameOf s y ≠ none → posOf s x = posOf s y →
      Relation.ReflTransGen (EquateLeg s') x y) : Tidy s' := by
  have hpos : namePos s' = namePos s := funext hg.pos
  refine ⟨hw', hp', hd', hn'.unfixed, hn'.alive, hn'.stn_pos, hn'.names, ?_, ?_⟩
  · intro x y hxy
    rw [posOf_eq, posOf_eq, hpos]
    rcases hg.sound x y hxy with h | h | ⟨x0, y0, he, hx0, hy0⟩
    · rw [h]
    · exact hX _ _ h
    · rw [← hx0, ← hy0]
      exact hsame x0 y0 he
  · intro x y hx hy hxy
    obtain ⟨x0, hx0, px⟩ := hg.twin x hx
    obtain ⟨y0, hy0, py⟩ := hg.twin y hy
    rw [posOf_eq, posOf_eq, hpos, ← hx0, ← hy0] at hxy
    have h0 := hconn x0 y0 (by rw [hx0]; exact hx) (by rw [hy0]; exact hy) hxy
    exact ((path_symm s' hw' x0 x px).trans h0).trans py

/-- `addleg_` with a covariance that is not all zeros keeps the invariants of a
graph of never-fixed stations. -/
theorem addleg_tidy (s : State K) (ht : Tidy s) (fr to_ : NodePtr)
    (dx dy dz vx vy vz cyz czx cxy : K) (leg_flags : LegFlags) (s' : State K)
    (hz : fZeros ![vx, vy, vz, cxy, czx, cyz] = false)
    (h : addleg_ s fr to_ dx dy dz vx vy vz cyz czx cxy leg_flags = some s') : Tidy s' := by
  obtain ⟨hw', hg, -, -, -, -, hposs, hpfx, hlen⟩ :=
    addleg_grows s ht.wf fr to_ dx dy dz vx vy vz cyz czx cxy leg_flags s' h
  obtain ⟨-, hp'⟩ := addleg_keeps s ht.wf ht.packed fr to_ dx dy dz vx vy vz cyz czx cxy
    leg_flags s' h
  have hd' := addleg_data s ht.wf ht.data fr to_ dx dy dz vx vy vz cyz czx cxy leg_flags s' h
  refine grows_tidy _ s s' hg hw' hp' hd' (Named_fields s s' (Tidy_named s ht) hposs hlen hpfx)
    ht.same ?_ ?_
  · rintro a b ⟨hc, -⟩
    rw [hz] at hc
    cases hc
  · intro x y hx hy hxy
    exact path_lift s s' hg.lift x y (ht.conn x y hx hy hxy)

/-- `addlegbyname` with a covariance that is not all zeros keeps the invariants
of a graph of never-fixed stations. -/
theorem addlegbyname_tidy (s : State K) (ht : Tidy s) (fr_name to_name : PfxPtr)
    (fToFirst : Bool) (dx dy dz vx vy vz cyz czx cxy : K) (s' : State K)
    (hz : fZeros ![vx, vy, vz, cxy, czx, cyz] = false)
    (h : addlegbyname s fr_name to_name fToFirst dx dy dz vx vy vz cyz czx cxy = some s') :
    Tidy s' := by
  by_cases hne : to_name = fr_name
  · simp only [addlegbyname, hne, if_true] at h
    cases hs : sprint_prefix s fr_name with
    | none =>
      rw [hs] at h
      exact Option.noConfusion h
    | some str =>
      rw [hs] at h
      have e : s' = compile_error s 50 [str] := (Option.some.inj h).symm
      subst e
      exact Tidy_congr s _ ht rfl rfl rfl rfl rfl rfl
  · cases hst : addlegbyname_stations s fr_name to_name fToFirst with
    | none => simp [addlegbyname, hne, hst] at h
    | some r =>
      obtain ⟨s0, fr, to_⟩ := r
      rw [addlegbyname_eq s s0 fr_name to_name fToFirst fr to_ dx dy dz vx vy vz cyz czx cxy
        (fun e => hne e.symm) hst] at h
      have h0 : Tidy s0 := by
        by_cases hf : fToFirst = true
        · simp only [addlegbyname_stations, hf, if_true] at hst
          cases ha : StnFromPfx s to_name with
          | none => simp [ha] at hst
          | some ra =>
            obtain ⟨sa, t⟩ := ra
            obtain ⟨hta, -⟩ := StnFromPfx_tidy s ht to_name sa t ha
            cases hb : StnFromPfx sa fr_name with
            | none => simp [ha, hb] at hst
            | some rb =>
              obtain ⟨sb, f⟩ := rb
              simp [ha, hb] at hst
              obtain ⟨e, -, -⟩ := hst
              subst e
              exact (StnFromPfx_tidy sa hta fr_name sb f hb).1
        · simp only [addlegbyname_stations, hf] at hst
          cases ha : StnFromPfx s fr_name with
          | none => simp [ha] at hst
          | some ra =>
            obtain ⟨sa, t⟩ := ra
            obtain ⟨hta, -⟩ := StnFromPfx_tidy s ht fr_name sa t ha
            cases hb : StnFromPfx sa to_name with
            | none => simp [ha, hb] at hst
            | some rb =>
              obtain ⟨sb, f⟩ := rb
              simp [ha, hb] at hst
              obtain ⟨e, -, -⟩ := hst
              subst e
              exact (StnFromPfx_tidy sa hta to_name sb f hb).1
      exact addleg_tidy { s0 with cLegs := s0.cLegs + 1 }
        (Tidy_congr s0 _ h0 rfl rfl rfl rfl rfl rfl) fr to_ _ _ _ _ _ _ _ _ _ _ s' hz h

/-- The position pointers along a path of zero-covariance legs are equal. -/
theorem path_same (s : State K) (hsame : ∀ x y : NodePtr, EquateLeg s x y → posOf s x = posOf s y)
    (x y : NodePtr) (h : Relation.ReflTransGen (EquateLeg s) x y) : posOf s x = posOf s y := by
  induction h with
  | refl => rfl
  | tail _ hbc ih => exact ih.trans (hsame _ _ hbc)

/-- The names after the traversal of `replace_pfx` on a graph of never-fixed
stations and the release of the old position (state `S`): a name keeps its
members but for its position pointer, which is that of `pfx_with` when the
name has a station joined to the station of `pfx_replace` by zero-covariance
legs, and as before otherwise; in the second case it is not the old position
of `pfx_replace`. -/
theorem replace_names (s : State K) (ht : Tidy s) (R : PfxPtr) (yr yw : Prefix)
    (hR : s.pfxs[R]? = some yr)
    (root : NodePtr) (hroot : yr.stn = some root)
    (fuel : Nat) (s3 : State K)
    (h : replace_pfx_ yr.pos yw.pos fuel s root none = some s3)
    (S : State K) (h3 : S.pfxs = s3.pfxs) :
    (∀ (p : PfxPtr) (px : Prefix), s.pfxs[p]? = some px →
      ∃ px' : Prefix, S.pfxs[p]? = some px' ∧ px'.stn = px.stn ∧ px'.up = px.up ∧
        px'.fixed = px.fixed ∧
        (((∃ (y : NodePtr) (nd : node), Relation.ReflTransGen (EquateLeg s) root y ∧
            s.nodes[y]? = some nd ∧ nd.name = some p) ∧ px'.pos = yw.pos) ∨
          ((¬ ∃ (y : NodePtr) (nd : node), Relation.ReflTransGen (EquateLeg s) root y ∧
            s.nodes[y]? = some nd ∧ nd.name = some p) ∧ px'.pos = px.pos ∧
            px.pos ≠ yr.pos))) ∧
    S.pfxs.length = s.pfxs.length ∧
    (∀ x : NodePtr, nameOf s x ≠ none → posOf s x = yr.pos →
      Relation.ReflTransGen (EquateLeg s) root x) ∧
    (∀ x : NodePtr, Relation.ReflTransGen (EquateLeg s) root x → posOf s x = yr.pos) := by
  have hstep : PosStep s s3 yw.pos := replace_pfx__frame yr.pos yw.pos fuel s root none s3 h
  obtain ⟨hin, hout⟩ := replace_pfx__exact s ht.packed yr.pos yw.pos fuel root s3 h
  obtain ⟨nr, hnr, hnrn⟩ := ht.wf.stn R yr root hR hroot
  have hnameroot : nameOf s root = some R := by rw [nameOf_lookup s root nr hnr, hnrn]
  have hposroot : posOf s root = yr.pos := by
    simp [posOf, hnameroot, namePos, hR]
  have hCpos : ∀ x : NodePtr, Relation.ReflTransGen (EquateLeg s) root x →
      posOf s x = yr.pos := by
    intro x hx
    rw [← path_same s ht.same root x hx]
    exact hposroot
  have hposC : ∀ x : NodePtr, nameOf s x ≠ none → posOf s x = yr.pos →
      Relation.ReflTransGen (EquateLeg s) root x := by
    intro x hx hp
    exact ht.conn root x (by rw [hnameroot]; exact Option.some_ne_none R) hx (hposroot.trans hp.symm)
  refine ⟨?_, by rw [h3]; exact hstep.len, hposC, hCpos⟩
  intro p px hp
  by_cases hc : ∃ (y : NodePtr) (nd : node), Relation.ReflTransGen (EquateLeg s) root y ∧
      s.nodes[y]? = some nd ∧ nd.name = some p
  · obtain ⟨y, nd, hy, hnd, hn⟩ := hc
    refine ⟨{ px with pos := yw.pos }, ?_, rfl, rfl, rfl, Or.inl ⟨⟨y, nd, hy, hnd, hn⟩, rfl⟩⟩
    rw [h3]
    exact hin y nd p px hy hnd hn hp
  · refine ⟨px, ?_, rfl, rfl, rfl, Or.inr ⟨hc, rfl, ?_⟩⟩
    · rw [h3]
      exact hout p px hp hc
    · intro hpe
      cases hm : px.stn with
      | none =>
        have := (ht.stn_pos p px hp).mp hm
        rw [hpe] at this
        have h2 := (ht.stn_pos R yr hR).mpr this
        rw [hroot] at h2
        cases h2
      | some m =>
        obtain ⟨nm, hnm, hnmn⟩ := ht.wf.stn p px m hp hm
        have hnamem : nameOf s m = some p := by rw [nameOf_lookup s m nm hnm, hnmn]
        have hposm : posOf s m = yr.pos := by
          simp [posOf, hnamem, namePos, hp, hpe]
        exact hc ⟨m, nm, hposC m (by rw [hnamem]; exact Option.some_ne_none p) hposm, hnm, hnmn⟩

/-- The graph after the traversal of `replace_pfx` on a graph of never-fixed
stations and the release of the old position (state `S`): it is well-formed
and packed with the same zero-covariance legs, no name points at the
position released, stations joined by a zero-covariance leg have the same
position pointer, the two names have the position pointer of `pfx_with`, and
two stations with the same position pointer were joined by zero-covariance
legs or are joined to the stations of the two names. -/
theorem replace_tidy (s : State K) (ht : Tidy s) (R W : PfxPtr) (yr yw : Prefix)
    (hR : s.pfxs[R]? = some yr) (hW : s.pfxs[W]? = some yw) (hne : yr.pos ≠ yw.pos)
    (root : NodePtr) (hroot : yr.stn = some root) (rootW : NodePtr) (hrootW : yw.stn = some rootW)
    (fuel : Nat) (s3 : State K)
    (h : replace_pfx_ yr.pos yw.pos fuel s root none = some s3)
    (S : State K) (h1 : S.nodes = s3.nodes) (h2 : S.legs = s3.legs) (h3 : S.pfxs = s3.pfxs)
    (h4 : S.poss = (osfree s3 yr.pos).poss) (h5 : S.stnlist = s3.stnlist)
    (h6 : S.stn_iter = s3.stn_iter) :
    WF S ∧ Packed S ∧ DataStored S ∧ Named S ∧
    (∀ x y : NodePtr, EquateLeg S x y ↔ EquateLeg s x y) ∧
    (∀ x : NodePtr, nameOf S x = nameOf s x) ∧
    (∀ x y : NodePtr, EquateLeg S x y → posOf S x = posOf S y) ∧
    (∀ (p : PfxPtr) (px : Prefix), S.pfxs[p]? = some px → px.pos ≠ yr.pos) ∧
    namePos S R = yw.pos ∧ namePos S W = yw.pos ∧
    (∀ x y : NodePtr, nameOf S x ≠ none → nameOf S y ≠ none → posOf S x = posOf S y →
      Relation.ReflTransGen (EquateLeg s) x y ∨
      (Relation.ReflTransGen (EquateLeg s) root x ∧
        Relation.ReflTransGen (EquateLeg s) rootW y) ∨
      (Relation.ReflTransGen (EquateLeg s) rootW x ∧
        Relation.ReflTransGen (EquateLeg s) root y)) := by
  have hstep : PosStep s s3 yw.pos := replace_pfx__frame yr.pos yw.pos fuel s root none s3 h
  obtain ⟨hnm, hlen, hposC, hCpos⟩ := replace_names s ht R yr yw hR root hroot fuel s3 h S h3
  have hn : S.nodes = s.nodes := h1.trans hstep.nodes
  have hl : S.legs = s.legs := h2.trans hstep.legs
  have hE : ∀ x y : NodePtr, EquateLeg S x y ↔ EquateLeg s x y := EquateLeg_congr s S hn hl
  have hname : ∀ x : NodePtr, nameOf S x = nameOf s x := nameOf_congr s S hn
  have hw3 : WF s3 := WF_PosStep s s3 yw.pos hstep ht.wf
  have hwS : WF S := WF_congr s3 S hw3 h1 h2 h3 h5 h6
  obtain ⟨pr, hpr⟩ : ∃ pr : PosPtr, yr.pos = some pr := by
    cases hq : yr.pos with
    | none =>
      have := (ht.stn_pos R yr hR).mpr hq
      rw [hroot] at this
      cases this
    | some pr => exact ⟨pr, rfl⟩
  obtain ⟨pw, hpw⟩ : ∃ pw : PosPtr, yw.pos = some pw := by
    cases hq : yw.pos with
    | none =>
      have := (ht.stn_pos W yw hW).mpr hq
      rw [hrootW] at this
      cases this
    | some pw => exact ⟨pw, rfl⟩
  obtain ⟨nr, hnr, hnrn⟩ := ht.wf.stn R yr root hR hroot
  obtain ⟨nw, hnw, hnwn⟩ := ht.wf.stn W yw rootW hW hrootW
  have hnameW : nameOf s rootW = some W := by rw [nameOf_lookup s rootW nw hnw, hnwn]
  have hposW : posOf s rootW = yw.pos := by
    simp [posOf, hnameW, namePos, hW]
  have hback : ∀ (p : PfxPtr) (px' : Prefix), S.pfxs[p]? = some px' →
      ∃ px : Prefix, s.pfxs[p]? = some px ∧ px'.stn = px.stn ∧ px'.up = px.up ∧
        px'.fixed = px.fixed ∧
        (((∃ (y : NodePtr) (nd : node), Relation.ReflTransGen (EquateLeg s) root y ∧
            s.nodes[y]? = some nd ∧ nd.name = some p) ∧ px'.pos = yw.pos) ∨
          ((¬ ∃ (y : NodePtr) (nd : node), Relation.ReflTransGen (EquateLeg s) root y ∧
            s.nodes[y]? = some nd ∧ nd.name = some p) ∧ px'.pos = px.pos ∧
            px.pos ≠ yr.pos)) := by
    intro p px' hp
    have hlt : p < s.pfxs.length := hlen ▸ lt_of_getElem? hp
    obtain ⟨px, hpx⟩ := exists_of_lt hlt
    obtain ⟨px2, e, r⟩ := hnm p px hpx
    rw [hp] at e
    cases e
    exact ⟨px, hpx, r⟩
  -- the position pointer of a station afterwards
  have hstation : ∀ x : NodePtr, nameOf s x ≠ none →
      (Relation.ReflTransGen (EquateLeg s) root x ∧ posOf S x = yw.pos) ∨
      (¬ Relation.ReflTransGen (EquateLeg s) root x ∧ posOf S x = posOf s x) := by
    intro x hx
    obtain ⟨nd, hnd⟩ := node_of_nameOf s x hx
    obtain ⟨p, px, q, P, hn1, hp, hq, -, hnx, hpx⟩ := Tidy_station_pos s ht x nd hnd
    obtain ⟨px', hp', -, -, -, hc⟩ := hnm p px hp
    have hpS : posOf S x = px'.pos := by
      simp [posOf, hname x, hnx, namePos, hp']
    rcases hc with ⟨⟨y, ndy, hy, hndy, hny⟩, hpos⟩ | ⟨hno, hpos, -⟩
    · left
      refine ⟨?_, hpS.trans hpos⟩
      have hnamey : nameOf s y = some p := by rw [nameOf_lookup s y ndy hndy, hny]
      have hyx : posOf s y = posOf s x := by
        simp [posOf, hnamey, hnx]
      exact hy.trans (ht.conn y x (by rw [hnamey]; exact Option.some_ne_none p) hx hyx)
    · right
      refine ⟨fun hcx => hno ⟨x, nd, hcx, hnd, hn1⟩, ?_⟩
      rw [hpS, hpos, hpx, hq]
  have hnamed : Named S := by
    refine ⟨?_, ?_, ?_, ?_⟩
    · intro p px' hp
      obtain ⟨px, hpx, -, -, hf, -⟩ := hback p px' hp
      rw [hf]
      exact ht.unfixed p px hpx
    · intro p px' q hp hq
      obtain ⟨px, hpx, -, -, -, hc⟩ := hback p px' hp
      have hq2 : q ≠ pr ∧ ∃ P : pos K, s.poss[q]? = some (some P) := by
        rcases hc with ⟨-, hpos⟩ | ⟨-, hpos, hne2⟩
        · rw [hq, hpw] at hpos
          have e : q = pw := Option.some.inj hpos
          subst e
          refine ⟨?_, ht.alive W yw q hW hpw⟩
          rintro rfl
          exact hne (hpr.trans hpw.symm)
        · rw [hq] at hpos
          refine ⟨?_, ht.alive p px q hpx hpos.symm⟩
          rintro rfl
          exact hne2 (hpos.symm.trans hpr.symm)
      obtain ⟨hqne, P, hP⟩ := hq2
      refine ⟨P, ?_⟩
      rw [h4, (osfree_fields s3 yr.pos).2.2.2.2.2.2.2.2.2 q (by rw [hpr]; exact fun e => hqne (Option.some.inj e).symm),
        hstep.poss]
      exact hP
    · intro p px' hp
      obtain ⟨px, hpx, hs, -, -, hc⟩ := hback p px' hp
      rcases hc with ⟨⟨y, ndy, -, hndy, hny⟩, hpos⟩ | ⟨-, hpos, -⟩
      · obtain ⟨p2, px2, m, e1, e2, e3⟩ := ht.wf.name y ndy hndy
        rw [hny] at e1
        cases e1
        rw [hpx] at e2
        cases e2
        rw [hs, e3, hpos, hpw]
        simp
      · rw [hs, hpos]
        exact ht.stn_pos p px hpx
    · intro p px' hp
      obtain ⟨px, hpx, -⟩ := hback p px' hp
      obtain ⟨us, hus⟩ := ht.names p px hpx
      refine ⟨us, UpChain_congr s S ?_ us p hus⟩
      intro q qx hq
      obtain ⟨qx', e1, -, e3, -⟩ := hnm q qx hq
      exact ⟨qx', e1, e3⟩
  have hdata : DataStored S := by
    intro leg l hleg hd
    rw [hl] at hleg
    exact ht.data leg l hleg hd
  have hnamedS : ∀ x : NodePtr, nameOf S x ≠ none → nameOf s x ≠ none := by
    intro x hx
    rw [← hname x]
    exact hx
  refine ⟨hwS, Packed_congr s S ht.packed hn, hdata, hnamed, hE, hname, ?_, ?_, ?_, ?_, ?_⟩
  · intro x y hxy
    have hxy0 := (hE x y).mp hxy
    have hx : nameOf s x ≠ none := by
      obtain ⟨d, e, hs⟩ := (EquateLeg_iff s x y).mp hxy0
      exact SlotLeg_named s ht.wf x d y e true hs
    have hy : nameOf s y ≠ none := by
      obtain ⟨d, e, hs⟩ := (EquateLeg_iff s y x).mp (EquateLeg_symm s ht.wf x y hxy0)
      exact SlotLeg_named s ht.wf y d x e true hs
    rcases hstation x hx with ⟨cx, px⟩ | ⟨cx, px⟩
    · rcases hstation y hy with ⟨-, py⟩ | ⟨cy, -⟩
      · rw [px, py]
      · exact absurd (cx.tail hxy0) cy
    · rcases hstation y hy with ⟨cy, -⟩ | ⟨-, py⟩
      · exact absurd (cy.tail (EquateLeg_symm s ht.wf x y hxy0)) cx
      · rw [px, py]
        exact ht.same x y hxy0
  · intro p px' hp
    obtain ⟨px, hpx, -, -, -, hc⟩ := hback p px' hp
    rcases hc with ⟨-, hpos⟩ | ⟨-, hpos, hne2⟩
    · rw [hpos]
      exact Ne.symm hne
    · rw [hpos]
      exact hne2
  · obtain ⟨px', hp', -, -, -, hc⟩ := hnm R yr hR
    rcases hc with ⟨-, hpos⟩ | ⟨hno, -⟩
    · simp [namePos, hp', hpos]
    · exact absurd ⟨root, nr, Relation.ReflTransGen.refl, hnr, hnrn⟩ hno
  · obtain ⟨px', hp', -, -, -, hc⟩ := hnm W yw hW
    rcases hc with ⟨-, hpos⟩ | ⟨-, hpos, -⟩
    · simp [namePos, hp', hpos]
    · simp [namePos, hp', hpos]
  · intro x y hx hy hxy
    have hx0 := hnamedS x hx
    have hy0 := hnamedS y hy
    rcases hstation x hx0 with ⟨cx, px⟩ | ⟨cx, px⟩
    · rcases hstation y hy0 with ⟨cy, -⟩ | ⟨cy, py⟩
      · exact Or.inl ((path_symm s ht.wf root x cx).trans cy)
      · right; left
        refine ⟨cx, ?_⟩
        rw [px, py] at hxy
        exact ht.conn rootW y (by rw [hnameW]; exact Option.some_ne_none W) hy0
          (hposW.trans hxy)
    · rcases hstation y hy0 with ⟨cy, py⟩ | ⟨cy, py⟩
      · right; right
        refine ⟨?_, cy⟩
        rw [px, py] at hxy
        exact ht.conn rootW x (by rw [hnameW]; exact Option.some_ne_none W) hx0
          (hposW.trans hxy.symm)
      · left
        rw [px, py] at hxy
        exact ht.conn x y hx0 hy0 hxy

theorem fZeros_zero : fZeros (![0, 0, 0, 0, 0, 0] : svar K) = true := by
  simp [fZeros, fZerosFrom, List.finRange]
  rfl

/-- `process_equate` keeps the invariants of a graph of never-fixed stations;
afterwards the two names have the same position pointer, every
zero-covariance leg there was is a path of such legs, and the stations have
the names they had. -/
theorem process_equate_paths (fuel : Nat) (s : State K) (ht : Tidy s) (a b : PfxPtr)
    (s' : State K) (h : process_equate fuel s a b = some s') :
    Tidy s' ∧ namePos s' a = namePos s' b ∧
    (∀ x y : NodePtr, EquateLeg s x y → Relation.ReflTransGen (EquateLeg s') x y) ∧
    (∀ x : NodePtr, nameOf s x ≠ none → nameOf s' x = nameOf s x) := by
  rcases process_equate_cases fuel s a b s' h with
    ⟨hab, str, -, hs'⟩ | ⟨hab, xa, xb, hxa, hxb, ⟨hpos, hs'⟩ | ⟨-, hm⟩⟩
  · subst hs'
    subst hab
    refine ⟨Tidy_congr s _ ht rfl rfl rfl rfl rfl rfl, rfl, ?_, fun _ _ => rfl⟩
    intro x y hxy
    exact Relation.ReflTransGen.single ((EquateLeg_congr s _ rfl rfl x y).mpr hxy)
  · subst hs'
    refine ⟨ht, ?_, fun x y hxy => Relation.ReflTransGen.single hxy, fun _ _ => rfl⟩
    simp [namePos, hxa, hxb, hpos]
  · obtain ⟨s1, sa, s2, sb, na, nb, ya, yb, e1, e2, hw2, hna, hnan, hnb, hnbn, hya, hyb, hc⟩ :=
      equate_merge_cases fuel s ht.wf a b hab xa xb hxa hxb s' hm
    obtain ⟨ht1, -, hE1, hk1, -⟩ := StnFromPfx_tidy s ht a s1 sa e1
    obtain ⟨ht2, -, hE2, hk2, -⟩ := StnFromPfx_tidy s1 ht1 b s2 sb e2
    rcases hc with ⟨-, -, hfa, -⟩ | ⟨m, R, W, yr, yw, s3, hRW, hyr, hyw, hne, ⟨root, hroot, hrep⟩,
      -, hwS, hadd⟩
    · rw [ht2.unfixed a ya hya] at hfa
      cases hfa
    · rcases hRW with ⟨rfl, rfl, -⟩ | ⟨-, -, hfa⟩
      · have htm : Tidy ({ s2 with msgs := m } : State K) :=
          Tidy_congr s2 _ ht2 rfl rfl rfl rfl rfl rfl
        obtain ⟨p2, px2, rootW, e1', e2', e3'⟩ := hw2.name sb nb hnb
        rw [hnbn] at e1'
        cases e1'
        rw [hyw] at e2'
        cases e2'
        have hf := osfree_fields s3 yr.pos
        obtain ⟨-, hpS, hdS, hnS, hE, hname, hsameS, -, hposR, hposW, hconnS⟩ :=
          replace_tidy ({ s2 with msgs := m } : State K) htm R W yr yw hyr hyw hne root hroot
            rootW e3' fuel s3 hrep
            { osfree s3 yr.pos with cLegs := (osfree s3 yr.pos).cLegs + 1 }
            hf.1 hf.2.1 hf.2.2.1 rfl hf.2.2.2.1 hf.2.2.2.2.1
        obtain ⟨hw', hg, hlink, -, -, -, hposs, hpfx, hlen⟩ :=
          addleg_grows _ hwS sa sb 0 0 0 0 0 0 0 0 0 FLAG_FAKE s' hadd
        obtain ⟨-, hp'⟩ := addleg_keeps _ hwS hpS sa sb 0 0 0 0 0 0 0 0 0 FLAG_FAKE s' hadd
        have hd' := addleg_data _ hwS hdS sa sb 0 0 0 0 0 0 0 0 0 FLAG_FAKE s' hadd
        have hn' := Named_fields _ s' hnS hposs hlen hpfx
        have hnsa : nameOf ({ s2 with msgs := m } : State K) sa = some R :=
          (nameOf_lookup ({ s2 with msgs := m } : State K) sa na hna).trans hnan
        have hnsb : nameOf ({ s2 with msgs := m } : State K) sb = some W :=
          (nameOf_lookup ({ s2 with msgs := m } : State K) sb nb hnb).trans hnbn
        obtain ⟨nr, hnr, hnrn⟩ := htm.wf.stn R yr root hyr hroot
        obtain ⟨nw, hnw, hnwn⟩ := htm.wf.stn W yw rootW hyw e3'
        have hnroot : nameOf ({ s2 with msgs := m } : State K) root = some R :=
          (nameOf_lookup ({ s2 with msgs := m } : State K) root nr hnr).trans hnrn
        have hnrootW : nameOf ({ s2 with msgs := m } : State K) rootW = some W :=
          (nameOf_lookup ({ s2 with msgs := m } : State K) rootW nw hnw).trans hnwn
        have hup : ∀ u v : NodePtr,
            Relation.ReflTransGen (EquateLeg ({ s2 with msgs := m } : State K)) u v →
            Relation.ReflTransGen (EquateLeg s') u v := by
          intro u v huv
          refine path_lift _ s' hg.lift u v (path_lift _ _ ?_ u v huv)
          intro x y hxy
          exact Relation.ReflTransGen.single ((hE x y).mpr hxy)
        have hroot_sa : Relation.ReflTransGen (EquateLeg s') root sa := by
          apply hup
          refine htm.conn root sa (by rw [hnroot]; exact Option.some_ne_none R)
            (by rw [hnsa]; exact Option.some_ne_none R) ?_
          simp [posOf, hnroot, hnsa]
        have hsb_rootW : Relation.ReflTransGen (EquateLeg s') sb rootW := by
          apply hup
          refine htm.conn sb rootW (by rw [hnsb]; exact Option.some_ne_none W)
            (by rw [hnrootW]; exact Option.some_ne_none W) ?_
          simp [posOf, hnrootW, hnsb]
        have hbridge : Relation.ReflTransGen (EquateLeg s') root rootW :=
          (hroot_sa.trans (hlink fZeros_zero)).trans hsb_rootW
        refine ⟨grows_tidy _ _ s' hg hw' hp' hd' hn' hsameS ?_ ?_, ?_, ?_, ?_⟩
        rotate_left 2
        · rw [hg.pos R, hg.pos W, hposR, hposW]
        · intro x y hxy
          exact hup x y (Relation.ReflTransGen.single (hE2 x y (hE1 x y hxy)))
        · intro x hx
          have h1 : nameOf s1 x = nameOf s x := hk1 x hx
          have h2 : nameOf s2 x = nameOf s1 x := hk2 x (by rw [h1]; exact hx)
          have h3 := hname x
          have h4 : nameOf ({ s2 with msgs := m } : State K) x = nameOf s2 x := rfl
          rw [hg.keep x (by rw [h3, h4, h2, h1]; exact hx), h3, h4, h2, h1]
        · rintro u v ⟨-, huv⟩
          rw [hname sa, hname sb, hnsa, hnsb] at huv
          rcases huv with ⟨rfl, rfl⟩ | ⟨rfl, rfl⟩
          · simp only [Option.some_bind]
            rw [hposR, hposW]
          · simp only [Option.some_bind]
            rw [hposR, hposW]
        · intro x y hx hy hxy
          rcases hconnS x y hx hy hxy with h0 | ⟨hx1, hy1⟩ | ⟨hx1, hy1⟩
          · exact hup x y h0
          · exact ((path_symm s' hw' root x (hup root x hx1)).trans hbridge).trans
              (hup rootW y hy1)
          · exact ((path_symm s' hw' rootW x (hup rootW x hx1)).trans
              (path_symm s' hw' root rootW hbridge)).trans (hup root y hy1)
      · rw [ht2.unfixed a ya hya] at hfa
        cases hfa

/-- `process_equate` keeps the invariants of a graph of never-fixed
stations. -/
theorem process_equate_tidy (fuel : Nat) (s : State K) (ht : Tidy s) (a b : PfxPtr)
    (s' : State K) (h : process_equate fuel s a b = some s') : Tidy s' :=
  (process_equate_paths fuel s ht a b s' h).1

/-- The empty graph has the invariants of a graph of never-fixed stations. -/
theorem EmptyGraph_tidy (s : State K) (h : EmptyGraph s) : Tidy s := by
  have hnone : ∀ x : NodePtr, s.nodes[x]? = none := by
    intro x
    rw [h.nodes]
    rfl
  have hE : ∀ x y : NodePtr, ¬ EquateLeg s x y := by
    rintro x y ⟨nd, d, leg, l, h1, -⟩
    rw [hnone x] at h1
    cases h1
  refine ⟨⟨?_, ?_, ?_, ?_, ?_⟩, ?_, ?_, ?_, ?_, ?_, ?_, ?_, ?_⟩
  · intro x hx
    rw [h.stnlist] at hx
    cases hx
  · intro x hx
    rw [h.stn_iter] at hx
    cases hx
  · intro q nd hq
    rw [hnone q] at hq
    cases hq
  · intro p px m hp hm
    rw [(h.names p px hp).1] at hm
    cases hm
  · intro q nd i lp hq
    rw [hnone q] at hq
    cases hq
  · intro q nd i j hq
    rw [hnone q] at hq
    cases hq
  · intro leg l hl
    rw [h.legs] at hl
    cases hl
  · intro p px hp
    exact (h.names p px hp).2.2.1
  · intro p px q hp hq
    rw [(h.names p px hp).2.1] at hq
    cases hq
  · intro p px hp
    rw [(h.names p px hp).1, (h.names p px hp).2.1]
  · intro p px hp
    exact (h.names p px hp).2.2.2
  · intro x y hxy
    exact absurd hxy (hE x y)
  · intro x y hx
    simp [nameOf, hnone x] at hx

/-- Every state reached from the empty graph by `StnFromPfx`, `addlegbyname`
with a covariance that is not all zeros, and `process_equate` has the
invariants of a graph of never-fixed stations. -/
theorem Surveyed_tidy (s : State K) (h : Surveyed s) : Tidy s := by
  induction h with
  | empty s he => exact EmptyGraph_tidy s he
  | stn s s' name stn _ hs ih => exact (StnFromPfx_tidy s ih name s' stn hs).1
  | leg s s' fr_name to_name fToFirst dx dy dz vx vy vz cyz czx cxy _ hz hs ih =>
    exact addlegbyname_tidy s ih fr_name to_name fToFirst dx dy dz vx vy vz cyz czx cxy s' hz hs
  | equate s s' fuel name1 name2 _ hs ih => exact process_equate_tidy fuel s ih name1 name2 s' hs

/-! ### Shared positions: the claims -/

/-- On a graph of never-fixed stations, the position pointer of a name that has
a station is the position pointer of each of its stations, and it points at a
position object. -/
theorem Tidy_name_pos (s : State K) (ht : Tidy s) (x : NodePtr) (a : PfxPtr)
    (hx : nameOf s x = some a) :
    ∃ (q : PosPtr) (P : pos K), namePos s a = some q ∧ posOf s x = some q ∧
      s.poss[q]? = some (some P) := by
  obtain ⟨nd, hnd⟩ := node_of_nameOf s x (by rw [hx]; exact Option.some_ne_none a)
  obtain ⟨p, px, q, P, -, -, -, hP, hn, hq⟩ := Tidy_station_pos s ht x nd hnd
  rw [hx] at hn
  cases hn
  refine ⟨q, P, ?_, hq, hP⟩
  rw [← hq]
  simp [posOf, hx]

/-- C22: in every state reached from the empty graph by `StnFromPfx`,
`addlegbyname` with a covariance that is not all zeros, and `process_equate`,
two stations joined by a zero-covariance leg have names that point at the same
position object; after `process_equate` on `a` and `b`, where `a` has a
station, both names point at one position object; and after a further
`process_equate` of a name `c` with the name `d` of a station joined to a
station of `a` by zero-covariance legs, `a`, `b` and `c` all point at one
position object. -/
theorem Surveyed_shares_positions (s : State K) (hs : Surveyed s) :
    (∀ x y : NodePtr, EquateLeg s x y →
      ∃ (q : PosPtr) (P : pos K), posOf s x = some q ∧ posOf s y = some q ∧
        s.poss[q]? = some (some P)) ∧
    (∀ (fuel : Nat) (a b : PfxPtr) (xa : Prefix) (s1 : State K),
      s.pfxs[a]? = some xa → xa.stn ≠ none → process_equate fuel s a b = some s1 →
      (∃ (q : PosPtr) (P : pos K), namePos s1 a = some q ∧ namePos s1 b = some q ∧
        s1.poss[q]? = some (some P)) ∧
      ∀ (fuel2 : Nat) (c d : PfxPtr) (x y : NodePtr) (s2 : State K),
        nameOf s1 x = some a → nameOf s1 y = some d →
        Relation.ReflTransGen (EquateLeg s1) x y →
        (process_equate fuel2 s1 c d = some s2 ∨ process_equate fuel2 s1 d c = some s2) →
        ∃ (q : PosPtr) (P : pos K), namePos s2 a = some q ∧ namePos s2 b = some q ∧
          namePos s2 c = some q ∧ s2.poss[q]? = some (some P)) := by
  have ht : Tidy s := Surveyed_tidy s hs
  refine ⟨?_, ?_⟩
  · intro x y hxy
    obtain ⟨d, e, hsl⟩ := (EquateLeg_iff s x y).mp hxy
    obtain ⟨nd, hnd⟩ := node_of_nameOf s x (SlotLeg_named s ht.wf x d y e true hsl)
    obtain ⟨p, px, q, P, -, -, -, hP, -, hq⟩ := Tidy_station_pos s ht x nd hnd
    exact ⟨q, P, hq, (ht.same x y hxy).symm.trans hq, hP⟩
  · intro fuel a b xa s1 hxa hstn h1
    obtain ⟨ht1, hab1, hlift1, hkeep1⟩ := process_equate_paths fuel s ht a b s1 h1
    obtain ⟨m, hm⟩ := Option.ne_none_iff_exists'.mp hstn
    obtain ⟨nm, hnm, hnmn⟩ := ht.wf.stn a xa m hxa hm
    have hma : nameOf s m = some a := (nameOf_lookup s m nm hnm).trans hnmn
    have hma1 : nameOf s1 m = some a := by
      rw [hkeep1 m (by rw [hma]; exact Option.some_ne_none a)]
      exact hma
    obtain ⟨q, P, hqa, hqm, hP⟩ := Tidy_name_pos s1 ht1 m a hma1
    refine ⟨⟨q, P, hqa, hab1 ▸ hqa, hP⟩, ?_⟩
    intro fuel2 c d x y s2 hx hy hxy h2
    have hcd : ∃ (u v : PfxPtr), process_equate fuel2 s1 u v = some s2 ∧
        ((u = c ∧ v = d) ∨ (u = d ∧ v = c)) := by
      rcases h2 with h2 | h2
      · exact ⟨c, d, h2, Or.inl ⟨rfl, rfl⟩⟩
      · exact ⟨d, c, h2, Or.inr ⟨rfl, rfl⟩⟩
    obtain ⟨u, v, h2', huv⟩ := hcd
    obtain ⟨ht2, huv2, hlift2, hkeep2⟩ := process_equate_paths fuel2 s1 ht1 u v s2 h2'
    have hcd2 : namePos s2 c = namePos s2 d := by
      rcases huv with ⟨rfl, rfl⟩ | ⟨rfl, rfl⟩
      · exact huv2
      · exact huv2.symm
    -- the station of `b` in `s1`
    have hb1 : ∃ mb : NodePtr, nameOf s1 mb = some b := by
      cases hxb : s1.pfxs[b]? with
      | none =>
        have hb := hab1.symm.trans hqa
        simp [namePos, hxb] at hb
      | some xb =>
        cases hsb : xb.stn with
        | none =>
          have := (ht1.stn_pos b xb hxb).mp hsb
          have hb := hab1.symm.trans hqa
          simp [namePos, hxb, this] at hb
        | some mb =>
          obtain ⟨nb, hnb, hnbn⟩ := ht1.wf.stn b xb mb hxb hsb
          exact ⟨mb, (nameOf_lookup s1 mb nb hnb).trans hnbn⟩
    obtain ⟨mb, hmb⟩ := hb1
    obtain ⟨qb, Pb, hqb, hqmb, -⟩ := Tidy_name_pos s1 ht1 mb b hmb
    have hx2 : nameOf s2 x = some a := by
      rw [hkeep2 x (by rw [hx]; exact Option.some_ne_none a)]
      exact hx
    have hy2 : nameOf s2 y = some d := by
      rw [hkeep2 y (by rw [hy]; exact Option.some_ne_none d)]
      exact hy
    have hmb2 : nameOf s2 mb = some b := by
      rw [hkeep2 mb (by rw [hmb]; exact Option.some_ne_none b)]
      exact hmb
    have hm2 : nameOf s2 m = some a := by
      rw [hkeep2 m (by rw [hma1]; exact Option.some_ne_none a)]
      exact hma1
    obtain ⟨q2, P2, hq2a, hq2x, hP2⟩ := Tidy_name_pos s2 ht2 x a hx2
    have hpath_xy : posOf s2 x = posOf s2 y :=
      path_same s2 ht2.same x y (path_lift s1 s2 hlift2 x y hxy)
    have hmmb : posOf s2 m = posOf s2 mb := by
      apply path_same s2 ht2.same m mb
      apply path_lift s1 s2 hlift2 m mb
      refine ht1.conn m mb (by rw [hma1]; exact Option.some_ne_none a)
        (by rw [hmb]; exact Option.some_ne_none b) ?_
      rw [hqm, hqmb, ← hqa, ← hqb]
      exact hab1
    have hposname : ∀ (z : NodePtr) (n : PfxPtr), nameOf s2 z = some n →
        posOf s2 z = namePos s2 n := by
      intro z n hz
      simp [posOf, hz]
    refine ⟨q2, P2, hq2a, ?_, ?_, hP2⟩
    · rw [← hposname mb b hmb2, ← hmmb, hposname m a hm2]
      exact hq2a
    · rw [hcd2, ← hposname y d hy2, ← hpath_xy]
      exact hq2x

/-- C27: in every state reached from the empty graph by `StnFromPfx`,
`addlegbyname` with a covariance that is not all zeros, and `process_equate`,
when `replace_pfx` returns, the position object of `pfx_replace` has been
freed, no name points at it any more, and so no station has a name whose
position is the freed object. -/
theorem replace_pfx_frees_unreferenced (s : State K) (hs : Surveyed s) (fuel : Nat)
    (R W : PfxPtr) (xr : Prefix) (hR : s.pfxs[R]? = some xr) (s' : State K)
    (h : replace_pfx fuel s R W = some s') :
    ∃ (q : PosPtr) (P : pos K), xr.pos = some q ∧ s.poss[q]? = some (some P) ∧
      s'.poss[q]? = some none ∧
      (∀ (p : PfxPtr) (px : Prefix), s'.pfxs[p]? = some px → px.pos ≠ some q) ∧
      (∀ x : NodePtr, posOf s' x ≠ some q) := by
  have ht : Tidy s := Surveyed_tidy s hs
  cases hWx : s.pfxs[W]? with
  | none => simp [replace_pfx, State.getPfx, hR, hWx] at h
  | some xw =>
    obtain ⟨hne, root, s3, hroot, hrep, hs'⟩ := replace_pfx_inv fuel s R W xr xw hR hWx s' h
    have hstep : PosStep s s3 xw.pos := replace_pfx__frame xr.pos xw.pos fuel s root none s3 hrep
    have hf := osfree_fields s3 xr.pos
    rw [← hs'] at hf
    obtain ⟨hnm, hlen, -, -⟩ := replace_names s ht R xr xw hR root hroot fuel s3 hrep s' hf.2.2.1
    obtain ⟨q, hq⟩ : ∃ q : PosPtr, xr.pos = some q := by
      cases hq : xr.pos with
      | none =>
        have := (ht.stn_pos R xr hR).mpr hq
        rw [hroot] at this
        cases this
      | some q => exact ⟨q, rfl⟩
    obtain ⟨P, hP⟩ := ht.alive R xr q hR hq
    have hnames : ∀ (p : PfxPtr) (px : Prefix), s'.pfxs[p]? = some px → px.pos ≠ some q := by
      intro p px' hp
      have hlt : p < s.pfxs.length := hlen ▸ lt_of_getElem? hp
      obtain ⟨px, hpx⟩ := exists_of_lt hlt
      obtain ⟨px2, e, -, -, -, hc⟩ := hnm p px hpx
      rw [hp] at e
      cases e
      rw [← hq]
      rcases hc with ⟨-, hpos⟩ | ⟨-, hpos, hne2⟩
      · rw [hpos]
        exact Ne.symm hne
      · rw [hpos]
        exact hne2
    refine ⟨q, P, hq, hP, ?_, hnames, ?_⟩
    · rw [hs', hq]
      have hlt : q < s3.poss.length := by
        rw [hstep.poss]
        exact lt_of_getElem? hP
      simp [osfree, List.getElem?_set_self hlt]
    · intro x hx
      cases hn : nameOf s' x with
      | none => simp [posOf, hn] at hx
      | some p =>
        cases hp : s'.pfxs[p]? with
        | none => simp [posOf, hn, namePos, hp] at hx
        | some px =>
          have : px.pos = some q := by simpa [posOf, hn, namePos, hp] using hx
          exact hnames p px hp this

/-! ### Forests of zero-covariance legs -/

/-- A path that may use a new edge between `p` and `q` is a path without it,
or a path to one end of the new edge and a path from the other end. -/
theorem path_new_edge (R : NodePtr → NodePtr → Prop) (p q a b : NodePtr)
    (h : Relation.ReflTransGen (fun u v => R u v ∨ (u = p ∧ v = q) ∨ (u = q ∧ v = p)) a b) :
    Relation.ReflTransGen R a b ∨
    (Relation.ReflTransGen R a p ∧ Relation.ReflTransGen R q b) ∨
    (Relation.ReflTransGen R a q ∧ Relation.ReflTransGen R p b) := by
  induction h with
  | refl => exact Or.inl Relation.ReflTransGen.refl
  | tail _ hcb ih =>
    rcases hcb with hR | ⟨rfl, rfl⟩ | ⟨rfl, rfl⟩
    · rcases ih with h1 | ⟨h1, h2⟩ | ⟨h1, h2⟩
      · exact Or.inl (h1.tail hR)
      · exact Or.inr (Or.inl ⟨h1, h2.tail hR⟩)
      · exact Or.inr (Or.inr ⟨h1, h2.tail hR⟩)
    · rcases ih with h1 | ⟨h1, -⟩ | ⟨h1, h2⟩
      · exact Or.inr (Or.inl ⟨h1, Relation.ReflTransGen.refl⟩)
      · exact Or.inr (Or.inl ⟨h1, Relation.ReflTransGen.refl⟩)
      · exact Or.inl h1
    · rcases ih with h1 | ⟨h1, h2⟩ | ⟨h1, -⟩
      · exact Or.inr (Or.inr ⟨h1, Relation.ReflTransGen.refl⟩)
      · exact Or.inl h1
      · exact Or.inr (Or.inr ⟨h1, Relation.ReflTransGen.refl⟩)

theorem rel_path_mono (R R' : NodePtr → NodePtr → Prop) (h : ∀ u v, R u v → R' u v)
    (a b : NodePtr) (hab : Relation.ReflTransGen R a b) : Relation.ReflTransGen R' a b := by
  induction hab with
  | refl => exact Relation.ReflTransGen.refl
  | tail _ hbc ih => exact ih.tail (h _ _ hbc)

theorem rel_path_symm (R : NodePtr → NodePtr → Prop) (hs : ∀ u v, R u v → R v u)
    (a b : NodePtr) (hab : Relation.ReflTransGen R a b) : Relation.ReflTransGen R b a := by
  induction hab with
  | refl => exact Relation.ReflTransGen.refl
  | tail _ hbc ih => exact (Relation.ReflTransGen.single (hs _ _ hbc)).trans ih

theorem Cut_symm (E : NodePtr → NodePtr → Prop) (hs : ∀ u v, E u v → E v u) (a b u v : NodePtr)
    (h : Cut E a b u v) : Cut E a b v u :=
  ⟨hs u v h.1, fun hc => h.2.2 ⟨hc.2, hc.1⟩, fun hc => h.2.1 ⟨hc.2, hc.1⟩⟩

theorem Cut_comm (E : NodePtr → NodePtr → Prop) (a b u v : NodePtr) (h : Cut E a b u v) :
    Cut E b a u v :=
  ⟨h.1, h.2.2, h.2.1⟩

/-- A graph without a cycle has no edge from a station to itself. -/
theorem Bridges_irrefl (E : NodePtr → NodePtr → Prop) (hb : Bridges E) (a : NodePtr) :
    ¬ E a a :=
  fun h => hb a a h Relation.ReflTransGen.refl

theorem Bridges_congr (E E' : NodePtr → NodePtr → Prop) (h : ∀ u v, E' u v ↔ E u v)
    (hb : Bridges E) : Bridges E' := by
  intro a b hab hp
  refine hb a b ((h a b).mp hab) (rel_path_mono _ _ ?_ a b hp)
  rintro u v ⟨h1, h2, h3⟩
  exact ⟨(h u v).mp h1, h2, h3⟩

/-- Taking an edge away makes no cycle. -/
theorem Bridges_cut (E : NodePtr → NodePtr → Prop) (hb : Bridges E) (p q : NodePtr) :
    Bridges (Cut E p q) := by
  intro a b hab hp
  refine hb a b hab.1 (rel_path_mono _ _ ?_ a b hp)
  rintro u v ⟨h1, h2, h3⟩
  exact ⟨h1.1, h2, h3⟩

/-- A new edge between two stations that are not joined makes no cycle. -/
theorem Bridges_add (E E' : NodePtr → NodePtr → Prop) (hs : ∀ u v, E u v → E v u)
    (hb : Bridges E) (p q : NodePtr) (hpq : ¬ Relation.ReflTransGen E p q)
    (h : ∀ u v, E' u v ↔ E u v ∨ (u = p ∧ v = q) ∨ (u = q ∧ v = p)) : Bridges E' := by
  have hnot : ¬ E p q := fun hc => hpq (Relation.ReflTransGen.single hc)
  have hnot' : ¬ E q p := fun hc => hnot (hs q p hc)
  intro a b hab hp
  rcases (h a b).mp hab with hE | ⟨rfl, rfl⟩ | ⟨rfl, rfl⟩
  · -- an old edge
    have hp2 : Relation.ReflTransGen
        (fun u v => Cut E a b u v ∨ (u = p ∧ v = q) ∨ (u = q ∧ v = p)) a b := by
      refine rel_path_mono _ _ ?_ a b hp
      rintro u v ⟨h1, h2, h3⟩
      rcases (h u v).mp h1 with h4 | h4 | h4
      · exact Or.inl ⟨h4, h2, h3⟩
      · exact Or.inr (Or.inl h4)
      · exact Or.inr (Or.inr h4)
    have hsub : ∀ u v, Relation.ReflTransGen (Cut E a b) u v → Relation.ReflTransGen E u v :=
      fun u v => rel_path_mono _ _ (fun _ _ hc => hc.1) u v
    rcases path_new_edge (Cut E a b) p q a b hp2 with h1 | ⟨h1, h2⟩ | ⟨h1, h2⟩
    · exact hb a b hE h1
    · -- p ~ a - b ~ q
      apply hpq
      exact ((rel_path_symm E hs a p (hsub a p h1)).tail hE).trans
        (rel_path_symm E hs q b (hsub q b h2))
    · apply hpq
      exact ((hsub p b h2).tail (hs a b hE)).trans (hsub a q h1)
  · -- the new edge
    apply hpq
    refine rel_path_mono _ _ ?_ a b hp
    rintro u v ⟨h1, h2, h3⟩
    rcases (h u v).mp h1 with h4 | h4 | h4
    · exact h4
    · exact absurd h4 h2
    · exact absurd h4 h3
  · apply hpq
    apply rel_path_symm E hs
    refine rel_path_mono _ _ ?_ a b hp
    rintro u v ⟨h1, h2, h3⟩
    rcases (h u v).mp h1 with h4 | h4 | h4
    · exact h4
    · exact absurd h4 h3
    · exact absurd h4 h2

/-- The slot of a station holds one leg. -/
theorem SlotLeg_fun (s : State K) (x : NodePtr) (d : Fin 3) (y y' : NodePtr) (e e' : Fin 3)
    (z z' : Bool) (h : SlotLeg s x d y e z) (h' : SlotLeg s x d y' e' z') :
    y = y' ∧ e = e' ∧ z = z' := by
  obtain ⟨nd, leg, l, h1, h2, h3, h4, h5, h6⟩ := h
  obtain ⟨nd', leg', l', h1', h2', h3', h4', h5', h6'⟩ := h'
  rw [h1] at h1'
  cases h1'
  rw [h2] at h2'
  cases h2'
  rw [h3] at h3'
  cases h3'
  rw [h4] at h4'
  rw [h6] at h6'
  exact ⟨Option.some.inj h4', h5.symm.trans h5', Option.some.inj h6'⟩

/-- A forest stays one when the zero-covariance legs stay in their slots. -/
theorem Forest_slots (s s' : State K)
    (h : ∀ (x : NodePtr) (d : Fin 3) (y : NodePtr) (e : Fin 3),
      SlotLeg s' x d y e true ↔ SlotLeg s x d y e true)
    (hf : Forest s) : Forest s' := by
  have hE : ∀ u v : NodePtr, EquateLeg s' u v ↔ EquateLeg s u v := by
    intro u v
    rw [EquateLeg_iff, EquateLeg_iff]
    constructor
    · rintro ⟨d, e, hh⟩
      exact ⟨d, e, (h u d v e).mp hh⟩
    · rintro ⟨d, e, hh⟩
      exact ⟨d, e, (h u d v e).mpr hh⟩
  refine ⟨Bridges_congr _ _ hE hf.bridges, ?_⟩
  intro x d d' y e e' h1 h2
  exact hf.nopar x d d' y e e' ((h x d y e).mp h1) ((h x d' y e').mp h2)

/-- A forest stays one when a new pair of legs is installed in free slots: one
with a covariance that is not all zeros, or one between two stations that no
zero-covariance legs join. -/
theorem Forest_install (s s' : State K) (hw : WF s) (fr to_ : NodePtr) (i j : Fin 3) (z : Bool)
    (h : InstallSlots s s' fr to_ i j z) (hf : Forest s)
    (hz : z = true → ¬ Relation.ReflTransGen (EquateLeg s) fr to_) : Forest s' := by
  cases z with
  | false =>
    apply Forest_slots s s' ?_ hf
    intro x d y e
    constructor
    · intro hh
      rcases h.bwd x d y e true hh with h0 | ⟨-, -, -, -, hc⟩ | ⟨-, -, -, -, hc⟩
      · exact h0
      · cases hc
      · cases hc
    · exact h.fwd x d y e true
  | true =>
    have hpq := hz rfl
    have hE : ∀ u v : NodePtr, EquateLeg s' u v ↔
        EquateLeg s u v ∨ (u = fr ∧ v = to_) ∨ (u = to_ ∧ v = fr) := by
      intro u v
      rw [EquateLeg_iff, EquateLeg_iff]
      constructor
      · rintro ⟨d, e, hh⟩
        rcases h.bwd u d v e true hh with h0 | ⟨h1, -, h2, -⟩ | ⟨h1, -, h2, -⟩
        · exact Or.inl ⟨d, e, h0⟩
        · exact Or.inr (Or.inl ⟨h1, h2⟩)
        · exact Or.inr (Or.inr ⟨h1, h2⟩)
      · rintro (⟨d, e, hh⟩ | ⟨rfl, rfl⟩ | ⟨rfl, rfl⟩)
        · exact ⟨d, e, h.fwd u d v e true hh⟩
        · exact ⟨i, j, h.link⟩
        · exact ⟨j, i, h.back⟩
    refine ⟨Bridges_add _ _ (EquateLeg_symm s hw) hf.bridges fr to_ hpq hE, ?_⟩
    intro x d d' y e e' h1 h2
    have hno : ∀ (d e : Fin 3), ¬ SlotLeg s fr d to_ e true := by
      intro d e hc
      exact hpq (Relation.ReflTransGen.single ((EquateLeg_iff s fr to_).mpr ⟨d, e, hc⟩))
    have hno' : ∀ (d e : Fin 3), ¬ SlotLeg s to_ d fr e true := by
      intro d e hc
      exact hno e d (SlotLeg_symm s hw to_ d fr e true hc)
    rcases h.bwd x d y e true h1 with a1 | ⟨rfl, rfl, rfl, rfl, -⟩ | ⟨rfl, rfl, rfl, rfl, -⟩
    · rcases h.bwd x d' y e' true h2 with a2 | ⟨rfl, rfl, rfl, rfl, -⟩ | ⟨rfl, rfl, rfl, rfl, -⟩
      · exact hf.nopar x d d' y e e' a1 a2
      · exact absurd a1 (hno d e)
      · exact absurd a1 (hno' d e)
    · rcases h.bwd x d' y e' true h2 with a2 | ⟨-, rfl, -, -, -⟩ | ⟨hc, -, -, -, -⟩
      · exact absurd a2 (hno d' e')
      · rfl
      · exact absurd hc h.ne
    · rcases h.bwd x d' y e' true h2 with a2 | ⟨hc, -, -, -, -⟩ | ⟨-, rfl, -, -, -⟩
      · exact absurd a2 (hno' d' e')
      · exact absurd hc.symm h.ne
      · rfl

theorem moved_to_new (old new x : NodePtr) (d : Fin 3) (h1 : x = old) (h2 : d = 0) :
    moved_to old new x d = new := by
  simp [moved_to, h1, h2]

theorem moved_to_self (old new x : NodePtr) (d : Fin 3) (h : ¬ (x = old ∧ d = 0)) :
    moved_to old new x d = x := by
  simp only [moved_to, h, if_false]

/-- The zero-covariance legs after the split of a station. -/
theorem split_legs (s s' : State K) (old new : NodePtr) (h : SplitSlots s s' old new)
    (u v : NodePtr) :
    EquateLeg s' u v ↔ (u = old ∧ v = new) ∨ (u = new ∧ v = old) ∨
      ∃ (x : NodePtr) (d : Fin 3) (y : NodePtr) (e : Fin 3), SlotLeg s x d y e true ∧
        u = moved_to old new x d ∧ v = moved_to old new y e := by
  rw [EquateLeg_iff]
  constructor
  · rintro ⟨d, e, hh⟩
    rcases h.bwd u d v e true hh with ⟨h1, -, h2, -⟩ | ⟨h1, -, h2, -⟩ | ⟨x, y, h0, h1, h2⟩
    · exact Or.inl ⟨h1, h2⟩
    · exact Or.inr (Or.inl ⟨h1, h2⟩)
    · exact Or.inr (Or.inr ⟨x, d, y, e, h0, h1, h2⟩)
  · rintro (⟨rfl, rfl⟩ | ⟨rfl, rfl⟩ | ⟨x, d, y, e, h0, rfl, rfl⟩)
    · exact ⟨0, 1, h.link⟩
    · exact ⟨1, 0, h.back⟩
    · exact ⟨d, e, h.fwd x d y e true h0⟩

/-- No zero-covariance leg of `s` touches the station that the split makes. -/
theorem split_fresh (s s' : State K) (hw : WF s) (old new : NodePtr)
    (h : SplitSlots s s' old new) (u : NodePtr) :
    ¬ EquateLeg s new u ∧ ¬ EquateLeg s u new := by
  have h1 : ¬ EquateLeg s new u := by
    intro hc
    obtain ⟨d, e, hs⟩ := (EquateLeg_iff s new u).mp hc
    exact SlotLeg_named s hw new d u e true hs h.fresh
  refine ⟨h1, ?_⟩
  intro hc
  obtain ⟨d, e, hs⟩ := (EquateLeg_iff s new u).mp (EquateLeg_symm s hw u new hc)
  exact SlotLeg_named s hw new d u e true hs h.fresh

/-- No path of a relation that does not touch `a` leaves `a`. -/
theorem path_isolated (R : NodePtr → NodePtr → Prop) (a b : NodePtr) (h : ∀ c, ¬ R a c)
    (hab : Relation.ReflTransGen R a b) : b = a := by
  rcases Relation.ReflTransGen.cases_head hab with e | ⟨c, hc, -⟩
  · exact e.symm
  · exact absurd hc (h c)

/-- No two slots of a station hold zero-covariance legs to the same station
after a split. -/
theorem NoPar_split (s s' : State K) (hw : WF s) (old new : NodePtr)
    (h : SplitSlots s s' old new) (hf : Forest s) : NoPar s' := by
  have hon : old ≠ new := by
    rintro rfl
    exact h.isold h.fresh
  have hloop : ∀ (d e : Fin 3), ¬ SlotLeg s old d old e true := by
    intro d e hc
    exact Bridges_irrefl _ hf.bridges old ((EquateLeg_iff s old old).mpr ⟨d, e, hc⟩)
  have hnn : ∀ (x : NodePtr) (d : Fin 3) (y : NodePtr) (e : Fin 3), SlotLeg s x d y e true →
      x ≠ new ∧ y ≠ new := by
    intro x d y e hs
    constructor
    · rintro rfl
      exact SlotLeg_named s hw x d y e true hs h.fresh
    · rintro rfl
      exact SlotLeg_named s hw y e x d true (SlotLeg_symm s hw x d y e true hs) h.fresh
  -- where a slot of a station of `s` is afterwards
  have hmv : ∀ (x : NodePtr) (d : Fin 3), x ≠ new →
      (moved_to old new x d = new ∧ x = old ∧ d = 0) ∨
      (moved_to old new x d = x ∧ ¬ (x = old ∧ d = 0)) := by
    intro x d hx
    by_cases hc : x = old ∧ d = 0
    · exact Or.inl ⟨moved_to_new old new x d hc.1 hc.2, hc⟩
    · exact Or.inr ⟨moved_to_self old new x d hc, hc⟩
  intro u d d' v e e' h1 h2
  rcases h.bwd u d v e true h1 with ⟨rfl, rfl, rfl, rfl, -⟩ | ⟨rfl, rfl, rfl, rfl, -⟩ |
    ⟨x, y, a1, hu, hv⟩
  · -- the new leg from `old` to `new`
    rcases h.bwd u d' v e' true h2 with ⟨-, rfl, -, -, -⟩ | ⟨hc, -, -, -, -⟩ |
      ⟨x', y', a2, hu', hv'⟩
    · rfl
    · exact absurd hc hon
    · obtain ⟨hx', hy'⟩ := hnn x' d' y' e' a2
      rcases hmv y' e' hy' with ⟨-, hy1, -⟩ | ⟨hy1, -⟩
      · rcases hmv x' d' hx' with ⟨hx1, -, -⟩ | ⟨hx1, -⟩
        · rw [hx1] at hu'
          exact absurd hu' hon
        · rw [hx1] at hu'
          subst hu' hy1
          exact absurd a2 (hloop d' e')
      · rw [hy1] at hv'
        exact absurd hv'.symm hy'
  · -- the new leg from `new` to `old`
    rcases h.bwd u d' v e' true h2 with ⟨hc, -, -, -, -⟩ | ⟨-, rfl, -, -, -⟩ |
      ⟨x', y', a2, hu', hv'⟩
    · exact absurd hc.symm hon
    · rfl
    · obtain ⟨hx', hy'⟩ := hnn x' d' y' e' a2
      rcases hmv x' d' hx' with ⟨-, hx1, -⟩ | ⟨hx1, -⟩
      · rcases hmv y' e' hy' with ⟨hy1, -, -⟩ | ⟨hy1, -⟩
        · rw [hy1] at hv'
          exact absurd hv' hon
        · rw [hy1] at hv'
          subst hv' hx1
          exact absurd a2 (hloop d' e')
      · rw [hx1] at hu'
        exact absurd hu'.symm hx'
  · obtain ⟨hx, hy⟩ := hnn x d y e a1
    rcases h.bwd u d' v e' true h2 with ⟨hu', rfl, hv', -, -⟩ | ⟨hu', rfl, hv', -, -⟩ |
      ⟨x', y', a2, hu', hv'⟩
    · -- as in the first case
      rcases hmv y e hy with ⟨-, hy1, -⟩ | ⟨hy1, -⟩
      · rcases hmv x d hx with ⟨hx1, -, -⟩ | ⟨hx1, -⟩
        · rw [hx1] at hu
          exact absurd (hu'.symm.trans hu) hon
        · rw [hx1] at hu
          rw [hu'] at hu
          subst hu hy1
          exact absurd a1 (hloop d e)
      · rw [hy1] at hv
        rw [hv'] at hv
        exact absurd hv.symm hy
    · rcases hmv x d hx with ⟨-, hx1, -⟩ | ⟨hx1, -⟩
      · rcases hmv y e hy with ⟨hy1, -, -⟩ | ⟨hy1, -⟩
        · rw [hy1] at hv
          exact absurd (hv'.symm.trans hv) hon
        · rw [hy1] at hv
          rw [hv'] at hv
          subst hv hx1
          exact absurd a1 (hloop d e)
      · rw [hx1] at hu
        rw [hu'] at hu
        exact absurd hu.symm hx
    · obtain ⟨hx', hy'⟩ := hnn x' d' y' e' a2
      rcases hmv x d hx with ⟨hx1, hxo, hd0⟩ | ⟨hx1, hxn⟩
      · rcases hmv x' d' hx' with ⟨hx1', -, hd0'⟩ | ⟨hx1', -⟩
        · exact hd0.trans hd0'.symm
        · rw [hx1] at hu
          rw [hx1'] at hu'
          exact absurd (hu'.symm.trans hu) hx'
      · rcases hmv x' d' hx' with ⟨hx1', -, -⟩ | ⟨hx1', hxn'⟩
        · rw [hx1] at hu
          rw [hx1'] at hu'
          exact absurd (hu.symm.trans hu') hx
        · rw [hx1] at hu
          rw [hx1'] at hu'
          have exx : x' = x := hu'.symm.trans hu
          subst exx
          rcases hmv y e hy with ⟨hy1, hyo, he0⟩ | ⟨hy1, hyn⟩
          · rcases hmv y' e' hy' with ⟨hy1', hyo', he0'⟩ | ⟨hy1', -⟩
            · rw [hyo, he0] at a1
              rw [hyo', he0'] at a2
              have b1 := SlotLeg_symm s hw x' d old 0 true a1
              have b2 := SlotLeg_symm s hw x' d' old 0 true a2
              exact (SlotLeg_fun s old 0 x' x' d d' true true b1 b2).2.1
            · rw [hy1] at hv
              rw [hy1'] at hv'
              exact absurd (hv'.symm.trans hv) hy'
          · rcases hmv y' e' hy' with ⟨hy1', -, -⟩ | ⟨hy1', -⟩
            · rw [hy1] at hv
              rw [hy1'] at hv'
              exact absurd (hv.symm.trans hv') hy
            · rw [hy1] at hv
              rw [hy1'] at hv'
              have eyy : y' = y := hv'.symm.trans hv
              subst eyy
              exact hf.nopar x' d d' y' e e' a1 a2

/-- The zero-covariance legs form no cycle after the split of a station. -/
theorem Bridges_split (s s' : State K) (hw : WF s) (old new : NodePtr)
    (h : SplitSlots s s' old new) (hf : Forest s) : Bridges (EquateLeg s') := by
  have hon : old ≠ new := by
    rintro rfl
    exact h.isold h.fresh
  have hsym := EquateLeg_symm s hw
  have hfresh := split_fresh s s' hw old new h
  have hnn : ∀ (x : NodePtr) (d : Fin 3) (y : NodePtr) (e : Fin 3), SlotLeg s x d y e true →
      x ≠ new ∧ y ≠ new := by
    intro x d y e hs
    constructor
    · rintro rfl
      exact SlotLeg_named s hw x d y e true hs h.fresh
    · rintro rfl
      exact SlotLeg_named s hw y e x d true (SlotLeg_symm s hw x d y e true hs) h.fresh
  have hchar := split_legs s s' old new h
  by_cases hz : ∃ (t0 : NodePtr) (e0 : Fin 3), SlotLeg s old 0 t0 e0 true
  · -- the leg in slot 0 of `old` has a zero covariance: the edge to `t0` is cut in two
    obtain ⟨t0, e0, hz⟩ := hz
    have hz' := SlotLeg_symm s hw old 0 t0 e0 true hz
    have hE0 : EquateLeg s old t0 := (EquateLeg_iff s old t0).mpr ⟨0, e0, hz⟩
    have ht0 : t0 ≠ old := by
      rintro rfl
      exact Bridges_irrefl _ hf.bridges t0 hE0
    have ht0n : t0 ≠ new := (hnn old 0 t0 e0 hz).2
    have hb1 : Bridges (Cut (EquateLeg s) old t0) := Bridges_cut _ hf.bridges old t0
    have hs1 := Cut_symm (EquateLeg s) hsym old t0
    have hiso1 : ∀ c, ¬ Cut (EquateLeg s) old t0 new c := fun c hc => (hfresh c).1 hc.1
    have hp1 : ¬ Relation.ReflTransGen (Cut (EquateLeg s) old t0) old new := by
      intro hc
      have := path_isolated _ new old hiso1
        (rel_path_symm _ hs1 old new hc)
      exact hon this
    have hb2 := Bridges_add (Cut (EquateLeg s) old t0)
      (fun u v => Cut (EquateLeg s) old t0 u v ∨ (u = old ∧ v = new) ∨ (u = new ∧ v = old))
      hs1 hb1 old new hp1 (fun _ _ => Iff.rfl)
    have hs2 : ∀ u v : NodePtr,
        (Cut (EquateLeg s) old t0 u v ∨ (u = old ∧ v = new) ∨ (u = new ∧ v = old)) →
        (Cut (EquateLeg s) old t0 v u ∨ (v = old ∧ u = new) ∨ (v = new ∧ u = old)) := by
      rintro u v (h1 | ⟨h1, h2⟩ | ⟨h1, h2⟩)
      · exact Or.inl (hs1 u v h1)
      · exact Or.inr (Or.inr ⟨h2, h1⟩)
      · exact Or.inr (Or.inl ⟨h2, h1⟩)
    have hp2 : ¬ Relation.ReflTransGen
        (fun u v => Cut (EquateLeg s) old t0 u v ∨ (u = old ∧ v = new) ∨ (u = new ∧ v = old))
        new t0 := by
      intro hc
      rcases path_new_edge _ old new new t0 hc with h1 | ⟨h1, -⟩ | ⟨-, h2⟩
      · exact ht0n (path_isolated _ new t0 hiso1 h1)
      · exact hon (path_isolated _ new old hiso1 h1)
      · exact hf.bridges old t0 hE0 h2
    refine Bridges_add _ _ hs2 hb2 new t0 hp2 ?_
    intro u v
    rw [hchar u v]
    constructor
    · rintro (hl | hl | ⟨x, d, y, e, hs, rfl, rfl⟩)
      · exact Or.inl (Or.inr (Or.inl hl))
      · exact Or.inl (Or.inr (Or.inr hl))
      · by_cases hx : x = old ∧ d = 0
        · obtain ⟨rfl, rfl⟩ := hx
          obtain ⟨rfl, rfl, -⟩ := SlotLeg_fun s x 0 y t0 e e0 true true hs hz
          right; left
          refine ⟨moved_to_new x new x 0 rfl rfl, moved_to_self x new y e ?_⟩
          exact fun hc => ht0 hc.1
        · by_cases hy : y = old ∧ e = 0
          · obtain ⟨rfl, rfl⟩ := hy
            have hs' := SlotLeg_symm s hw x d y 0 true hs
            obtain ⟨rfl, rfl, -⟩ := SlotLeg_fun s y 0 x t0 d e0 true true hs' hz
            right; right
            refine ⟨moved_to_self y new x d ?_, moved_to_new y new y 0 rfl rfl⟩
            exact fun hc => ht0 hc.1
          · rw [moved_to_self old new x d hx, moved_to_self old new y e hy]
            left; left
            refine ⟨(EquateLeg_iff s x y).mpr ⟨d, e, hs⟩, ?_, ?_⟩
            · rintro ⟨rfl, rfl⟩
              exact hx ⟨rfl, hf.nopar x d 0 y e e0 hs hz⟩
            · rintro ⟨rfl, rfl⟩
              have hs' := SlotLeg_symm s hw x d y e true hs
              exact hy ⟨rfl, hf.nopar y e 0 x d e0 hs' hz⟩
    · rintro ((⟨hE, hc1, hc2⟩ | hl | hl) | ⟨rfl, rfl⟩ | ⟨rfl, rfl⟩)
      · right; right
        obtain ⟨d, e, hs⟩ := (EquateLeg_iff s u v).mp hE
        refine ⟨u, d, v, e, hs, (moved_to_self old new u d ?_).symm,
          (moved_to_self old new v e ?_).symm⟩
        · rintro ⟨rfl, rfl⟩
          obtain ⟨rfl, -, -⟩ := SlotLeg_fun s u 0 v t0 e e0 true true hs hz
          exact hc1 ⟨rfl, rfl⟩
        · rintro ⟨rfl, rfl⟩
          have hs' := SlotLeg_symm s hw u d v 0 true hs
          obtain ⟨rfl, -, -⟩ := SlotLeg_fun s v 0 u t0 d e0 true true hs' hz
          exact hc2 ⟨rfl, rfl⟩
      · exact Or.inl hl
      · exact Or.inr (Or.inl hl)
      · right; right
        exact ⟨old, 0, v, e0, hz, (moved_to_new old u old 0 rfl rfl).symm,
          (moved_to_self old u v e0 (fun hc => ht0 hc.1)).symm⟩
      · right; right
        exact ⟨u, e0, old, 0, hz', (moved_to_self old v u e0 (fun hc => ht0 hc.1)).symm,
          (moved_to_new old v old 0 rfl rfl).symm⟩
  · -- the leg in slot 0 of `old` has a covariance that is not zero
    have hp : ¬ Relation.ReflTransGen (EquateLeg s) old new := by
      intro hc
      have := path_isolated _ new old (fun c => (hfresh c).1)
        (rel_path_symm _ hsym old new hc)
      exact hon this
    refine Bridges_add _ _ hsym hf.bridges old new hp ?_
    intro u v
    rw [hchar u v]
    constructor
    · rintro (hl | hl | ⟨x, d, y, e, hs, rfl, rfl⟩)
      · exact Or.inr (Or.inl hl)
      · exact Or.inr (Or.inr hl)
      · left
        have hx : ¬ (x = old ∧ d = 0) := by
          rintro ⟨rfl, rfl⟩
          exact hz ⟨y, e, hs⟩
        have hy : ¬ (y = old ∧ e = 0) := by
          rintro ⟨rfl, rfl⟩
          exact hz ⟨x, d, SlotLeg_symm s hw x d y 0 true hs⟩
        rw [moved_to_self old new x d hx, moved_to_self old new y e hy]
        exact (EquateLeg_iff s x y).mpr ⟨d, e, hs⟩
    · rintro (hE | hl | hl)
      · right; right
        obtain ⟨d, e, hs⟩ := (EquateLeg_iff s u v).mp hE
        refine ⟨u, d, v, e, hs, (moved_to_self old new u d ?_).symm,
          (moved_to_self old new v e ?_).symm⟩
        · rintro ⟨rfl, rfl⟩
          exact hz ⟨v, e, hs⟩
        · rintro ⟨rfl, rfl⟩
          exact hz ⟨u, d, SlotLeg_symm s hw u d v 0 true hs⟩
      · exact Or.inl hl
      · exact Or.inr (Or.inl hl)

/-- A forest stays one when a station is split. -/
theorem Forest_split (s s' : State K) (hw : WF s) (old new : NodePtr)
    (h : SplitSlots s s' old new) (hf : Forest s) : Forest s' :=
  ⟨Bridges_split s s' hw old new h hf, NoPar_split s s' hw old new h hf⟩

/-- A forest stays one through `freeleg`. -/
theorem Forest_free (s s' : State K) (hw : WF s) (stn stn' : NodePtr)
    (h : FreeSlots s s' stn stn') (hf : Forest s) : Forest s' := by
  rcases h with ⟨h, -⟩ | h
  · exact Forest_slots s s' (fun x d y e => h.slots x d y e true) hf
  · exact Forest_split s s' hw stn stn' h hf

/-- Two stations that zero-covariance legs join after `freeleg(&stn)` were
joined before, the station handed back standing for `stn`. -/
theorem free_reflect (s s' : State K) (hw : WF s) (stn stn' : NodePtr)
    (h : FreeSlots s s' stn stn') (u v : NodePtr)
    (huv : Relation.ReflTransGen (EquateLeg s') u v) :
    Relation.ReflTransGen (EquateLeg s) (if u = stn' then stn else u)
      (if v = stn' then stn else v) := by
  rcases h with ⟨h, rfl⟩ | h
  · have e : ∀ x : NodePtr, (if x = stn' then stn' else x) = x := by
      intro x
      split_ifs with hc
      · exact hc.symm
      · rfl
    rw [e u, e v]
    refine rel_path_mono _ _ ?_ u v huv
    intro x y hxy
    obtain ⟨d, e, hs⟩ := (EquateLeg_iff s' x y).mp hxy
    exact (EquateLeg_iff s x y).mpr ⟨d, e, (h.slots x d y e true).mp hs⟩
  · have hmv : ∀ (x : NodePtr) (d : Fin 3) (y : NodePtr) (e : Fin 3), SlotLeg s x d y e true →
        (if moved_to stn stn' x d = stn' then stn else moved_to stn stn' x d) = x := by
      intro x d y e hs
      have hx : x ≠ stn' := by
        rintro rfl
        exact SlotLeg_named s hw x d y e true hs h.fresh
      by_cases hc : x = stn ∧ d = 0
      · rw [moved_to_new stn stn' x d hc.1 hc.2]
        simp [hc.1]
      · rw [moved_to_self stn stn' x d hc]
        simp [hx]
    induction huv with
    | refl => exact Relation.ReflTransGen.refl
    | tail _ hbc ih =>
      refine ih.trans ?_
      rcases (split_legs s s' stn stn' h _ _).mp hbc with ⟨rfl, rfl⟩ | ⟨rfl, rfl⟩ |
        ⟨x, d, y, e, hs, rfl, rfl⟩
      · simp only [if_true, ite_self]
        exact Relation.ReflTransGen.refl
      · simp only [if_true, ite_self]
        exact Relation.ReflTransGen.refl
      · rw [hmv x d y e hs, hmv y e x d (SlotLeg_symm s hw x d y e true hs)]
        exact Relation.ReflTransGen.single ((EquateLeg_iff s x y).mpr ⟨d, e, hs⟩)

theorem SlotLeg_congr (s s' : State K) (hn : s'.nodes = s.nodes) (hl : s'.legs = s.legs)
    (x : NodePtr) (d : Fin 3) (y : NodePtr) (e : Fin 3) (z : Bool) :
    SlotLeg s' x d y e z ↔ SlotLeg s x d y e z := by
  simp only [SlotLeg, hn, hl, equated_leg_congr s s' hn hl]

/-- `StnFromPfx` leaves the legs in their slots. -/
theorem StnFromPfx_slots (s : State K) (hw : WF s) (name : PfxPtr) (s' : State K)
    (stn : NodePtr) (h : StnFromPfx s name = some (s', stn))
    (x : NodePtr) (d : Fin 3) (y : NodePtr) (e : Fin 3) (z : Bool) :
    SlotLeg s' x d y e z ↔ SlotLeg s x d y e z := by
  cases hx : s.pfxs[name]? with
  | none => simp [StnFromPfx, State.getPfx, hx] at h
  | some px =>
    obtain ⟨s'', stn'', nd, e1, -, -, -, hold, hnew, hlegs, -⟩ := StnFromPfx_wf s hw name px hx
    rw [h] at e1
    cases e1
    have hold2 : ∀ (q : NodePtr) (nd : node), s.nodes[q]? = some nd →
        ∃ nd' : node, s'.nodes[q]? = some nd' ∧ nd'.leg = nd.leg := by
      intro q nd hnd
      obtain ⟨nd', h1, -, h2⟩ := hold q nd hnd
      exact ⟨nd', h1, h2⟩
    have hnew2 : ∀ (q : NodePtr) (nd' : node), s'.nodes[q]? = some nd' →
        s.nodes.length ≤ q → nd'.leg = fun _ => none := by
      intro q nd' hnd' hle
      exact (hnew q nd' hnd' hle).2.2
    have heq := fun leg => (equated_leg_stations s s' hlegs hold2 hnew2 leg).2
    constructor
    · rintro ⟨nd', leg, l, h1, h2, h3, h4, h5, h6⟩
      have hlt : x < s.nodes.length := by
        by_contra hge
        rw [hnew2 x nd' h1 (Nat.le_of_not_lt hge)] at h2
        cases h2
      obtain ⟨nd0, hnd0⟩ := exists_of_lt hlt
      obtain ⟨nd2, g1, g2⟩ := hold2 x nd0 hnd0
      rw [h1] at g1
      cases g1
      exact ⟨nd0, leg, l, hnd0, by rw [← g2]; exact h2, by rw [← hlegs]; exact h3, h4, h5,
        by rw [← heq leg]; exact h6⟩
    · rintro ⟨nd0, leg, l, h1, h2, h3, h4, h5, h6⟩
      obtain ⟨nd2, g1, g2⟩ := hold2 x nd0 h1
      exact ⟨nd2, leg, l, g1, by rw [g2]; exact h2, by rw [hlegs]; exact h3, h4, h5,
        by rw [heq leg]; exact h6⟩

/-- `StnFromPfx` keeps a graph well-formed. -/
theorem StnFromPfx_wf_only (s : State K) (hw : WF s) (name : PfxPtr) (s' : State K)
    (stn : NodePtr) (h : StnFromPfx s name = some (s', stn)) : WF s' := by
  cases hx : s.pfxs[name]? with
  | none => simp [StnFromPfx, State.getPfx, hx] at h
  | some px =>
    obtain ⟨s'', stn'', nd, e1, hw', -⟩ := StnFromPfx_wf s hw name px hx
    rw [h] at e1
    cases e1
    exact hw'

/-- A forest stays one through `StnFromPfx`. -/
theorem StnFromPfx_forest (s : State K) (hw : WF s) (hf : Forest s) (name : PfxPtr)
    (s' : State K) (stn : NodePtr) (h : StnFromPfx s name = some (s', stn)) : Forest s' :=
  Forest_slots s s' (fun x d y e => StnFromPfx_slots s hw name s' stn h x d y e true) hf

/-- A forest stays one through `addleg_` when the new leg has a covariance
that is not all zeros or its two ends are not joined by zero-covariance
legs. -/
theorem addleg_forest (s : State K) (hw : WF s) (hf : Forest s) (fr to_ : NodePtr)
    (dx dy dz vx vy vz cyz czx cxy : K) (leg_flags : LegFlags) (s' : State K)
    (h : addleg_ s fr to_ dx dy dz vx vy vz cyz czx cxy leg_flags = some s')
    (hz : fZeros ![vx, vy, vz, cxy, czx, cyz] = true →
      ¬ Relation.ReflTransGen (EquateLeg s) fr to_) : Forest s' := by
  obtain ⟨s0, s1, s2, fr', to', i, j, h0, hw0, h1, hw1, h2, hw2, h3, hw', hnf, hnt, hne, -⟩ :=
    addleg_stages s hw fr to_ dx dy dz vx vy vz cyz czx cxy leg_flags s' h
  have hf0 : Forest s0 := Forest_slots s s0 (fun x d y e => h0.slots x d y e true) hf
  have hf1 : Forest s1 := Forest_free s0 s1 hw0 fr fr' h1 hf0
  have hf2 : Forest s2 := Forest_free s1 s2 hw1 to_ to' h2 hf1
  refine Forest_install s2 s' hw2 fr' to' i j _ h3 hf2 ?_
  intro hzt hpath
  apply hz hzt
  have r2 := free_reflect s1 s2 hw1 to_ to' h2 fr' to' hpath
  rw [if_neg h3.ne, if_pos rfl] at r2
  have r1 := free_reflect s0 s1 hw0 fr fr' h1 fr' to_ r2
  have hto : to_ ≠ fr' := by
    rintro rfl
    rcases h1 with ⟨-, e⟩ | hsp
    · rw [e] at hne
      exact hne rfl
    · apply hnt
      rw [← h0.name to_]
      exact hsp.fresh
  rw [if_pos rfl, if_neg hto] at r1
  refine rel_path_mono _ _ ?_ fr to_ r1
  intro x y hxy
  obtain ⟨d, e, hs⟩ := (EquateLeg_iff s0 x y).mp hxy
  exact (EquateLeg_iff s x y).mpr ⟨d, e, (h0.slots x d y e true).mp hs⟩

/-- A forest stays one through `addlegbyname` with a covariance that is not all
zeros. -/
theorem addlegbyname_forest (s : State K) (hw : WF s) (hf : Forest s)
    (fr_name to_name : PfxPtr) (fToFirst : Bool) (dx dy dz vx vy vz cyz czx cxy : K)
    (s' : State K) (hz : fZeros ![vx, vy, vz, cxy, czx, cyz] = false)
    (h : addlegbyname s fr_name to_name fToFirst dx dy dz vx vy vz cyz czx cxy = some s') :
    Forest s' := by
  by_cases hne : to_name = fr_name
  · simp only [addlegbyname, hne, if_true] at h
    cases hs : sprint_prefix s fr_name with
    | none =>
      rw [hs] at h
      exact Option.noConfusion h
    | some str =>
      rw [hs] at h
      have e : s' = compile_error s 50 [str] := (Option.some.inj h).symm
      subst e
      exact Forest_slots s _ (fun x d y e => SlotLeg_congr s _ rfl rfl x d y e true) hf
  · cases hst : addlegbyname_stations s fr_name to_name fToFirst with
    | none => simp [addlegbyname, hne, hst] at h
    | some r =>
      obtain ⟨s0, fr, to_⟩ := r
      rw [addlegbyname_eq s s0 fr_name to_name fToFirst fr to_ dx dy dz vx vy vz cyz czx cxy
        (fun e => hne e.symm) hst] at h
      have h0 : WF s0 ∧ Forest s0 := by
        by_cases hf' : fToFirst = true
        · simp only [addlegbyname_stations, hf', if_true] at hst
          cases ha : StnFromPfx s to_name with
          | none => simp [ha] at hst
          | some ra =>
            obtain ⟨sa, t⟩ := ra
            have hwa := (StnFromPfx_wf_only s hw to_name sa t ha)
            have hfa := StnFromPfx_forest s hw hf to_name sa t ha
            cases hb : StnFromPfx sa fr_name with
            | none => simp [ha, hb] at hst
            | some rb =>
              obtain ⟨sb, f⟩ := rb
              simp [ha, hb] at hst
              obtain ⟨e, -, -⟩ := hst
              subst e
              exact ⟨StnFromPfx_wf_only sa hwa fr_name sb f hb,
                StnFromPfx_forest sa hwa hfa fr_name sb f hb⟩
        · simp only [addlegbyname_stations, hf'] at hst
          cases ha : StnFromPfx s fr_name with
          | none => simp [ha] at hst
          | some ra =>
            obtain ⟨sa, t⟩ := ra
            have hwa := (StnFromPfx_wf_only s hw fr_name sa t ha)
            have hfa := StnFromPfx_forest s hw hf fr_name sa t ha
            cases hb : StnFromPfx sa to_name with
            | none => simp [ha, hb] at hst
            | some rb =>
              obtain ⟨sb, f⟩ := rb
              simp [ha, hb] at hst
              obtain ⟨e, -, -⟩ := hst
              subst e
              exact ⟨StnFromPfx_wf_only sa hwa to_name sb f hb,
                StnFromPfx_forest sa hwa hfa to_name sb f hb⟩
      refine addleg_forest { s0 with cLegs := s0.cLegs + 1 } (WF_cLegs s0 h0.1 _)
        (Forest_slots s0 _ (fun x d y e => SlotLeg_congr s0 _ rfl rfl x d y e true) h0.2)
        fr to_ _ _ _ _ _ _ _ _ _ _ s' h ?_
      intro hc
      rw [hz] at hc
      cases hc

/-- A forest of never-fixed stations stays one through `process_equate`: the
new leg joins two stations whose names had different positions, which no
zero-covariance legs joined. -/
theorem process_equate_forest (fuel : Nat) (s : State K) (ht : Tidy s) (hf : Forest s)
    (a b : PfxPtr) (s' : State K) (h : process_equate fuel s a b = some s') : Forest s' := by
  rcases process_equate_cases fuel s a b s' h with
    ⟨-, str, -, hs'⟩ | ⟨hab, xa, xb, hxa, hxb, ⟨-, hs'⟩ | ⟨-, hm⟩⟩
  · subst hs'
    exact Forest_slots s _ (fun x d y e => SlotLeg_congr s _ rfl rfl x d y e true) hf
  · subst hs'
    exact hf
  · obtain ⟨s1, sa, s2, sb, na, nb, ya, yb, e1, e2, hw2, hna, hnan, hnb, hnbn, hya, hyb, hc⟩ :=
      equate_merge_cases fuel s ht.wf a b hab xa xb hxa hxb s' hm
    obtain ⟨ht1, -⟩ := StnFromPfx_tidy s ht a s1 sa e1
    obtain ⟨ht2, -⟩ := StnFromPfx_tidy s1 ht1 b s2 sb e2
    have hf1 := StnFromPfx_forest s ht.wf hf a s1 sa e1
    have hf2 := StnFromPfx_forest s1 ht1.wf hf1 b s2 sb e2
    rcases hc with ⟨-, -, hfa, -⟩ | ⟨m, R, W, yr, yw, s3, hRW, hyr, hyw, hne, ⟨root, hroot, hrep⟩,
      hstep, hwS, hadd⟩
    · rw [ht2.unfixed a ya hya] at hfa
      cases hfa
    · rcases hRW with ⟨rfl, rfl, -⟩ | ⟨-, -, hfa⟩
      · have hfo := osfree_fields s3 yr.pos
        have hn : ({ osfree s3 yr.pos with cLegs := (osfree s3 yr.pos).cLegs + 1 } :
            State K).nodes = s2.nodes := hfo.1.trans hstep.nodes
        have hl : ({ osfree s3 yr.pos with cLegs := (osfree s3 yr.pos).cLegs + 1 } :
            State K).legs = s2.legs := hfo.2.1.trans hstep.legs
        have hfS : Forest ({ osfree s3 yr.pos with cLegs := (osfree s3 yr.pos).cLegs + 1 } :
            State K) :=
          Forest_slots s2 _ (fun x d y e => SlotLeg_congr s2 _ hn hl x d y e true) hf2
        refine addleg_forest _ hwS hfS sa sb 0 0 0 0 0 0 0 0 0 FLAG_FAKE s' hadd ?_
        intro _ hpath
        have hpath2 : Relation.ReflTransGen (EquateLeg s2) sa sb := by
          refine rel_path_mono _ _ ?_ sa sb hpath
          intro x y hxy
          exact (EquateLeg_congr s2 _ hn hl x y).mp hxy
        have hpos := path_same s2 ht2.same sa sb hpath2
        have h1 : posOf s2 sa = yr.pos := by
          simp [posOf, nameOf_lookup s2 sa na hna, hnan, namePos, hyr]
        have h2 : posOf s2 sb = yw.pos := by
          simp [posOf, nameOf_lookup s2 sb nb hnb, hnbn, namePos, hyw]
        exact hne (h1.symm.trans (hpos.trans h2))
      · rw [ht2.unfixed a ya hya] at hfa
        cases hfa

/-- The empty graph is a forest. -/
theorem EmptyGraph_forest (s : State K) (h : EmptyGraph s) : Forest s := by
  have hnone : ∀ x : NodePtr, s.nodes[x]? = none := by
    intro x
    rw [h.nodes]
    rfl
  refine ⟨?_, ?_⟩
  · rintro a b ⟨nd, d, leg, l, h1, -⟩
    rw [hnone a] at h1
    cases h1
  · rintro x d d' y e e' ⟨nd, leg, l, h1, -⟩
    rw [hnone x] at h1
    cases h1

/-- The zero-covariance legs of every state reached from the empty graph by
`StnFromPfx`, `addlegbyname` with a covariance that is not all zeros, and
`process_equate` form a forest. -/
theorem Surveyed_forest (s : State K) (h : Surveyed s) : Forest s := by
  induction h with
  | empty s he => exact EmptyGraph_forest s he
  | stn s s' name stn hs0 hs ih =>
    exact StnFromPfx_forest s (Surveyed_tidy s hs0).wf ih name s' stn hs
  | leg s s' fr_name to_name fToFirst dx dy dz vx vy vz cyz czx cxy hs0 hz hs ih =>
    exact addlegbyname_forest s (Surveyed_tidy s hs0).wf ih fr_name to_name fToFirst
      dx dy dz vx vy vz cyz czx cxy s' hz hs
  | equate s s' fuel name1 name2 hs0 hs ih =>
    exact process_equate_forest fuel s (Surveyed_tidy s hs0) ih name1 name2 s' hs

/-! ### The propagation of a position ends on a forest -/

/-- In a graph without a cycle, what `replace_pfx_` can reach from a neighbour
`t` of `stn`, entered from `stn`, it can reach from `stn`, and it does not
come back to `stn`. -/
theorem away_shrinks (E : NodePtr → NodePtr → Prop) (hs : ∀ u v, E u v → E v u)
    (hb : Bridges E) (x t : NodePtr) (f : Option NodePtr) (hxt : E x t) (hne : some t ≠ f) :
    (∀ y : NodePtr, Relation.ReflTransGen (Away E t (some x)) t y →
      Relation.ReflTransGen (Away E x f) x y) ∧
    ¬ Relation.ReflTransGen (Away E t (some x)) t x := by
  have hback : ¬ Relation.ReflTransGen (Cut E t x) t x := hb t x (hs x t hxt)
  have hxx : t ≠ x := by
    rintro rfl
    exact Bridges_irrefl E hb t hxt
  refine ⟨?_, hback⟩
  have hfirst : Away E x f x t := by
    cases f with
    | none => exact hxt
    | some g =>
      refine ⟨hxt, ?_, ?_⟩
      · rintro ⟨-, rfl⟩
        exact hne rfl
      · rintro ⟨-, e⟩
        exact hxx e
  intro y hy
  have key : Relation.ReflTransGen (Away E x f) t y := by
    induction hy with
    | refl => exact Relation.ReflTransGen.refl
    | @tail c y' hc hstep ih =>
      have hcx : c ≠ x := by
        rintro rfl
        exact hback hc
      have hyx : y' ≠ x := by
        rintro rfl
        exact hback (hc.tail hstep)
      refine ih.tail ?_
      have hE : E c y' := hstep.1
      cases f with
      | none => exact hE
      | some g =>
        exact ⟨hE, fun e => hcx e.1, fun e => hyx e.2⟩
  exact (Relation.ReflTransGen.single hfirst).trans key

/-- `replace_pfx_` returns when a measure of the station it is at and the
station it came from gets smaller along every zero-covariance leg that does
not lead back: one level of recursion more than the measure is enough. -/
theorem replace_pfx__measure (s0 : State K) (hw : WF s0) (hdata : DataStored s0)
    (μ : NodePtr → Option NodePtr → Nat) (pr pw : Option PosPtr)
    (hμ : ∀ (x : NodePtr) (f : Option NodePtr) (t : NodePtr), EquateLeg s0 x t → some t ≠ f →
      μ t (some x) < μ x f) :
    ∀ (k : Nat) (s : State K) (x : NodePtr) (from_ : Option NodePtr) (nd : node),
      PosStep s0 s pw → s0.nodes[x]? = some nd → μ x from_ ≤ k →
      ∃ s' : State K, replace_pfx_ pr pw (k + 1) s x from_ = some s' := by
  intro k
  induction k with
  | zero =>
    intro s x from_ nd hs hx hk
    obtain ⟨p, px, _, hname, hpx, _⟩ := hw.name x nd hx
    obtain ⟨q, hq, _⟩ := hs.pfx p px hpx
    obtain ⟨s1, h1, hstep, _⟩ := PosStep_modPfx s pw p _ hq
    have hn : s.getNode x = some nd := by
      simp only [State.getNode, hs.nodes]
      exact hx
    obtain ⟨s', h'⟩ := replace_pfx_legs_total s0 hw hdata pw (replace_pfx_ pr pw 0) x from_ nd hx
      (fun s2 t _ he hne => absurd (hμ x from_ t he hne) (by omega))
      (replace_pfx__frame pr pw 0) [0, 1, 2] s1 (PosStep_trans s0 s s1 pw hs hstep)
    refine ⟨s', ?_⟩
    rw [replace_pfx_]
    simp only [hn, hname, h1, Option.bind_eq_bind, Option.some_bind]
    exact h'
  | succ k ih =>
    intro s x from_ nd hs hx hk
    obtain ⟨p, px, _, hname, hpx, _⟩ := hw.name x nd hx
    obtain ⟨q, hq, _⟩ := hs.pfx p px hpx
    obtain ⟨s1, h1, hstep, _⟩ := PosStep_modPfx s pw p _ hq
    have hn : s.getNode x = some nd := by
      simp only [State.getNode, hs.nodes]
      exact hx
    obtain ⟨s', h'⟩ := replace_pfx_legs_total s0 hw hdata pw (replace_pfx_ pr pw (k + 1)) x
      from_ nd hx
      (fun s2 t hs2 he hne => by
        obtain ⟨nd', d, leg, l, hx', hleg, hl, ht, _⟩ := id he
        have e : nd' = nd := Option.some.inj (hx'.symm.trans hx)
        subst e
        obtain ⟨l', t', tn, _, hl', ht', htn, _⟩ :=
          equated_leg_total s0 hw hdata x nd' d leg hx hleg
        have e2 : l' = l := Option.some.inj (hl'.symm.trans hl)
        subst e2
        have e3 : t' = t := Option.some.inj (ht'.symm.trans ht)
        subst e3
        have hlt := hμ x from_ t' he hne
        exact ih s2 t' (some x) tn hs2 htn (by omega))
      (replace_pfx__frame pr pw (k + 1)) [0, 1, 2] s1 (PosStep_trans s0 s s1 pw hs hstep)
    refine ⟨s', ?_⟩
    rw [replace_pfx_]
    simp only [hn, hname, h1, Option.bind_eq_bind, Option.some_bind]
    exact h'

/-- The two ends of a zero-covariance leg are stations. -/
theorem EquateLeg_lt (s : State K) (hw : WF s) (x t : NodePtr) (h : EquateLeg s x t) :
    x < s.nodes.length ∧ t < s.nodes.length := by
  have h' := EquateLeg_symm s hw x t h
  obtain ⟨nd, -, -, -, h1, -⟩ := h
  obtain ⟨nd', -, -, -, h1', -⟩ := h'
  exact ⟨lt_of_getElem? h1, lt_of_getElem? h1'⟩

/-- On a well-formed graph whose zero-covariance legs form no cycle,
`replace_pfx_` returns from every station when it is allowed more levels of
recursion than there are stations. -/
theorem replace_pfx__returns (s0 : State K) (hw : WF s0) (hdata : DataStored s0)
    (hb : Bridges (EquateLeg s0)) (pr pw : Option PosPtr) (fuel : Nat)
    (hfuel : s0.nodes.length < fuel) (x : NodePtr) (from_ : Option NodePtr) (nd : node)
    (hx : s0.nodes[x]? = some nd) :
    ∃ s' : State K, replace_pfx_ pr pw fuel s0 x from_ = some s' := by
  classical
  obtain ⟨k, rfl⟩ : ∃ k, fuel = k + 1 := ⟨fuel - 1, by omega⟩
  have hsym := EquateLeg_symm s0 hw
  refine replace_pfx__measure s0 hw hdata
    (fun x f => ((Finset.range s0.nodes.length).filter
      (fun y => Relation.ReflTransGen (Away (EquateLeg s0) x f) x y)).card) pr pw ?_
    k s0 x from_ nd (PosStep_refl s0 pw) hx ?_
  · intro x f t hxt hne
    obtain ⟨hsub, hnot⟩ := away_shrinks (EquateLeg s0) hsym hb x t f hxt hne
    apply Finset.card_lt_card
    rw [Finset.ssubset_iff_of_subset]
    · refine ⟨x, ?_, ?_⟩
      · simp only [Finset.mem_filter, Finset.mem_range]
        exact ⟨(EquateLeg_lt s0 hw x t hxt).1, Relation.ReflTransGen.refl⟩
      · simp only [Finset.mem_filter, Finset.mem_range, not_and]
        intro _
        exact hnot
    · intro y hy
      simp only [Finset.mem_filter, Finset.mem_range] at hy ⊢
      exact ⟨hy.1, hsub y hy.2⟩
  · have h1 := Finset.card_filter_le (Finset.range s0.nodes.length)
      (fun y => Relation.ReflTransGen (Away (EquateLeg s0) x from_) x y)
    rw [Finset.card_range] at h1
    have : s0.nodes.length ≤ k := by omega
    exact le_trans h1 this

/-- `StnFromPfx` makes at most one station. -/
theorem StnFromPfx_length (s : State K) (hw : WF s) (name : PfxPtr) (s' : State K)
    (stn : NodePtr) (h : StnFromPfx s name = some (s', stn)) :
    s'.nodes.length ≤ s.nodes.length + 1 := by
  cases hx : s.pfxs[name]? with
  | none => simp [StnFromPfx, State.getPfx, hx] at h
  | some x =>
    cases hstn : x.stn with
    | some st =>
      rw [StnFromPfx_old s name x st hx hstn] at h
      cases h
      exact Nat.le_succ _
    | none =>
      have hiter : s.stn_iter ≠ some s.nodes.length := by
        intro e
        exact absurd (hw.iter _ e) (Nat.lt_irrefl _)
      obtain ⟨s'', e, nlen, -⟩ := StnFromPfx_new s name x hx hstn hiter hw.head
      rw [h] at e
      cases e
      exact Nat.le_of_eq nlen

/-- On a forest of never-fixed stations `process_equate` returns when
`replace_pfx_` is allowed more than two levels of recursion more than there
are stations. -/
theorem process_equate_returns (s : State K) (ht : Tidy s) (hf : Forest s) (a b : PfxPtr)
    (xa xb : Prefix) (hxa : s.pfxs[a]? = some xa) (hxb : s.pfxs[b]? = some xb) (fuel : Nat)
    (hfuel : s.nodes.length + 2 < fuel) : ∃ s' : State K, process_equate fuel s a b = some s' := by
  by_cases hab : a = b
  · subst hab
    obtain ⟨us, hus⟩ := ht.names a xa hxa
    obtain ⟨len, hlen⟩ :=
      sprint_prefix__chain s us a s.pfxs.length "" hus (UpChain_length s us a hus)
    have h1 : sprint_prefix s a = some (String.intercalate "." (chainIdents s a us)) := by
      simp [ sprint_prefix, hlen]
    exact ⟨compile_warning s 13 [String.intercalate "." (chainIdents s a us)],
      by simp [process_equate, h1]⟩
  · by_cases hpos : xa.pos = xb.pos
    · exact ⟨s, by simp [process_equate, hab, State.getPfx, hxa, hxb, hpos]⟩
    · obtain ⟨s1, sa, s2, sb, na, nb, e1, e2, hw2, hna, hnan, hnb, hnbn, -, -, -, -, -, -, -, -,
        -, ⟨ya, hya, hyas⟩, ⟨yb, hyb, hybs⟩, -⟩ := two_stations s ht.wf a b hab xa xb hxa hxb
      obtain ⟨ht1, -, -, hk1, -⟩ := StnFromPfx_tidy s ht a s1 sa e1
      obtain ⟨ht2, -, -, hk2, -⟩ := StnFromPfx_tidy s1 ht1 b s2 sb e2
      have hf1 := StnFromPfx_forest s ht.wf hf a s1 sa e1
      have hf2 := StnFromPfx_forest s1 ht1.wf hf1 b s2 sb e2
      have hlen : s2.nodes.length ≤ s.nodes.length + 2 := by
        have l1 := StnFromPfx_length s ht.wf a s1 sa e1
        have l2 := StnFromPfx_length s1 ht1.wf b s2 sb e2
        omega
      have hnsa : nameOf s2 sa = some a := (nameOf_lookup s2 sa na hna).trans hnan
      have hnsb : nameOf s2 sb = some b := (nameOf_lookup s2 sb nb hnb).trans hnbn
      have hne : ya.pos ≠ yb.pos := by
        intro hc
        have hp : posOf s2 sa = posOf s2 sb := by
          simp [posOf, hnsa, hnsb, namePos, hya, hyb, hc]
        have hpath := ht2.conn sa sb (by rw [hnsa]; exact Option.some_ne_none a)
          (by rw [hnsb]; exact Option.some_ne_none b) hp
        have hpath0 : Relation.ReflTransGen (EquateLeg s) sa sb := by
          refine rel_path_mono _ _ ?_ sa sb hpath
          intro x y hxy
          obtain ⟨d, e, hs⟩ := (EquateLeg_iff s2 x y).mp hxy
          have h1 := (StnFromPfx_slots s1 ht1.wf b s2 sb e2 x d y e true).mp hs
          have h0 := (StnFromPfx_slots s ht.wf a s1 sa e1 x d y e true).mp h1
          exact (EquateLeg_iff s x y).mpr ⟨d, e, h0⟩
        have hold : ∀ (x : NodePtr), nameOf s x ≠ none → nameOf s x = nameOf s2 x := by
          intro x hx
          have h1 := hk1 x hx
          have h2 := hk2 x (by rw [h1]; exact hx)
          rw [h2, h1]
        rcases Relation.ReflTransGen.cases_head hpath0 with e | ⟨c, hc1, -⟩
        · rw [e] at hnsa
          rw [hnsa] at hnsb
          exact hab (Option.some.inj hnsb)
        · rcases Relation.ReflTransGen.cases_tail hpath0 with e | ⟨c', -, hc2⟩
          · rw [← e] at hnsa
            rw [hnsa] at hnsb
            exact hab (Option.some.inj hnsb)
          · obtain ⟨d, e, hs⟩ := (EquateLeg_iff s sa c).mp hc1
            have hna0 := SlotLeg_named s ht.wf sa d c e true hs
            obtain ⟨d', e', hs'⟩ := (EquateLeg_iff s sb c').mp (EquateLeg_symm s ht.wf c' sb hc2)
            have hnb0 := SlotLeg_named s ht.wf sb d' c' e' true hs'
            have hps := path_same s ht.same sa sb hpath0
            have ea : nameOf s sa = some a := (hold sa hna0).trans hnsa
            have eb : nameOf s sb = some b := (hold sb hnb0).trans hnsb
            apply hpos
            simpa [posOf, ea, eb, namePos, hxa, hxb] using hps
      have hfix : ya.fixed = false := ht2.unfixed a ya hya
      have hmerge := equate_merge_eq fuel s a b s1 sa s2 sb e1 e2 ya yb hya hyb s2.msgs a b
        (Or.inl ⟨hfix, rfl, rfl, rfl⟩)
      have htm : Tidy ({ s2 with msgs := s2.msgs } : State K) :=
        Tidy_congr s2 _ ht2 rfl rfl rfl rfl rfl rfl
      have hbm : Bridges (EquateLeg ({ s2 with msgs := s2.msgs } : State K)) :=
        Bridges_congr _ _ (EquateLeg_congr s2 _ rfl rfl) hf2.bridges
      obtain ⟨s3, h3⟩ := replace_pfx__returns ({ s2 with msgs := s2.msgs } : State K) htm.wf
        htm.data hbm ya.pos yb.pos fuel (by
          have : ({ s2 with msgs := s2.msgs } : State K).nodes.length = s2.nodes.length := rfl
          omega) sa none na hna
      have hstep := replace_pfx__frame ya.pos yb.pos fuel _ sa none s3 h3
      have hrep : replace_pfx fuel ({ s2 with msgs := s2.msgs } : State K) a b =
          some (osfree s3 ya.pos) := by
        have hya' : ({ s2 with msgs := s2.msgs } : State K).pfxs[a]? = some ya := hya
        have hyb' : ({ s2 with msgs := s2.msgs } : State K).pfxs[b]? = some yb := hyb
        simp [replace_pfx, State.getPfx, hya', hyb', hne, hyas, h3]
      have hfo := osfree_fields s3 ya.pos
      have hw3 : WF s3 := WF_PosStep _ s3 yb.pos hstep htm.wf
      have hwS : WF ({ osfree s3 ya.pos with cLegs := (osfree s3 ya.pos).cLegs + 1 } :
          State K) :=
        WF_congr s3 _ hw3 hfo.1 hfo.2.1 hfo.2.2.1 hfo.2.2.2.1 hfo.2.2.2.2.1
      have hnaS : ({ osfree s3 ya.pos with cLegs := (osfree s3 ya.pos).cLegs + 1 } :
          State K).nodes[sa]? = some na := by
        have : ({ osfree s3 ya.pos with cLegs := (osfree s3 ya.pos).cLegs + 1 } :
          State K).nodes = s2.nodes := hfo.1.trans hstep.nodes
        rw [this]
        exact hna
      have hnbS : ({ osfree s3 ya.pos with cLegs := (osfree s3 ya.pos).cLegs + 1 } :
          State K).nodes[sb]? = some nb := by
        have : ({ osfree s3 ya.pos with cLegs := (osfree s3 ya.pos).cLegs + 1 } :
          State K).nodes = s2.nodes := hfo.1.trans hstep.nodes
        rw [this]
        exact hnb
      have hnn : na.name ≠ nb.name := by
        rw [hnan, hnbn]
        exact fun e => hab (Option.some.inj e)
      obtain ⟨-, -, -, -, -, -, s', -, -, -, -, hadd, -⟩ :=
        addleg_wf _ hwS sa sb na nb hnaS hnbS hnn 0 0 0 0 0 0 0 0 0 FLAG_FAKE
      refine ⟨s', ?_⟩
      rw [process_equate_eq fuel s a b hab xa xb hxa hxb hpos, hmerge, hrep]
      exact hadd

/-- The loop of `replace_pfx_` returns the same with a recursion that returns
at least where the first one does. -/
theorem replace_pfx_legs_mono
    (self self' : State K → NodePtr → Option NodePtr → Option (State K))
    (hself : ∀ (s : State K) (t : NodePtr) (f : Option NodePtr) (s' : State K),
      self s t f = some s' → self' s t f = some s')
    (stn : NodePtr) (from_ : Option NodePtr) :
    ∀ (ds : List (Fin 3)) (s s' : State K),
      replace_pfx_legs self stn from_ ds s = some s' →
      replace_pfx_legs self' stn from_ ds s = some s' := by
  intro ds
  induction ds with
  | nil =>
    intro s s' h
    exact h
  | cons d ds ih =>
    intro s s' h
    cases hn : s.getNode stn with
    | none => simp [replace_pfx_legs, hn] at h
    | some nd =>
      cases hleg : nd.leg d with
      | none =>
        simp only [replace_pfx_legs, hn, hleg, Option.bind_eq_bind, Option.some_bind] at h ⊢
        exact h
      | some leg =>
        cases hl : s.getLeg leg with
        | none => simp [replace_pfx_legs, hn, hleg, hl] at h
        | some l =>
          by_cases hto : l.to_ = from_
          · simp only [replace_pfx_legs, hn, hleg, hl, hto, Option.bind_eq_bind,
              Option.some_bind, if_true] at h ⊢
            exact ih s s' h
          · cases hz : equated_leg s leg with
            | none => simp [replace_pfx_legs, hn, hleg, hl, hto, hz] at h
            | some z =>
              cases z with
              | false =>
                simp only [replace_pfx_legs, hn, hleg, hl, hto, hz, Option.bind_eq_bind,
                  Option.some_bind, if_false] at h ⊢
                exact ih s s' h
              | true =>
                cases ht : l.to_ with
                | none =>
                  have hto' : ¬ (none : Option NodePtr) = from_ := by rw [← ht]; exact hto
                  simp [replace_pfx_legs, hn, hleg, hl, hto', hz, ht] at h
                | some t =>
                  have hto' : ¬ some t = from_ := by rw [← ht]; exact hto
                  cases hc : self s t (some stn) with
                  | none => simp [replace_pfx_legs, hn, hleg, hl, hto', hz, ht, hc] at h
                  | some s1 =>
                    have hc' := hself s t (some stn) s1 hc
                    simp only [replace_pfx_legs, hn, hleg, hl, ht, hto', hz, hc,
                      Option.bind_eq_bind, Option.some_bind, if_true, if_false] at h
                    simp only [replace_pfx_legs, hn, hleg, hl, ht, hto', hz, hc',
                      Option.bind_eq_bind, Option.some_bind, if_true, if_false]
                    exact ih s1 s' h

/-- What `replace_pfx_` returns with one bound on the depth of its recursion
it returns with every larger one. -/
theorem replace_pfx__mono (pr pw : Option PosPtr) :
    ∀ (n m : Nat) (s : State K) (x : NodePtr) (f : Option NodePtr) (s' : State K), n ≤ m →
      replace_pfx_ pr pw n s x f = some s' → replace_pfx_ pr pw m s x f = some s' := by
  intro n
  induction n with
  | zero =>
    intro m s x f s' _ h
    simp [replace_pfx_] at h
  | succ n ih =>
    intro m s x f s' hnm h
    obtain ⟨m', rfl⟩ : ∃ m', m = m' + 1 := ⟨m - 1, by omega⟩
    cases hn : s.getNode x with
    | none => simp [replace_pfx_, hn] at h
    | some nd =>
      cases hname : nd.name with
      | none => simp [replace_pfx_, hn, hname] at h
      | some name =>
        cases h1 : s.modPfx name (fun x => { x with pos := pw }) with
        | none => simp [replace_pfx_, hn, hname, h1] at h
        | some s1 =>
          simp only [replace_pfx_, hn, hname, h1, Option.bind_eq_bind, Option.some_bind] at h ⊢
          exact replace_pfx_legs_mono _ _
            (fun s t f s' hh => ih m' s t f s' (by omega) hh) x f [0, 1, 2] s1 s' h

theorem replace_pfx_mono (n m : Nat) (hnm : n ≤ m) (s : State K) (R W : PfxPtr) (s' : State K)
    (h : replace_pfx n s R W = some s') : replace_pfx m s R W = some s' := by
  cases hR : s.pfxs[R]? with
  | none => simp [replace_pfx, State.getPfx, hR] at h
  | some xr =>
    cases hW : s.pfxs[W]? with
    | none => simp [replace_pfx, State.getPfx, hR, hW] at h
    | some xw =>
      obtain ⟨hne, root, s3, hroot, hrep, hs'⟩ := replace_pfx_inv n s R W xr xw hR hW s' h
      have h3 := replace_pfx__mono xr.pos xw.pos n m s root none s3 hnm hrep
      simp [replace_pfx, State.getPfx, hR, hW, hne, hroot, h3, hs']

/-- What `process_equate` returns with one bound on the depth of the recursion
of `replace_pfx_` it returns with every larger one. -/
theorem process_equate_mono (n m : Nat) (hnm : n ≤ m) (s : State K) (hw : WF s) (a b : PfxPtr)
    (s' : State K) (h : process_equate n s a b = some s') :
    process_equate m s a b = some s' := by
  rcases process_equate_cases n s a b s' h with
    ⟨hab, str, hstr, hs'⟩ | ⟨hab, xa, xb, hxa, hxb, ⟨hpos, hs'⟩ | ⟨hpos, hm⟩⟩
  · subst hab
    simp [process_equate, hstr, hs']
  · simp [process_equate, hab, State.getPfx, hxa, hxb, hpos, hs']
  · rw [process_equate_eq m s a b hab xa xb hxa hxb hpos]
    obtain ⟨s1, sa, s2, sb, na, nb, e1, e2, -, -, -, -, -, -, -, -, -, -, -, -, -, -,
      ⟨ya, hya, -⟩, ⟨yb, hyb, -⟩, -⟩ := two_stations s hw a b hab xa xb hxa hxb
    rcases equate_merge_inv n s a b s1 sa s2 sb e1 e2 ya yb hya hyb s' hm with
      ⟨hfa, hfb, stra, strb, g1, g2, g3, hs'⟩ | ⟨msg, R, W, s3, hcase, hr, hadd⟩
    · rw [hs']
      exact equate_merge_error m s a b s1 sa s2 sb e1 e2 ya yb hya hyb hfa hfb stra strb g1 g2 g3
    · rw [equate_merge_eq m s a b s1 sa s2 sb e1 e2 ya yb hya hyb msg R W hcase,
        replace_pfx_mono n m hnm _ R W s3 hr]
      exact hadd

/-- `replace_pfx_` does not return from a station from which there is a walk
along zero-covariance legs that never turns back and never ends: whatever the
bound on the depth of the recursion, it is reached. The pairs `C` are the
stations of such walks, each with the station it is entered from; the leg that
goes on from it has no empty slot before it in the scan. -/
theorem replace_pfx__loops (pr pw : Option PosPtr) (s0 : State K)
    (C : NodePtr → Option NodePtr → Prop)
    (hC : ∀ (x : NodePtr) (f : Option NodePtr), C x f →
      ∃ (nd : node) (d : Fin 3) (leg : LegPtr) (l : linkfor K) (t : NodePtr),
        s0.nodes[x]? = some nd ∧ (∀ e : Fin 3, e < d → nd.leg e ≠ none) ∧
        nd.leg d = some leg ∧ s0.legs[leg]? = some l ∧ l.to_ = some t ∧ some t ≠ f ∧
        equated_leg s0 leg = some true ∧ C t (some x)) :
    ∀ (fuel : Nat) (s : State K) (x : NodePtr) (f : Option NodePtr), PosStep s0 s pw → C x f →
      replace_pfx_ pr pw fuel s x f = none := by
  intro fuel
  induction fuel with
  | zero =>
    intro s x f _ _
    rfl
  | succ n ih =>
    intro s x f hs hx
    obtain ⟨nd, d, leg, l, t, hnd, hlow, hleg, hl, ht, hne, hz, hnext⟩ := hC x f hx
    cases hres : replace_pfx_ pr pw (n + 1) s x f with
    | none => rfl
    | some s' =>
      exfalso
      have hn : s.getNode x = some nd := by
        simp only [State.getNode, hs.nodes]
        exact hnd
      cases hname : nd.name with
      | none => simp [replace_pfx_, hn, hname] at hres
      | some name =>
        cases hx' : s.pfxs[name]? with
        | none => simp [replace_pfx_, hn, hname, State.modPfx, hx'] at hres
        | some px0 =>
          obtain ⟨s1, h1, hstep1, -⟩ := PosStep_modPfx s pw name px0 hx'
          simp only [replace_pfx_, hn, hname, h1, Option.bind_eq_bind, Option.some_bind] at hres
          have hs1 : PosStep s0 s1 pw := PosStep_trans s0 s s1 pw hs hstep1
          obtain ⟨pre, post, hsplit, hlt⟩ := scan_split d
          obtain ⟨sa, sb, hsa, hcall, -⟩ :=
            replace_pfx_legs_sees pw _ (replace_pfx__frame pr pw n) s0 x f nd hnd _ s1 s' hs1
              hres pre post d hsplit (fun e he => hlow e (hlt e he)) leg l t hleg hl ht hne hz
          rw [ih sa t (some x) hsa hnext] at hcall
          cases hcall

/-! ### Termination and reach: the claims -/

/-- In every state reached from the empty graph by `StnFromPfx`,
`addlegbyname` with a covariance that is not all zeros, and `process_equate`,
every call of `process_equate` on two names returns: the zero-covariance legs
form a forest, so the propagation of `replace_pfx_` goes through each station
at most once, and a depth of recursion of the number of stations plus three is
never reached. The call returns the same state whatever larger bound is put on
the depth, and that state is again such a state. -/
theorem process_equate_terminates (s : State K) (hs : Surveyed s) (a b : PfxPtr)
    (xa xb : Prefix) (hxa : s.pfxs[a]? = some xa) (hxb : s.pfxs[b]? = some xb) :
    ∃ s' : State K, Surveyed s' ∧ Forest s' ∧
      ∀ fuel : Nat, s.nodes.length + 2 < fuel → process_equate fuel s a b = some s' := by
  have ht := Surveyed_tidy s hs
  have hf := Surveyed_forest s hs
  obtain ⟨s', h⟩ := process_equate_returns s ht hf a b xa xb hxa hxb (s.nodes.length + 3)
    (by omega)
  have hs' : Surveyed s' := Surveyed.equate s s' _ a b hs h
  refine ⟨s', hs', Surveyed_forest s' hs', ?_⟩
  intro fuel hfuel
  exact process_equate_mono (s.nodes.length + 3) fuel (by omega) s ht.wf a b s' h

/-- C23: on a well-formed, packed graph in which the zero-covariance legs form
no cycle, `replace_pfx(pfx_replace, pfx_with)` returns (a depth of recursion
of more than the number of stations is never reached), and it has set the
position pointer to that of `pfx_with` for the name of exactly those stations
that are reached from the station of `pfx_replace` along zero-covariance legs
(that station included): every such name holds the pointer, and every other
name, so the name of a station that can only be reached across a leg with a
non-zero covariance component, has the position pointer, and all else, it
had. -/
theorem replace_pfx_reaches (s : State K) (hw : WF s) (hp : Packed s) (hdata : DataStored s)
    (hacyclic : Bridges (EquateLeg s))
    (R W : PfxPtr) (xr xw : Prefix) (hR : s.pfxs[R]? = some xr) (hW : s.pfxs[W]? = some xw)
    (hne : xr.pos ≠ xw.pos) (root : NodePtr) (hroot : xr.stn = some root)
    (fuel : Nat) (hf : s.nodes.length < fuel) :
    ∃ s' : State K, replace_pfx fuel s R W = some s' ∧
      (∀ (y : NodePtr) (nd : node) (p : PfxPtr) (px : Prefix),
        Relation.ReflTransGen (EquateLeg s) root y → s.nodes[y]? = some nd →
        nd.name = some p → s.pfxs[p]? = some px →
        s'.pfxs[p]? = some { px with pos := xw.pos }) ∧
      (∀ (p : PfxPtr) (px : Prefix), s.pfxs[p]? = some px →
        (¬ ∃ (y : NodePtr) (nd : node), Relation.ReflTransGen (EquateLeg s) root y ∧
          s.nodes[y]? = some nd ∧ nd.name = some p) → s'.pfxs[p]? = some px) := by
  obtain ⟨nr, hnr, -⟩ := hw.stn R xr root hR hroot
  obtain ⟨s3, h3⟩ := replace_pfx__returns s hw hdata hacyclic xr.pos xw.pos fuel hf root none
    nr hnr
  have hrun : replace_pfx fuel s R W = some (osfree s3 xr.pos) := by
    simp [replace_pfx, State.getPfx, hR, hW, hne, hroot, h3]
  obtain ⟨h1, h2⟩ := replace_pfx__exact s hp xr.pos xw.pos fuel root s3 h3
  obtain ⟨-, -, o3, -⟩ := osfree_fields s3 xr.pos
  refine ⟨_, hrun, ?_, ?_⟩
  · intro y nd p px hy hnd hname hpx
    rw [o3]
    exact h1 y nd p px hy hnd hname hpx
  · intro p px hpx hno
    rw [o3]
    exact h2 p px hpx hno

/-! ### Concrete inputs for surveyed graphs -/

theorem EmptyGraph_exampleStar : EmptyGraph exampleStar := by
  refine ⟨rfl, rfl, rfl, rfl, rfl, ?_⟩
  intro p px hp
  have h6 : p < 6 := lt_of_getElem? hp
  interval_cases p <;> simp [exampleStar] at hp <;> subst hp
  · exact ⟨rfl, rfl, rfl, [], ⟨_, rfl, rfl⟩⟩
  all_goals exact ⟨rfl, rfl, rfl, [0], ⟨⟨_, rfl, rfl⟩, ⟨_, rfl, rfl⟩⟩⟩

theorem exampleSurvey1_run :
    addlegbyname exampleStar 1 2 false 1 0 0 1 1 1 0 0 0 = some exampleSurvey1 := rfl

theorem exampleSurvey2_run : process_equate 5 exampleSurvey1 1 3 = some exampleSurvey2 := rfl

theorem exampleSurvey3_run : process_equate 6 exampleSurvey2 4 3 = some exampleSurvey3 := rfl

theorem exampleReplaced_run : replace_pfx 3 exampleSurvey1 1 2 = some exampleReplaced := rfl

theorem exampleLoop1_run :
    addlegbyname exampleStar 1 2 false 1 0 0 0 0 0 0 0 0 = some exampleLoop1 := rfl

theorem exampleLoop2_run :
    addlegbyname exampleLoop1 2 3 false 0 1 0 0 0 0 0 0 0 = some exampleLoop2 := rfl

theorem exampleLoop_run :
    addlegbyname exampleLoop2 3 1 false (-1) (-1) 0 0 0 0 0 0 0 = some exampleLoop := rfl

theorem Surveyed_exampleSurvey1 : Surveyed exampleSurvey1 :=
  Surveyed.leg exampleStar exampleSurvey1 1 2 false 1 0 0 1 1 1 0 0 0
    (Surveyed.empty exampleStar EmptyGraph_exampleStar) (by decide) exampleSurvey1_run

theorem Surveyed_exampleSurvey2 : Surveyed exampleSurvey2 :=
  Surveyed.equate exampleSurvey1 exampleSurvey2 5 1 3 Surveyed_exampleSurvey1 exampleSurvey2_run

theorem Built_exampleSurvey1 : Built exampleSurvey1 :=
  Built.leg exampleStar exampleSurvey1 1 2 false 1 0 0 1 1 1 0 0 0
    (Built.empty exampleStar EmptyGraph_exampleStar) exampleSurvey1_run

theorem Built_exampleSurvey2 : Built exampleSurvey2 :=
  Built.equate exampleSurvey1 exampleSurvey2 5 1 3 Built_exampleSurvey1 exampleSurvey2_run

theorem Built_exampleLoop : Built exampleLoop :=
  Built.leg exampleLoop2 exampleLoop 3 1 false (-1) (-1) 0 0 0 0 0 0 0
    (Built.leg exampleLoop1 exampleLoop2 2 3 false 0 1 0 0 0 0 0 0 0
      (Built.leg exampleStar exampleLoop1 1 2 false 1 0 0 0 0 0 0 0 0
        (Built.empty exampleStar EmptyGraph_exampleStar) exampleLoop1_run) exampleLoop2_run)
    exampleLoop_run

theorem exampleLoop_node0 :
    ∃ nd : node, exampleLoop.nodes[0]? = some nd ∧ nd.leg 0 = some 0 := ⟨_, rfl, rfl⟩

theorem exampleLoop_node1 :
    ∃ nd : node, exampleLoop.nodes[1]? = some nd ∧ nd.leg 0 = some 1 ∧ nd.leg 1 = some 2 :=
  ⟨_, rfl, rfl, rfl⟩

theorem exampleLoop_node2 :
    ∃ nd : node, exampleLoop.nodes[2]? = some nd ∧ nd.leg 0 = some 3 ∧ nd.leg 1 = some 4 :=
  ⟨_, rfl, rfl, rfl⟩

theorem exampleLoop_leg0 :
    ∃ l : linkfor ℚ, exampleLoop.legs[0]? = some l ∧ l.to_ = some 1 ∧
      equated_leg exampleLoop 0 = some true := ⟨_, rfl, rfl, rfl⟩

theorem exampleLoop_leg2 :
    ∃ l : linkfor ℚ, exampleLoop.legs[2]? = some l ∧ l.to_ = some 2 ∧
      equated_leg exampleLoop 2 = some true := ⟨_, rfl, rfl, rfl⟩

theorem exampleLoop_leg4 :
    ∃ l : linkfor ℚ, exampleLoop.legs[4]? = some l ∧ l.to_ = some 0 ∧
      equated_leg exampleLoop 4 = some true := ⟨_, rfl, rfl, rfl⟩

theorem exampleLoop_pfx1 :
    ∃ x : Prefix, exampleLoop.pfxs[1]? = some x ∧ x.pos = some 0 ∧ x.stn = some 0 ∧
      x.fixed = false := ⟨_, rfl, rfl, rfl, rfl⟩

theorem exampleLoop_pfx4 :
    ∃ x : Prefix, exampleLoop.pfxs[4]? = some x ∧ x.pos = none ∧ x.stn = none :=
  ⟨_, rfl, rfl, rfl⟩

/-- The propagation of `replace_pfx_` from the station of `P` in the triangle,
in any state that has the stations and the leg records of the triangle (and
maybe more stations without legs), does not return. -/
theorem exampleLoop_no_return (pr pw : Option PosPtr) (s0 : State ℚ)
    (hnode : ∀ (q : NodePtr) (nd : node), exampleLoop.nodes[q]? = some nd →
      ∃ nd' : node, s0.nodes[q]? = some nd' ∧ nd'.leg = nd.leg)
    (hnew : ∀ (q : NodePtr) (nd' : node), s0.nodes[q]? = some nd' →
      exampleLoop.nodes.length ≤ q → nd'.leg = fun _ => none)
    (hlegs : s0.legs = exampleLoop.legs) (fuel : Nat) :
    replace_pfx_ pr pw fuel s0 0 none = none := by
  have hz : ∀ leg : LegPtr, equated_leg s0 leg = equated_leg exampleLoop leg :=
    fun leg => (equated_leg_stations exampleLoop s0 hlegs hnode hnew leg).2
  refine replace_pfx__loops pr pw s0
    (fun x f => (x = 0 ∧ f = none) ∨ (x = 1 ∧ f = some 0) ∨ (x = 2 ∧ f = some 1) ∨
      (x = 0 ∧ f = some 2)) ?_ fuel s0 0 none (PosStep_refl s0 pw) (Or.inl ⟨rfl, rfl⟩)
  have low1 : ∀ (nd : node), nd.leg 0 ≠ none → ∀ e : Fin 3, e < 1 → nd.leg e ≠ none := by
    intro nd h e he
    have : e = 0 := by
      fin_cases e
      · rfl
      · exact absurd he (by decide)
      · exact absurd he (by decide)
    rw [this]
    exact h
  rintro x f (⟨rfl, rfl⟩ | ⟨rfl, rfl⟩ | ⟨rfl, rfl⟩ | ⟨rfl, rfl⟩)
  · obtain ⟨n, hn, h0⟩ := exampleLoop_node0
    obtain ⟨n', hn', hleq⟩ := hnode 0 n hn
    obtain ⟨l, hl, hto, hzero⟩ := exampleLoop_leg0
    refine ⟨n', 0, 0, l, 1, hn', fun e he => absurd he (Fin.not_lt_zero e), by rw [hleq]; exact h0,
      by rw [hlegs]; exact hl, hto, by decide, by rw [hz]; exact hzero,
      Or.inr (Or.inl ⟨rfl, rfl⟩)⟩
  · obtain ⟨n, hn, h0, h1⟩ := exampleLoop_node1
    obtain ⟨n', hn', hleq⟩ := hnode 1 n hn
    obtain ⟨l, hl, hto, hzero⟩ := exampleLoop_leg2
    refine ⟨n', 1, 2, l, 2, hn', low1 n' (by rw [hleq, h0]; exact Option.some_ne_none _),
      by rw [hleq]; exact h1, by rw [hlegs]; exact hl, hto, by decide, by rw [hz]; exact hzero,
      Or.inr (Or.inr (Or.inl ⟨rfl, rfl⟩))⟩
  · obtain ⟨n, hn, h0, h1⟩ := exampleLoop_node2
    obtain ⟨n', hn', hleq⟩ := hnode 2 n hn
    obtain ⟨l, hl, hto, hzero⟩ := exampleLoop_leg4
    refine ⟨n', 1, 4, l, 0, hn', low1 n' (by rw [hleq, h0]; exact Option.some_ne_none _),
      by rw [hleq]; exact h1, by rw [hlegs]; exact hl, hto, by decide, by rw [hz]; exact hzero,
      Or.inr (Or.inr (Or.inr ⟨rfl, rfl⟩))⟩
  · obtain ⟨n, hn, h0⟩ := exampleLoop_node0
    obtain ⟨n', hn', hleq⟩ := hnode 0 n hn
    obtain ⟨l, hl, hto, hzero⟩ := exampleLoop_leg0
    refine ⟨n', 0, 0, l, 1, hn', fun e he => absurd he (Fin.not_lt_zero e), by rw [hleq]; exact h0,
      by rw [hlegs]; exact hl, hto, by decide, by rw [hz]; exact hzero,
      Or.inr (Or.inl ⟨rfl, rfl⟩)⟩

/-- C24, the code at the failing input: from the empty graph, three calls of
`addlegbyname` with a covariance that is all zeros build a triangle of
zero-covariance legs between the stations of `P`, `Q1` and `Q2`; on it
`process_equate(P, Q3)` does not return, whatever the bound on the depth of
the recursion of `replace_pfx_`, which goes round the triangle for ever. -/
theorem process_equate_loop_diverges :
    EmptyGraph exampleStar ∧
    addlegbyname exampleStar 1 2 false 1 0 0 0 0 0 0 0 0 = some exampleLoop1 ∧
    addlegbyname exampleLoop1 2 3 false 0 1 0 0 0 0 0 0 0 = some exampleLoop2 ∧
    addlegbyname exampleLoop2 3 1 false (-1) (-1) 0 0 0 0 0 0 0 = some exampleLoop ∧
    WF exampleLoop ∧
    (∃ xa xb : Prefix, exampleLoop.pfxs[1]? = some xa ∧ exampleLoop.pfxs[4]? = some xb) ∧
    ∀ fuel : Nat, process_equate fuel exampleLoop 1 4 = none := by
  have hw := (Built_keeps exampleLoop Built_exampleLoop).1
  obtain ⟨x1, hx1, hx1p, hx1s, hx1f⟩ := exampleLoop_pfx1
  obtain ⟨x4, hx4, hx4p, hx4s⟩ := exampleLoop_pfx4
  refine ⟨EmptyGraph_exampleStar, exampleLoop1_run, exampleLoop2_run, exampleLoop_run, hw,
    ⟨x1, x4, hx1, hx4⟩, ?_⟩
  intro fuel
  cases h : process_equate fuel exampleLoop 1 4 with
  | none => rfl
  | some s' =>
    exfalso
    rcases process_equate_cases fuel exampleLoop 1 4 s' h with
      ⟨hab, -⟩ | ⟨hab, xa, xb, hxa, hxb, ⟨hpos, -⟩ | ⟨-, hm⟩⟩
    · exact absurd hab (by decide)
    · rw [hx1] at hxa
      cases hxa
      rw [hx4] at hxb
      cases hxb
      rw [hx1p, hx4p] at hpos
      cases hpos
    · obtain ⟨s1, sa, s2, sb, na, nb, ya, yb, e1, e2, hw2, hna, hnan, hnb, hnbn, hya, hyb, hc⟩ :=
        equate_merge_cases fuel exampleLoop hw 1 4 hab xa xb hxa hxb s' hm
      have e1' : StnFromPfx exampleLoop 1 = some (exampleLoop, 0) := rfl
      rw [e1'] at e1
      cases e1
      obtain ⟨s2', sb', ndb, e2', -, -, -, hold, hnew, hlegs, hpfx, -⟩ :=
        StnFromPfx_wf exampleLoop hw 4 x4 hx4
      rw [e2] at e2'
      cases e2'
      obtain ⟨px', hpx', hsame, -⟩ := hpfx 1 x1 hx1
      have epx : px' = x1 := hsame (by decide)
      rw [epx, hya] at hpx'
      have eya : ya = x1 := Option.some.inj hpx'
      rcases hc with ⟨-, -, hfa, -⟩ | ⟨m, R, W, yr, yw, s3, hRW, hyr, hyw, hne,
        ⟨root, hroot, hrep⟩, -⟩
      · rw [eya, hx1f] at hfa
        cases hfa
      · rcases hRW with ⟨rfl, rfl, -⟩ | ⟨-, -, hfa⟩
        · rw [hya] at hyr
          have eyr : yr = x1 := (Option.some.inj hyr).symm.trans eya
          rw [eyr, hx1s] at hroot
          have eroot : root = 0 := (Option.some.inj hroot).symm
          rw [eroot] at hrep
          have hnone := exampleLoop_no_return yr.pos yw.pos ({ s2 with msgs := m } : State ℚ)
            (fun q nd hq => by
              obtain ⟨nd', h1, -, h2⟩ := hold q nd hq
              exact ⟨nd', h1, h2⟩)
            (fun q nd' hq hle => (hnew q nd' hq hle).2.2) hlegs fuel
          rw [hnone] at hrep
          cases hrep
        · rw [eya, hx1f] at hfa
          cases hfa

theorem exampleSurvey1_pfx1 :
    exampleSurvey1.pfxs[1]? =
      some { up := some 0, ident := "P", pos := some 0, stn := some 0, shape := 1 } := rfl

theorem exampleSurvey1_pfx3 :
    exampleSurvey1.pfxs[3]? = some { up := some 0, ident := "Q2" } := rfl

theorem exampleSurvey2_pfx1 :
    exampleSurvey2.pfxs[1]? =
      some { up := some 0, ident := "P", pos := some 2, stn := some 0, shape := 2 } := rfl

theorem exampleSurvey2_pfx2 :
    exampleSurvey2.pfxs[2]? =
      some { up := some 0, ident := "Q1", pos := some 1, stn := some 1, shape := 1 } := rfl

theorem exampleSurvey2_pfx3 :
    exampleSurvey2.pfxs[3]? =
      some { up := some 0, ident := "Q2", pos := some 2, stn := some 2, shape := 1 } := rfl

theorem exampleSurvey2_pfx4 :
    exampleSurvey2.pfxs[4]? = some { up := some 0, ident := "Q3" } := rfl

theorem exampleSurvey2_edge : EquateLeg exampleSurvey2 0 2 :=
  ⟨_, 1, 2, _, rfl, rfl, rfl, rfl, rfl⟩

/-- The stations of `exampleSurvey2` carry the names `P`, `Q1` and `Q2`. -/
theorem exampleSurvey2_names (y : NodePtr) (nd : node)
    (h : exampleSurvey2.nodes[y]? = some nd) :
    nd.name = some 1 ∨ nd.name = some 2 ∨ nd.name = some 3 := by
  have hlen : exampleSurvey2.nodes.length = 3 := rfl
  have hlt : y < 3 := hlen ▸ lt_of_getElem? h
  interval_cases y
  · obtain ⟨n, hn, hname⟩ : ∃ n : node, exampleSurvey2.nodes[0]? = some n ∧ n.name = some 1 :=
      ⟨_, rfl, rfl⟩
    rw [hn] at h
    cases h
    exact Or.inl hname
  · obtain ⟨n, hn, hname⟩ : ∃ n : node, exampleSurvey2.nodes[1]? = some n ∧ n.name = some 2 :=
      ⟨_, rfl, rfl⟩
    rw [hn] at h
    cases h
    exact Or.inr (Or.inl hname)
  · obtain ⟨n, hn, hname⟩ : ∃ n : node, exampleSurvey2.nodes[2]? = some n ∧ n.name = some 3 :=
      ⟨_, rfl, rfl⟩
    rw [hn] at h
    cases h
    exact Or.inr (Or.inr hname)

/-- Counterexample to C21 as stated: `process_equate(P, Q2)` on the graph of one
survey leg adds a FAKE equate leg and returns with `cLegs` 2, where it was
1. -/
theorem process_equate_counts_fake_leg :
    Built exampleSurvey1 ∧ process_equate 5 exampleSurvey1 1 3 = some exampleSurvey2 ∧
    exampleSurvey1.cLegs = 1 ∧ exampleSurvey2.cLegs = 2 ∧
    exampleSurvey2.cLegs ≠ exampleSurvey1.cLegs ∧
    ∃ l : linkfor ℚ, exampleSurvey2.legs[2]? = some l ∧ l.reverse.flags.fake = true ∧
      l.reverse.flags.datahere = true ∧ exampleSurvey1.legs[2]? = none :=
  ⟨Built_exampleSurvey1, exampleSurvey2_run, rfl, rfl, by decide, _, rfl, rfl, rfl, rfl⟩

theorem process_equate_counts_equate_witness :
    WF exampleSurvey1 ∧ process_equate 5 exampleSurvey1 1 3 = some exampleSurvey2 ∧
    ((exampleSurvey2.cLegs = exampleSurvey1.cLegs ∧ exampleSurvey2.legs = exampleSurvey1.legs) ∨
      (exampleSurvey2.cLegs = exampleSurvey1.cLegs + 1 ∧ ∃ (to' : NodePtr) (j : Fin 3),
        exampleSurvey2.legs[exampleSurvey1.legs.length]? = some
          { to_ := some to', reverse := ⟨j, FLAG_DATAHERE.lor FLAG_FAKE⟩,
            flags := exampleSurvey1.pcs_flags, d := some ![0, 0, 0],
            v := some ![0, 0, 0, 0, 0, 0] })) :=
  ⟨(Built_keeps exampleSurvey1 Built_exampleSurvey1).1, exampleSurvey2_run,
    (process_equate_counts_equate 5 exampleSurvey1
      (Built_keeps exampleSurvey1 Built_exampleSurvey1).1 1 3 exampleSurvey2
      exampleSurvey2_run).2⟩

theorem Surveyed_shares_positions_witness :
    Surveyed exampleSurvey1 ∧
    process_equate 5 exampleSurvey1 1 3 = some exampleSurvey2 ∧
    process_equate 6 exampleSurvey2 4 3 = some exampleSurvey3 ∧
    ∃ (q : PosPtr) (P : pos ℚ), namePos exampleSurvey3 1 = some q ∧
      namePos exampleSurvey3 3 = some q ∧ namePos exampleSurvey3 4 = some q ∧
      exampleSurvey3.poss[q]? = some (some P) :=
  ⟨Surveyed_exampleSurvey1, exampleSurvey2_run, exampleSurvey3_run,
    ((Surveyed_shares_positions exampleSurvey1 Surveyed_exampleSurvey1).2 5 1 3 _
      exampleSurvey2 exampleSurvey1_pfx1 (by decide) exampleSurvey2_run).2 6 4 3 0 2
      exampleSurvey3 rfl rfl (Relation.ReflTransGen.single exampleSurvey2_edge)
      (Or.inl exampleSurvey3_run)⟩

theorem replace_pfx_reaches_witness :
    WF exampleSurvey2 ∧ Packed exampleSurvey2 ∧ DataStored exampleSurvey2 ∧
    Bridges (EquateLeg exampleSurvey2) ∧
    ∃ s' : State ℚ, replace_pfx 4 exampleSurvey2 1 2 = some s' ∧
      namePos s' 1 = some 1 ∧ namePos s' 3 = some 1 ∧ namePos s' 2 = some 1 ∧
      namePos s' 4 = none := by
  have ht := Surveyed_tidy exampleSurvey2 Surveyed_exampleSurvey2
  have hf := Surveyed_forest exampleSurvey2 Surveyed_exampleSurvey2
  refine ⟨ht.wf, ht.packed, ht.data, hf.bridges, ?_⟩
  obtain ⟨s', hrun, hin, hout⟩ := replace_pfx_reaches exampleSurvey2 ht.wf ht.packed ht.data
    hf.bridges 1 2 _ _ exampleSurvey2_pfx1 exampleSurvey2_pfx2 (by decide) 0 rfl 4 (by decide)
  obtain ⟨n0, hn0, hname0⟩ : ∃ n : node, exampleSurvey2.nodes[0]? = some n ∧ n.name = some 1 :=
    ⟨_, rfl, rfl⟩
  obtain ⟨n2, hn2, hname2⟩ : ∃ n : node, exampleSurvey2.nodes[2]? = some n ∧ n.name = some 3 :=
    ⟨_, rfl, rfl⟩
  have h1 := hin 0 n0 1 _ Relation.ReflTransGen.refl hn0 hname0 exampleSurvey2_pfx1
  have h3 := hin 2 n2 3 _ (Relation.ReflTransGen.single exampleSurvey2_edge) hn2 hname2
    exampleSurvey2_pfx3
  have hno : ∀ p : PfxPtr, p ≠ 1 → p ≠ 2 → p ≠ 3 →
      ¬ ∃ (y : NodePtr) (nd : node), Relation.ReflTransGen (EquateLeg exampleSurvey2) 0 y ∧
        exampleSurvey2.nodes[y]? = some nd ∧ nd.name = some p := by
    rintro p p1 p2 p3 ⟨y, nd, -, hnd, hname⟩
    rcases exampleSurvey2_names y nd hnd with e | e | e
    · rw [e] at hname
      exact p1 (Option.some.inj hname).symm
    · rw [e] at hname
      exact p2 (Option.some.inj hname).symm
    · rw [e] at hname
      exact p3 (Option.some.inj hname).symm
  have h4 := hout 4 _ exampleSurvey2_pfx4 (hno 4 (by decide) (by decide) (by decide))
  -- the name `Q1` has a station, which no zero-covariance leg joins to that of `P`
  have h2 : namePos s' 2 = some 1 := by
    by_cases hc : ∃ (y : NodePtr) (nd : node),
        Relation.ReflTransGen (EquateLeg exampleSurvey2) 0 y ∧
        exampleSurvey2.nodes[y]? = some nd ∧ nd.name = some 2
    · obtain ⟨y, nd, hy, hnd, hname⟩ := hc
      have := hin y nd 2 _ hy hnd hname exampleSurvey2_pfx2
      simp [namePos, this]
    · have := hout 2 _ exampleSurvey2_pfx2 hc
      simp [namePos, this]
  refine ⟨s', hrun, ?_, ?_, h2, ?_⟩
  · simp [namePos, h1]
  · simp [namePos, h3]
  · simp [namePos, h4]

theorem process_equate_terminates_witness :
    Surveyed exampleSurvey1 ∧
    ∃ s' : State ℚ, Surveyed s' ∧ Forest s' ∧
      ∀ fuel : Nat, exampleSurvey1.nodes.length + 2 < fuel →
        process_equate fuel exampleSurvey1 1 3 = some s' :=
  ⟨Surveyed_exampleSurvey1,
    process_equate_terminates exampleSurvey1 Surveyed_exampleSurvey1 1 3 _ _
      exampleSurvey1_pfx1 exampleSurvey1_pfx3⟩

theorem Built_matched_pairs_witness :
    Built exampleSurvey2 ∧
    ∃ (nd : node) (L : linkfor ℚ) (T : NodePtr) (Tn : node) (r : LegPtr) (R : linkfor ℚ),
      exampleSurvey2.nodes[0]? = some nd ∧ nd.leg 1 = some 2 ∧
      exampleSurvey2.legs[2]? = some L ∧ L.to_ = some T ∧ exampleSurvey2.nodes[T]? = some Tn ∧
      Tn.leg L.reverse.dirn = some r ∧ exampleSurvey2.legs[r]? = some R ∧
      R.to_ = some 0 ∧ R.reverse.dirn = 1 ∧
      ((data_here L = true ∧ data_here R = false) ∨
        (data_here L = false ∧ data_here R = true)) ∧
      reverse_leg exampleSurvey2 2 = some r ∧ (data_here L = false → data_here R = true) := by
  obtain ⟨nd, hnd, hleg⟩ : ∃ n : node, exampleSurvey2.nodes[0]? = some n ∧ n.leg 1 = some 2 :=
    ⟨_, rfl, rfl⟩
  obtain ⟨L, T, Tn, r, R, h⟩ :=
    Built_matched_pairs exampleSurvey2 Built_exampleSurvey2 0 nd 1 2 hnd hleg
  exact ⟨Built_exampleSurvey2, nd, L, T, Tn, r, R, hnd, hleg, h⟩

theorem Built_slots_packed_witness :
    Built exampleSurvey2 ∧
    ∃ nd : node, exampleSurvey2.nodes[0]? = some nd ∧
      (∃ k : Nat, k ≤ 3 ∧ ∀ i : Fin 3, nd.leg i ≠ none ↔ i.val < k) ∧
      (∀ i j : Fin 3, i < j → nd.leg i = none → nd.leg j = none) := by
  obtain ⟨nd, hnd⟩ : ∃ n : node, exampleSurvey2.nodes[0]? = some n := ⟨_, rfl⟩
  have h := Built_slots_packed exampleSurvey2 Built_exampleSurvey2 0 nd hnd
  exact ⟨Built_exampleSurvey2, nd, hnd, h.1, h.2.1⟩

theorem replace_pfx_frees_unreferenced_witness :
    Surveyed exampleSurvey1 ∧ replace_pfx 3 exampleSurvey1 1 2 = some exampleReplaced ∧
    ∃ (q : PosPtr) (P : pos ℚ), q = 0 ∧ exampleSurvey1.poss[q]? = some (some P) ∧
      exampleReplaced.poss[q]? = some none ∧
      (∀ (p : PfxPtr) (px : Prefix), exampleReplaced.pfxs[p]? = some px → px.pos ≠ some q) ∧
      (∀ x : NodePtr, posOf exampleReplaced x ≠ some q) := by
  obtain ⟨q, P, h1, h2, h3, h4, h5⟩ :=
    replace_pfx_frees_unreferenced exampleSurvey1 Surveyed_exampleSurvey1 3 1 2 _
      exampleSurvey1_pfx1 exampleReplaced exampleReplaced_run
  exact ⟨Surveyed_exampleSurvey1, exampleReplaced_run, q, P, (Option.some.inj h1).symm, h2, h3,
    h4, h5⟩

end Facts

end Survex
